import Mathlib

/-!
# A verification model of the TSCN parser/serializer

This file embeds the TSCN (Godot text scene format) parser, serializer and
mutation helpers of the repository (the TscnParser module) into Lean, and
proves (or refutes) the specification claims about them.

Modelling conventions:
* JS strings are Lean `String`s; the scanning primitives (trim, split,
  startsWith, indexOf, replace) are re-implemented over `List Char` with the
  exact JS semantics that the source relies on.
* JS numbers are modelled as exact decimal rationals (`Dec`: a mantissa and a
  decimal exponent, kept in normal form by construction), plus an explicit
  `NaN`.  This matches JS behaviour (parseInt/parseFloat and default
  number-to-string conversion) on every finite decimal literal whose value is
  exactly representable; double-precision rounding and exponent-notation
  printing for extreme magnitudes are outside the model (the spec flags
  numeric formatting as host-dependent).
* JS `undefined` appearing as a value is an explicit `JsValue.undef`;
  optional record fields are `Option`/`JsIntF` (the latter distinguishing
  undefined, NaN and an integer, as the source observes all three).
* Recursive scanners are written with an explicit fuel argument (so that all
  definitions compute by kernel reduction); the canonical entry points supply
  fuel `length + 1`, and fuel-independence is proved below the definitions.
-/

namespace Tscn

/-! ## JS-style character and string primitives -/

/-- The JS whitespace set (the one used by `String.prototype.trim` and the
regex class `\s`). -/
def isJsSpace (c : Char) : Bool :=
  c.toNat = 9 || c.toNat = 10 || c.toNat = 11 || c.toNat = 12 || c.toNat = 13 ||
  c.toNat = 32 || c.toNat = 160 || c.toNat = 5760 ||
  (8192 ≤ c.toNat && c.toNat ≤ 8202) ||
  c.toNat = 8232 || c.toNat = 8233 || c.toNat = 8239 || c.toNat = 8287 ||
  c.toNat = 12288 || c.toNat = 65279

/-- Strip leading JS whitespace. -/
def trimLeftL (l : List Char) : List Char := l.dropWhile isJsSpace

/-- JS `trim` on a character list. -/
def trimL (l : List Char) : List Char :=
  ((l.dropWhile isJsSpace).reverse.dropWhile isJsSpace).reverse

/-- JS `String.prototype.trim`. -/
def jsTrim (s : String) : String := ⟨trimL s.data⟩

/-- JS `split` with a single-character separator (`content.split("\n")`,
`inner.split(",")`): the list of segments between separator occurrences,
including empty ones. -/
def splitOnCharL (sep : Char) : List Char → List (List Char)
  | [] => [[]]
  | c :: rest =>
    match splitOnCharL sep rest with
    | [] => [[c]]
    | h :: t => if c = sep then [] :: h :: t else (c :: h) :: t

/-- `String.split` on one character, as a `String` operation. -/
def jsSplitChar (sep : Char) (s : String) : List String :=
  (splitOnCharL sep s.data).map String.mk

/-- `l` starts with `p` (JS `startsWith`). -/
def startsWithL : List Char → List Char → Bool
  | _, [] => true
  | [], _ :: _ => false
  | c :: l, p :: ps => c = p && startsWithL l ps

/-- JS `String.prototype.startsWith`. -/
def jsStartsWith (s pre : String) : Bool := startsWithL s.data pre.data

/-- `l` ends with `p` (JS `endsWith`). -/
def endsWithL (l p : List Char) : Bool := startsWithL l.reverse p.reverse

/-- JS `String.prototype.endsWith`. -/
def jsEndsWith (s suf : String) : Bool := endsWithL s.data suf.data

/-- JS `indexOf` for one character: index of the first occurrence. -/
def idxOfChar (c : Char) : List Char → Option Nat
  | [] => none
  | d :: rest => if d = c then some 0 else (idxOfChar c rest).map (fun n => n + 1)

/-- JS `replace(/a/g, rep)` for a single-character pattern. -/
def replace1 (a : Char) (rep : List Char) : List Char → List Char
  | [] => []
  | c :: rest => if c = a then rep ++ replace1 a rep rest else c :: replace1 a rep rest

/-- JS `replace(/ab/g, rep)` for a two-character pattern (leftmost,
non-overlapping). -/
def replace2 (a b : Char) (rep : List Char) : List Char → List Char
  | [] => []
  | [c] => [c]
  | c :: d :: rest =>
    if c = a ∧ d = b then rep ++ replace2 a b rep rest
    else c :: replace2 a b rep (d :: rest)

/-- JS `lines.join("\n")` over character lists. -/
def joinNLL : List (List Char) → List Char
  | [] => []
  | [l] => l
  | l :: l2 :: rest => l ++ '\n' :: joinNLL (l2 :: rest)

/-! ## JS numbers as exact decimals -/

/-- An exact decimal: value `man / 10 ^ exp`.  All numbers produced by the
model are normalized (`exp = 0`, or the mantissa is not divisible by 10), so
that the JS shortest-form decimal printing is literal. -/
structure Dec where
  man : Int
  exp : Nat
deriving DecidableEq, Repr

/-- `true` iff the decimal is in normal form. -/
def isNormDec (d : Dec) : Bool := d.exp = 0 || ¬ (d.man % 10 = 0)

/-- Normalize by stripping factors of ten. -/
def mkDecAux : Int → Nat → Dec
  | m, 0 => ⟨m, 0⟩
  | m, e + 1 => if m % 10 = 0 then mkDecAux (m / 10) e else ⟨m, e + 1⟩

/-- Build a normalized decimal with value `m / 10 ^ e`. -/
def mkDec (m : Int) (e : Nat) : Dec := mkDecAux m e

/-- Digit character for `n < 10`. -/
def digitChar (n : Nat) : Char := Char.ofNat (48 + n)

/-- Decimal digits of `n`, least significant first (`fuel`-driven so that it
computes by kernel reduction; `natDigitsRev` supplies sufficient fuel). -/
def natDigitsRevF : Nat → Nat → List Char
  | 0, _ => []
  | f + 1, n => if n < 10 then [digitChar n] else digitChar (n % 10) :: natDigitsRevF f (n / 10)

/-- Decimal digits of `n`, least significant first. -/
def natDigitsRev (n : Nat) : List Char := natDigitsRevF (n + 1) n

/-- Decimal digit string of a natural number (most significant first). -/
def natToStr (n : Nat) : String := ⟨(natDigitsRev n).reverse⟩

/-- JS `String(n)` for an integral number. -/
def intToStr (n : Int) : String :=
  if n < 0 then "-" ++ natToStr n.natAbs else natToStr n.natAbs

/-- JS `String(n)` for a (normalized) finite decimal: the integer form when
integral, otherwise `intpart.fracpart` with no trailing fractional zeros. -/
def decToString (d : Dec) : String :=
  if d.exp = 0 then intToStr d.man
  else
    let digs := (natDigitsRev d.man.natAbs).reverse
    let padded :=
      if d.exp + 1 ≤ digs.length then digs
      else List.replicate (d.exp + 1 - digs.length) '0' ++ digs
    (if d.man < 0 then "-" else "")
      ++ ⟨padded.take (padded.length - d.exp)⟩ ++ "." ++ ⟨padded.drop (padded.length - d.exp)⟩

/-- `true` for an ASCII decimal digit. -/
def isDig (c : Char) : Bool := 48 ≤ c.toNat && c.toNat ≤ 57

/-- Numeric value of a digit character. -/
def digVal (c : Char) : Nat := c.toNat - 48

/-- Value of a digit string (most significant first). -/
def digitsVal (l : List Char) : Nat := l.foldl (fun acc c => acc * 10 + digVal c) 0

/-- A JS number-typed field as the source observes it: `undefined`, `NaN`, or
an integer. -/
inductive JsIntF where
  | undef : JsIntF
  | nan : JsIntF
  | val (n : Int) : JsIntF
deriving DecidableEq, Repr

/-- JS string interpolation of such a field. -/
def JsIntF.toStr : JsIntF → String
  | .undef => "undefined"
  | .nan => "NaN"
  | .val n => intToStr n

/-- JS truthiness of such a field (`undefined`, `NaN` and `0` are falsy). -/
def JsIntF.truthy : JsIntF → Bool
  | .val n => ¬ (n = 0)
  | _ => false

/-- JS `parseInt(s, 10)`: skip leading whitespace, optional sign, longest
digit prefix; `NaN` when no digits follow. -/
def jsParseInt (s : String) : JsIntF :=
  let l := trimLeftL s.data
  let sign : Int := if l.head? = some '-' then -1 else 1
  let l1 := if l.head? = some '-' ∨ l.head? = some '+' then l.tail else l
  let ds := l1.takeWhile isDig
  if ds = [] then .nan else .val (sign * (digitsVal ds : Int))

/-- JS `parseFloat` on a character list, as an exact decimal (`none` = NaN):
skip leading whitespace, optional sign, digits, optional fraction, optional
exponent; the longest valid prefix is used and trailing garbage is ignored.
(The literals `Infinity`/`-Infinity` are outside the model.) -/
def jsParseFloatL (l0 : List Char) : Option Dec :=
  let l := trimLeftL l0
  let sign : Int := if l.head? = some '-' then -1 else 1
  let l1 := if l.head? = some '-' ∨ l.head? = some '+' then l.tail else l
  let ip := l1.takeWhile isDig
  let l2 := l1.drop ip.length
  let fp := if l2.head? = some '.' then l2.tail.takeWhile isDig else []
  let l3 := if l2.head? = some '.' then l2.tail.drop fp.length else l2
  if ip = [] ∧ fp = [] then none
  else
    let base : Int := sign * (digitsVal (ip ++ fp) : Int)
    let e0 : Nat := fp.length
    let expPart : Option Int :=
      if l3.head? = some 'e' ∨ l3.head? = some 'E' then
        let r := l3.tail
        let esign : Int := if r.head? = some '-' then -1 else 1
        let r1 := if r.head? = some '-' ∨ r.head? = some '+' then r.tail else r
        let eds := r1.takeWhile isDig
        if eds = [] then none else some (esign * (digitsVal eds : Int))
      else none
    match expPart with
    | none => some (mkDec base e0)
    | some e =>
      let shift : Int := e - (e0 : Int)
      if 0 ≤ shift then some (mkDec (base * 10 ^ shift.toNat) 0)
      else some (mkDec base (-shift).toNat)

/-- The regex test `/^-?\d+$/`. -/
def isIntLit (l : List Char) : Bool :=
  match l with
  | '-' :: rest => ¬ (rest = []) && rest.all isDig
  | _ => ¬ (l = []) && l.all isDig

/-- Helper for `/^-?\d+\.\d+$/`: digits, a dot, digits. -/
def decLitCore (l : List Char) : Bool :=
  let d1 := l.takeWhile isDig
  match l.drop d1.length with
  | '.' :: d2 => ¬ (d1 = []) && ¬ (d2 = []) && d2.all isDig
  | _ => false

/-- The regex test `/^-?\d+\.\d+$/`. -/
def isDecLit (l : List Char) : Bool :=
  match l with
  | '-' :: rest => decLitCore rest
  | _ => decLitCore l

/-! ## The JS value universe

Property values in the source are untyped JS data: `null`, `undefined`,
booleans, numbers (including `NaN`), strings, arrays and plain objects
(used both for dictionaries and for `_type`-tagged records).  `JsItems` and
`JsProps` are insertion-ordered array/object spines (mutual inductives so
that all recursions stay structural and kernel-computable). -/

mutual
inductive JsValue where
  | null : JsValue
  | undef : JsValue
  | bool (b : Bool) : JsValue
  | nan : JsValue
  | num (d : Dec) : JsValue
  | str (s : String) : JsValue
  | arr (items : JsItems) : JsValue
  | obj (fields : JsProps) : JsValue

inductive JsItems where
  | nil : JsItems
  | cons (v : JsValue) (rest : JsItems) : JsItems

inductive JsProps where
  | nil : JsProps
  | cons (k : String) (v : JsValue) (rest : JsProps) : JsProps
end

/-- Array items from a Lean list (for readable statements). -/
def itemsOf : List JsValue → JsItems
  | [] => .nil
  | v :: rest => .cons v (itemsOf rest)

/-- Object fields from a Lean association list (for readable statements). -/
def propsOf : List (String × JsValue) → JsProps
  | [] => .nil
  | (k, v) :: rest => .cons k v (propsOf rest)

/-- JS property read `obj[k]` (first — and after `jsPropsSet`, only —
binding of the key). -/
def jsPropsLookup : JsProps → String → Option JsValue
  | .nil, _ => none
  | .cons k v rest, key => if k = key then some v else jsPropsLookup rest key

/-- JS `Object.keys` (insertion order). -/
def jsPropsKeys : JsProps → List String
  | .nil => []
  | .cons k _ rest => k :: jsPropsKeys rest

/-- JS property write `obj[k] = v`: overwrite in place, else append. -/
def jsPropsSet : JsProps → String → JsValue → JsProps
  | .nil, key, v => .cons key v .nil
  | .cons k w rest, key, v =>
    if k = key then .cons k v rest else .cons k w (jsPropsSet rest key v)

/-- JS object spread `{...old, ...new}`. -/
def jsPropsMerge : JsProps → JsProps → JsProps
  | acc, .nil => acc
  | acc, .cons k v rest => jsPropsMerge (jsPropsSet acc k v) rest

/-- Number of array elements. -/
def jsItemsLen : JsItems → Nat
  | .nil => 0
  | .cons _ rest => jsItemsLen rest + 1

/-- Array items as a Lean list. -/
def jsItemsList : JsItems → List JsValue
  | .nil => []
  | .cons v rest => v :: jsItemsList rest

/-- Object fields as a Lean association list. -/
def jsPropsList : JsProps → List (String × JsValue)
  | .nil => []
  | .cons k v rest => (k, v) :: jsPropsList rest

mutual
/-- JS `String(value)` coercion, as used by template interpolation. -/
def jsToString : JsValue → String
  | .null => "null"
  | .undef => "undefined"
  | .bool b => if b then "true" else "false"
  | .nan => "NaN"
  | .num d => decToString d
  | .str s => s
  | .arr items => jsToStringItems items
  | .obj _ => "[object Object]"

/-- JS `Array.prototype.toString`: elements joined by `,`, with `null` and
`undefined` elements rendered empty. -/
def jsToStringItems : JsItems → String
  | .nil => ""
  | .cons v .nil =>
    (match v with
     | .null => ""
     | .undef => ""
     | w => jsToString w)
  | .cons v (.cons w rest) =>
    (match v with
     | .null => ""
     | .undef => ""
     | u => jsToString u) ++ "," ++ jsToStringItems (.cons w rest)
end

/-! ## `TscnParser.isGodotValueString` and string escaping -/

/-- One regex `^Name\s*\(` test. -/
def ctorTest (name : String) (s : String) : Bool :=
  startsWithL s.data name.data &&
    match (s.data.drop name.data.length).dropWhile isJsSpace with
    | '(' :: _ => true
    | _ => false

/-- `TscnParser.isGodotValueString`: does the string already look like a
typed-constructor literal? -/
def isGodotValueString (s : String) : Bool :=
  ["ExtResource", "SubResource", "Vector2", "Vector3", "Color", "NodePath",
   "Rect2", "Transform2D", "Transform3D", "Basis", "Quaternion", "AABB",
   "Plane"].any (fun n => ctorTest n s)

/-- The serializer's string escaping:
`value.replace(/\\/g, "\\\\").replace(/"/g, '\\"')`. -/
def escapeL (l : List Char) : List Char :=
  replace1 '"' ['\\', '"'] (replace1 '\\' ['\\', '\\'] l)

/-- The parser's string unescaping:
`raw.replace(/\\"/g, '"').replace(/\\\\/g, "\\")`. -/
def unescapeL (l : List Char) : List Char :=
  replace2 '\\' '\\' ['\\'] (replace2 '\\' '"' ['"'] l)

/-- Proof-side normal form: the escaped text after the first unescaping pass
(quote escapes resolved, backslash escapes still doubled). -/
def escMid : List Char → List Char
  | [] => []
  | c :: l => (if c = '\\' then ['\\', '\\'] else [c]) ++ escMid l

/-- Every quote in the scanned text is preceded by a backslash (tracking the
previous character, as the comma scanner does). -/
def noUnescQuote : Option Char → List Char → Bool
  | _, [] => true
  | prev, c :: rest =>
    if c = '"' ∧ ¬ (prev = some '\\') then false else noUnescQuote (some c) rest

/-- Serialization of a JS string value (shared by value and dictionary-key
positions): emit Godot-constructor-looking strings verbatim, quote-escape
everything else. -/
def serStr (s : String) : String :=
  if isGodotValueString s then s else "\"" ++ String.mk (escapeL s.data) ++ "\""

/-- `", "`-joining of rendered fragments. -/
def joinCommaSp : List String → String
  | [] => ""
  | [x] => x
  | x :: y :: rest => x ++ ", " ++ joinCommaSp (y :: rest)

/-! ## `TscnParser.serializeValue` -/

/-- `true` iff `typeof obj[k] === "number"` (NaN is a number). -/
def fieldIsNum (fields : JsProps) (k : String) : Bool :=
  match jsPropsLookup fields k with
  | some (.num _) => true
  | some .nan => true
  | _ => false

/-- `${obj[k]}` — interpolation of a field that may be absent. -/
def fieldStr (fields : JsProps) (k : String) : String :=
  jsToString ((jsPropsLookup fields k).getD .undef)

/-- The `_type`-tagged branch of `serializeValue`'s object case (`none` when
the object carries no recognized tag). -/
def objTaggedStr (fields : JsProps) : Option String :=
  match jsPropsLookup fields "_type" with
  | some (.str t) =>
    if t = "Vector2" then
      some ("Vector2(" ++ fieldStr fields "x" ++ ", " ++ fieldStr fields "y" ++ ")")
    else if t = "Vector3" then
      some ("Vector3(" ++ fieldStr fields "x" ++ ", " ++ fieldStr fields "y" ++ ", "
        ++ fieldStr fields "z" ++ ")")
    else if t = "Color" then
      some ("Color(" ++ fieldStr fields "r" ++ ", " ++ fieldStr fields "g" ++ ", "
        ++ fieldStr fields "b" ++ ", " ++ fieldStr fields "a" ++ ")")
    else if t = "ExtResource" then
      some ("ExtResource(\"" ++ fieldStr fields "id" ++ "\")")
    else if t = "SubResource" then
      some ("SubResource(\"" ++ fieldStr fields "id" ++ "\")")
    else if t = "NodePath" then
      some ("NodePath(\"" ++ fieldStr fields "path" ++ "\")")
    else none
  | _ => none

/-- The untagged vector/color auto-detection of `serializeValue`'s object
case (`none` when the object is rendered as a plain dictionary). -/
def objAutoStr (fields : JsProps) : Option String :=
  let ks := jsPropsKeys fields
  if ks.length = 2 ∧ (jsPropsLookup fields "x").isSome ∧ (jsPropsLookup fields "y").isSome
      ∧ fieldIsNum fields "x" ∧ fieldIsNum fields "y" then
    some ("Vector2(" ++ fieldStr fields "x" ++ ", " ++ fieldStr fields "y" ++ ")")
  else if ks.length = 3 ∧ (jsPropsLookup fields "x").isSome ∧ (jsPropsLookup fields "y").isSome
      ∧ (jsPropsLookup fields "z").isSome ∧ fieldIsNum fields "x" ∧ fieldIsNum fields "y"
      ∧ fieldIsNum fields "z" then
    some ("Vector3(" ++ fieldStr fields "x" ++ ", " ++ fieldStr fields "y" ++ ", "
      ++ fieldStr fields "z" ++ ")")
  else if (jsPropsLookup fields "r").isSome ∧ (jsPropsLookup fields "g").isSome
      ∧ (jsPropsLookup fields "b").isSome ∧ fieldIsNum fields "r" ∧ fieldIsNum fields "g"
      ∧ fieldIsNum fields "b" then
    let aStr :=
      match jsPropsLookup fields "a" with
      | some (.num d) => decToString d
      | some .nan => "NaN"
      | _ => decToString ⟨1, 0⟩
    some ("Color(" ++ fieldStr fields "r" ++ ", " ++ fieldStr fields "g" ++ ", "
      ++ fieldStr fields "b" ++ ", " ++ aStr ++ ")")
  else none

mutual
/-- `TscnParser.serializeValue`, case for case: explicit `_type` tags first,
then the untagged vector/color auto-detection, then the plain-dictionary
rendering (with `_`-prefixed keys filtered out). -/
def serializeValue : JsValue → String
  | .null => "null"
  | .bool b => if b then "true" else "false"
  | .num d => decToString d
  | .nan => "NaN"
  | .str s => serStr s
  | .arr items => "[" ++ joinCommaSp (serializeItems items) ++ "]"
  | .obj fields =>
    match objTaggedStr fields with
    | some out => out
    | none =>
      match objAutoStr fields with
      | some out => out
      | none => "\x7b" ++ joinCommaSp (serializeFields fields) ++ "\x7d"
  | .undef => "undefined"

/-- Rendered array elements. -/
def serializeItems : JsItems → List String
  | .nil => []
  | .cons v rest => serializeValue v :: serializeItems rest

/-- Rendered `key: value` pairs of a plain dictionary, skipping `_`-prefixed
keys. -/
def serializeFields : JsProps → List String
  | .nil => []
  | .cons k v rest =>
    if startsWithL k.data ['_'] then serializeFields rest
    else (serStr k ++ ": " ++ serializeValue v) :: serializeFields rest
end

/-! ## The top-level comma scanner of `parseArray`/`parseDictionary` -/

/-- The character scanner shared by `parseArray` and `parseDictionary`: walk
the text tracking a string-toggle flag (flipped by a `"` not preceded by
`\`), a bracket/brace/paren depth, and the current segment; a comma at depth
zero outside a string ends a segment.  Returns the raw (untrimmed) segments,
the trailing one last. -/
def splitTopAux : List Char → Option Char → Int → Bool → List Char → List (List Char)
  | [], _, _, _, cur => [cur]
  | c :: rest, prev, depth, inStr, cur =>
    let inStr2 := if c = '"' ∧ ¬ (prev = some '\\') then ! inStr else inStr
    if ¬ inStr2 ∧ (c = '[' ∨ c = '{' ∨ c = '(') then
      splitTopAux rest (some c) (depth + 1) inStr2 (cur ++ [c])
    else if ¬ inStr2 ∧ (c = ']' ∨ c = '}' ∨ c = ')') then
      splitTopAux rest (some c) (depth - 1) inStr2 (cur ++ [c])
    else if ¬ inStr2 ∧ c = ',' ∧ depth = 0 then
      cur :: splitTopAux rest (some c) depth inStr2 []
    else
      splitTopAux rest (some c) depth inStr2 (cur ++ [c])

/-- Top-level comma segments of the bracket-stripped inner text. -/
def splitTop (l : List Char) : List (List Char) := splitTopAux l none 0 false []

/-! ## `TscnParser.parseValue` / `parseArray` / `parseDictionary`

Fuel-driven mutual recursion; every recursive call strictly shrinks the text,
so fuel `length + 1` at the canonical entry points is always sufficient
(proved as the fuel-independence lemmas below). -/

/-- Component of a constructor argument list: `undefined` when the argument
is missing, `NaN`/number from `parseFloat` otherwise. -/
def compAt (comps : List (Option Dec)) (i : Nat) : JsValue :=
  match comps.get? i with
  | none => .undef
  | some none => .nan
  | some (some d) => .num d

mutual
/-- `TscnParser.parseValue`, branch for branch in source order. -/
def parseValueF : Nat → List Char → JsValue
  | 0, _ => .null
  | f + 1, s =>
    let t := trimL s
    if t = "null".data then .null
    else if t = "true".data then .bool true
    else if t = "false".data then .bool false
    else if startsWithL t ['"'] ∧ endsWithL t ['"'] then
      .str ⟨unescapeL (t.drop 1).dropLast⟩
    else if isIntLit t then
      match jsParseInt ⟨t⟩ with
      | .val n => .num ⟨n, 0⟩
      | _ => .nan
    else if isDecLit t then
      match jsParseFloatL t with
      | some d => .num d
      | none => .nan
    else if startsWithL t "Vector2(".data then
      let comps := (splitOnCharL ',' ((t.drop 8).dropLast)).map (fun c => jsParseFloatL (trimL c))
      .obj (propsOf [("_type", .str "Vector2"), ("x", compAt comps 0), ("y", compAt comps 1)])
    else if startsWithL t "Vector3(".data then
      let comps := (splitOnCharL ',' ((t.drop 8).dropLast)).map (fun c => jsParseFloatL (trimL c))
      .obj (propsOf [("_type", .str "Vector3"), ("x", compAt comps 0), ("y", compAt comps 1),
        ("z", compAt comps 2)])
    else if startsWithL t "Color(".data then
      let comps := (splitOnCharL ',' ((t.drop 6).dropLast)).map (fun c => jsParseFloatL (trimL c))
      let aVal :=
        match comps.get? 3 with
        | none => JsValue.num ⟨1, 0⟩
        | some none => JsValue.nan
        | some (some d) => JsValue.num d
      .obj (propsOf [("_type", .str "Color"), ("r", compAt comps 0), ("g", compAt comps 1),
        ("b", compAt comps 2), ("a", aVal)])
    else if startsWithL t "ExtResource(".data then
      .obj (propsOf [("_type", .str "ExtResource"),
        ("id", .str ⟨replace1 '"' [] ((t.drop 12).dropLast)⟩)])
    else if startsWithL t "SubResource(".data then
      .obj (propsOf [("_type", .str "SubResource"),
        ("id", .str ⟨replace1 '"' [] ((t.drop 12).dropLast)⟩)])
    else if startsWithL t "NodePath(".data then
      .obj (propsOf [("_type", .str "NodePath"),
        ("path", .str ⟨replace1 '"' [] ((t.drop 9).dropLast)⟩)])
    else if startsWithL t ['['] then .arr (parseArrayF f t)
    else if startsWithL t ['{'] then .obj (parseDictF f t)
    else .str ⟨t⟩

/-- `TscnParser.parseArray`. -/
def parseArrayF : Nat → List Char → JsItems
  | 0, _ => .nil
  | f + 1, s =>
    let t := trimL s
    if startsWithL t ['['] ∧ endsWithL t [']'] then
      let inner := trimL ((t.drop 1).dropLast)
      if inner = [] then .nil
      else
        let segs := splitTop inner
        let front := segs.dropLast.map (fun seg => parseValueF f (trimL seg))
        let lastT := trimL (segs.getLastD [])
        itemsOf (front ++ (if lastT = [] then [] else [parseValueF f lastT]))
    else .nil

/-- `TscnParser.parseDictionary`: top-level segments split like the array
grammar, then each segment split at its first `:` (a raw `indexOf`), both
halves value-parsed, the key stringified. -/
def parseDictF : Nat → List Char → JsProps
  | 0, _ => .nil
  | f + 1, s =>
    let t := trimL s
    if startsWithL t ['{'] ∧ endsWithL t ['}'] then
      let inner := trimL ((t.drop 1).dropLast)
      if inner = [] then .nil
      else
        let raw := splitTop inner
        let lastT := trimL (raw.getLastD [])
        let pairs := raw.dropLast.map trimL ++ (if lastT = [] then [] else [lastT])
        pairs.foldl (fun acc pair =>
          match idxOfChar ':' pair with
          | none => acc
          | some ci =>
            let key := parseValueF f (trimL (pair.take ci))
            let v := parseValueF f (trimL (pair.drop (ci + 1)))
            jsPropsSet acc (jsToString key) v) .nil
    else .nil
end

/-- Canonical `parseValue` on a character list. -/
def pvL (l : List Char) : JsValue := parseValueF (l.length + 1) l

/-- Canonical `parseArray` on a character list. -/
def paL (l : List Char) : JsItems := parseArrayF (l.length + 1) l

/-- Canonical `parseDictionary` on a character list. -/
def pdL (l : List Char) : JsProps := parseDictF (l.length + 1) l

/-- `TscnParser.parseValue`. -/
def parseValue (s : String) : JsValue := pvL s.data

/-- `TscnParser.parseArray`. -/
def parseArray (s : String) : JsItems := paL s.data

/-- `TscnParser.parseDictionary` (the resulting plain object). -/
def parseDictionary (s : String) : JsProps := pdL s.data

/-! ## `TscnParser.parseAttributes`

The source scans a header line with the global regex
`/(\w+)=(?:"([^"]*)"|(\[[^\]]*\])|([^\s\]]+))/g` and stores each match in an
object (later matches of the same key overwrite).  `matchAttr` is one
leftmost match attempt at a fixed position; `attrsGoF` is the global scan. -/

/-- Membership in the regex class `\w`. -/
def wordChar (c : Char) : Bool := c.isAlpha || isDig c || c = '_'

/-- The third regex alternative `[^\s\]]+` at the value position. -/
def bareAttrVal (rest : List Char) : Option (List Char × List Char) :=
  let run := rest.takeWhile (fun c => ¬ isJsSpace c ∧ ¬ (c = ']'))
  if run = [] then none else some (run, rest.drop run.length)

/-- One match attempt of the attribute regex anchored at the head of `l`:
the key (`\w+` then `=`), then — in alternation order — a quoted value, a
bracketed value (captured with its brackets), or a bare token.  Returns the
key, the captured value and the rest of the line. -/
def matchAttr (l : List Char) : Option (String × String × List Char) :=
  let w := l.takeWhile wordChar
  if w = [] then none
  else
    match l.drop w.length with
    | '=' :: rest =>
      let bare : Option (String × String × List Char) :=
        match bareAttrVal rest with
        | some (run, r) => some (⟨w⟩, ⟨run⟩, r)
        | none => none
      match rest with
      | '"' :: r2 =>
        (match idxOfChar '"' r2 with
         | some j => some (⟨w⟩, ⟨r2.take j⟩, r2.drop (j + 1))
         | none => bare)
      | '[' :: r2 =>
        (match idxOfChar ']' r2 with
         | some j => some (⟨w⟩, ⟨'[' :: (r2.take j ++ [']'])⟩, r2.drop (j + 1))
         | none => bare)
      | _ => bare
    | _ => none

/-- The global regex scan: try a match at every position, left to right,
resuming after each match. -/
def attrsGoF : Nat → List Char → List (String × String)
  | 0, _ => []
  | _ + 1, [] => []
  | f + 1, c :: rest =>
    match matchAttr (c :: rest) with
    | some (k, v, r) => (k, v) :: attrsGoF f r
    | none => attrsGoF f rest

/-- Overwrite-in-place-or-append on a string association list (JS object
assignment). -/
def setEntryS : List (String × String) → String → String → List (String × String)
  | [], key, v => [(key, v)]
  | (k, w) :: rest, key, v =>
    if k = key then (k, v) :: rest else (k, w) :: setEntryS rest key v

/-- The raw match list collapsed into a JS object (later duplicates
overwrite in place). -/
def attrsCollapse (l : List (String × String)) : List (String × String) :=
  l.foldl (fun acc kv => setEntryS acc kv.1 kv.2) []

/-- Canonical scan on a character list. -/
def attrsL (l : List Char) : List (String × String) := attrsGoF (l.length + 1) l

/-- `TscnParser.parseAttributes`. -/
def parseAttributes (s : String) : List (String × String) := attrsCollapse (attrsL s.data)

/-- JS property read `attrs[k]`. -/
def attrGet (attrs : List (String × String)) (k : String) : Option String :=
  match attrs.find? (fun kv => kv.1 = k) with
  | some kv => some kv.2
  | none => none

/-- A truthiness filter: `attrs.k ? … : undefined` sees `undefined` and the
empty string as falsy. -/
def truthyOpt : Option String → Option String
  | some s => if s = "" then none else some s
  | none => none

/-! ## The document model -/

/-- The parsed header (`loadSteps`/`format` can each be `undefined`, `NaN`
or an integer in JS; `parse` never makes `format` undefined but a caller may). -/
structure Header where
  type : String
  loadSteps : JsIntF
  format : JsIntF
  uid : Option String
deriving DecidableEq, Repr

/-- One `[ext_resource …]` declaration. -/
structure ExtResource where
  type : String
  path : String
  id : String
  uid : Option String
deriving DecidableEq, Repr

/-- One `[sub_resource …]` block. -/
structure SubResource where
  type : String
  id : String
  properties : JsProps

/-- One `[node …]` block (`instance` is a Lean keyword, hence `instanceRef`). -/
structure SceneNode where
  name : String
  type : Option String
  parent : Option String
  instanceRef : Option String
  instancePlaceholder : Option String
  owner : Option String
  index : JsIntF
  groups : Option JsItems
  properties : JsProps

/-- One `[connection …]` declaration (`from` is a Lean keyword, hence
`fromPath`/`toPath`). -/
structure Connection where
  signal : String
  fromPath : String
  toPath : String
  method : String
  flags : JsIntF
  binds : Option JsItems

/-- The full parsed document. -/
structure TscnDocument where
  header : Header
  externalResources : List ExtResource
  subResources : List SubResource
  nodes : List SceneNode
  connections : List Connection

/-- The parse loop's initial accumulator: default header, empty lists. -/
def emptyDoc : TscnDocument := ⟨⟨"gd_scene", .undef, .val 3, none⟩, [], [], [], []⟩

/-- Replace the header. -/
def withHeader (d : TscnDocument) (h : Header) : TscnDocument :=
  ⟨h, d.externalResources, d.subResources, d.nodes, d.connections⟩

/-- Append an external resource. -/
def pushExt (d : TscnDocument) (r : ExtResource) : TscnDocument :=
  ⟨d.header, d.externalResources ++ [r], d.subResources, d.nodes, d.connections⟩

/-- Append a sub-resource. -/
def pushSub (d : TscnDocument) (r : SubResource) : TscnDocument :=
  ⟨d.header, d.externalResources, d.subResources ++ [r], d.nodes, d.connections⟩

/-- Append a node. -/
def pushNode (d : TscnDocument) (n : SceneNode) : TscnDocument :=
  ⟨d.header, d.externalResources, d.subResources, d.nodes ++ [n], d.connections⟩

/-- Append a connection. -/
def pushConn (d : TscnDocument) (c : Connection) : TscnDocument :=
  ⟨d.header, d.externalResources, d.subResources, d.nodes, d.connections ++ [c]⟩

/-! ## Document-level parsing -/

/-- `TscnParser.parseHeader`. -/
def parseHeader (line : String) : Header :=
  let type := if jsStartsWith line "[gd_scene" then "gd_scene" else "gd_resource"
  let attrs := parseAttributes line
  ⟨type,
   (match truthyOpt (attrGet attrs "load_steps") with
    | some s => jsParseInt s
    | none => .undef),
   (match truthyOpt (attrGet attrs "format") with
    | some s => jsParseInt s
    | none => .val 3),
   attrGet attrs "uid"⟩

/-- `TscnParser.parseExtResource`. -/
def parseExtResource (line : String) : ExtResource :=
  let attrs := parseAttributes line
  ⟨(attrGet attrs "type").getD "", (attrGet attrs "path").getD "",
   (attrGet attrs "id").getD "", attrGet attrs "uid"⟩

/-- `TscnParser.parseConnection`. -/
def parseConnection (line : String) : Connection :=
  let attrs := parseAttributes line
  ⟨(attrGet attrs "signal").getD "", (attrGet attrs "from").getD "",
   (attrGet attrs "to").getD "", (attrGet attrs "method").getD "",
   (match truthyOpt (attrGet attrs "flags") with
    | some s => jsParseInt s
    | none => .undef),
   (match truthyOpt (attrGet attrs "binds") with
    | some s => some (parseArray s)
    | none => none)⟩

/-- `TscnParser.parseProperty` on an (already trimmed) block line: split at
the first `=`; an absent `=` yields the falsy empty key. -/
def parseProperty (line : String) : String × JsValue :=
  match idxOfChar '=' line.data with
  | none => ("", .null)
  | some i =>
    (⟨trimL (line.data.take i)⟩, pvL (trimL (line.data.drop (i + 1))))

/-- The property-consuming loop shared by `parseSubResource` and
`parseNode`: consume trimmed lines until a blank line or a `[`-starting line
(which is left in place), recording each line with a nonempty key. -/
def takeProps : List String → JsProps → JsProps × List String
  | [], acc => (acc, [])
  | l :: ls, acc =>
    let t := jsTrim l
    if t = "" ∨ jsStartsWith t "[" then (acc, l :: ls)
    else
      let kv := parseProperty t
      takeProps ls (if kv.1 = "" then acc else jsPropsSet acc kv.1 kv.2)

/-- The node record built from a `[node …]` header line and its consumed
property block (`TscnParser.parseNode`). -/
def mkNodeFromAttrs (line : String) (props : JsProps) : SceneNode :=
  let attrs := parseAttributes line
  ⟨(attrGet attrs "name").getD "",
   attrGet attrs "type",
   attrGet attrs "parent",
   attrGet attrs "instance",
   attrGet attrs "instance_placeholder",
   attrGet attrs "owner",
   (match truthyOpt (attrGet attrs "index") with
    | some s => jsParseInt s
    | none => .undef),
   (match truthyOpt (attrGet attrs "groups") with
    | some s => some (parseArray s)
    | none => none),
   props⟩

/-- The sub-resource record built from a `[sub_resource …]` header line and
its consumed property block (`TscnParser.parseSubResource`). -/
def mkSubFromAttrs (line : String) (props : JsProps) : SubResource :=
  let attrs := parseAttributes line
  ⟨(attrGet attrs "type").getD "", (attrGet attrs "id").getD "", props⟩

/-- The main line-dispatch loop of `TscnParser.parse` (fuel-driven; each
step consumes at least one line, so `length + 1` fuel always suffices). -/
def parseLinesGoF : Nat → List String → TscnDocument → TscnDocument
  | 0, _, acc => acc
  | _ + 1, [], acc => acc
  | f + 1, l :: ls, acc =>
    let t := jsTrim l
    if jsStartsWith t "[gd_scene" ∨ jsStartsWith t "[gd_resource" then
      parseLinesGoF f ls (withHeader acc (parseHeader t))
    else if jsStartsWith t "[ext_resource" then
      parseLinesGoF f ls (pushExt acc (parseExtResource t))
    else if jsStartsWith t "[sub_resource" then
      let pr := takeProps ls .nil
      parseLinesGoF f pr.2 (pushSub acc (mkSubFromAttrs t pr.1))
    else if jsStartsWith t "[node" then
      let pr := takeProps ls .nil
      parseLinesGoF f pr.2 (pushNode acc (mkNodeFromAttrs t pr.1))
    else if jsStartsWith t "[connection" then
      parseLinesGoF f ls (pushConn acc (parseConnection t))
    else
      parseLinesGoF f ls acc

/-- Canonical line loop. -/
def parseLines (ls : List String) (acc : TscnDocument) : TscnDocument :=
  parseLinesGoF (ls.length + 1) ls acc

/-- `TscnParser.parse`. -/
def parse (content : String) : TscnDocument :=
  parseLines (jsSplitChar '\n' content) emptyDoc

/-! ## Document-level serialization -/

/-- `TscnParser.serializeHeader` (parts joined by spaces; `load_steps` only
when truthy, `format` always, `uid` only when truthy). -/
def serializeHeader (h : Header) : String :=
  "[" ++ h.type
    ++ (if h.loadSteps.truthy then " load_steps=" ++ h.loadSteps.toStr else "")
    ++ " format=" ++ h.format.toStr
    ++ (match h.uid with
        | some u => if u = "" then "" else " uid=\"" ++ u ++ "\""
        | none => "")
    ++ "]"

/-- `TscnParser.serializeExtResource`. -/
def serializeExtResource (r : ExtResource) : String :=
  "[ext_resource type=\"" ++ r.type ++ "\" path=\"" ++ r.path ++ "\""
    ++ (match r.uid with
        | some u => if u = "" then "" else " uid=\"" ++ u ++ "\""
        | none => "")
    ++ " id=\"" ++ r.id ++ "\"]"

/-- `key = value` lines of a property map (`Object.entries` order). -/
def propsLines : JsProps → List String
  | .nil => []
  | .cons k v rest => (k ++ " = " ++ serializeValue v) :: propsLines rest

/-- `TscnParser.serializeSubResource` (header line plus property lines). -/
def serializeSubResource (r : SubResource) : List String :=
  ("[sub_resource type=\"" ++ r.type ++ "\" id=\"" ++ r.id ++ "\"]") :: propsLines r.properties

/-- Truthiness of an optional string field. -/
def optTruthy : Option String → Bool
  | some s => ¬ (s = "")
  | none => false

/-- `TscnParser.serializeNode` (header line with conditional fields in fixed
order, plus property lines). -/
def serializeNode (n : SceneNode) : List String :=
  ("[node name=\"" ++ n.name ++ "\""
    ++ (match n.type with
        | some t => if t = "" then "" else " type=\"" ++ t ++ "\""
        | none => "")
    ++ (match n.parent with
        | some p => " parent=\"" ++ p ++ "\""
        | none => "")
    ++ (match n.instanceRef with
        | some i => if i = "" then "" else " instance=" ++ i
        | none => "")
    ++ (match n.instancePlaceholder with
        | some i => if i = "" then "" else " instance_placeholder=\"" ++ i ++ "\""
        | none => "")
    ++ (match n.owner with
        | some o => if o = "" then "" else " owner=\"" ++ o ++ "\""
        | none => "")
    ++ (match n.index with
        | .undef => ""
        | i => " index=" ++ i.toStr)
    ++ (match n.groups with
        | some g => if 0 < jsItemsLen g then " groups=" ++ serializeValue (.arr g) else ""
        | none => "")
    ++ "]") :: propsLines n.properties

/-- `TscnParser.serializeConnection`. -/
def serializeConnection (c : Connection) : String :=
  "[connection signal=\"" ++ c.signal ++ "\" from=\"" ++ c.fromPath ++ "\" to=\""
    ++ c.toPath ++ "\" method=\"" ++ c.method ++ "\""
    ++ (match c.flags with
        | .undef => ""
        | fl => " flags=" ++ fl.toStr)
    ++ (match c.binds with
        | some b => if 0 < jsItemsLen b then " binds=" ++ serializeValue (.arr b) else ""
        | none => "")
    ++ "]"

/-- The line list assembled by `TscnParser.serialize` before joining. -/
def serializeLines (scene : TscnDocument) : List String :=
  [serializeHeader scene.header, ""]
    ++ scene.externalResources.map serializeExtResource
    ++ (if 0 < scene.externalResources.length then [""] else [])
    ++ (scene.subResources.foldr (fun r acc => serializeSubResource r ++ [""] ++ acc) [])
    ++ (scene.nodes.foldr (fun n acc => serializeNode n ++ [""] ++ acc) [])
    ++ scene.connections.map serializeConnection

/-- `TscnParser.serialize`: `lines.join("\n").trim() + "\n"`. -/
def serialize (scene : TscnDocument) : String :=
  String.mk (trimL (joinNLL ((serializeLines scene).map String.data))) ++ "\n"

/-! ## Mutation helpers -/

/-- The full path of a node (`TscnParser.removeNode`/`modifyNode` local
`getNodePath`): a falsy (`undefined` or empty) or `"."` parent yields the
bare name, otherwise `parent + "/" + name`. -/
def getNodePath (n : SceneNode) : String :=
  match n.parent with
  | none => n.name
  | some p => if p = "" then n.name else if p = "." then n.name else p ++ "/" ++ n.name

/-- `TscnParser.updateLoadSteps`: set the header's `loadSteps` to
`externalResources.length + subResources.length + 1`. -/
def updateLoadSteps (scene : TscnDocument) : TscnDocument :=
  ⟨⟨scene.header.type,
    .val ((scene.externalResources.length : Int) + (scene.subResources.length : Int) + 1),
    scene.header.format, scene.header.uid⟩,
   scene.externalResources, scene.subResources, scene.nodes, scene.connections⟩

/-- The removal set of `TscnParser.removeNode`: the target path plus the
path of every node whose path extends `nodePath + "/"` or whose stored
parent starts with `nodePath`. -/
def removePaths (scene : TscnDocument) (nodePath : String) : List String :=
  nodePath :: (scene.nodes.filter (fun n =>
    jsStartsWith (getNodePath n) (nodePath ++ "/")
      || (match n.parent with
          | some p => jsStartsWith p nodePath
          | none => false))).map getNodePath

/-- `TscnParser.removeNode`: drop every node whose computed path is in the
removal set, every connection whose `from` or `to` is in it, then recompute
`loadSteps`. -/
def removeNode (scene : TscnDocument) (nodePath : String) : TscnDocument :=
  let paths := removePaths scene nodePath
  updateLoadSteps
    ⟨scene.header, scene.externalResources, scene.subResources,
     scene.nodes.filter (fun n => ¬ paths.contains (getNodePath n)),
     scene.connections.filter (fun c =>
       ¬ paths.contains c.fromPath ∧ ¬ paths.contains c.toPath)⟩

/-- The update record of `TscnParser.modifyNode` (each field `undefined` or
a replacement). -/
structure NodeUpdates where
  name : Option String
  type : Option String
  groups : Option JsItems
  properties : Option JsProps

/-- Field-by-field application of updates to a found node; `properties` is a
shallow spread-merge `{...node.properties, ...updates.properties}`. -/
def applyUpdates (n : SceneNode) (u : NodeUpdates) : SceneNode :=
  ⟨(match u.name with | some s => s | none => n.name),
   (match u.type with | some t => some t | none => n.type),
   n.parent, n.instanceRef, n.instancePlaceholder, n.owner, n.index,
   (match u.groups with | some g => some g | none => n.groups),
   (match u.properties with
    | some ps => jsPropsMerge n.properties ps
    | none => n.properties)⟩

/-- `Array.prototype.find` + in-place mutation: update the first node whose
computed path matches, or report failure. -/
def modifyInList : List SceneNode → String → NodeUpdates → Option (List SceneNode)
  | [], _, _ => none
  | n :: rest, p, u =>
    if getNodePath n = p then some (applyUpdates n u :: rest)
    else
      match modifyInList rest p u with
      | some rest2 => some (n :: rest2)
      | none => none

/-- `TscnParser.modifyNode`: `false` (and an unchanged document) when no
node's computed path matches, otherwise `true` and the updated document. -/
def modifyNode (scene : TscnDocument) (nodePath : String) (u : NodeUpdates) :
    Bool × TscnDocument :=
  match modifyInList scene.nodes nodePath u with
  | some ns =>
    (true, ⟨scene.header, scene.externalResources, scene.subResources, ns, scene.connections⟩)
  | none => (false, scene)

/-! ## Well-formedness (the document class for which serialization is
faithfully invertible)

All predicates are `Bool`-valued so that concrete instances evaluate by
`decide`/`rfl`.  They carve out exactly the side conditions the inverse
theorem needs: no quote/newline characters where the line grammar or the
attribute regex would mis-capture them, normalized numbers, no opaque
constructor-literal strings, untagged dictionaries that do not trip the
serializer's vector/color auto-detection or its `_`-key filter, and no
trailing backslash (which would defeat the comma scanner's quote toggle). -/

/-- `c` does not occur in `s`. -/
def lacks (c : Char) (s : String) : Bool := s.data.all (fun d => ¬ d = c)

/-- The last character is not a backslash. -/
def lastNotBS (s : String) : Bool := ¬ (s.data.getLast? = some '\\')

/-- A string value that survives quoting, escaping and re-parsing. -/
def wfStrB (s : String) : Bool :=
  lacks '\n' s && lastNotBS s && ¬ isGodotValueString s

/-- An id/path argument of `ExtResource(…)`/`SubResource(…)`/`NodePath(…)`. -/
def wfIdB (i : String) : Bool := lacks '"' i && lacks '\n' i && lastNotBS i

/-- A property key: nonempty, trim-stable, no `=`, not block-terminating. -/
def wfKeyB (k : String) : Bool :=
  lacks '=' k && lacks '\n' k &&
  (match k.data.head? with
   | some c => ¬ isJsSpace c ∧ ¬ (c = '[')
   | none => false) &&
  (match k.data.getLast? with
   | some c => ¬ isJsSpace c
   | none => false)

/-- A dictionary key: no `_` marker prefix, colon-free (the pair is split at
the raw first colon), quotable. -/
def wfDictKeyB (k : String) : Bool :=
  ¬ startsWithL k.data ['_'] && lacks ':' k && lacks '\n' k && lastNotBS k &&
    ¬ isGodotValueString k

/-- Pairwise-distinct keys. -/
def distinctKeys : List String → Bool
  | [] => true
  | k :: rest => rest.all (fun j => ¬ j = k) && distinctKeys rest

/-- The exact tagged-record shapes `parseValue` produces. -/
def wfTaggedB (fields : JsProps) : Bool :=
  match fields with
  | .cons "_type" (.str "Vector2")
      (.cons "x" (.num a) (.cons "y" (.num b) .nil)) => isNormDec a && isNormDec b
  | .cons "_type" (.str "Vector3")
      (.cons "x" (.num a) (.cons "y" (.num b) (.cons "z" (.num c) .nil))) =>
    isNormDec a && isNormDec b && isNormDec c
  | .cons "_type" (.str "Color")
      (.cons "r" (.num a) (.cons "g" (.num b) (.cons "b" (.num c)
        (.cons "a" (.num d) .nil)))) =>
    isNormDec a && isNormDec b && isNormDec c && isNormDec d
  | .cons "_type" (.str "ExtResource") (.cons "id" (.str i) .nil) => wfIdB i
  | .cons "_type" (.str "SubResource") (.cons "id" (.str i) .nil) => wfIdB i
  | .cons "_type" (.str "NodePath") (.cons "path" (.str p) .nil) => wfIdB p
  | _ => false

/-- Shape conditions of a safe plain dictionary (keys distinct and safe; the
serializer's tag branch and auto-detection both stay silent). -/
def wfDictShapeB (fields : JsProps) : Bool :=
  distinctKeys (jsPropsKeys fields) &&
  (jsPropsList fields).all (fun kv => wfDictKeyB kv.1) &&
  (objTaggedStr fields).isNone && (objAutoStr fields).isNone

mutual
/-- Well-formed property values. -/
def wfValB : JsValue → Bool
  | .null => true
  | .undef => false
  | .bool _ => true
  | .nan => false
  | .num d => isNormDec d
  | .str s => wfStrB s
  | .arr items => wfItemsB items
  | .obj fields => wfTaggedB fields || (wfDictShapeB fields && wfFieldsB fields)

/-- All array elements well-formed. -/
def wfItemsB : JsItems → Bool
  | .nil => true
  | .cons v rest => wfValB v && wfItemsB rest

/-- All field values well-formed. -/
def wfFieldsB : JsProps → Bool
  | .nil => true
  | .cons _ v rest => wfValB v && wfFieldsB rest
end

/-- A string placed in a quoted attribute position. -/
def wfAttrStrB (s : String) : Bool := lacks '"' s && lacks '\n' s

/-- An optional attribute that the serializer emits only when truthy. -/
def wfOptAttrB : Option String → Bool
  | none => true
  | some s => ¬ (s = "") && wfAttrStrB s

/-- Elements of an attribute-position array (`groups`/`binds`): numbers, or
strings whose rendering stays inside the regex's `[^\]]*` capture. -/
def wfAttrItemsB : JsItems → Bool
  | .nil => true
  | .cons (.num d) rest => isNormDec d && wfAttrItemsB rest
  | .cons (.str s) rest => wfStrB s && lacks ']' s && wfAttrItemsB rest
  | .cons _ _ => false

/-- A well-formed property map (distinct safe keys, well-formed values). -/
def wfPropsB (ps : JsProps) : Bool :=
  distinctKeys (jsPropsKeys ps) && (jsPropsList ps).all (fun kv => wfKeyB kv.1) &&
    wfFieldsB ps

/-- A well-formed header. -/
def wfHeaderB (h : Header) : Bool :=
  (h.type = "gd_scene" ∨ h.type = "gd_resource") &&
  (match h.loadSteps with
   | .undef => true
   | .val n => ¬ (n = 0)
   | .nan => false) &&
  (match h.format with
   | .val _ => true
   | _ => false) &&
  wfOptAttrB h.uid

/-- A well-formed external resource. -/
def wfExtB (r : ExtResource) : Bool :=
  wfAttrStrB r.type && wfAttrStrB r.path && wfAttrStrB r.id && wfOptAttrB r.uid

/-- A well-formed sub-resource. -/
def wfSubB (r : SubResource) : Bool :=
  wfAttrStrB r.type && wfAttrStrB r.id && wfPropsB r.properties

/-- A bare (unquoted) attribute token such as an `instance` value. -/
def wfBareB : Option String → Bool
  | none => true
  | some s =>
    ¬ (s = "") &&
      s.data.all (fun c => ¬ isJsSpace c ∧ ¬ (c = ']') ∧ ¬ (c = '"') ∧ ¬ (c = '['))

/-- A well-formed node. -/
def wfNodeB (n : SceneNode) : Bool :=
  wfAttrStrB n.name &&
  wfOptAttrB n.type &&
  (match n.parent with
   | none => true
   | some p => wfAttrStrB p) &&
  wfBareB n.instanceRef &&
  wfOptAttrB n.instancePlaceholder &&
  wfOptAttrB n.owner &&
  (match n.index with
   | .undef => true
   | .val _ => true
   | .nan => false) &&
  (match n.groups with
   | none => true
   | some g => 0 < jsItemsLen g && wfAttrItemsB g) &&
  wfPropsB n.properties

/-- A well-formed connection. -/
def wfConnB (c : Connection) : Bool :=
  wfAttrStrB c.signal && wfAttrStrB c.fromPath && wfAttrStrB c.toPath &&
  wfAttrStrB c.method &&
  (match c.flags with
   | .undef => true
   | .val _ => true
   | .nan => false) &&
  (match c.binds with
   | none => true
   | some b => 0 < jsItemsLen b && wfAttrItemsB b)

/-- A well-formed document: the class on which `parse ∘ serialize` is the
identity. -/
def wfDocB (doc : TscnDocument) : Bool :=
  wfHeaderB doc.header &&
  doc.externalResources.all wfExtB &&
  doc.subResources.all wfSubB &&
  doc.nodes.all wfNodeB &&
  doc.connections.all wfConnB

/-! ## Proof-side notions (scanner transparency, claim-statement helpers) -/

/-- The previous-character register after scanning `l` starting from `p`. -/
def lastPrev (l : List Char) (p : Option Char) : Option Char :=
  match l.getLast? with
  | some c => some c
  | none => p

/-- `l` is transparent to the top-level comma scanner: scanned outside a
string at any nonnegative depth, it emits no segment boundary and returns to
the same depth outside a string. -/
def ScTrans (l : List Char) : Prop :=
  ∀ rest prev d cur, ¬ (prev = some '\\') → 0 ≤ d →
    splitTopAux (l ++ rest) prev d false cur
      = splitTopAux rest (lastPrev l prev) d false (cur ++ l)

/-- Like `ScTrans`, but only at strictly positive depth (where top-level
commas do not split either). -/
def ScTransPos (l : List Char) : Prop :=
  ∀ rest prev d cur, ¬ (prev = some '\\') → 1 ≤ d →
    splitTopAux (l ++ rest) prev d false cur
      = splitTopAux rest (lastPrev l prev) d false (cur ++ l)

/-- `", "`-interleaving at the character level (the already-serialized
segments of an array/dictionary inner text). -/
def charInterSp : List (List Char) → List Char
  | [] => []
  | [s] => s
  | s :: s2 :: rest => s ++ ',' :: ' ' :: charInterSp (s2 :: rest)

/-- Spine concatenation of property lists (proof-side). -/
def jsPropsApp : JsProps → JsProps → JsProps
  | .nil, q => q
  | .cons k v r, q => .cons k v (jsPropsApp r q)

/-- A character inert to the comma scanner in every respect. -/
def PlainCh (c : Char) : Prop :=
  ¬ (c = '"') ∧ ¬ (c = '[' ∨ c = '{' ∨ c = '(') ∧ ¬ (c = ']' ∨ c = '}' ∨ c = ')')
    ∧ ¬ (c = ',') ∧ ¬ (c = '\\')

/-- Computable form of `PlainCh`. -/
def plainChB (c : Char) : Bool :=
  ¬ (c = '"') && ¬ (c = '[') && ¬ (c = '{') && ¬ (c = '(') && ¬ (c = ']')
    && ¬ (c = '}') && ¬ (c = ')') && ¬ (c = ',') && ¬ (c = '\\')

/-- A rendered fragment that behaves as one segment: scanner-transparent,
nonempty, trim-stable, clean-ended, newline-free. -/
def SegOk (E : List Char) : Prop :=
  ScTrans E ∧ E ≠ []
  ∧ (∀ x, E.head? = some x → isJsSpace x = false)
  ∧ (∀ x, E.getLast? = some x → isJsSpace x = false ∧ ¬ (x = '\\'))
  ∧ (∀ x ∈ E, ¬ (x = '\n'))

/-- The rendered array elements, pointwise parsing back and segment-safe. -/
def listGood : List String → JsItems → Prop
  | [], .nil => True
  | e :: es, .cons v rest => (pvL e.data = v ∧ SegOk e.data) ∧ listGood es rest
  | _, _ => False

/-- The rendered dictionary pairs: quoted colon-free keys, parsed-back
values, segment-safe pieces. -/
def fieldsGood : List String → JsProps → Prop
  | [], .nil => True
  | e :: es, .cons k v rest =>
    (e.data = (serStr k).data ++ ':' :: ' ' :: (serializeValue v).data
     ∧ pvL (serStr k).data = .str k ∧ SegOk (serStr k).data
     ∧ (∀ x ∈ (serStr k).data, ¬ (x = ':'))
     ∧ pvL (serializeValue v).data = v ∧ SegOk (serializeValue v).data)
    ∧ fieldsGood es rest
  | _, _ => False

/-- Value of a digit string, least significant digit first (proof-side mirror
of `digitsVal ∘ reverse`). -/
def digitsValRev : List Char → Nat
  | [] => 0
  | c :: r => digVal c + 10 * digitsValRev r

/-- The top-level dispatch recognizes a (trimmed) line. -/
def recognizedLine (t : String) : Bool :=
  jsStartsWith t "[gd_scene" || jsStartsWith t "[gd_resource" ||
  jsStartsWith t "[ext_resource" || jsStartsWith t "[sub_resource" ||
  jsStartsWith t "[node" || jsStartsWith t "[connection"

/-- The removal predicate exactly as claim C6 words it: the node is the
target (by computed path), a strict path descendant of the target, or its
stored parent starts with the target path. -/
def claimRemoves (nodePath : String) (n : SceneNode) : Prop :=
  getNodePath n = nodePath
    ∨ jsStartsWith (getNodePath n) (nodePath ++ "/") = true
    ∨ (∃ p, n.parent = some p ∧ jsStartsWith p nodePath = true)

/-- The keys of a node property found at `k` (used to exhibit structural
differences between documents without a decidable equality on `JsValue`). -/
def nodePropKeys (doc : TscnDocument) (k : String) : List String :=
  match doc.nodes with
  | n :: _ =>
    (match jsPropsLookup n.properties k with
     | some (.obj fields) => jsPropsKeys fields
     | _ => [])
  | [] => []

/-- The value position of one attribute match, as the serializers emit it:
a quoted string, a bare token, or a bracketed array. -/
inductive AttrVal where
  | quoted (s : String)
  | bare (s : String)
  | bracket (s : String)

/-- The characters the rendered value contributes to the line. -/
def aValRender : AttrVal → List Char
  | .quoted s => '"' :: (s.data ++ ['"'])
  | .bare s => s.data
  | .bracket s => s.data

/-- The substring the attribute regex captures for the value. -/
def aValCap : AttrVal → String
  | .quoted s => s
  | .bare s => s
  | .bracket s => s

/-- Rendering of a chunk list: one ` key=value` block per chunk. -/
def chunksRender : List (String × AttrVal) → List Char
  | [] => []
  | (k, v) :: rest => ' ' :: (k.data ++ '=' :: (aValRender v ++ chunksRender rest))

/-- The key/captured-value pairs of a chunk list. -/
def chunkPairs (cs : List (String × AttrVal)) : List (String × String) :=
  cs.map (fun kv => (kv.1, aValCap kv.2))

/-- Conditions under which one rendered value is matched exactly. -/
def AValWf : AttrVal → Prop
  | .quoted s => ∀ c ∈ s.data, ¬ (c = '"')
  | .bare s => s.data ≠ [] ∧ (∀ c ∈ s.data, isJsSpace c = false ∧ ¬ (c = ']'))
      ∧ (∀ c, s.data.head? = some c → ¬ (c = '"') ∧ ¬ (c = '['))
  | .bracket s => ∃ inner, s.data = '[' :: (inner ++ [']']) ∧ ∀ c ∈ inner, ¬ (c = ']')

/-- A well-formed chunk: nonempty word-character key, well-formed value,
both newline-free. -/
def ChunkWf (kv : String × AttrVal) : Prop :=
  kv.1.data ≠ [] ∧ (∀ c ∈ kv.1.data, wordChar c = true) ∧ AValWf kv.2
    ∧ (∀ c ∈ kv.1.data, ¬ (c = '\n')) ∧ (∀ c ∈ aValRender kv.2, ¬ (c = '\n'))

/-- An optional quoted-attribute chunk (emitted only when nonempty). -/
def optQuoted (key : String) : Option String → List (String × AttrVal)
  | some s => if s = "" then [] else [(key, .quoted s)]
  | none => []

/-- An optional bare-attribute chunk (emitted only when nonempty). -/
def optBare (key : String) : Option String → List (String × AttrVal)
  | some s => if s = "" then [] else [(key, .bare s)]
  | none => []

/-- The `parent` chunk (emitted whenever present, empty or not). -/
def parentChunk : Option String → List (String × AttrVal)
  | some p => [("parent", .quoted p)]
  | none => []

/-- A numeric chunk emitted unless the field is `undefined`. -/
def numChunk (key : String) : JsIntF → List (String × AttrVal)
  | .undef => []
  | i => [(key, .bare i.toStr)]

/-- The header's `load_steps` chunk (emitted only when truthy). -/
def loadChunk (i : JsIntF) : List (String × AttrVal) :=
  if i.truthy then [("load_steps", .bare i.toStr)] else []

/-- An array-valued chunk (emitted only when nonempty). -/
def arrChunk (key : String) : Option JsItems → List (String × AttrVal)
  | some g => if 0 < jsItemsLen g then [(key, .bracket (serializeValue (.arr g)))] else []
  | none => []

/-- The attribute chunks of a serialized header line. -/
def headerChunks (h : Header) : List (String × AttrVal) :=
  loadChunk h.loadSteps ++ [("format", .bare h.format.toStr)] ++ optQuoted "uid" h.uid

/-- The attribute chunks of a serialized `[ext_resource …]` line. -/
def extChunks (r : ExtResource) : List (String × AttrVal) :=
  [("type", .quoted r.type), ("path", .quoted r.path)] ++ optQuoted "uid" r.uid
    ++ [("id", .quoted r.id)]

/-- The attribute chunks of a serialized `[sub_resource …]` header line. -/
def subChunks (r : SubResource) : List (String × AttrVal) :=
  [("type", .quoted r.type), ("id", .quoted r.id)]

/-- The attribute chunks of a serialized `[node …]` header line. -/
def nodeChunks (n : SceneNode) : List (String × AttrVal) :=
  [("name", .quoted n.name)] ++ optQuoted "type" n.type ++ parentChunk n.parent
    ++ optBare "instance" n.instanceRef
    ++ optQuoted "instance_placeholder" n.instancePlaceholder
    ++ optQuoted "owner" n.owner ++ numChunk "index" n.index
    ++ arrChunk "groups" n.groups

/-- The attribute chunks of a serialized `[connection …]` line. -/
def connChunks (c : Connection) : List (String × AttrVal) :=
  [("signal", .quoted c.signal), ("from", .quoted c.fromPath),
   ("to", .quoted c.toPath), ("method", .quoted c.method)]
    ++ numChunk "flags" c.flags ++ arrChunk "binds" c.binds

/-! # Theorems -/

/-! ## The top-level dispatch loop -/

/-- The property-block loop only ever hands back a suffix of its input. -/
theorem takeProps_suffix : ∀ (ls : List String) (acc : JsProps),
    (takeProps ls acc).2.IsSuffix ls := by
  intro ls
  induction ls with
  | nil => intro acc; exact List.nil_suffix
  | cons l ls ih =>
    intro acc
    show (if jsTrim l = "" ∨ jsStartsWith (jsTrim l) "[" then _ else _ : JsProps × List String).2.IsSuffix _
    split
    · exact List.suffix_refl _
    · exact (ih _).trans (List.suffix_cons _ _)

/-- Any fuel beyond the line count is interchangeable in the dispatch loop. -/
theorem parseLinesGoF_congr : ∀ (f : Nat) (ls : List String) (acc : TscnDocument),
    ls.length < f → parseLinesGoF f ls acc = parseLines ls acc := by
  intro f
  induction f using Nat.strong_induction_on with
  | _ f ih =>
    intro ls acc hlt
    match f, ls with
    | f + 1, [] => simp [parseLinesGoF, parseLines]
    | f + 1, l :: ls =>
      have hls : ls.length < f := by simpa using Nat.lt_of_succ_lt_succ hlt
      have hf : f < f + 1 := Nat.lt_succ_self f
      have step : ∀ (rest : List String) (acc2 : TscnDocument), rest.IsSuffix ls →
          parseLinesGoF f rest acc2 = parseLinesGoF (ls.length + 1) rest acc2 := by
        intro rest acc2 hsuf
        have hr : rest.length ≤ ls.length := hsuf.length_le
        calc parseLinesGoF f rest acc2 = parseLines rest acc2 :=
              ih f hf rest acc2 (Nat.lt_of_le_of_lt hr hls)
          _ = parseLinesGoF (ls.length + 1) rest acc2 :=
              (ih (ls.length + 1) (Nat.succ_lt_succ hls) rest acc2
                (Nat.lt_succ_of_le hr)).symm
      show parseLinesGoF (f + 1) (l :: ls) acc = parseLinesGoF (ls.length + 1 + 1) (l :: ls) acc
      simp only [parseLinesGoF]
      split
      · exact step ls _ (List.suffix_refl _)
      · split
        · exact step ls _ (List.suffix_refl _)
        · split
          · exact step _ _ (takeProps_suffix ls .nil)
          · split
            · exact step _ _ (takeProps_suffix ls .nil)
            · split
              · exact step ls _ (List.suffix_refl _)
              · exact step ls _ (List.suffix_refl _)

/-- A line whose trimmed form starts with no recognized bracket tag is
dropped by the dispatch loop with no effect on the result. -/
theorem parseLines_skip (l : String) (ls : List String) (acc : TscnDocument)
    (h : recognizedLine (jsTrim l) = false) :
    parseLines (l :: ls) acc = parseLines ls acc := by
  simp only [recognizedLine, Bool.or_eq_false_iff] at h
  obtain ⟨⟨⟨⟨⟨h1, h2⟩, h3⟩, h4⟩, h5⟩, h6⟩ := h
  show parseLinesGoF (ls.length + 1 + 1) (l :: ls) acc = _
  simp only [parseLinesGoF, h1, h2, h3, h4, h5, h6, Bool.false_eq_true, or_self, if_false]
  rfl

/-- C2 — `parse` is total by construction (it is a Lean function into
`TscnDocument`, so every input string yields a document), and the top-level
dispatch skips, without recording anything, every line whose trimmed form
starts with none of the recognized bracket tags (`[gd_scene`/`[gd_resource`,
`[ext_resource`, `[sub_resource`, `[node`, `[connection`). -/
theorem c2_unrecognized_lines_skipped :
    ∀ (l : String) (ls : List String) (acc : TscnDocument),
      recognizedLine (jsTrim l) = false →
      parseLines (l :: ls) acc = parseLines ls acc :=
  fun l ls acc h => parseLines_skip l ls acc h

/-- Witness for C2 at a concrete garbage line. -/
theorem c2_unrecognized_lines_skipped_witness :
    recognizedLine (jsTrim "; stray text") = false ∧
      parseLines ["; stray text", "[node name=\"A\"]"] emptyDoc
        = parseLines ["[node name=\"A\"]"] emptyDoc :=
  ⟨by decide, c2_unrecognized_lines_skipped "; stray text" ["[node name=\"A\"]"] emptyDoc (by decide)⟩

/-- The dispatch loop never changes the header unless it sees a line whose
trimmed form starts with `[gd_scene` or `[gd_resource`. -/
theorem parseLinesGoF_header_stable : ∀ (f : Nat) (ls : List String) (acc : TscnDocument),
    (∀ line ∈ ls, jsStartsWith (jsTrim line) "[gd_scene" = false ∧
      jsStartsWith (jsTrim line) "[gd_resource" = false) →
    (parseLinesGoF f ls acc).header = acc.header := by
  intro f
  induction f with
  | zero => intro ls acc _; rfl
  | succ f ih =>
    intro ls acc h
    match ls with
    | [] => rfl
    | l :: ls =>
      have hl := h l (List.mem_cons_self l ls)
      have hrest : ∀ line ∈ ls, jsStartsWith (jsTrim line) "[gd_scene" = false ∧
          jsStartsWith (jsTrim line) "[gd_resource" = false :=
        fun line hm => h line (List.mem_cons_of_mem l hm)
      have hsub : ∀ (rest : List String), rest.IsSuffix ls →
          ∀ line ∈ rest, jsStartsWith (jsTrim line) "[gd_scene" = false ∧
            jsStartsWith (jsTrim line) "[gd_resource" = false :=
        fun rest hsuf line hm => hrest line (hsuf.subset hm)
      simp only [parseLinesGoF, hl.1, hl.2, Bool.false_eq_true, or_self, if_false]
      split
      · exact ih ls _ hrest
      · split
        · exact (ih _ _ (hsub _ (takeProps_suffix ls .nil))).trans rfl
        · split
          · exact (ih _ _ (hsub _ (takeProps_suffix ls .nil))).trans rfl
          · split
            · exact ih ls _ hrest
            · exact ih ls _ hrest

/-- C10 — when no line of the input (after trimming) starts with
`[gd_scene` or `[gd_resource`, the parsed document's header is exactly the
default `{type: "gd_scene", format: 3}` with `loadSteps` and `uid` absent. -/
theorem c10_default_header (content : String)
    (h : ∀ line ∈ jsSplitChar '\n' content,
      jsStartsWith (jsTrim line) "[gd_scene" = false ∧
        jsStartsWith (jsTrim line) "[gd_resource" = false) :
    (parse content).header = ⟨"gd_scene", .undef, .val 3, none⟩ :=
  parseLinesGoF_header_stable _ _ _ h

/-- Witness for C10 on a concrete header-free input (the empty string's
split is the single empty line). -/
theorem c10_default_header_witness :
    (∀ line ∈ jsSplitChar '\n' "hello\nworld = 3",
      jsStartsWith (jsTrim line) "[gd_scene" = false ∧
        jsStartsWith (jsTrim line) "[gd_resource" = false) ∧
    (parse "hello\nworld = 3").header = ⟨"gd_scene", .undef, .val 3, none⟩ :=
  ⟨by decide, c10_default_header "hello\nworld = 3" (by decide)⟩

/-! ## C3 — load-step emission -/

/-- C3 counterexample — the serializer emits the stored `loadSteps` value as
given: a header storing `99` over a document with no resources serializes
with `load_steps=99`, although `externalResources.length +
subResources.length + 1 = 1`. -/
theorem c3_serializer_counterexample :
    serialize ⟨⟨"gd_scene", .val 99, .val 3, none⟩, [], [], [], []⟩
        = "[gd_scene load_steps=99 format=3]\n"
      ∧ ¬ ((99 : Int) = 0 + 0 + 1) :=
  ⟨rfl, by decide⟩

/-- C3 amended — the recomputation `externalResources.length +
subResources.length + 1` is performed by `updateLoadSteps` (invoked by the
mutation helpers), not by the serializer: after `updateLoadSteps` the header
stores exactly that value, while `serializeHeader` emits whatever the header
stores (shown at a concrete header). -/
theorem c3_load_steps_amended :
    (∀ scene : TscnDocument,
      (updateLoadSteps scene).header.loadSteps
        = .val ((scene.externalResources.length : Int) + (scene.subResources.length : Int) + 1))
    ∧ serializeHeader ⟨"gd_scene", .val 5, .val 3, none⟩ = "[gd_scene load_steps=5 format=3]" :=
  ⟨fun _ => rfl, rfl⟩

/-! ## C4 — dictionary colon splitting -/

/-- C4 counterexample — the dictionary grammar splits each segment at the
raw first colon, even inside a quoted key: `{"a:b": 1}` does not yield the
one-entry map from `a:b` to `1`; it yields the mangled entry from the raw
string `"a` to the raw string `b": 1`. -/
theorem c4_colon_counterexample :
    parseDictionary "\x7b\"a:b\": 1\x7d" = propsOf [("\"a", .str "b\": 1")]
      ∧ ¬ (jsPropsKeys (parseDictionary "\x7b\"a:b\": 1\x7d") = ["a:b"]) :=
  ⟨rfl, by decide⟩

/-- C4 amended — each top-level segment is split at the first colon in the
segment regardless of quoting: keys whose quoted text is colon-free parse as
expected (`{"a": 1}` yields `a ↦ 1`), while a colon inside the quoted key is
still used as the split point (`{"a:b": 1}` yields the mangled entry). -/
theorem c4_colon_split_amended :
    parseDictionary "\x7b\"a\": 1\x7d" = propsOf [("a", .num ⟨1, 0⟩)]
      ∧ parseDictionary "\x7b\"a:b\": 1\x7d" = propsOf [("\"a", .str "b\": 1")] :=
  ⟨rfl, rfl⟩

/-! ## C8, C9 — value-grammar facts -/

/-- C8 — parsing `[Vector2(1,2), [3,4], {"a": 1}]` yields a three-element
array: the tagged Vector2 record with `x=1, y=2`, the array `[3, 4]`, and
the dictionary mapping `a` to `1`; the commas inside `Vector2(…)` and the
nested array are not treated as top-level separators. -/
theorem c8_depth_safety :
    parseValue "[Vector2(1,2), [3,4], \x7b\"a\": 1\x7d]" =
      .arr (itemsOf
        [.obj (propsOf [("_type", .str "Vector2"), ("x", .num ⟨1, 0⟩), ("y", .num ⟨2, 0⟩)]),
         .arr (itemsOf [.num ⟨3, 0⟩, .num ⟨4, 0⟩]),
         .obj (propsOf [("a", .num ⟨1, 0⟩)])]) :=
  rfl

/-- C9 — parsing the quoted literal `"Hello \"World\""` yields the string
`Hello "World"` (quotes stripped, escapes resolved), and serializing that
string yields back exactly the same quoted literal. -/
theorem c9_string_escape :
    parseValue "\"Hello \\\"World\\\"\"" = .str "Hello \"World\""
      ∧ serializeValue (.str "Hello \"World\"") = "\"Hello \\\"World\\\"\"" :=
  ⟨rfl, rfl⟩

/-! ## C6 — remove-node cascades -/

/-- The removal set contains exactly the target path and the paths of the
nodes matched by the cascade conditions. -/
theorem removePaths_mem (scene : TscnDocument) (p q : String) :
    q ∈ removePaths scene p
      ↔ (q = p ∨ ∃ n ∈ scene.nodes, getNodePath n = q ∧ claimRemoves p n) := by
  simp only [removePaths, List.mem_cons, List.mem_map, List.mem_filter]
  constructor
  · rintro (rfl | ⟨n, ⟨hmem, hcond⟩, rfl⟩)
    · exact Or.inl rfl
    · refine Or.inr ⟨n, hmem, rfl, ?_⟩
      simp only [Bool.or_eq_true] at hcond
      rcases hcond with h | h
      · exact Or.inr (Or.inl h)
      · refine Or.inr (Or.inr ?_)
        rcases hp : n.parent with _ | pp
        · rw [hp] at h; cases h
        · rw [hp] at h; exact ⟨pp, rfl, h⟩
  · rintro (rfl | ⟨n, hmem, rfl, hclaim⟩)
    · exact Or.inl rfl
    · rcases hclaim with hEq | hDesc | ⟨pp, hpp, hstart⟩
      · exact Or.inl hEq
      · exact Or.inr ⟨n, ⟨hmem, by simp [hDesc]⟩, rfl⟩
      · exact Or.inr ⟨n, ⟨hmem, by simp [hpp, hstart]⟩, rfl⟩

/-- Membership in a filtered list via `contains` on strings. -/
theorem contains_eq_mem (l : List String) (q : String) : l.contains q = true ↔ q ∈ l := by
  induction l with
  | nil => simp
  | cons a l ih =>
    simp only [List.contains_cons, Bool.or_eq_true, List.mem_cons, ih, beq_iff_eq]

/-- C6 (amended with pairwise-distinct computed paths) — `removeNode`
keeps a node exactly when it matches none of the cascade conditions (it is
not the target by computed path, not a strict path descendant, and its
stored parent does not start with the target); it keeps a connection exactly
when neither endpoint equals the target path or a cascaded node's path; and
in the concrete scenario, removing `Player` removes exactly `Player` and
`Sprite`, keeping `Main`, `Enemy` and the `Button → .` connection. -/
theorem c6_remove_cascade :
    (∀ (scene : TscnDocument) (p : String) (n : SceneNode),
      (scene.nodes.map getNodePath).Nodup → n ∈ scene.nodes →
      (n ∈ (removeNode scene p).nodes ↔ ¬ claimRemoves p n))
    ∧ (∀ (scene : TscnDocument) (p : String) (c : Connection),
        c ∈ scene.connections →
        (c ∈ (removeNode scene p).connections ↔
          ¬ (c.fromPath = p ∨ ∃ n ∈ scene.nodes, getNodePath n = c.fromPath ∧ claimRemoves p n)
          ∧ ¬ (c.toPath = p ∨ ∃ n ∈ scene.nodes, getNodePath n = c.toPath ∧ claimRemoves p n)))
    ∧ ((removeNode
          ⟨⟨"gd_scene", .undef, .val 3, none⟩, [], [],
           [⟨"Main", some "Node2D", none, none, none, none, .undef, none, .nil⟩,
            ⟨"Player", some "Area2D", some ".", none, none, none, .undef, none, .nil⟩,
            ⟨"Sprite", some "Sprite2D", some "Player", none, none, none, .undef, none, .nil⟩,
            ⟨"Enemy", some "Area2D", some ".", none, none, none, .undef, none, .nil⟩],
           [⟨"pressed", "Button", ".", "go", .undef, none⟩]⟩ "Player")
        = ⟨⟨"gd_scene", .val 1, .val 3, none⟩, [], [],
           [⟨"Main", some "Node2D", none, none, none, none, .undef, none, .nil⟩,
            ⟨"Enemy", some "Area2D", some ".", none, none, none, .undef, none, .nil⟩],
           [⟨"pressed", "Button", ".", "go", .undef, none⟩]⟩) := by
  refine ⟨?_, ?_, rfl⟩
  · intro scene p n hnodup hmem
    show n ∈ scene.nodes.filter
        (fun n => ¬ (removePaths scene p).contains (getNodePath n)) ↔ _
    rw [List.mem_filter]
    simp only [hmem, true_and, decide_not, Bool.not_eq_eq_eq_not, Bool.not_true,
      decide_eq_false_iff_not, contains_eq_mem]
    rw [removePaths_mem]
    constructor
    · intro h hclaim
      refine h (Or.inr ⟨n, hmem, rfl, hclaim⟩)
    · rintro h (hEq | ⟨n2, hmem2, hpath2, hclaim2⟩)
      · exact h (Or.inl hEq)
      · have : n2 = n := List.inj_on_of_nodup_map hnodup hmem2 hmem hpath2
        subst this
        exact h hclaim2
  · intro scene p c hmem
    show c ∈ scene.connections.filter
        (fun c => decide (¬ (removePaths scene p).contains c.fromPath = true
          ∧ ¬ (removePaths scene p).contains c.toPath = true)) ↔ _
    rw [List.mem_filter]
    simp only [hmem, true_and, decide_eq_true_eq, contains_eq_mem]
    rw [removePaths_mem, removePaths_mem]

/-- C6 counterexample — the claim's "leaving all other nodes unchanged"
fails when two nodes share a computed path: with target `A`, the node
`⟨name "AB/X", no parent⟩` matches none of the claimed removal conditions
(it is not the target, not a strict descendant of `A`, and has no parent),
yet `removeNode` deletes it because its computed path coincides with that of
`⟨name "X", parent "AB"⟩`, which the parent-prefix condition removes. -/
theorem c6_remove_counterexample :
    ¬ claimRemoves "A" ⟨"AB/X", none, none, none, none, none, .undef, none, .nil⟩
    ∧ (removeNode
        ⟨⟨"gd_scene", .undef, .val 3, none⟩, [], [],
         [⟨"X", none, some "AB", none, none, none, .undef, none, .nil⟩,
          ⟨"AB/X", none, none, none, none, none, .undef, none, .nil⟩], []⟩ "A").nodes
      = [] := by
  constructor
  · rintro (h | h | ⟨pp, hpp, _⟩)
    · exact absurd h (by decide)
    · exact absurd h (by decide)
    · cases hpp
  · rfl

/-- Witness for C6 at the concrete scenario: the `Sprite` node is indeed
removed (it satisfies the cascade conditions), via the amended theorem. -/
theorem c6_remove_cascade_witness :
    ¬ (⟨"Sprite", some "Sprite2D", some "Player", none, none, none, .undef, none, .nil⟩
      ∈ (removeNode
          ⟨⟨"gd_scene", .undef, .val 3, none⟩, [], [],
           [⟨"Main", some "Node2D", none, none, none, none, .undef, none, .nil⟩,
            ⟨"Player", some "Area2D", some ".", none, none, none, .undef, none, .nil⟩,
            ⟨"Sprite", some "Sprite2D", some "Player", none, none, none, .undef, none, .nil⟩,
            ⟨"Enemy", some "Area2D", some ".", none, none, none, .undef, none, .nil⟩],
           [⟨"pressed", "Button", ".", "go", .undef, none⟩]⟩ "Player").nodes) := by
  intro hmem
  have h := (c6_remove_cascade.1 _ "Player"
    ⟨"Sprite", some "Sprite2D", some "Player", none, none, none, .undef, none, .nil⟩
    (by decide) (by simp)).mp hmem
  exact h (Or.inr (Or.inr ⟨"Player", rfl, by decide⟩))

/-! ## C7 — modify-node merge and failure -/

/-- Lookup after a single JS-style property write. -/
theorem jsPropsSet_lookup : ∀ (ps : JsProps) (k : String) (v : JsValue) (j : String),
    jsPropsLookup (jsPropsSet ps k v) j
      = if k = j then some v else jsPropsLookup ps j
  | .nil, k, v, j => by
    by_cases h : k = j <;> simp [jsPropsSet, jsPropsLookup, h]
  | .cons k0 w rest, k, v, j => by
    have ih := jsPropsSet_lookup rest k v j
    by_cases h0 : k0 = k
    · subst h0
      by_cases hj : k0 = j <;> simp [jsPropsSet, jsPropsLookup, hj]
    · by_cases hj : k0 = j
      · subst hj
        have hkj : ¬ (k = k0) := fun hh => h0 hh.symm
        simp [jsPropsSet, jsPropsLookup, h0, hkj]
      · simp [jsPropsSet, jsPropsLookup, h0, hj, ih]

/-- A key outside a map's key list looks up to nothing. -/
theorem jsPropsLookup_none : ∀ (ps : JsProps) (k : String),
    (jsPropsKeys ps).all (fun j => ¬ j = k) = true → jsPropsLookup ps k = none
  | .nil, _, _ => rfl
  | .cons k0 _ rest, k, h => by
    simp only [jsPropsKeys, List.all_cons, Bool.and_eq_true, decide_eq_true_eq] at h
    simp [jsPropsLookup, h.1, jsPropsLookup_none rest k (by simpa using h.2)]

/-- Lookup through the spread-merge of a duplicate-free update object: new
bindings win, absent keys fall back to the old map. -/
theorem jsPropsMerge_lookup : ∀ (new old : JsProps) (k : String),
    distinctKeys (jsPropsKeys new) = true →
    jsPropsLookup (jsPropsMerge old new) k
      = (match jsPropsLookup new k with
         | some v => some v
         | none => jsPropsLookup old k)
  | .nil, old, k, _ => by simp [jsPropsMerge, jsPropsLookup]
  | .cons k0 v0 rest, old, k, hd => by
    simp only [jsPropsKeys, distinctKeys, Bool.and_eq_true] at hd
    have ih := jsPropsMerge_lookup rest (jsPropsSet old k0 v0) k hd.2
    simp only [jsPropsMerge, jsPropsLookup, ih, jsPropsSet_lookup]
    by_cases h : k0 = k
    · subst h
      have hnone : jsPropsLookup rest k0 = none := jsPropsLookup_none rest k0 hd.1
      simp [hnone]
    · rcases hr : jsPropsLookup rest k with _ | w <;> simp [hr, h]

/-- The find-and-update loop fails exactly on a miss, leaving everything
alone. -/
theorem modifyInList_none (ns : List SceneNode) (p : String) (u : NodeUpdates)
    (h : ∀ n ∈ ns, ¬ (getNodePath n = p)) : modifyInList ns p u = none := by
  induction ns with
  | nil => rfl
  | cons n rest ih =>
    have hn := h n (List.mem_cons_self n rest)
    have hrest := ih (fun m hm => h m (List.mem_cons_of_mem n hm))
    simp [modifyInList, hn, hrest]

/-- The find-and-update loop updates exactly the first node whose computed
path matches. -/
theorem modifyInList_found (pre : List SceneNode) (n : SceneNode) (suf : List SceneNode)
    (p : String) (u : NodeUpdates)
    (hpre : ∀ m ∈ pre, ¬ (getNodePath m = p)) (hn : getNodePath n = p) :
    modifyInList (pre ++ n :: suf) p u = some (pre ++ applyUpdates n u :: suf) := by
  induction pre with
  | nil => simp [modifyInList, hn]
  | cons m rest ih =>
    have hm := hpre m (List.mem_cons_self m rest)
    have hrest := ih (fun m2 hm2 => hpre m2 (List.mem_cons_of_mem m hm2))
    simp [modifyInList, hm, hrest]

/-- C7 — `modifyNode` on a path matching no node returns the boolean
failure `false` and leaves the document unchanged; on a matching path it
returns `true`, replaces (only) the first matching node by its field-updated
version, and the updated property map is the shallow merge of the supplied
properties into the existing ones: supplied keys win, unmentioned keys
survive. -/
theorem c7_modify_merge :
    (∀ (scene : TscnDocument) (p : String) (u : NodeUpdates),
      (∀ n ∈ scene.nodes, ¬ (getNodePath n = p)) →
      modifyNode scene p u = (false, scene))
    ∧ (∀ (scene : TscnDocument) (p : String) (u : NodeUpdates)
        (pre : List SceneNode) (n : SceneNode) (suf : List SceneNode),
        scene.nodes = pre ++ n :: suf →
        (∀ m ∈ pre, ¬ (getNodePath m = p)) → getNodePath n = p →
        modifyNode scene p u = (true,
          ⟨scene.header, scene.externalResources, scene.subResources,
           pre ++ applyUpdates n u :: suf, scene.connections⟩))
    ∧ (∀ (n : SceneNode) (u : NodeUpdates) (ps : JsProps) (k : String),
        u.properties = some ps → distinctKeys (jsPropsKeys ps) = true →
        jsPropsLookup (applyUpdates n u).properties k =
          (match jsPropsLookup ps k with
           | some v => some v
           | none => jsPropsLookup n.properties k)) := by
  refine ⟨?_, ?_, ?_⟩
  · intro scene p u h
    simp [modifyNode, modifyInList_none scene.nodes p u h]
  · intro scene p u pre n suf hsplit hpre hn
    simp [modifyNode, hsplit, modifyInList_found pre n suf p u hpre hn]
  · intro n u ps k hps hd
    simp [applyUpdates, hps, jsPropsMerge_lookup ps n.properties k hd]

/-- Witness for C7 at the claim's concrete scenario: modifying `P` with
`{speed: 300}` keeps `position` and gains `speed`; modifying the absent path
`Q` fails and leaves the document unchanged. -/
theorem c7_modify_merge_witness :
    (modifyNode
        ⟨⟨"gd_scene", .undef, .val 3, none⟩, [], [],
         [⟨"P", none, none, none, none, none, .undef, none,
           propsOf [("position",
             .obj (propsOf [("_type", .str "Vector2"), ("x", .num ⟨0, 0⟩), ("y", .num ⟨0, 0⟩)]))]⟩],
         []⟩
        "Q" ⟨none, none, none, some (propsOf [("speed", .num ⟨300, 0⟩)])⟩
      = (false,
        ⟨⟨"gd_scene", .undef, .val 3, none⟩, [], [],
         [⟨"P", none, none, none, none, none, .undef, none,
           propsOf [("position",
             .obj (propsOf [("_type", .str "Vector2"), ("x", .num ⟨0, 0⟩), ("y", .num ⟨0, 0⟩)]))]⟩],
         []⟩))
    ∧ jsPropsLookup
        (applyUpdates
          ⟨"P", none, none, none, none, none, .undef, none,
            propsOf [("position",
              .obj (propsOf [("_type", .str "Vector2"), ("x", .num ⟨0, 0⟩), ("y", .num ⟨0, 0⟩)]))]⟩
          ⟨none, none, none, some (propsOf [("speed", .num ⟨300, 0⟩)])⟩).properties "position"
      = some (.obj (propsOf [("_type", .str "Vector2"), ("x", .num ⟨0, 0⟩), ("y", .num ⟨0, 0⟩)])) := by
  constructor
  · refine c7_modify_merge.1 _ "Q" _ ?_
    intro n hn
    rw [List.mem_singleton] at hn
    subst hn
    decide
  · rw [c7_modify_merge.2.2 _ _ (propsOf [("speed", .num ⟨300, 0⟩)]) "position" rfl (by decide)]
    rfl

/-! ## List and string facts used by the round-trip development -/

/-- Dropping leading whitespace does nothing when the head is not space. -/
theorem dropWhile_eq_self_of_head (l : List Char)
    (h : ∀ c, l.head? = some c → isJsSpace c = false) : l.dropWhile isJsSpace = l := by
  cases l with
  | nil => rfl
  | cons c t => simp [List.dropWhile_cons, h c rfl]

/-- Trimming does nothing when neither end is whitespace. -/
theorem trimL_eq_self (l : List Char)
    (h1 : ∀ c, l.head? = some c → isJsSpace c = false)
    (h2 : ∀ c, l.getLast? = some c → isJsSpace c = false) : trimL l = l := by
  show ((l.dropWhile isJsSpace).reverse.dropWhile isJsSpace).reverse = l
  rw [dropWhile_eq_self_of_head l h1, dropWhile_eq_self_of_head, List.reverse_reverse]
  intro c hc
  exact h2 c (by rwa [← List.head?_reverse])

/-- Trimming eats one leading space. -/
theorem trimL_cons_space (c : Char) (l : List Char) (h : isJsSpace c = true) :
    trimL (c :: l) = trimL l := by
  show ((List.dropWhile isJsSpace (c :: l)).reverse.dropWhile isJsSpace).reverse = _
  rw [List.dropWhile_cons_of_pos (by simp [h])]
  rfl

/-- Dropping a prefix never lengthens. -/
theorem dropWhile_len_le {α : Type} (p : α → Bool) : ∀ l : List α,
    (l.dropWhile p).length ≤ l.length
  | [] => Nat.le_refl _
  | a :: l => by
    rw [List.dropWhile_cons]
    split
    · exact Nat.le_trans (dropWhile_len_le p l) (Nat.le_succ _)
    · exact Nat.le_refl _

/-- Trimming never lengthens. -/
theorem trimL_length_le (l : List Char) : (trimL l).length ≤ l.length := by
  show ((l.dropWhile isJsSpace).reverse.dropWhile isJsSpace).reverse.length ≤ _
  rw [List.length_reverse]
  calc ((l.dropWhile isJsSpace).reverse.dropWhile isJsSpace).length
      ≤ (l.dropWhile isJsSpace).reverse.length := dropWhile_len_le _ _
    _ = (l.dropWhile isJsSpace).length := List.length_reverse _
    _ ≤ l.length := dropWhile_len_le _ _

/-- Every segment the comma scanner returns is bounded by the input (plus
the pending segment). -/
theorem splitTopAux_len : ∀ (l : List Char) (prev : Option Char) (d : Int) (inS : Bool)
    (cur : List Char), ∀ seg ∈ splitTopAux l prev d inS cur,
    seg.length ≤ cur.length + l.length := by
  intro l
  induction l with
  | nil =>
    intro prev d inS cur seg hmem
    simp only [splitTopAux, List.mem_singleton] at hmem
    simp [hmem]
  | cons c rest ih =>
    intro prev d inS cur seg hmem
    have key : ∀ (p2 : Option Char) (d2 : Int) (i2 : Bool),
        (seg ∈ splitTopAux rest p2 d2 i2 (cur ++ [c]) →
          seg.length ≤ cur.length + (c :: rest).length)
        ∧ (seg ∈ cur :: splitTopAux rest p2 d2 i2 [] →
          seg.length ≤ cur.length + (c :: rest).length) := by
      intro p2 d2 i2
      constructor
      · intro h
        have := ih p2 d2 i2 (cur ++ [c]) seg h
        simp only [List.length_append, List.length_cons, List.length_nil] at this ⊢
        omega
      · intro h
        rcases List.mem_cons.mp h with rfl | h2
        · simp only [List.length_cons]; omega
        · have := ih p2 d2 i2 [] seg h2
          simp only [List.length_nil, List.length_cons] at this ⊢
          omega
    simp only [splitTopAux] at hmem
    split at hmem
    all_goals
      split at hmem
      · exact (key _ _ _).1 hmem
      · split at hmem
        · exact (key _ _ _).1 hmem
        · split at hmem
          · exact (key _ _ _).2 hmem
          · exact (key _ _ _).1 hmem

/-- Segment bound at the canonical entry point. -/
theorem splitTop_len (l : List Char) (seg : List Char) (h : seg ∈ splitTop l) :
    seg.length ≤ l.length := by
  have := splitTopAux_len l none 0 false [] seg h
  simpa using this

/-! ## Fuel independence of the value grammar -/

/-- Extensionality of `foldl` over a list. -/
theorem foldl_congr_fn {α β : Type} (l : List α) (f g : β → α → β) (b : β)
    (h : ∀ x ∈ l, ∀ acc, f acc x = g acc x) : l.foldl f b = l.foldl g b := by
  induction l generalizing b with
  | nil => rfl
  | cons a l ih =>
    simp only [List.foldl_cons]
    rw [h a (List.mem_cons_self a l) b]
    exact ih _ (fun x hx acc => h x (List.mem_cons_of_mem a hx) acc)

/-- The comma scanner always returns at least one segment. -/
theorem splitTopAux_ne_nil : ∀ (l : List Char) (prev : Option Char) (d : Int) (inS : Bool)
    (cur : List Char), splitTopAux l prev d inS cur ≠ [] := by
  intro l
  induction l with
  | nil => intro prev d inS cur; simp [splitTopAux]
  | cons c rest ih =>
    intro prev d inS cur
    simp only [splitTopAux]
    split
    all_goals
      split
      · exact ih _ _ _ _
      · split
        · exact ih _ _ _ _
        · split
          · simp
          · exact ih _ _ _ _

/-- `getLastD` of a nonempty list is a member. -/
theorem getLastD_mem {α : Type} : ∀ (l : List α) (d : α), l ≠ [] → l.getLastD d ∈ l
  | [], _, h => absurd rfl h
  | [a], _, _ => by simp
  | a :: b :: r, d, _ => by
    have h := getLastD_mem (b :: r) a (by simp)
    simp only [List.getLastD_cons] at h ⊢
    exact List.mem_cons_of_mem a h

/-- A `[`…`]`-delimited trimmed text has length at least 2, and its
bracket-stripped trimmed inner text is shorter by at least 2. -/
theorem bracketed_length (t : List Char) (a b : Char) (hab : ¬ (a = b))
    (h1 : startsWithL t [a] = true) (h2 : endsWithL t [b] = true) :
    2 ≤ t.length ∧ (trimL ((t.drop 1).dropLast)).length + 2 ≤ t.length := by
  have hlen2 : 2 ≤ t.length := by
    match t with
    | [] => simp [startsWithL] at h1
    | [c] =>
      simp only [startsWithL, Bool.and_eq_true, decide_eq_true_eq] at h1
      simp only [endsWithL, List.reverse_singleton, startsWithL, Bool.and_eq_true,
        decide_eq_true_eq] at h2
      exact absurd (h1.1.symm.trans h2.1) hab
    | c :: d :: r => simp
  refine ⟨hlen2, ?_⟩
  have hd : ((t.drop 1).dropLast).length = t.length - 1 - 1 := by
    simp [List.length_dropLast, List.length_drop]
  have := trimL_length_le ((t.drop 1).dropLast)
  omega

/-- Any sufficient fuel computes the canonical value parse (proved jointly
for the three mutually recursive parsers). -/
theorem parseFuel_congr : ∀ f : Nat,
    (∀ s : List Char, s.length < f → parseValueF f s = pvL s)
    ∧ (∀ s : List Char, s.length ≤ f → parseArrayF f s = paL s)
    ∧ (∀ s : List Char, s.length ≤ f → parseDictF f s = pdL s) := by
  intro f
  induction f using Nat.strong_induction_on with
  | _ f ih =>
    have hValue : ∀ s : List Char, s.length < f → parseValueF f s = pvL s := by
      intro s hs
      match f, hs with
      | f + 1, hs =>
        have hsf : s.length ≤ f := Nat.lt_succ_iff.mp hs
        have ht := trimL_length_le s
        have hArr : parseArrayF f (trimL s) = parseArrayF s.length (trimL s) := by
          rw [(ih f (Nat.lt_succ_self f)).2.1 _ (Nat.le_trans ht hsf)]
          rcases Nat.eq_zero_or_pos s.length with h0 | hpos
          · have htz : trimL s = [] := by
              have := trimL_length_le s
              rw [h0] at this
              exact List.eq_nil_of_length_eq_zero (Nat.le_zero.mp this)
            rw [h0, htz]
            rfl
          · exact ((ih s.length hs).2.1 _ ht).symm
        have hDict : parseDictF f (trimL s) = parseDictF s.length (trimL s) := by
          rw [(ih f (Nat.lt_succ_self f)).2.2 _ (Nat.le_trans ht hsf)]
          rcases Nat.eq_zero_or_pos s.length with h0 | hpos
          · have htz : trimL s = [] := by
              have := trimL_length_le s
              rw [h0] at this
              exact List.eq_nil_of_length_eq_zero (Nat.le_zero.mp this)
            rw [h0, htz]
            rfl
          · exact ((ih s.length hs).2.2 _ ht).symm
        show parseValueF (f + 1) s = parseValueF (s.length + 1) s
        simp only [parseValueF, hArr, hDict]
    refine ⟨hValue, ?_, ?_⟩
    · intro s hs
      match f, hValue, ih, hs with
      | 0, _, _, hs =>
        have hs0 : s = [] := List.eq_nil_of_length_eq_zero (Nat.le_zero.mp hs)
        subst hs0
        rfl
      | f + 1, hValue, ih, hs =>
        have hPvAny : ∀ g, g ≤ f + 1 → ∀ x : List Char, x.length < g →
            parseValueF g x = pvL x := by
          intro g hg x hx
          rcases Nat.lt_or_ge g (f + 1) with h | h
          · exact (ih g h).1 x hx
          · have : g = f + 1 := Nat.le_antisymm hg h
            subst this
            exact hValue x hx
        show parseArrayF (f + 1) s = parseArrayF (s.length + 1) s
        have htle : (trimL s).length ≤ s.length := trimL_length_le s
        have hPt : startsWithL (trimL s) ['['] = true → endsWithL (trimL s) [']'] = true →
            ∀ seg ∈ splitTop (trimL (((trimL s).drop 1).dropLast)),
              parseValueF f (trimL seg) = parseValueF s.length (trimL seg) := by
          intro hB1 hB2 seg hm
          rcases bracketed_length (trimL s) '[' ']' (by decide) hB1 hB2 with ⟨h2, hInner⟩
          have hb := splitTop_len _ seg hm
          have hb2 := trimL_length_le seg
          rw [hPvAny f (Nat.le_succ f) _ (by omega), hPvAny s.length hs _ (by omega)]
        have hlastmem : (splitTop (trimL (((trimL s).drop 1).dropLast))).getLastD []
            ∈ splitTop (trimL (((trimL s).drop 1).dropLast)) :=
          getLastD_mem _ []
            (splitTopAux_ne_nil (trimL (((trimL s).drop 1).dropLast)) none 0 false [])
        simp only [parseArrayF]
        split_ifs with hBr hEmp hLast
        · rfl
        · exact congrArg itemsOf (congrArg₂ (· ++ ·)
            (List.map_congr_left
              (fun seg hm => hPt hBr.1 hBr.2 seg (List.dropLast_subset _ hm))) rfl)
        · exact congrArg itemsOf (congrArg₂ (· ++ ·)
            (List.map_congr_left
              (fun seg hm => hPt hBr.1 hBr.2 seg (List.dropLast_subset _ hm)))
            (congrArg (fun x => [x]) (hPt hBr.1 hBr.2 _ hlastmem)))
        · rfl
    · intro s hs
      match f, hValue, ih, hs with
      | 0, _, _, hs =>
        have hs0 : s = [] := List.eq_nil_of_length_eq_zero (Nat.le_zero.mp hs)
        subst hs0
        rfl
      | f + 1, hValue, ih, hs =>
        have hPvAny : ∀ g, g ≤ f + 1 → ∀ x : List Char, x.length < g →
            parseValueF g x = pvL x := by
          intro g hg x hx
          rcases Nat.lt_or_ge g (f + 1) with h | h
          · exact (ih g h).1 x hx
          · have : g = f + 1 := Nat.le_antisymm hg h
            subst this
            exact hValue x hx
        show parseDictF (f + 1) s = parseDictF (s.length + 1) s
        have htle : (trimL s).length ≤ s.length := trimL_length_le s
        have hPair : startsWithL (trimL s) ['{'] = true → endsWithL (trimL s) ['}'] = true →
            ∀ pair : List Char, pair.length + 2 ≤ s.length → ∀ acc : JsProps,
            (match idxOfChar ':' pair with
             | none => acc
             | some ci =>
               jsPropsSet acc (jsToString (parseValueF f (trimL (pair.take ci))))
                 (parseValueF f (trimL (pair.drop (ci + 1)))))
            = (match idxOfChar ':' pair with
               | none => acc
               | some ci =>
                 jsPropsSet acc (jsToString (parseValueF s.length (trimL (pair.take ci))))
                   (parseValueF s.length (trimL (pair.drop (ci + 1))))) := by
          intro hB1 hB2 pair hp acc
          rcases hidx : idxOfChar ':' pair with _ | ci
          · simp
          · have htk : (trimL (pair.take ci)).length ≤ pair.length := by
              have h1 := trimL_length_le (pair.take ci)
              have h2 : (pair.take ci).length = min ci pair.length := List.length_take _ _
              omega
            have htd : (trimL (pair.drop (ci + 1))).length ≤ pair.length := by
              have h1 := trimL_length_le (pair.drop (ci + 1))
              have h2 : (pair.drop (ci + 1)).length = pair.length - (ci + 1) :=
                List.length_drop _ _
              omega
            have hk : parseValueF f (trimL (pair.take ci))
                = parseValueF s.length (trimL (pair.take ci)) := by
              rw [hPvAny f (Nat.le_succ f) _ (by omega), hPvAny s.length hs _ (by omega)]
            have hv : parseValueF f (trimL (pair.drop (ci + 1)))
                = parseValueF s.length (trimL (pair.drop (ci + 1))) := by
              rw [hPvAny f (Nat.le_succ f) _ (by omega), hPvAny s.length hs _ (by omega)]
            simp only [hk, hv]
        have hmemBound : startsWithL (trimL s) ['{'] = true → endsWithL (trimL s) ['}'] = true →
            (∀ seg ∈ (splitTop (trimL (((trimL s).drop 1).dropLast))).dropLast.map trimL,
              seg.length + 2 ≤ s.length)
            ∧ (trimL ((splitTop (trimL (((trimL s).drop 1).dropLast))).getLastD [])).length + 2
                ≤ s.length := by
          intro hB1 hB2
          rcases bracketed_length (trimL s) '{' '}' (by decide) hB1 hB2 with ⟨h2, hInner⟩
          constructor
          · intro seg hm
            rcases List.mem_map.mp hm with ⟨seg2, hseg2, rfl⟩
            have hb := splitTop_len _ seg2 (List.dropLast_subset _ hseg2)
            have hb2 := trimL_length_le seg2
            omega
          · have hne := splitTopAux_ne_nil (trimL (((trimL s).drop 1).dropLast)) none 0 false []
            have hb := splitTop_len _ _ (getLastD_mem _ [] hne)
            have hb2 := trimL_length_le
              ((splitTop (trimL (((trimL s).drop 1).dropLast))).getLastD [])
            omega
        simp only [parseDictF]
        split_ifs with hBr hEmp hLast
        · rfl
        · refine foldl_congr_fn _ _ _ _ ?_
          intro pair hm acc
          have hb : pair.length + 2 ≤ s.length := by
            rcases List.mem_append.mp hm with hm2 | hm2
            · exact (hmemBound hBr.1 hBr.2).1 pair hm2
            · simp at hm2
          exact hPair hBr.1 hBr.2 pair hb acc
        · refine foldl_congr_fn _ _ _ _ ?_
          intro pair hm acc
          have hb : pair.length + 2 ≤ s.length := by
            rcases List.mem_append.mp hm with hm2 | hm2
            · exact (hmemBound hBr.1 hBr.2).1 pair hm2
            · rw [List.mem_singleton] at hm2
              subst hm2
              exact (hmemBound hBr.1 hBr.2).2
          exact hPair hBr.1 hBr.2 pair hb acc
        · rfl

/-! ## The string-escaping round trip -/

/-- Single-character replacement distributes over append. -/
theorem replace1_append (a : Char) (rep : List Char) : ∀ l1 l2 : List Char,
    replace1 a rep (l1 ++ l2) = replace1 a rep l1 ++ replace1 a rep l2
  | [], _ => rfl
  | c :: l1, l2 => by
    simp only [List.cons_append, replace1]
    split <;> simp [replace1_append a rep l1 l2]

/-- A head that cannot start the pattern passes through. -/
theorem r2_cons_ne (a b : Char) (rep : List Char) (c : Char) (l : List Char) (h : ¬ (c = a)) :
    replace2 a b rep (c :: l) = c :: replace2 a b rep l := by
  cases l with
  | nil => rfl
  | cons d r => simp [replace2, h]

/-- The pattern itself is replaced. -/
theorem r2_pair (a b : Char) (rep : List Char) (l : List Char) :
    replace2 a b rep (a :: b :: l) = rep ++ replace2 a b rep l := by
  simp [replace2]

/-- A pattern head not followed by the pattern tail passes through. -/
theorem r2_head_only (a b : Char) (rep : List Char) (l : List Char)
    (h : ¬ (l.head? = some b)) : replace2 a b rep (a :: l) = a :: replace2 a b rep l := by
  cases l with
  | nil => rfl
  | cons d r =>
    have hd : ¬ (d = b) := by
      intro hdb
      exact h (by simp [hdb])
    simp [replace2, hd]

/-- One escaped character block. -/
theorem escapeL_cons (c : Char) (l : List Char) :
    escapeL (c :: l)
      = (if c = '\\' then ['\\', '\\'] else if c = '"' then ['\\', '"'] else [c])
        ++ escapeL l := by
  have hbq : ¬ (('\\' : Char) = '"') := by decide
  show replace1 '"' ['\\', '"'] (replace1 '\\' ['\\', '\\'] (c :: l)) = _
  by_cases h1 : c = '\\'
  · subst h1
    simp only [replace1, if_pos rfl, replace1_append, if_pos rfl, if_neg hbq]
    simp [escapeL]
  · by_cases h2 : c = '"'
    · subst h2
      simp only [replace1, if_neg h1, replace1_append]
      have : replace1 '"' ['\\', '"'] ['"'] = ['\\', '"'] := rfl
      simp [escapeL, replace1]
    · simp only [replace1, if_neg h1, replace1_append]
      simp [escapeL, replace1, h2]

/-- Escaping a nonempty string is nonempty. -/
theorem escapeL_ne_nil (c : Char) (l : List Char) : escapeL (c :: l) ≠ [] := by
  rw [escapeL_cons]
  split_ifs <;> simp

/-- Escaped text never starts with a bare quote. -/
theorem escapeL_head_ne_quote (l : List Char) : ¬ ((escapeL l).head? = some '"') := by
  cases l with
  | nil => simp [escapeL, replace1]
  | cons c r =>
    rw [escapeL_cons]
    split_ifs with h1 h2
    · show ¬ ((some '\\' : Option Char) = some '"')
      decide
    · show ¬ ((some '\\' : Option Char) = some '"')
      decide
    · show ¬ ((some c : Option Char) = some '"')
      intro hc
      exact h2 (Option.some.inj hc)

/-- The first unescaping pass recovers the quotes of escaped text. -/
theorem escape_stage1 : ∀ l : List Char,
    replace2 '\\' '"' ['"'] (escapeL l) = escMid l
  | [] => rfl
  | c :: l => by
    rw [escapeL_cons]
    by_cases h1 : c = '\\'
    · subst h1
      rw [if_pos rfl]
      show replace2 '\\' '"' ['"'] ('\\' :: '\\' :: escapeL l) = _
      rw [r2_head_only '\\' '"' ['"'] ('\\' :: escapeL l)
          (by show ¬ ((some '\\' : Option Char) = some '"'); decide),
        r2_head_only '\\' '"' ['"'] (escapeL l) (escapeL_head_ne_quote l),
        escape_stage1 l]
      simp [escMid]
    · by_cases h2 : c = '"'
      · subst h2
        rw [if_neg h1, if_pos rfl]
        show replace2 '\\' '"' ['"'] ('\\' :: '"' :: escapeL l) = _
        rw [r2_pair, escape_stage1 l]
        simp [escMid, h1]
      · rw [if_neg h1, if_neg h2]
        show replace2 '\\' '"' ['"'] (c :: escapeL l) = _
        rw [r2_cons_ne '\\' '"' ['"'] c (escapeL l) h1, escape_stage1 l]
        simp [escMid, h1]

/-- The second unescaping pass recovers the backslashes. -/
theorem escape_stage2 : ∀ l : List Char,
    replace2 '\\' '\\' ['\\'] (escMid l) = l
  | [] => rfl
  | c :: l => by
    by_cases h1 : c = '\\'
    · subst h1
      show replace2 '\\' '\\' ['\\'] (('\\' :: '\\' :: []) ++ escMid l) = _
      rw [List.cons_append, List.cons_append, List.nil_append, r2_pair, escape_stage2 l]
      rfl
    · show replace2 '\\' '\\' ['\\'] ((if c = '\\' then ['\\', '\\'] else [c]) ++ escMid l) = _
      rw [if_neg h1, List.cons_append, List.nil_append,
        r2_cons_ne '\\' '\\' ['\\'] c (escMid l) h1, escape_stage2 l]

/-- Unescaping inverts escaping on every string. -/
theorem unescape_escape (l : List Char) : unescapeL (escapeL l) = l := by
  show replace2 '\\' '\\' ['\\'] (replace2 '\\' '"' ['"'] (escapeL l)) = l
  rw [escape_stage1, escape_stage2]

/-- Every character of escaped text is a backslash or a source character. -/
theorem mem_escapeL : ∀ (l : List Char) (c : Char), c ∈ escapeL l → c = '\\' ∨ c ∈ l
  | [], c, h => by simp [escapeL, replace1] at h
  | a :: l, c, h => by
    rw [escapeL_cons] at h
    rcases List.mem_append.mp h with h2 | h2
    · split_ifs at h2 with g1 g2
      · simp at h2
        exact Or.inl h2
      · simp at h2
        rcases h2 with rfl | rfl
        · exact Or.inl rfl
        · rw [g2]
          exact Or.inr (List.mem_cons_self _ _)
      · simp at h2
        subst h2
        exact Or.inr (List.mem_cons_self _ _)
    · rcases mem_escapeL l c h2 with h3 | h3
      · exact Or.inl h3
      · exact Or.inr (List.mem_cons_of_mem a h3)

/-- `getLast?` of an append with nonempty right part. -/
theorem getLastQ_append {α : Type} : ∀ (l1 l2 : List α), l2 ≠ [] →
    (l1 ++ l2).getLast? = l2.getLast?
  | [], _, _ => by simp
  | a :: l1, l2, h => by
    have h2 : l1 ++ l2 ≠ [] := by
      simp only [ne_eq, List.append_eq_nil]
      rintro ⟨-, rfl⟩
      exact h rfl
    cases hl : l1 ++ l2 with
    | nil => exact absurd hl h2
    | cons b r =>
      rw [List.cons_append, hl, List.getLast?_cons_cons, ← hl, getLastQ_append l1 l2 h]

/-- Escaped text ends in a backslash only if the source did. -/
theorem escapeL_last : ∀ l : List Char, ¬ (l.getLast? = some '\\') →
    ¬ ((escapeL l).getLast? = some '\\')
  | [], _ => by simp [escapeL, replace1]
  | [c], h => by
    have hc : ¬ (c = '\\') := by
      intro hc
      apply h
      rw [hc]
      rfl
    rw [escapeL_cons]
    rcases eq_or_ne c '"' with rfl | hq
    · rw [if_neg hc, if_pos rfl]
      decide
    · rw [if_neg hc, if_neg hq]
      show ¬ (([c] ++ escapeL []).getLast? = some '\\')
      have he : ([c] ++ escapeL []).getLast? = some c := rfl
      rw [he]
      intro h2
      exact hc (Option.some.inj h2)
  | c :: d :: l, h => by
    have htail : ¬ ((d :: l).getLast? = some '\\') := by
      intro h2
      apply h
      rw [List.getLast?_cons_cons]
      exact h2
    rw [escapeL_cons, getLastQ_append _ _ (escapeL_ne_nil d l)]
    exact escapeL_last (d :: l) htail

/-- Unfolding the quote scan one character when the character is safe. -/
theorem noUnescQuote_cons (p : Option Char) (c : Char) (rest : List Char)
    (h : ¬ (c = '"' ∧ ¬ (p = some '\\'))) :
    noUnescQuote p (c :: rest) = noUnescQuote (some c) rest := by
  show (if c = '"' ∧ ¬ (p = some '\\') then false else noUnescQuote (some c) rest)
    = noUnescQuote (some c) rest
  exact if_neg h

/-- No quote in escaped text lacks its preceding backslash. -/
theorem noUnescQuote_escape : ∀ (l : List Char) (p : Option Char),
    noUnescQuote p (escapeL l) = true
  | [], _ => rfl
  | c :: l, p => by
    rw [escapeL_cons]
    by_cases h1 : c = '\\'
    · subst h1
      rw [if_pos rfl]
      show noUnescQuote p ('\\' :: '\\' :: escapeL l) = true
      rw [noUnescQuote_cons p '\\' _ (fun h => absurd h.1 (by decide)),
        noUnescQuote_cons (some '\\') '\\' _ (fun h => absurd h.1 (by decide))]
      exact noUnescQuote_escape l (some '\\')
    · by_cases h2 : c = '"'
      · subst h2
        rw [if_neg h1, if_pos rfl]
        show noUnescQuote p ('\\' :: '"' :: escapeL l) = true
        rw [noUnescQuote_cons p '\\' _ (fun h => absurd h.1 (by decide)),
          noUnescQuote_cons (some '\\') '"' _ (fun h => h.2 rfl)]
        exact noUnescQuote_escape l (some '"')
      · rw [if_neg h1, if_neg h2]
        show noUnescQuote p (c :: escapeL l) = true
        rw [noUnescQuote_cons p c _ (fun h => h2 h.1)]
        exact noUnescQuote_escape l (some c)

/-! ## The number round trip -/

/-- Digit characters are digits. -/
theorem digit_isDig (n : Nat) (h : n < 10) : isDig (digitChar n) = true := by
  interval_cases n <;> decide

/-- `digVal` inverts `digitChar`. -/
theorem digVal_digitChar (n : Nat) (h : n < 10) : digVal (digitChar n) = n := by
  interval_cases n <;> decide

/-- A digit character differs from any character outside the digit range. -/
theorem isDig_ne (c : Char) (hc : isDig c = true) (d : Char)
    (hd : ¬ (48 ≤ d.toNat ∧ d.toNat ≤ 57)) : ¬ (c = d) := by
  intro h
  subst h
  simp only [isDig, Bool.and_eq_true, decide_eq_true_eq] at hc
  exact hd hc

/-- Digit characters are not JS whitespace. -/
theorem isDig_not_space (c : Char) (hc : isDig c = true) : isJsSpace c = false := by
  simp only [isDig, Bool.and_eq_true, decide_eq_true_eq] at hc
  cases h2 : isJsSpace c
  · rfl
  · exfalso
    simp only [isJsSpace, Bool.or_eq_true, Bool.and_eq_true, decide_eq_true_eq] at h2
    omega

/-- A digit-or-sign-or-dot head character (everything a rendered number can
start with). -/
theorem numHead_ne (c : Char) (hc : c = '-' ∨ isDig c = true) (d : Char)
    (hd1 : ¬ (d = '-')) (hd2 : ¬ (48 ≤ d.toNat ∧ d.toNat ≤ 57)) : ¬ (c = d) := by
  rcases hc with rfl | hdig
  · intro h
    exact hd1 h.symm
  · exact isDig_ne c hdig d hd2

/-- A rendered number never equals a keyword literal. -/
theorem numStart_ne_lit (c : Char) (tl : List Char) (hc : c = '-' ∨ isDig c = true)
    (d : Char) (rest : List Char) (hd1 : ¬ (d = '-'))
    (hd2 : ¬ (48 ≤ d.toNat ∧ d.toNat ≤ 57)) : ¬ (c :: tl = d :: rest) := by
  intro h
  injection h with h1 _
  exact numHead_ne c hc d hd1 hd2 h1

/-- `startsWith` on cons lists forces equal heads. -/
theorem startsWith_cons_eq (c d : Char) (tl pt : List Char)
    (h : startsWithL (c :: tl) (d :: pt) = true) : c = d := by
  simp only [startsWithL, Bool.and_eq_true, decide_eq_true_eq] at h
  exact h.1

/-- All emitted digit characters are digits. -/
theorem natDigitsRevF_digits : ∀ (f n : Nat), ∀ c ∈ natDigitsRevF f n, isDig c = true
  | 0, _ => by intro c hc; simp [natDigitsRevF] at hc
  | f + 1, n => by
    intro c hc
    simp only [natDigitsRevF] at hc
    split at hc
    · simp only [List.mem_singleton] at hc
      subst hc
      exact digit_isDig n (by omega)
    · rcases List.mem_cons.mp hc with rfl | h2
      · exact digit_isDig (n % 10) (Nat.mod_lt _ (by omega))
      · exact natDigitsRevF_digits f (n / 10) c h2

/-- With fuel, the digit list is nonempty. -/
theorem natDigitsRevF_ne_nil (f n : Nat) (h : 0 < f) : natDigitsRevF f n ≠ [] := by
  cases f with
  | zero => omega
  | succ f =>
    simp only [natDigitsRevF]
    split <;> simp

/-- With sufficient fuel, the digits evaluate back to the number. -/
theorem natDigitsRevF_val : ∀ (f n : Nat), n < 10 ^ f →
    digitsValRev (natDigitsRevF f n) = n
  | 0, n, h => by
    simp only [pow_zero] at h
    simp only [natDigitsRevF, digitsValRev]
    omega
  | f + 1, n, h => by
    simp only [natDigitsRevF]
    split
    · simp only [digitsValRev]
      rw [digVal_digitChar n (by omega)]
      omega
    · have hdiv : n / 10 < 10 ^ f := by
        rw [Nat.div_lt_iff_lt_mul (by omega)]
        calc n < 10 ^ (f + 1) := h
          _ = 10 ^ f * 10 := by ring
      simp only [digitsValRev]
      rw [digVal_digitChar (n % 10) (Nat.mod_lt _ (by omega)),
        natDigitsRevF_val f (n / 10) hdiv]
      omega

/-- The canonical fuel is sufficient. -/
theorem n_lt_ten_pow (n : Nat) : n < 10 ^ (n + 1) :=
  calc n < 2 ^ n := Nat.lt_two_pow n
    _ ≤ 10 ^ n := Nat.pow_le_pow_left (by omega) n
    _ ≤ 10 ^ (n + 1) := Nat.pow_le_pow_right (by omega) (Nat.le_succ n)

/-- `digitsVal` peels the least significant digit. -/
theorem digitsVal_append1 (xs : List Char) (c : Char) :
    digitsVal (xs ++ [c]) = digitsVal xs * 10 + digVal c := by
  show (xs ++ [c]).foldl (fun acc c => acc * 10 + digVal c) 0 = _
  rw [List.foldl_append]
  rfl

/-- `digitsVal` of a reversed least-significant-first digit list. -/
theorem digitsVal_reverse : ∀ l : List Char, digitsVal l.reverse = digitsValRev l
  | [] => rfl
  | c :: r => by
    rw [List.reverse_cons, digitsVal_append1, digitsVal_reverse r]
    show digitsValRev r * 10 + digVal c = digVal c + 10 * digitsValRev r
    omega

/-- Leading zeros do not change the value. -/
theorem digitsVal_zeros : ∀ (k : Nat) (l : List Char),
    digitsVal (List.replicate k '0' ++ l) = digitsVal l
  | 0, _ => rfl
  | k + 1, l => by
    show digitsVal ('0' :: (List.replicate k '0' ++ l)) = digitsVal l
    have h1 : digitsVal ('0' :: (List.replicate k '0' ++ l))
        = digitsVal (List.replicate k '0' ++ l) := rfl
    rw [h1, digitsVal_zeros k l]

/-- `takeWhile` keeps a list all of whose elements pass. -/
theorem takeWhile_of_all {α : Type} (p : α → Bool) : ∀ l : List α,
    (∀ c ∈ l, p c = true) → l.takeWhile p = l
  | [], _ => rfl
  | c :: r, h => by
    rw [List.takeWhile_cons, if_pos (h c (List.mem_cons_self c r)),
      takeWhile_of_all p r (fun x hx => h x (List.mem_cons_of_mem c hx))]

/-- `takeWhile` stops exactly at the first failing element. -/
theorem takeWhile_append_stop {α : Type} (p : α → Bool) : ∀ (xs : List α) (y : α)
    (ys : List α), (∀ c ∈ xs, p c = true) → p y = false →
    (xs ++ y :: ys).takeWhile p = xs
  | [], y, ys, _, hy => by
    rw [List.nil_append, List.takeWhile_cons, if_neg (by simp [hy])]
  | x :: xs, y, ys, hx, hy => by
    rw [List.cons_append, List.takeWhile_cons, if_pos (hx x (List.mem_cons_self x xs)),
      takeWhile_append_stop p xs y ys (fun c hc => hx c (List.mem_cons_of_mem x hc)) hy]

/-- The element delivered by `getLast?` is a member. -/
theorem getLastQ_mem {α : Type} : ∀ (l : List α) (a : α), l.getLast? = some a → a ∈ l
  | [], _, h => by simp at h
  | [b], a, h => by
    have : some b = some a := h
    rw [List.mem_singleton]
    exact (Option.some.inj this).symm
  | b :: c :: r, a, h => by
    rw [List.getLast?_cons_cons] at h
    exact List.mem_cons_of_mem b (getLastQ_mem (c :: r) a h)

/-- `getLast?` is `none` only on the empty list. -/
theorem getLastQ_none {α : Type} : ∀ l : List α, l.getLast? = none → l = []
  | [], _ => rfl
  | a :: t, h => by
    rw [List.getLast?_cons] at h
    exact Option.noConfusion h

/-- The rendered natural number: nonempty, all digits, and evaluating back. -/
theorem natToStr_facts (n : Nat) :
    (natToStr n).data ≠ [] ∧ (∀ c ∈ (natToStr n).data, isDig c = true) ∧
      digitsVal (natToStr n).data = n := by
  have hd : (natToStr n).data = (natDigitsRevF (n + 1) n).reverse := rfl
  refine ⟨?_, ?_, ?_⟩
  · rw [hd]
    simp only [ne_eq, List.reverse_eq_nil_iff]
    exact natDigitsRevF_ne_nil (n + 1) n (by omega)
  · rw [hd]
    intro c hc
    exact natDigitsRevF_digits (n + 1) n c (List.mem_reverse.mp hc)
  · rw [hd, digitsVal_reverse]
    exact natDigitsRevF_val (n + 1) n (n_lt_ten_pow n)

/-- `parseInt` on a plain digit string. -/
theorem jsParseInt_digits (ds : List Char) (hne : ds ≠ [])
    (hall : ∀ c ∈ ds, isDig c = true) : jsParseInt ⟨ds⟩ = .val (digitsVal ds) := by
  cases ds with
  | nil => exact absurd rfl hne
  | cons c tl =>
    have hcd : isDig c = true := hall c (List.mem_cons_self c tl)
    simp only [jsParseInt]
    have htr : trimLeftL (c :: tl) = c :: tl :=
      dropWhile_eq_self_of_head _ (fun x hx => by
        have hxc : some c = some x := hx
        rw [← Option.some.inj hxc]
        exact isDig_not_space c hcd)
    simp only [htr]
    have hm : ¬ ((c :: tl).head? = some '-') := by
      intro h
      have hh : some c = some '-' := h
      exact isDig_ne c hcd '-' (by decide) (Option.some.inj hh)
    have hp : ¬ ((c :: tl).head? = some '-' ∨ (c :: tl).head? = some '+') := by
      rintro (h | h)
      · exact hm h
      · have hh : some c = some '+' := h
        exact isDig_ne c hcd '+' (by decide) (Option.some.inj hh)
    rw [if_neg hm, if_neg hp, takeWhile_of_all isDig (c :: tl) hall,
      if_neg (List.cons_ne_nil c tl), one_mul]

/-- `parseInt` on a minus sign followed by digits. -/
theorem jsParseInt_neg_digits (ds : List Char) (hne : ds ≠ [])
    (hall : ∀ c ∈ ds, isDig c = true) :
    jsParseInt ⟨'-' :: ds⟩ = .val (-(digitsVal ds : Int)) := by
  simp only [jsParseInt]
  have htr : trimLeftL ('-' :: ds) = '-' :: ds :=
    dropWhile_eq_self_of_head _ (fun x hx => by
      have hxc : some '-' = some x := hx
      rw [← Option.some.inj hxc]
      decide)
  simp only [htr]
  have hm : ('-' :: ds).head? = some '-' := rfl
  rw [if_pos hm, if_pos (Or.inl hm), List.tail_cons,
    takeWhile_of_all isDig ds hall, if_neg hne, neg_one_mul]

/-- `parseInt` inverts integer rendering. -/
theorem jsParseInt_intToStr (n : Int) : jsParseInt ⟨(intToStr n).data⟩ = .val n := by
  obtain ⟨hne, hall, hval⟩ := natToStr_facts n.natAbs
  by_cases hn : n < 0
  · have hdata : (intToStr n).data = '-' :: (natToStr n.natAbs).data := by
      simp only [intToStr, if_pos hn]
      rfl
    rw [hdata, jsParseInt_neg_digits _ hne hall, hval]
    congr 1
    omega
  · have hdata : (intToStr n).data = (natToStr n.natAbs).data := by
      simp only [intToStr, if_neg hn]
    rw [hdata, jsParseInt_digits _ hne hall, hval]
    congr 1
    omega

/-- Shape of a rendered integer: a sign-or-digit head, sign-or-digit
characters throughout, a digit last. -/
theorem intToStr_shape (n : Int) : ∃ c tl, (intToStr n).data = c :: tl
    ∧ (c = '-' ∨ isDig c = true)
    ∧ (∀ x ∈ (intToStr n).data, x = '-' ∨ isDig x = true)
    ∧ (∃ lc, (intToStr n).data.getLast? = some lc ∧ isDig lc = true) := by
  obtain ⟨hne, hall, -⟩ := natToStr_facts n.natAbs
  by_cases hn : n < 0
  · have hdata : (intToStr n).data = '-' :: (natToStr n.natAbs).data := by
      simp only [intToStr, if_pos hn]
      rfl
    refine ⟨'-', (natToStr n.natAbs).data, hdata, Or.inl rfl, ?_, ?_⟩
    · intro x hx
      rw [hdata] at hx
      rcases List.mem_cons.mp hx with rfl | h2
      · exact Or.inl rfl
      · exact Or.inr (hall x h2)
    · cases hds : (natToStr n.natAbs).data.getLast? with
      | none => exact absurd (getLastQ_none _ hds) hne
      | some lc =>
        refine ⟨lc, ?_, hall lc (getLastQ_mem _ lc hds)⟩
        rw [hdata]
        show (['-'] ++ (natToStr n.natAbs).data).getLast? = some lc
        rw [getLastQ_append _ _ hne]
        exact hds
  · have hdata : (intToStr n).data = (natToStr n.natAbs).data := by
      simp only [intToStr, if_neg hn]
    cases hds : (natToStr n.natAbs).data with
    | nil => exact absurd hds hne
    | cons c tl =>
      refine ⟨c, tl, by rw [hdata, hds], ?_, ?_, ?_⟩
      · exact Or.inr (hall c (by rw [hds]; exact List.mem_cons_self c tl))
      · intro x hx
        rw [hdata] at hx
        exact Or.inr (hall x hx)
      · cases hlast : (natToStr n.natAbs).data.getLast? with
        | none => exact absurd (getLastQ_none _ hlast) hne
        | some lc =>
          exact ⟨lc, by rw [hdata]; exact hlast, hall lc (getLastQ_mem _ lc hlast)⟩

/-- `isIntLit` on a list not starting with a minus. -/
theorem isIntLit_cons_ne (c : Char) (tl : List Char) (h : ¬ (c = '-')) :
    isIntLit (c :: tl) = (¬ (c :: tl = []) && (c :: tl).all isDig) := by
  unfold isIntLit
  split
  · rename_i heq
    injection heq with h1 _
    exact absurd h1 h
  · rfl

/-- `isIntLit` after a minus sign. -/
theorem isIntLit_neg (tl : List Char) :
    isIntLit ('-' :: tl) = (¬ (tl = []) && tl.all isDig) := rfl

/-- The integer-literal regex accepts every rendered integer. -/
theorem isIntLit_intToStr (n : Int) : isIntLit (intToStr n).data = true := by
  obtain ⟨hne, hall, -⟩ := natToStr_facts n.natAbs
  by_cases hn : n < 0
  · have hdata : (intToStr n).data = '-' :: (natToStr n.natAbs).data := by
      simp only [intToStr, if_pos hn]
      rfl
    rw [hdata, isIntLit_neg]
    simp only [Bool.and_eq_true, decide_eq_true_eq, List.all_eq_true]
    exact ⟨hne, hall⟩
  · have hdata : (intToStr n).data = (natToStr n.natAbs).data := by
      simp only [intToStr, if_neg hn]
    cases hds : (natToStr n.natAbs).data with
    | nil => exact absurd hds hne
    | cons c tl =>
      have hcd : isDig c = true := hall c (by rw [hds]; exact List.mem_cons_self c tl)
      rw [hdata, hds, isIntLit_cons_ne c tl (isDig_ne c hcd '-' (by decide))]
      simp only [Bool.and_eq_true, decide_eq_true_eq, List.all_eq_true]
      refine ⟨by simp, ?_⟩
      intro x hx
      exact hall x (by rw [hds]; exact hx)

/-- Normalization is the identity on a mantissa not divisible by ten. -/
theorem mkDec_eq_self (m : Int) (e : Nat) (h : ¬ (m % 10 = 0)) : mkDec m e = ⟨m, e⟩ := by
  cases e with
  | zero => rfl
  | succ e =>
    show mkDecAux m (e + 1) = _
    rw [mkDecAux, if_neg h]

/-- An integral decimal renders as its integer. -/
theorem decToString_exp0 (d : Dec) (h : d.exp = 0) : decToString d = intToStr d.man := by
  rw [decToString, if_pos h]

/-- The zero-padded digit block of the fractional rendering: nonempty integer
part, exact fraction length, digits throughout, value preserved. -/
theorem padded_facts (digs padded : List Char) (e : Nat) (hne : digs ≠ [])
    (hd : ∀ c ∈ digs, isDig c = true)
    (hpad : padded = if e + 2 ≤ digs.length then digs
      else List.replicate (e + 2 - digs.length) '0' ++ digs) :
    padded.take (padded.length - (e + 1)) ≠ []
    ∧ (padded.drop (padded.length - (e + 1))).length = e + 1
    ∧ (∀ c ∈ padded.take (padded.length - (e + 1)), isDig c = true)
    ∧ (∀ c ∈ padded.drop (padded.length - (e + 1)), isDig c = true)
    ∧ digitsVal (padded.take (padded.length - (e + 1))
        ++ padded.drop (padded.length - (e + 1))) = digitsVal digs := by
  have hdlen : 0 < digs.length := by
    cases digs with
    | nil => exact absurd rfl hne
    | cons a t => simp
  have hplen : e + 2 ≤ padded.length := by
    rw [hpad]
    split
    · omega
    · rw [List.length_append, List.length_replicate]
      omega
  have hpall : ∀ c ∈ padded, isDig c = true := by
    intro c hc
    rw [hpad] at hc
    split at hc
    · exact hd c hc
    · rcases List.mem_append.mp hc with h2 | h2
      · rw [List.eq_of_mem_replicate h2]
        decide
      · exact hd c h2
  refine ⟨?_, ?_, ?_, ?_, ?_⟩
  · intro hnil
    have : (padded.take (padded.length - (e + 1))).length = 0 := by rw [hnil]; rfl
    rw [List.length_take] at this
    omega
  · rw [List.length_drop]
    omega
  · intro c hc
    exact hpall c (List.take_subset _ _ hc)
  · intro c hc
    exact hpall c (List.drop_subset _ _ hc)
  · rw [List.take_append_drop, hpad]
    split
    · rfl
    · exact digitsVal_zeros _ digs

/-- The fractional rendering decomposes as sign, integer digits, a dot and
exactly `e + 1` fraction digits, jointly evaluating to the mantissa. -/
theorem decToString_frac (m : Int) (e : Nat) :
    ∃ ip fp : List Char,
      (decToString ⟨m, e + 1⟩).data = (if m < 0 then ['-'] else []) ++ ip ++ '.' :: fp
      ∧ ip ≠ [] ∧ fp.length = e + 1
      ∧ (∀ c ∈ ip, isDig c = true) ∧ (∀ c ∈ fp, isDig c = true)
      ∧ digitsVal (ip ++ fp) = m.natAbs := by
  obtain ⟨hne, hall, hval⟩ := natToStr_facts m.natAbs
  have hne2 : (natDigitsRev m.natAbs).reverse ≠ [] := hne
  have hall2 : ∀ c ∈ (natDigitsRev m.natAbs).reverse, isDig c = true := hall
  obtain ⟨hip_ne, hfp_len, hip_d, hfp_d, hdv⟩ :=
    padded_facts ((natDigitsRev m.natAbs).reverse)
      (if e + 1 + 1 ≤ ((natDigitsRev m.natAbs).reverse).length
        then (natDigitsRev m.natAbs).reverse
        else List.replicate (e + 1 + 1 - ((natDigitsRev m.natAbs).reverse).length) '0'
          ++ (natDigitsRev m.natAbs).reverse)
      e hne2 hall2 rfl
  refine ⟨_, _, ?_, hip_ne, hfp_len, hip_d, hfp_d, ?_⟩
  · simp only [decToString]
    rw [if_neg (by omega : ¬ (e + 1 = 0))]
    have hsign : (if m < 0 then "-" else "").data = (if m < 0 then ['-'] else []) := by
      split <;> rfl
    simp only [String.data_append, hsign, List.append_assoc, List.singleton_append]
  · rw [hdv]
    exact hval

/-- `parseFloat` on unsigned digits-dot-digits input. -/
theorem jsParseFloatL_core (ip fp : List Char) (hip : ip ≠ [])
    (hipd : ∀ c ∈ ip, isDig c = true) (hfpd : ∀ c ∈ fp, isDig c = true) :
    jsParseFloatL (ip ++ '.' :: fp) = some (mkDec (digitsVal (ip ++ fp)) fp.length) := by
  cases ip with
  | nil => exact absurd rfl hip
  | cons c ipt =>
    have hcd : isDig c = true := hipd c (List.mem_cons_self c ipt)
    simp only [jsParseFloatL, List.cons_append]
    have htr : trimLeftL (c :: (ipt ++ '.' :: fp)) = c :: (ipt ++ '.' :: fp) :=
      dropWhile_eq_self_of_head _ (fun x hx => by
        have hxc : some c = some x := hx
        rw [← Option.some.inj hxc]
        exact isDig_not_space c hcd)
    simp only [htr]
    have hm : ¬ ((c :: (ipt ++ '.' :: fp)).head? = some '-') := by
      intro h
      have hh : some c = some '-' := h
      exact isDig_ne c hcd '-' (by decide) (Option.some.inj hh)
    have hp : ¬ ((c :: (ipt ++ '.' :: fp)).head? = some '-'
        ∨ (c :: (ipt ++ '.' :: fp)).head? = some '+') := by
      rintro (h | h)
      · exact hm h
      · have hh : some c = some '+' := h
        exact isDig_ne c hcd '+' (by decide) (Option.some.inj hh)
    rw [if_neg hm, if_neg hp]
    have htake : List.takeWhile isDig (c :: (ipt ++ '.' :: fp)) = c :: ipt :=
      takeWhile_append_stop isDig (c :: ipt) '.' fp hipd (by decide)
    simp only [htake]
    have hdrop : List.drop (c :: ipt).length (c :: (ipt ++ '.' :: fp)) = '.' :: fp :=
      List.drop_left (c :: ipt) ('.' :: fp)
    simp only [hdrop]
    have hdot : ('.' :: fp).head? = some '.' := rfl
    rw [if_pos hdot, if_pos hdot]
    simp only [List.tail_cons, takeWhile_of_all isDig fp hfpd, List.drop_length]
    rw [if_neg (by rintro ⟨hh, -⟩; exact List.cons_ne_nil c ipt hh)]
    rw [if_neg (by rintro (hh | hh) <;> exact Option.noConfusion hh)]
    rw [one_mul]
    simp only [List.cons_append]

/-- `parseFloat` on a negated digits-dot-digits input. -/
theorem jsParseFloatL_core_neg (ip fp : List Char) (hip : ip ≠ [])
    (hipd : ∀ c ∈ ip, isDig c = true) (hfpd : ∀ c ∈ fp, isDig c = true) :
    jsParseFloatL ('-' :: (ip ++ '.' :: fp))
      = some (mkDec (-(digitsVal (ip ++ fp) : Int)) fp.length) := by
  cases ip with
  | nil => exact absurd rfl hip
  | cons c ipt =>
    have hcd : isDig c = true := hipd c (List.mem_cons_self c ipt)
    simp only [jsParseFloatL, List.cons_append]
    have htr : trimLeftL ('-' :: (c :: (ipt ++ '.' :: fp)))
        = '-' :: (c :: (ipt ++ '.' :: fp)) :=
      dropWhile_eq_self_of_head _ (fun x hx => by
        have hxc : some '-' = some x := hx
        rw [← Option.some.inj hxc]
        decide)
    simp only [htr]
    have hm : ('-' :: (c :: (ipt ++ '.' :: fp))).head? = some '-' := rfl
    rw [if_pos hm, if_pos (Or.inl hm), List.tail_cons]
    have htake : List.takeWhile isDig (c :: (ipt ++ '.' :: fp)) = c :: ipt :=
      takeWhile_append_stop isDig (c :: ipt) '.' fp hipd (by decide)
    simp only [htake]
    have hdrop : List.drop (c :: ipt).length (c :: (ipt ++ '.' :: fp)) = '.' :: fp :=
      List.drop_left (c :: ipt) ('.' :: fp)
    simp only [hdrop]
    have hdot : ('.' :: fp).head? = some '.' := rfl
    rw [if_pos hdot, if_pos hdot]
    simp only [List.tail_cons, takeWhile_of_all isDig fp hfpd, List.drop_length]
    rw [if_neg (by rintro ⟨hh, -⟩; exact List.cons_ne_nil c ipt hh)]
    rw [if_neg (by rintro (hh | hh) <;> exact Option.noConfusion hh)]
    rw [neg_one_mul]
    simp only [List.cons_append]

/-- `parseFloat` on unsigned plain digits. -/
theorem jsParseFloatL_int_core (ds : List Char) (hne : ds ≠ [])
    (hall : ∀ c ∈ ds, isDig c = true) :
    jsParseFloatL ds = some ⟨(digitsVal ds : Int), 0⟩ := by
  cases ds with
  | nil => exact absurd rfl hne
  | cons c tl =>
    have hcd : isDig c = true := hall c (List.mem_cons_self c tl)
    simp only [jsParseFloatL]
    have htr : trimLeftL (c :: tl) = c :: tl :=
      dropWhile_eq_self_of_head _ (fun x hx => by
        have hxc : some c = some x := hx
        rw [← Option.some.inj hxc]
        exact isDig_not_space c hcd)
    simp only [htr]
    have hm : ¬ ((c :: tl).head? = some '-') := by
      intro h
      have hh : some c = some '-' := h
      exact isDig_ne c hcd '-' (by decide) (Option.some.inj hh)
    have hp : ¬ ((c :: tl).head? = some '-' ∨ (c :: tl).head? = some '+') := by
      rintro (h | h)
      · exact hm h
      · have hh : some c = some '+' := h
        exact isDig_ne c hcd '+' (by decide) (Option.some.inj hh)
    rw [if_neg hm, if_neg hp]
    simp only [takeWhile_of_all isDig (c :: tl) hall]
    have hdrop : List.drop (c :: tl).length (c :: tl) = [] := List.drop_length (c :: tl)
    simp only [hdrop]
    have hdot : ¬ (([] : List Char).head? = some '.') := fun h => Option.noConfusion h
    rw [if_neg hdot, if_neg hdot]
    rw [if_neg (by rintro ⟨hh, -⟩; exact List.cons_ne_nil c tl hh)]
    rw [if_neg (by rintro (hh | hh) <;> exact Option.noConfusion hh)]
    rw [one_mul, List.append_nil]
    rfl

/-- `parseFloat` on negated plain digits. -/
theorem jsParseFloatL_int_core_neg (ds : List Char) (hne : ds ≠ [])
    (hall : ∀ c ∈ ds, isDig c = true) :
    jsParseFloatL ('-' :: ds) = some ⟨-(digitsVal ds : Int), 0⟩ := by
  cases ds with
  | nil => exact absurd rfl hne
  | cons c tl =>
    have hcd : isDig c = true := hall c (List.mem_cons_self c tl)
    simp only [jsParseFloatL]
    have htr : trimLeftL ('-' :: c :: tl) = '-' :: c :: tl :=
      dropWhile_eq_self_of_head _ (fun x hx => by
        have hxc : some '-' = some x := hx
        rw [← Option.some.inj hxc]
        decide)
    simp only [htr]
    have hm : ('-' :: c :: tl).head? = some '-' := rfl
    rw [if_pos hm, if_pos (Or.inl hm), List.tail_cons]
    simp only [takeWhile_of_all isDig (c :: tl) hall]
    have hdrop : List.drop (c :: tl).length (c :: tl) = [] := List.drop_length (c :: tl)
    simp only [hdrop]
    have hdot : ¬ (([] : List Char).head? = some '.') := fun h => Option.noConfusion h
    rw [if_neg hdot, if_neg hdot]
    rw [if_neg (by rintro ⟨hh, -⟩; exact List.cons_ne_nil c tl hh)]
    rw [if_neg (by rintro (hh | hh) <;> exact Option.noConfusion hh)]
    rw [neg_one_mul, List.append_nil]
    rfl

/-- `parseFloat` inverts integer rendering. -/
theorem jsParseFloatL_int (n : Int) : jsParseFloatL (intToStr n).data = some ⟨n, 0⟩ := by
  obtain ⟨hne, hall, hval⟩ := natToStr_facts n.natAbs
  by_cases hn : n < 0
  · have hdata : (intToStr n).data = '-' :: (natToStr n.natAbs).data := by
      simp only [intToStr, if_pos hn]
      rfl
    rw [hdata, jsParseFloatL_int_core_neg _ hne hall, hval]
    have hcast : -(n.natAbs : Int) = n := by omega
    rw [hcast]
  · have hdata : (intToStr n).data = (natToStr n.natAbs).data := by
      simp only [intToStr, if_neg hn]
    rw [hdata, jsParseFloatL_int_core _ hne hall, hval]
    have hcast : (n.natAbs : Int) = n := by omega
    rw [hcast]

/-- `parseFloat` inverts the fractional rendering. -/
theorem jsParseFloatL_frac (m : Int) (e : Nat) (hm : ¬ (m % 10 = 0)) :
    jsParseFloatL (decToString ⟨m, e + 1⟩).data = some ⟨m, e + 1⟩ := by
  obtain ⟨ip, fp, hL, hip, hfplen, hipd, hfpd, hdv⟩ := decToString_frac m e
  by_cases hneg : m < 0
  · rw [if_pos hneg, List.append_assoc, List.singleton_append] at hL
    rw [hL, jsParseFloatL_core_neg ip fp hip hipd hfpd, hdv, hfplen]
    have hcast : -(m.natAbs : Int) = m := by omega
    rw [hcast, mkDec_eq_self m (e + 1) hm]
  · rw [if_neg hneg, List.nil_append] at hL
    rw [hL, jsParseFloatL_core ip fp hip hipd hfpd, hdv, hfplen]
    have hcast : (m.natAbs : Int) = m := by omega
    rw [hcast, mkDec_eq_self m (e + 1) hm]

/-- `parseFloat` inverts decimal rendering on every normalized decimal. -/
theorem jsParseFloatL_decToString (d : Dec) (h : isNormDec d = true) :
    jsParseFloatL (decToString d).data = some d := by
  obtain ⟨man, exp⟩ := d
  cases exp with
  | zero =>
    rw [decToString_exp0 ⟨man, 0⟩ rfl]
    exact jsParseFloatL_int man
  | succ e =>
    simp only [isNormDec, Bool.or_eq_true, decide_eq_true_eq] at h
    rcases h with h | h
    · exact absurd h (by omega)
    · exact jsParseFloatL_frac man e h

/-- The decimal-literal regex core accepts digits-dot-digits. -/
theorem decLitCore_eval (ip fp : List Char) (hipne : ip ≠ [])
    (hipd : ∀ c ∈ ip, isDig c = true) (hfpne : fp ≠ [])
    (hfpd : ∀ c ∈ fp, isDig c = true) : decLitCore (ip ++ '.' :: fp) = true := by
  unfold decLitCore
  simp only [takeWhile_append_stop isDig ip '.' fp hipd (by decide), List.drop_left]
  simp only [Bool.and_eq_true, decide_eq_true_eq, List.all_eq_true]
  exact ⟨⟨hipne, hfpne⟩, hfpd⟩

/-- `isDecLit` on a list not starting with a minus. -/
theorem isDecLit_cons_ne (c : Char) (tl : List Char) (h : ¬ (c = '-')) :
    isDecLit (c :: tl) = decLitCore (c :: tl) := by
  unfold isDecLit
  split
  · rename_i heq
    injection heq with h1 _
    exact absurd h1 h
  · rfl

/-- `isDecLit` after a minus sign. -/
theorem isDecLit_neg (tl : List Char) : isDecLit ('-' :: tl) = decLitCore tl := rfl

/-- The decimal-literal regex accepts every fractional rendering. -/
theorem isDecLit_decToString (m : Int) (e : Nat) :
    isDecLit (decToString ⟨m, e + 1⟩).data = true := by
  obtain ⟨ip, fp, hL, hip, hfplen, hipd, hfpd, -⟩ := decToString_frac m e
  have hfpne : fp ≠ [] := by
    intro h
    rw [h, List.length_nil] at hfplen
    omega
  by_cases hneg : m < 0
  · rw [if_pos hneg, List.append_assoc, List.singleton_append] at hL
    rw [hL, isDecLit_neg]
    exact decLitCore_eval ip fp hip hipd hfpne hfpd
  · rw [if_neg hneg, List.nil_append] at hL
    cases hipc : ip with
    | nil => exact absurd hipc hip
    | cons c ipt =>
      rw [hipc] at hL hipd
      have hcd : isDig c = true := hipd c (List.mem_cons_self c ipt)
      rw [hL, List.cons_append, isDecLit_cons_ne c _ (isDig_ne c hcd '-' (by decide))]
      exact decLitCore_eval (c :: ipt) fp (List.cons_ne_nil c ipt) hipd hfpne hfpd

/-- The integer-literal regex rejects every fractional rendering. -/
theorem isIntLit_decToString_false (m : Int) (e : Nat) :
    isIntLit (decToString ⟨m, e + 1⟩).data = false := by
  obtain ⟨ip, fp, hL, hip, -, hipd, -, -⟩ := decToString_frac m e
  by_cases hneg : m < 0
  · rw [if_pos hneg, List.append_assoc, List.singleton_append] at hL
    rw [hL, isIntLit_neg]
    simp only [List.all_append, List.all_cons, show isDig '.' = false from rfl,
      Bool.false_and, Bool.and_false]
  · rw [if_neg hneg, List.nil_append] at hL
    cases hipc : ip with
    | nil => exact absurd hipc hip
    | cons c ipt =>
      rw [hipc] at hL hipd
      have hcd : isDig c = true := hipd c (List.mem_cons_self c ipt)
      rw [hL, List.cons_append, isIntLit_cons_ne c _ (isDig_ne c hcd '-' (by decide))]
      simp only [List.all_cons, List.all_append, show isDig '.' = false from rfl,
        Bool.false_and, Bool.and_false]

/-- Shape of a rendered normalized decimal: sign-or-digit head, digit last. -/
theorem decToString_shape (d : Dec) : ∃ c tl, (decToString d).data = c :: tl
    ∧ (c = '-' ∨ isDig c = true)
    ∧ (∃ lc, (decToString d).data.getLast? = some lc ∧ isDig lc = true) := by
  obtain ⟨man, exp⟩ := d
  cases exp with
  | zero =>
    have hds : decToString ⟨man, 0⟩ = intToStr man := decToString_exp0 _ rfl
    obtain ⟨c, tl, hl, hc, -, lc, hlast, hlc⟩ := intToStr_shape man
    rw [hds]
    exact ⟨c, tl, hl, hc, lc, hlast, hlc⟩
  | succ e =>
    obtain ⟨ip, fp, hL, hip, hfplen, hipd, hfpd, -⟩ := decToString_frac man e
    have hfpne : fp ≠ [] := by
      intro h
      rw [h, List.length_nil] at hfplen
      omega
    have hlastL : ∃ lc, (decToString ⟨man, e + 1⟩).data.getLast? = some lc
        ∧ isDig lc = true := by
      cases hfl : fp.getLast? with
      | none => exact absurd (getLastQ_none fp hfl) hfpne
      | some lc =>
        refine ⟨lc, ?_, hfpd lc (getLastQ_mem fp lc hfl)⟩
        rw [hL, getLastQ_append _ _ (List.cons_ne_nil '.' fp)]
        show (['.'] ++ fp).getLast? = some lc
        rw [getLastQ_append _ _ hfpne]
        exact hfl
    by_cases hneg : man < 0
    · rw [if_pos hneg, List.append_assoc, List.singleton_append] at hL
      exact ⟨'-', ip ++ '.' :: fp, hL, Or.inl rfl, hlastL⟩
    · rw [if_neg hneg, List.nil_append] at hL
      cases hipc : ip with
      | nil => exact absurd hipc hip
      | cons c ipt =>
        rw [hipc] at hL hipd
        rw [List.cons_append] at hL
        exact ⟨c, ipt ++ '.' :: fp, hL,
          Or.inr (hipd c (List.mem_cons_self c ipt)), hlastL⟩

/-- `parseValue` on a rendered normalized decimal recovers the number. -/
theorem pvL_num (d : Dec) (h : isNormDec d = true) :
    pvL (decToString d).data = .num d := by
  obtain ⟨c, tl, hl, hc, lc, hlast, hlc⟩ := decToString_shape d
  have htrim : trimL (decToString d).data = (decToString d).data :=
    trimL_eq_self _
      (fun x hx => by
        rw [hl] at hx
        have hxc : some c = some x := hx
        rw [← Option.some.inj hxc]
        rcases hc with rfl | hdig
        · decide
        · exact isDig_not_space c hdig)
      (fun x hx => by
        rw [hlast] at hx
        rw [← Option.some.inj hx]
        exact isDig_not_space lc hlc)
  show parseValueF ((decToString d).data.length + 1) (decToString d).data = .num d
  simp only [parseValueF]
  simp only [htrim]
  have h1 : ¬ ((decToString d).data = "null".data) := by
    rw [hl]
    exact numStart_ne_lit c tl hc 'n' "ull".data (by decide) (by decide)
  have h2 : ¬ ((decToString d).data = "true".data) := by
    rw [hl]
    exact numStart_ne_lit c tl hc 't' "rue".data (by decide) (by decide)
  have h3 : ¬ ((decToString d).data = "false".data) := by
    rw [hl]
    exact numStart_ne_lit c tl hc 'f' "alse".data (by decide) (by decide)
  have h4 : ¬ (startsWithL (decToString d).data ['"'] = true
      ∧ endsWithL (decToString d).data ['"'] = true) := by
    rintro ⟨ha, -⟩
    rw [hl] at ha
    exact numHead_ne c hc '"' (by decide) (by decide) (startsWith_cons_eq c '"' tl [] ha)
  rw [if_neg h1, if_neg h2, if_neg h3, if_neg h4]
  obtain ⟨man, exp⟩ := d
  cases exp with
  | zero =>
    have hds : decToString ⟨man, 0⟩ = intToStr man := decToString_exp0 _ rfl
    rw [hds, if_pos (isIntLit_intToStr man), jsParseInt_intToStr man]
  | succ e =>
    have h5 : ¬ (isIntLit (decToString ⟨man, e + 1⟩).data = true) := by
      rw [isIntLit_decToString_false man e]
      exact Bool.false_ne_true
    rw [if_neg h5, if_pos (isDecLit_decToString man e),
      jsParseFloatL_decToString ⟨man, e + 1⟩ h]

/-- Distinct heads give distinct lists. -/
theorem cons_ne_of_head {c d : Char} (tl rest : List Char) (h : ¬ (c = d)) :
    ¬ (c :: tl = d :: rest) := by
  intro he
  injection he with h1 _
  exact h h1

/-- The rendering of a non-Godot-looking string is its quoted escape. -/
theorem serStr_quoted (s : String) (hg : isGodotValueString s = false) :
    (serStr s).data = '"' :: (escapeL s.data ++ ['"']) := by
  unfold serStr
  rw [if_neg (by rw [hg]; exact Bool.false_ne_true)]
  simp only [String.data_append, List.append_assoc, List.singleton_append]
  rfl

/-- `parseValue` recovers a quoted escaped string. -/
theorem pvL_str (s : String) (hg : isGodotValueString s = false) :
    pvL (serStr s).data = .str s := by
  have hser := serStr_quoted s hg
  have htrim : trimL (serStr s).data = (serStr s).data :=
    trimL_eq_self _
      (fun x hx => by
        rw [hser] at hx
        have hxc : some '"' = some x := hx
        rw [← Option.some.inj hxc]
        decide)
      (fun x hx => by
        rw [hser] at hx
        have h2 : (('"' :: (escapeL s.data ++ ['"'])) : List Char).getLast? = some '"' := by
          show (('"' :: escapeL s.data) ++ ['"']).getLast? = some '"'
          rw [getLastQ_append _ _ (List.cons_ne_nil '"' [])]
          rfl
        rw [h2] at hx
        rw [← Option.some.inj hx]
        decide)
  show parseValueF ((serStr s).data.length + 1) (serStr s).data = .str s
  simp only [parseValueF]
  simp only [htrim]
  have h1 : ¬ ((serStr s).data = "null".data) := by
    rw [hser]
    exact cons_ne_of_head _ "ull".data (by decide)
  have h2 : ¬ ((serStr s).data = "true".data) := by
    rw [hser]
    exact cons_ne_of_head _ "rue".data (by decide)
  have h3 : ¬ ((serStr s).data = "false".data) := by
    rw [hser]
    exact cons_ne_of_head _ "alse".data (by decide)
  have hsw : startsWithL (serStr s).data ['"'] = true := by
    rw [hser]
    simp [startsWithL]
  have hew : endsWithL (serStr s).data ['"'] = true := by
    rw [hser]
    show startsWithL (('"' :: (escapeL s.data ++ ['"'])) : List Char).reverse
      ['"'].reverse = true
    have hrev : (('"' :: (escapeL s.data ++ ['"'])) : List Char).reverse
        = '"' :: (escapeL s.data).reverse ++ ['"'] := by
      show (('"' :: escapeL s.data) ++ ['"']).reverse = _
      rw [List.reverse_append, List.reverse_cons]
      simp
    rw [hrev]
    simp [startsWithL]
  rw [if_neg h1, if_neg h2, if_neg h3, if_pos ⟨hsw, hew⟩]
  have hdrop : ((serStr s).data.drop 1) = escapeL s.data ++ ['"'] := by
    rw [hser]
    rfl
  have hdl : (escapeL s.data ++ ['"']).dropLast = escapeL s.data := by
    rw [List.dropLast_concat]
  rw [hdrop, hdl, unescape_escape]

/-! ## Transparency of the top-level comma scanner -/

/-- One unfolding step of the scanner. -/
theorem splitTopAux_cons (c : Char) (rest : List Char) (prev : Option Char) (d : Int)
    (inStr : Bool) (cur : List Char) :
    splitTopAux (c :: rest) prev d inStr cur =
      (let inStr2 := if c = '"' ∧ ¬ (prev = some '\\') then ! inStr else inStr
       if ¬ inStr2 ∧ (c = '[' ∨ c = '{' ∨ c = '(') then
         splitTopAux rest (some c) (d + 1) inStr2 (cur ++ [c])
       else if ¬ inStr2 ∧ (c = ']' ∨ c = '}' ∨ c = ')') then
         splitTopAux rest (some c) (d - 1) inStr2 (cur ++ [c])
       else if ¬ inStr2 ∧ c = ',' ∧ d = 0 then
         cur :: splitTopAux rest (some c) d inStr2 []
       else splitTopAux rest (some c) d inStr2 (cur ++ [c])) := rfl

/-- Scanner step: an opening bracket outside a string. -/
theorem stepOpen (c : Char) (hc : c = '[' ∨ c = '{' ∨ c = '(') (rest : List Char)
    (prev : Option Char) (d : Int) (cur : List Char) :
    splitTopAux (c :: rest) prev d false cur
      = splitTopAux rest (some c) (d + 1) false (cur ++ [c]) := by
  rw [splitTopAux_cons]
  have hq : ¬ (c = '"' ∧ ¬ (prev = some '\\')) := by
    rintro ⟨h, -⟩
    rcases hc with rfl | rfl | rfl <;> exact absurd h (by decide)
  dsimp only
  rw [if_neg hq, if_pos ⟨Bool.false_ne_true, hc⟩]

/-- Scanner step: a closing bracket outside a string. -/
theorem stepClose (c : Char) (hc : c = ']' ∨ c = '}' ∨ c = ')') (rest : List Char)
    (prev : Option Char) (d : Int) (cur : List Char) :
    splitTopAux (c :: rest) prev d false cur
      = splitTopAux rest (some c) (d - 1) false (cur ++ [c]) := by
  rw [splitTopAux_cons]
  have hq : ¬ (c = '"' ∧ ¬ (prev = some '\\')) := by
    rintro ⟨h, -⟩
    rcases hc with rfl | rfl | rfl <;> exact absurd h (by decide)
  have hop : ¬ ((¬ (false = true)) ∧ (c = '[' ∨ c = '{' ∨ c = '(')) := by
    rintro ⟨-, h⟩
    rcases hc with rfl | rfl | rfl <;>
      rcases h with h | h | h <;> exact absurd h (by decide)
  dsimp only
  rw [if_neg hq, if_neg hop, if_pos ⟨Bool.false_ne_true, hc⟩]

/-- Scanner step: a top-level comma outside a string ends the segment. -/
theorem stepCommaTop (rest : List Char) (prev : Option Char) (cur : List Char) :
    splitTopAux (',' :: rest) prev 0 false cur
      = cur :: splitTopAux rest (some ',') 0 false [] := by
  rw [splitTopAux_cons]
  have hq : ¬ ((',' : Char) = '"' ∧ ¬ (prev = some '\\')) := by
    rintro ⟨h, -⟩
    exact absurd h (by decide)
  have hop : ¬ ((¬ (false = true)) ∧ ((',' : Char) = '[' ∨ (',' : Char) = '{'
      ∨ (',' : Char) = '(')) := by
    rintro ⟨-, h | h | h⟩ <;> exact absurd h (by decide)
  have hcl : ¬ ((¬ (false = true)) ∧ ((',' : Char) = ']' ∨ (',' : Char) = '}'
      ∨ (',' : Char) = ')')) := by
    rintro ⟨-, h | h | h⟩ <;> exact absurd h (by decide)
  dsimp only
  rw [if_neg hq, if_neg hop, if_neg hcl, if_pos ⟨Bool.false_ne_true, rfl, rfl⟩]

/-- Scanner step: any other character outside a string passes through. -/
theorem stepOther (c : Char) (hq2 : ¬ (c = '"')) (hop2 : ¬ (c = '[' ∨ c = '{' ∨ c = '('))
    (hcl2 : ¬ (c = ']' ∨ c = '}' ∨ c = ')')) (rest : List Char) (prev : Option Char)
    (d : Int) (cur : List Char) (hcm : ¬ (c = ',' ∧ d = 0)) :
    splitTopAux (c :: rest) prev d false cur
      = splitTopAux rest (some c) d false (cur ++ [c]) := by
  rw [splitTopAux_cons]
  have hq : ¬ (c = '"' ∧ ¬ (prev = some '\\')) := fun h => hq2 h.1
  dsimp only
  rw [if_neg hq, if_neg (fun h => hop2 h.2), if_neg (fun h => hcl2 h.2),
    if_neg (fun h => hcm ⟨h.2.1, h.2.2⟩)]

/-- Scanner step: an opening quote enters string mode. -/
theorem stepQuoteOpen (rest : List Char) (prev : Option Char) (d : Int) (cur : List Char)
    (hprev : ¬ (prev = some '\\')) :
    splitTopAux ('"' :: rest) prev d false cur
      = splitTopAux rest (some '"') d true (cur ++ ['"']) := by
  rw [splitTopAux_cons]
  have htog : (if ('"' : Char) = '"' ∧ ¬ (prev = some '\\') then !false else false)
      = true := by
    rw [if_pos ⟨rfl, hprev⟩]
    rfl
  dsimp only
  rw [htog, if_neg (fun h => h.1 rfl), if_neg (fun h => h.1 rfl),
    if_neg (fun h => h.1 rfl)]

/-- Scanner step: inside a string, a non-terminating character passes through. -/
theorem stepStr (c : Char) (rest : List Char) (prev : Option Char) (d : Int)
    (cur : List Char) (hq : ¬ (c = '"' ∧ ¬ (prev = some '\\'))) :
    splitTopAux (c :: rest) prev d true cur
      = splitTopAux rest (some c) d true (cur ++ [c]) := by
  rw [splitTopAux_cons]
  dsimp only
  rw [if_neg hq, if_neg (fun h => h.1 rfl), if_neg (fun h => h.1 rfl),
    if_neg (fun h => h.1 rfl)]

/-- Scanner step: an unescaped quote leaves string mode. -/
theorem stepQuoteClose (rest : List Char) (prev : Option Char) (d : Int) (cur : List Char)
    (hprev : ¬ (prev = some '\\')) :
    splitTopAux ('"' :: rest) prev d true cur
      = splitTopAux rest (some '"') d false (cur ++ ['"']) := by
  rw [splitTopAux_cons]
  have htog : (if ('"' : Char) = '"' ∧ ¬ (prev = some '\\') then !true else true)
      = false := by
    rw [if_pos ⟨rfl, hprev⟩]
    rfl
  have hop : ¬ ((¬ (false = true)) ∧ (('"' : Char) = '[' ∨ ('"' : Char) = '{'
      ∨ ('"' : Char) = '(')) := by
    rintro ⟨-, h | h | h⟩ <;> exact absurd h (by decide)
  have hcl : ¬ ((¬ (false = true)) ∧ (('"' : Char) = ']' ∨ ('"' : Char) = '}'
      ∨ ('"' : Char) = ')')) := by
    rintro ⟨-, h | h | h⟩ <;> exact absurd h (by decide)
  have hcm : ¬ ((¬ (false = true)) ∧ ('"' : Char) = ',' ∧ d = 0) := by
    rintro ⟨-, h, -⟩
    exact absurd h (by decide)
  dsimp only
  rw [htog, if_neg hop, if_neg hcl, if_neg hcm]

/-- `lastPrev` of the empty scan. -/
theorem lastPrev_nil (p : Option Char) : lastPrev [] p = p := rfl

/-- `lastPrev` steps over the head. -/
theorem lastPrev_cons (c : Char) (w : List Char) (p : Option Char) :
    lastPrev (c :: w) p = lastPrev w (some c) := by
  cases w with
  | nil => rfl
  | cons b wt =>
    simp only [lastPrev, List.getLast?_cons_cons]
    cases h : (b :: wt).getLast? with
    | none => exact absurd (getLastQ_none _ h) (List.cons_ne_nil b wt)
    | some x => rfl

/-- `lastPrev` composes over appends. -/
theorem lastPrev_append (a b : List Char) (p : Option Char) :
    lastPrev (a ++ b) p = lastPrev b (lastPrev a p) := by
  cases b with
  | nil => rw [List.append_nil, lastPrev_nil]
  | cons c bt =>
    simp only [lastPrev]
    rw [getLastQ_append a (c :: bt) (List.cons_ne_nil c bt)]
    cases h : (c :: bt).getLast? with
    | none => exact absurd (getLastQ_none _ h) (List.cons_ne_nil c bt)
    | some x => rfl

/-- `lastPrev` of a scan ending in an explicit character. -/
theorem lastPrev_concat (a : List Char) (c : Char) (p : Option Char) :
    lastPrev (a ++ [c]) p = some c := by
  rw [lastPrev_append]
  rfl

/-- Full transparency restricts to positive depths. -/
theorem scPos_of_sc (l : List Char) (h : ScTrans l) : ScTransPos l :=
  fun rest prev d cur hp hd => h rest prev d cur hp (by omega)

/-- A single safe character is transparent. -/
theorem scPlain (c : Char) (hq : ¬ (c = '"')) (hop : ¬ (c = '[' ∨ c = '{' ∨ c = '('))
    (hcl : ¬ (c = ']' ∨ c = '}' ∨ c = ')')) (hcm : ¬ (c = ',')) : ScTrans [c] := by
  intro rest prev d cur hprev hd
  show splitTopAux (c :: rest) prev d false cur = _
  rw [stepOther c hq hop hcl rest prev d cur (fun h => hcm h.1)]
  rfl

/-- A single safe character (possibly a comma) is transparent at positive
depth. -/
theorem scPlainPos (c : Char) (hq : ¬ (c = '"')) (hop : ¬ (c = '[' ∨ c = '{' ∨ c = '('))
    (hcl : ¬ (c = ']' ∨ c = '}' ∨ c = ')')) : ScTransPos [c] := by
  intro rest prev d cur hprev hd
  show splitTopAux (c :: rest) prev d false cur = _
  rw [stepOther c hq hop hcl rest prev d cur (by rintro ⟨-, h0⟩; omega)]
  rfl

/-- Transparent texts compose when the boundary is not an escape. -/
theorem scAppend (a b : List Char) (ha : ScTrans a) (hb : ScTrans b)
    (hal : ∀ x, a.getLast? = some x → ¬ (x = '\\')) : ScTrans (a ++ b) := by
  intro rest prev d cur hprev hd
  rw [List.append_assoc, ha (b ++ rest) prev d cur hprev hd]
  have hp2 : ¬ (lastPrev a prev = some '\\') := by
    simp only [lastPrev]
    cases h : a.getLast? with
    | none => exact hprev
    | some x =>
      intro hx
      exact hal x h (Option.some.inj hx)
  rw [hb rest (lastPrev a prev) d (cur ++ a) hp2 hd, lastPrev_append, List.append_assoc]

/-- Positive-depth transparent texts compose likewise. -/
theorem scPosAppend (a b : List Char) (ha : ScTransPos a) (hb : ScTransPos b)
    (hal : ∀ x, a.getLast? = some x → ¬ (x = '\\')) : ScTransPos (a ++ b) := by
  intro rest prev d cur hprev hd
  rw [List.append_assoc, ha (b ++ rest) prev d cur hprev hd]
  have hp2 : ¬ (lastPrev a prev = some '\\') := by
    simp only [lastPrev]
    cases h : a.getLast? with
    | none => exact hprev
    | some x =>
      intro hx
      exact hal x h (Option.some.inj hx)
  rw [hb rest (lastPrev a prev) d (cur ++ a) hp2 hd, lastPrev_append, List.append_assoc]

/-- Inside a string, text whose quotes are all escaped scans inertly. -/
theorem strInside : ∀ (w rest : List Char) (prev : Option Char) (d : Int)
    (cur : List Char), noUnescQuote prev w = true →
    splitTopAux (w ++ rest) prev d true cur
      = splitTopAux rest (lastPrev w prev) d true (cur ++ w)
  | [], rest, prev, d, cur, _ => by
    simp only [List.nil_append, lastPrev_nil, List.append_nil]
  | c :: w, rest, prev, d, cur, hnq => by
    have hq : ¬ (c = '"' ∧ ¬ (prev = some '\\')) := by
      intro h
      have hfalse : noUnescQuote prev (c :: w) = false := by
        show (if c = '"' ∧ ¬ (prev = some '\\') then false
          else noUnescQuote (some c) w) = false
        rw [if_pos h]
      rw [hfalse] at hnq
      exact Bool.false_ne_true hnq
    have hrec : noUnescQuote (some c) w = true := by
      rw [noUnescQuote_cons prev c w hq] at hnq
      exact hnq
    rw [List.cons_append, stepStr c (w ++ rest) prev d cur hq,
      strInside w rest (some c) d (cur ++ [c]) hrec, lastPrev_cons, List.append_assoc]
    rfl

/-- A quoted escaped-string literal is transparent to the scanner. -/
theorem strQuoted_ScTrans (E : List Char) (hnq : ∀ p, noUnescQuote p E = true)
    (hlast : ¬ (E.getLast? = some '\\')) : ScTrans ('"' :: (E ++ ['"'])) := by
  intro rest prev d cur hprev hd
  rw [List.cons_append, stepQuoteOpen _ prev d cur hprev, List.append_assoc,
    strInside E (['"'] ++ rest) (some '"') d (cur ++ ['"']) (hnq (some '"'))]
  have hp2 : ¬ (lastPrev E (some '"') = some '\\') := by
    simp only [lastPrev]
    cases h : E.getLast? with
    | none => decide
    | some x =>
      intro hx
      exact hlast (by rw [h, Option.some.inj hx])
  rw [List.singleton_append, stepQuoteClose rest _ d _ hp2]
  have hlp : lastPrev ('"' :: (E ++ ['"'])) prev = some '"' := by
    rw [lastPrev_cons, lastPrev_concat]
  rw [hlp]
  simp [List.append_assoc]

/-- A balanced bracket wrapper around positive-depth-transparent inner text is
transparent. -/
theorem scBracketWrap (o cc : Char) (w : List Char)
    (ho : o = '[' ∨ o = '{' ∨ o = '(') (hc : cc = ']' ∨ cc = '}' ∨ cc = ')')
    (hw : ScTransPos w) : ScTrans (o :: (w ++ [cc])) := by
  intro rest prev d cur hprev hd
  rw [List.cons_append, stepOpen o ho _ prev d cur, List.append_assoc,
    hw ([cc] ++ rest) (some o) (d + 1) (cur ++ [o])
      (by rcases ho with rfl | rfl | rfl <;>
        exact fun hx => absurd (Option.some.inj hx) (by decide))
      (by omega),
    List.singleton_append, stepClose cc hc rest _ (d + 1) _]
  have hd1 : d + 1 - 1 = d := by ring
  rw [hd1]
  have hlp : lastPrev (o :: (w ++ [cc])) prev = some cc := by
    rw [lastPrev_cons, lastPrev_concat]
  rw [hlp]
  simp [List.append_assoc]

/-- Scanning the `", "`-interleaving of transparent clean segments splits at
exactly the separators (later segments keeping their leading space). -/
theorem interAux : ∀ (ss : List (List Char)) (s : List Char) (prev : Option Char)
    (cur : List Char), ¬ (prev = some '\\') → ScTrans s →
    (∀ t ∈ ss, ScTrans t) →
    splitTopAux (charInterSp (s :: ss)) prev 0 false cur
      = (cur ++ s) :: ss.map (fun t => ' ' :: t)
  | [], s, prev, cur, hprev, hs, _ => by
    show splitTopAux (charInterSp [s]) prev 0 false cur = _
    have h1 := hs [] prev 0 cur hprev (by omega)
    rw [List.append_nil] at h1
    show splitTopAux s prev 0 false cur = _
    rw [h1]
    rfl
  | t :: ss2, s, prev, cur, hprev, hs, hss => by
    show splitTopAux (s ++ ',' :: ' ' :: charInterSp (t :: ss2)) prev 0 false cur = _
    rw [hs (',' :: ' ' :: charInterSp (t :: ss2)) prev 0 cur hprev (by omega),
      stepCommaTop _ _ _,
      stepOther ' ' (by decide) (by decide) (by decide) _ _ _ _
        (by rintro ⟨h, -⟩; exact absurd h (by decide)),
      List.nil_append,
      interAux ss2 t (some ' ') [' '] (by decide) (hss t (List.mem_cons_self t ss2))
        (fun u hu => hss u (List.mem_cons_of_mem t hu))]
    rw [List.singleton_append, List.map_cons]

/-- The scanner split of an interleaving of transparent segments. -/
theorem splitTop_inter (s : List Char) (ss : List (List Char)) (hs : ScTrans s)
    (hss : ∀ t ∈ ss, ScTrans t) :
    splitTop (charInterSp (s :: ss)) = s :: ss.map (fun t => ' ' :: t) := by
  show splitTopAux (charInterSp (s :: ss)) none 0 false [] = _
  rw [interAux ss s none [] (fun h => Option.noConfusion h) hs hss, List.nil_append]

/-- The empty text is transparent. -/
theorem scTrans_nil : ScTrans ([] : List Char) := by
  intro rest prev d cur hprev hd
  simp only [List.nil_append, lastPrev_nil, List.append_nil]

/-- Text of inert characters is transparent. -/
theorem scPlainList : ∀ l : List Char, (∀ c ∈ l, PlainCh c) → ScTrans l
  | [], _ => scTrans_nil
  | c :: l, h => by
    have hc := h c (List.mem_cons_self c l)
    have := scAppend [c] l
      (scPlain c hc.1 hc.2.1 hc.2.2.1 hc.2.2.2.1)
      (scPlainList l (fun x hx => h x (List.mem_cons_of_mem c hx)))
      (fun x hx => by
        have : some c = some x := hx
        rw [← Option.some.inj this]
        exact hc.2.2.2.2)
    rw [List.singleton_append] at this
    exact this

/-- A list starts with any of its prefixes. -/
theorem startsWith_self_append : ∀ p r : List Char, startsWithL (p ++ r) p = true
  | [], r => by cases r <;> rfl
  | c :: pt, r => by
    simp only [List.cons_append, startsWithL]
    simp [startsWith_self_append pt r]

/-- `startsWith` fails on a head mismatch. -/
theorem startsWith_head_ne (c0 : Char) (tl : List Char) (d0 : Char) (pt : List Char)
    (h : ¬ (c0 = d0)) : ¬ (startsWithL (c0 :: tl) (d0 :: pt) = true) :=
  fun hs => h (startsWith_cons_eq c0 d0 tl pt hs)

/-- The integer-literal regex rejects a non-digit non-sign head. -/
theorem isIntLit_false_head (c : Char) (tl : List Char) (h1 : ¬ (c = '-'))
    (h2 : isDig c = false) : isIntLit (c :: tl) = false := by
  rw [isIntLit_cons_ne c tl h1]
  simp [List.all_cons, h2]

/-- The decimal-literal core rejects a non-digit non-dot head. -/
theorem decLitCore_false_head (c : Char) (tl : List Char) (h2 : isDig c = false)
    (h3 : ¬ (c = '.')) : decLitCore (c :: tl) = false := by
  unfold decLitCore
  simp only [List.takeWhile_cons, h2, Bool.false_eq_true, if_false, List.length_nil,
    List.drop_zero]
  split
  · rename_i heq
    injection heq with hh _
    exact absurd hh h3
  · rfl

/-- The decimal-literal regex rejects a non-digit non-dot non-sign head. -/
theorem isDecLit_false_head (c : Char) (tl : List Char) (h1 : ¬ (c = '-'))
    (h2 : isDig c = false) (h3 : ¬ (c = '.')) : isDecLit (c :: tl) = false := by
  rw [isDecLit_cons_ne c tl h1]
  exact decLitCore_false_head c tl h2 h3

/-- The first six `parseValue` branch conditions all fail for a head character
that is none of their markers. -/
theorem nav6 (E : List Char) (c0 : Char) (tl : List Char) (hE : E = c0 :: tl)
    (h1 : ¬ (c0 = 'n')) (h2 : ¬ (c0 = 't')) (h3 : ¬ (c0 = 'f')) (h4 : ¬ (c0 = '"'))
    (h5 : ¬ (c0 = '-')) (h6 : isDig c0 = false) (h7 : ¬ (c0 = '.')) :
    ¬ (E = "null".data) ∧ ¬ (E = "true".data) ∧ ¬ (E = "false".data)
    ∧ ¬ (startsWithL E ['"'] = true ∧ endsWithL E ['"'] = true)
    ∧ isIntLit E = false ∧ isDecLit E = false := by
  subst hE
  refine ⟨?_, ?_, ?_, ?_, ?_, ?_⟩
  · exact cons_ne_of_head tl "ull".data h1
  · exact cons_ne_of_head tl "rue".data h2
  · exact cons_ne_of_head tl "alse".data h3
  · rintro ⟨hs, -⟩
    exact h4 (startsWith_cons_eq c0 '"' tl [] hs)
  · exact isIntLit_false_head c0 tl h5 h6
  · exact isDecLit_false_head c0 tl h5 h6 h7

/-- Replacement is the identity when the pattern is absent. -/
theorem replace1_absent (a : Char) (rep : List Char) : ∀ l : List Char,
    (∀ c ∈ l, ¬ (c = a)) → replace1 a rep l = l
  | [], _ => rfl
  | c :: l, h => by
    simp only [replace1, if_neg (h c (List.mem_cons_self c l)),
      replace1_absent a rep l (fun x hx => h x (List.mem_cons_of_mem c hx))]

/-- Quote-free text passes the unescaped-quote scan. -/
theorem noUnescQuote_of_no_quote : ∀ (l : List Char) (p : Option Char),
    (∀ c ∈ l, ¬ (c = '"')) → noUnescQuote p l = true
  | [], _, _ => rfl
  | c :: l, p, h => by
    rw [noUnescQuote_cons p c l (fun hc => h c (List.mem_cons_self c l) hc.1)]
    exact noUnescQuote_of_no_quote l (some c) (fun x hx => h x (List.mem_cons_of_mem c hx))

/-- The single-character splitter never returns the empty list. -/
theorem splitOnCharL_ne_nil (sep : Char) : ∀ l : List Char, splitOnCharL sep l ≠ []
  | [] => by simp [splitOnCharL]
  | c :: l => by
    simp only [splitOnCharL]
    split
    · simp
    · split <;> simp

/-- Splitting separator-free text yields one segment. -/
theorem splitNoSep (sep : Char) : ∀ l : List Char, (∀ c ∈ l, ¬ (c = sep)) →
    splitOnCharL sep l = [l]
  | [], _ => rfl
  | c :: l, h => by
    simp only [splitOnCharL, splitNoSep sep l (fun x hx => h x (List.mem_cons_of_mem c hx))]
    rw [if_neg (h c (List.mem_cons_self c l))]

/-- Splitting peels a separator-free prefix. -/
theorem splitSepApp (sep : Char) : ∀ (A R : List Char), (∀ c ∈ A, ¬ (c = sep)) →
    splitOnCharL sep (A ++ sep :: R) = A :: splitOnCharL sep R
  | [], R, _ => by
    rw [List.nil_append]
    simp only [splitOnCharL]
    cases hr : splitOnCharL sep R with
    | nil => exact absurd hr (splitOnCharL_ne_nil sep R)
    | cons h t => simp
  | c :: A, R, h => by
    rw [List.cons_append]
    simp only [splitOnCharL,
      splitSepApp sep A R (fun x hx => h x (List.mem_cons_of_mem c hx))]
    rw [if_neg (h c (List.mem_cons_self c A))]

/-- Dropping past an appended prefix. -/
theorem drop_append_len {α : Type} : ∀ (l1 l2 : List α) (n : Nat),
    (l1 ++ l2).drop (l1.length + n) = l2.drop n
  | [], l2, n => by simp
  | a :: l1, l2, n => by
    have h : (a :: l1).length + n = (l1.length + n) + 1 := by
      rw [List.length_cons]
      omega
    rw [List.cons_append, h]
    show (l1 ++ l2).drop (l1.length + n) = l2.drop n
    exact drop_append_len l1 l2 n

/-- The first occurrence of a character after a clean prefix. -/
theorem idxOfChar_append (ch : Char) : ∀ (A R : List Char), (∀ c ∈ A, ¬ (c = ch)) →
    idxOfChar ch (A ++ ch :: R) = some A.length
  | [], R, _ => by
    rw [List.nil_append]
    simp [idxOfChar]
  | c :: A, R, h => by
    rw [List.cons_append]
    simp only [idxOfChar, if_neg (h c (List.mem_cons_self c A)),
      idxOfChar_append ch A R (fun x hx => h x (List.mem_cons_of_mem c hx))]
    rfl

/-- Every character of a rendered integer is a sign or digit, of a rendered
decimal a sign, dot or digit. -/
theorem decToString_chars (d : Dec) : ∀ x ∈ (decToString d).data,
    x = '-' ∨ x = '.' ∨ isDig x = true := by
  obtain ⟨man, exp⟩ := d
  cases exp with
  | zero =>
    rw [decToString_exp0 ⟨man, 0⟩ rfl]
    intro x hx
    obtain ⟨-, -, -, -, hall, -⟩ := intToStr_shape man
    rcases hall x hx with h | h
    · exact Or.inl h
    · exact Or.inr (Or.inr h)
  | succ e =>
    obtain ⟨ip, fp, hL, -, -, hipd, hfpd, -⟩ := decToString_frac man e
    intro x hx
    rw [hL] at hx
    rcases List.mem_append.mp hx with hx2 | hx2
    · rcases List.mem_append.mp hx2 with hx3 | hx3
      · split at hx3
        · rw [List.mem_singleton] at hx3
          exact Or.inl hx3
        · simp at hx3
      · exact Or.inr (Or.inr (hipd x hx3))
    · rcases List.mem_cons.mp hx2 with rfl | hx3
      · exact Or.inr (Or.inl rfl)
      · exact Or.inr (Or.inr (hfpd x hx3))

/-- `join(", ")` at the character level. -/
theorem joinCommaSp_data : ∀ L : List String,
    (joinCommaSp L).data = charInterSp (L.map String.data)
  | [] => rfl
  | [x] => rfl
  | x :: y :: r => by
    show (x ++ ", " ++ joinCommaSp (y :: r)).data
      = x.data ++ ',' :: ' ' :: charInterSp ((y :: r).map String.data)
    simp [String.data_append, joinCommaSp_data (y :: r)]

/-- Rebuilding a map over all segments from the drop-last/last split. -/
theorem dropLast_map_getLastD {α β : Type} (g : α → β) :
    ∀ (l : List α) (a : α), l ≠ [] →
    l.dropLast.map g ++ [g (l.getLastD a)] = l.map g
  | [], _, h => absurd rfl h
  | [x], a, _ => by simp
  | x :: y :: r, a, _ => by
    rw [List.dropLast_cons₂, List.map_cons, List.getLastD_cons, List.cons_append,
      List.map_cons, dropLast_map_getLastD g (y :: r) x (List.cons_ne_nil y r)]

/-- Number-rendering characters are scanner-inert. -/
theorem plainCh_numChar (x : Char) (h : x = '-' ∨ x = '.' ∨ isDig x = true) :
    PlainCh x := by
  rcases h with rfl | rfl | hd
  · exact ⟨by decide, by decide, by decide, by decide, by decide⟩
  · exact ⟨by decide, by decide, by decide, by decide, by decide⟩
  · refine ⟨isDig_ne x hd '"' (by decide), ?_, ?_, isDig_ne x hd ',' (by decide),
      isDig_ne x hd '\\' (by decide)⟩
    · rintro (h2 | h2 | h2)
      · exact isDig_ne x hd '[' (by decide) h2
      · exact isDig_ne x hd '{' (by decide) h2
      · exact isDig_ne x hd '(' (by decide) h2
    · rintro (h2 | h2 | h2)
      · exact isDig_ne x hd ']' (by decide) h2
      · exact isDig_ne x hd '}' (by decide) h2
      · exact isDig_ne x hd ')' (by decide) h2

/-- A rendered normalized decimal is a safe segment parsing back to its
number. -/
theorem serNum_facts (d : Dec) (h : isNormDec d = true) :
    pvL (decToString d).data = .num d ∧ SegOk (decToString d).data := by
  obtain ⟨c, tl, hl, hc, lc, hlast, hlc⟩ := decToString_shape d
  refine ⟨pvL_num d h, scPlainList _ (fun x hx => plainCh_numChar x (decToString_chars d x hx)),
    by rw [hl]; exact List.cons_ne_nil c tl, ?_, ?_, ?_⟩
  · intro x hx
    rw [hl] at hx
    have hxc : some c = some x := hx
    rw [← Option.some.inj hxc]
    rcases hc with rfl | hd
    · decide
    · exact isDig_not_space c hd
  · intro x hx
    rw [hlast] at hx
    rw [← Option.some.inj hx]
    exact ⟨isDig_not_space lc hlc, isDig_ne lc hlc '\\' (by decide)⟩
  · intro x hx
    rcases decToString_chars d x hx with rfl | rfl | hd
    · decide
    · decide
    · exact isDig_ne x hd '\n' (by decide)

/-- The quoted escape of a quotable string is a safe segment. -/
theorem serStr_SegOk (s : String) (hg : isGodotValueString s = false)
    (hnl : lacks '\n' s = true) (hbs : lastNotBS s = true) : SegOk (serStr s).data := by
  have hser := serStr_quoted s hg
  have hlastBS : ¬ (s.data.getLast? = some '\\') := by
    simp only [lastNotBS, decide_eq_true_eq] at hbs
    exact hbs
  have hlastE : (('"' :: (escapeL s.data ++ ['"'])) : List Char).getLast? = some '"' := by
    show (('"' :: escapeL s.data) ++ ['"']).getLast? = some '"'
    rw [getLastQ_append _ _ (List.cons_ne_nil '"' [])]
    rfl
  refine ⟨?_, ?_, ?_, ?_, ?_⟩
  · rw [hser]
    exact strQuoted_ScTrans (escapeL s.data) (fun p => noUnescQuote_escape s.data p)
      (escapeL_last s.data hlastBS)
  · rw [hser]
    exact List.cons_ne_nil _ _
  · intro x hx
    rw [hser] at hx
    have hxc : some '"' = some x := hx
    rw [← Option.some.inj hxc]
    decide
  · intro x hx
    rw [hser, hlastE] at hx
    rw [← Option.some.inj hx]
    exact ⟨by decide, by decide⟩
  · intro x hx
    rw [hser] at hx
    simp only [lacks, List.all_eq_true, decide_eq_true_eq] at hnl
    rcases List.mem_cons.mp hx with rfl | hx2
    · decide
    · rcases List.mem_append.mp hx2 with hx3 | hx3
      · rcases mem_escapeL s.data x hx3 with rfl | hx4
        · decide
        · exact hnl x hx4
      · rw [List.mem_singleton] at hx3
        subst hx3
        decide

/-- A well-formed string value renders to a safe segment parsing back. -/
theorem serStrVal_facts (s : String) (h : wfStrB s = true) :
    pvL (serStr s).data = .str s ∧ SegOk (serStr s).data := by
  simp only [wfStrB, Bool.and_eq_true] at h
  have hg : isGodotValueString s = false := by
    cases hgb : isGodotValueString s
    · rfl
    · exact absurd hgb (by simpa using h.2)
  exact ⟨pvL_str s hg, serStr_SegOk s hg h.1.1 h.1.2⟩

/-- A well-formed dictionary key renders to a safe colon-free segment parsing
back. -/
theorem serStr_key_facts (k : String) (h : wfDictKeyB k = true) :
    pvL (serStr k).data = .str k ∧ SegOk (serStr k).data
    ∧ (∀ x ∈ (serStr k).data, ¬ (x = ':')) := by
  simp only [wfDictKeyB, Bool.and_eq_true] at h
  have hg : isGodotValueString k = false := by
    cases hgb : isGodotValueString k
    · rfl
    · exact absurd hgb (by simpa using h.2)
  obtain ⟨⟨⟨⟨-, hcol⟩, hnl⟩, hbs⟩, -⟩ := h
  refine ⟨pvL_str k hg, serStr_SegOk k hg hnl hbs, ?_⟩
  intro x hx
  rw [serStr_quoted k hg] at hx
  simp only [lacks, List.all_eq_true, decide_eq_true_eq] at hcol
  rcases List.mem_cons.mp hx with rfl | hx2
  · decide
  · rcases List.mem_append.mp hx2 with hx3 | hx3
    · rcases mem_escapeL k.data x hx3 with rfl | hx4
      · decide
      · exact hcol x hx4
    · rw [List.mem_singleton] at hx3
      subst hx3
      decide

/-- The interleaving of safe segments is safe inner text for a bracket pair. -/
theorem interOk : ∀ L : List (List Char), L ≠ [] → (∀ E ∈ L, SegOk E) →
    ScTransPos (charInterSp L) ∧ charInterSp L ≠ []
    ∧ (∀ x, (charInterSp L).head? = some x → isJsSpace x = false)
    ∧ (∀ x, (charInterSp L).getLast? = some x → isJsSpace x = false ∧ ¬ (x = '\\'))
    ∧ (∀ x ∈ charInterSp L, ¬ (x = '\n'))
  | [], h, _ => absurd rfl h
  | [E], _, hok => by
    obtain ⟨h1, h2, h3, h4, h5⟩ := hok E (List.mem_singleton.mpr rfl)
    exact ⟨scPos_of_sc E h1, h2, h3, h4, h5⟩
  | E :: F :: r, _, hok => by
    obtain ⟨hE1, hE2, hE3, hE4, hE5⟩ := hok E (List.mem_cons_self _ _)
    obtain ⟨hI1, hI2, hI3, hI4, hI5⟩ :=
      interOk (F :: r) (List.cons_ne_nil F r)
        (fun t ht => hok t (List.mem_cons_of_mem E ht))
    have hshape : charInterSp (E :: F :: r)
        = E ++ ',' :: ' ' :: charInterSp (F :: r) := rfl
    refine ⟨?_, ?_, ?_, ?_, ?_⟩
    · rw [hshape]
      have hsp : ScTransPos ([' '] ++ charInterSp (F :: r)) :=
        scPosAppend [' '] _ (scPos_of_sc _ (scPlain ' ' (by decide) (by decide)
          (by decide) (by decide))) hI1
          (fun x hx => by
            have : some ' ' = some x := hx
            rw [← Option.some.inj this]
            decide)
      have hcm : ScTransPos ([','] ++ ([' '] ++ charInterSp (F :: r))) :=
        scPosAppend [','] _ (scPlainPos ',' (by decide) (by decide) (by decide)) hsp
          (fun x hx => by
            have : some ',' = some x := hx
            rw [← Option.some.inj this]
            decide)
      exact scPosAppend E _ (scPos_of_sc E hE1) hcm (fun x hx => (hE4 x hx).2)
    · rw [hshape]
      cases E with
      | nil => exact absurd rfl hE2
      | cons a t => simp
    · rw [hshape]
      cases E with
      | nil => exact absurd rfl hE2
      | cons a t =>
        intro x hx
        exact hE3 x hx
    · rw [hshape]
      intro x hx
      rw [getLastQ_append E _ (List.cons_ne_nil ',' _)] at hx
      have hx2 : (([',', ' '] ++ charInterSp (F :: r)) : List Char).getLast? = some x := hx
      rw [getLastQ_append _ _ hI2] at hx2
      exact hI4 x hx2
    · rw [hshape]
      intro x hx
      rcases List.mem_append.mp hx with hx2 | hx2
      · exact hE5 x hx2
      · rcases List.mem_cons.mp hx2 with rfl | hx3
        · decide
        · rcases List.mem_cons.mp hx3 with rfl | hx4
          · decide
          · exact hI5 x hx4

/-- A rendered `key: value` pair is a safe segment. -/
theorem segOk_pair (SK SV : List Char) (hK : SegOk SK) (hV : SegOk SV) :
    SegOk (SK ++ ':' :: ' ' :: SV) := by
  obtain ⟨hK1, hK2, hK3, hK4, hK5⟩ := hK
  obtain ⟨hV1, hV2, hV3, hV4, hV5⟩ := hV
  refine ⟨?_, ?_, ?_, ?_, ?_⟩
  · have hsp : ScTrans ([' '] ++ SV) :=
      scAppend [' '] SV (scPlain ' ' (by decide) (by decide) (by decide) (by decide)) hV1
        (fun x hx => by
          have : some ' ' = some x := hx
          rw [← Option.some.inj this]
          decide)
    have hcl : ScTrans ([':'] ++ ([' '] ++ SV)) :=
      scAppend [':'] _ (scPlain ':' (by decide) (by decide) (by decide) (by decide)) hsp
        (fun x hx => by
          have : some ':' = some x := hx
          rw [← Option.some.inj this]
          decide)
    exact scAppend SK _ hK1 hcl (fun x hx => (hK4 x hx).2)
  · cases SK with
    | nil => exact absurd rfl hK2
    | cons a t => simp
  · cases SK with
    | nil => exact absurd rfl hK2
    | cons a t =>
      intro x hx
      exact hK3 x hx
  · intro x hx
    rw [getLastQ_append SK _ (List.cons_ne_nil ':' _)] at hx
    have hx2 : (([':', ' '] ++ SV) : List Char).getLast? = some x := hx
    rw [getLastQ_append _ _ hV2] at hx2
    exact hV4 x hx2
  · intro x hx
    rcases List.mem_append.mp hx with hx2 | hx2
    · exact hK5 x hx2
    · rcases List.mem_cons.mp hx2 with rfl | hx3
      · decide
      · rcases List.mem_cons.mp hx3 with rfl | hx4
        · decide
        · exact hV5 x hx4

/-- A bracket wrapper around safe positive-depth inner text is a safe
segment. -/
theorem segOk_bracket (o cc : Char) (ho : o = '[' ∨ o = '{' ∨ o = '(')
    (hc : cc = ']' ∨ cc = '}' ∨ cc = ')') (w : List Char) (hw : ScTransPos w)
    (hnl : ∀ x ∈ w, ¬ (x = '\n')) : SegOk (o :: (w ++ [cc])) := by
  refine ⟨scBracketWrap o cc w ho hc hw, List.cons_ne_nil _ _, ?_, ?_, ?_⟩
  · intro x hx
    have hxc : some o = some x := hx
    rw [← Option.some.inj hxc]
    rcases ho with rfl | rfl | rfl <;> decide
  · intro x hx
    have hlast : ((o :: (w ++ [cc])) : List Char).getLast? = some cc := by
      show ((o :: w) ++ [cc]).getLast? = some cc
      rw [getLastQ_append _ _ (List.cons_ne_nil cc [])]
      rfl
    rw [hlast] at hx
    rw [← Option.some.inj hx]
    rcases hc with rfl | rfl | rfl <;> exact ⟨by decide, by decide⟩
  · intro x hx
    rcases List.mem_cons.mp hx with rfl | hx2
    · rcases ho with rfl | rfl | rfl <;> decide
    · rcases List.mem_append.mp hx2 with hx3 | hx3
      · exact hnl x hx3
      · rw [List.mem_singleton] at hx3
        subst hx3
        rcases hc with rfl | rfl | rfl <;> decide

/-- Each rendered array element of a good list is a safe segment. -/
theorem listGood_SegOk : ∀ (es : List String) (items : JsItems), listGood es items →
    ∀ E ∈ es.map String.data, SegOk E
  | [], .nil, _ => by simp
  | [], .cons _ _, h => h.elim
  | _ :: _, .nil, h => h.elim
  | e :: es, .cons v rest, h => by
    obtain ⟨⟨-, hok⟩, hrest⟩ := h
    intro E hE
    rcases List.mem_cons.mp hE with rfl | hE2
    · exact hok
    · exact listGood_SegOk es rest hrest E hE2

/-- A good element list parses elementwise back to the items. -/
theorem listGood_items : ∀ (es : List String) (items : JsItems), listGood es items →
    itemsOf (es.map (fun e => pvL e.data)) = items
  | [], .nil, _ => rfl
  | [], .cons _ _, h => h.elim
  | _ :: _, .nil, h => h.elim
  | e :: es, .cons v rest, h => by
    obtain ⟨⟨hv, -⟩, hrest⟩ := h
    show JsItems.cons (pvL e.data) (itemsOf (es.map (fun e => pvL e.data)))
      = JsItems.cons v rest
    rw [hv, listGood_items es rest hrest]

/-- Each rendered pair of a good field list is a safe segment. -/
theorem fieldsGood_SegOk : ∀ (es : List String) (fields : JsProps),
    fieldsGood es fields → ∀ E ∈ es.map String.data, SegOk E
  | [], .nil, _ => by simp
  | [], .cons _ _ _, h => h.elim
  | _ :: _, .nil, h => h.elim
  | e :: es, .cons k v rest, h => by
    obtain ⟨⟨hpair, -, hkOk, -, -, hvOk⟩, hrest⟩ := h
    intro E hE
    rcases List.mem_cons.mp hE with rfl | hE2
    · rw [hpair]
      exact segOk_pair _ _ hkOk hvOk
    · exact fieldsGood_SegOk es rest hrest E hE2

/-- Mapping with pointwise-equal functions. -/
theorem map_congr_mem {α β : Type} : ∀ (l : List α) (f g : α → β),
    (∀ a ∈ l, f a = g a) → l.map f = l.map g
  | [], _, _, _ => rfl
  | a :: l, f, g, h => by
    rw [List.map_cons, List.map_cons, h a (List.mem_cons_self a l),
      map_congr_mem l f g (fun x hx => h x (List.mem_cons_of_mem a hx))]

/-- The array parser inverts the serialized element interleaving. -/
theorem parseArr_ser (es : List String) (items : JsItems) (hg : listGood es items)
    (hne : es ≠ []) (f' : Nat)
    (hf : (charInterSp (es.map String.data)).length < f') :
    parseArrayF (f' + 1)
      ('[' :: (charInterSp (es.map String.data) ++ [']'])) = items := by
  have hmapne : es.map String.data ≠ [] := by
    cases es with
    | nil => exact absurd rfl hne
    | cons e es2 => simp
  obtain ⟨hPos, hIne, hIhead, hIlast, hInl⟩ :=
    interOk (es.map String.data) hmapne (listGood_SegOk es items hg)
  simp only [parseArrayF]
  have htrim : trimL ('[' :: (charInterSp (es.map String.data) ++ [']']))
      = '[' :: (charInterSp (es.map String.data) ++ [']']) := by
    refine trimL_eq_self _ (fun x hx => ?_) (fun x hx => ?_)
    · have hxc : some '[' = some x := hx
      rw [← Option.some.inj hxc]
      decide
    · have hlast2 : (('[' :: (charInterSp (es.map String.data) ++ [']'])) :
          List Char).getLast? = some ']' := by
        show (('[' :: charInterSp (es.map String.data)) ++ [']']).getLast? = some ']'
        rw [getLastQ_append _ _ (List.cons_ne_nil ']' [])]
        rfl
      rw [hlast2] at hx
      rw [← Option.some.inj hx]
      decide
  simp only [htrim]
  have hsw : startsWithL ('[' :: (charInterSp (es.map String.data) ++ [']'])) ['[']
      = true := by
    simp [startsWithL]
  have hew : endsWithL ('[' :: (charInterSp (es.map String.data) ++ [']'])) [']']
      = true := by
    show startsWithL (('[' :: (charInterSp (es.map String.data) ++ [']'])) :
      List Char).reverse [']'].reverse = true
    have hrev : (('[' :: (charInterSp (es.map String.data) ++ [']'])) :
        List Char).reverse
        = ']' :: ((charInterSp (es.map String.data)).reverse ++ ['[']) := by
      show (('[' :: charInterSp (es.map String.data)) ++ [']']).reverse = _
      rw [List.reverse_append, List.reverse_cons]
      simp
    rw [hrev]
    simp [startsWithL]
  rw [if_pos ⟨hsw, hew⟩]
  have hinner : trimL ((('[' :: (charInterSp (es.map String.data) ++ [']'])).drop
      1).dropLast) = charInterSp (es.map String.data) := by
    show trimL ((charInterSp (es.map String.data) ++ [']']).dropLast) = _
    rw [List.dropLast_concat]
    exact trimL_eq_self _ hIhead (fun x hx => (hIlast x hx).1)
  simp only [hinner]
  rw [if_neg hIne]
  cases es with
  | nil => exact absurd rfl hne
  | cons e es2 =>
    have hokAll := listGood_SegOk (e :: es2) items hg
    have heOk : SegOk e.data :=
      hokAll e.data (by simp)
    have htlOk : ∀ x ∈ es2, SegOk x.data := fun x hx =>
      hokAll x.data (by
        simp only [List.map_cons, List.mem_cons]
        exact Or.inr (List.mem_map_of_mem String.data hx))
    have hsegs : splitTop (charInterSp ((e :: es2).map String.data))
        = e.data :: (es2.map String.data).map (fun t => ' ' :: t) := by
      rw [List.map_cons]
      exact splitTop_inter e.data (es2.map String.data) heOk.1
        (fun t ht => by
          obtain ⟨x, hx, rfl⟩ := List.mem_map.mp ht
          exact (htlOk x hx).1)
    simp only [hsegs]
    have hSne : (e.data :: (es2.map String.data).map (fun t => ' ' :: t)) ≠ [] :=
      List.cons_ne_nil _ _
    have hmemTrim : ∀ seg ∈ e.data :: (es2.map String.data).map (fun t => ' ' :: t),
        ¬ (trimL seg = []) ∧ parseValueF f' (trimL seg) = pvL (trimL seg) := by
      intro seg hseg
      have hsegmem : seg ∈ splitTop (charInterSp ((e :: es2).map String.data)) := by
        rw [hsegs]
        exact hseg
      have hlen : seg.length ≤ (charInterSp ((e :: es2).map String.data)).length :=
        splitTop_len _ seg hsegmem
      have hlt : (trimL seg).length < f' :=
        Nat.lt_of_le_of_lt (Nat.le_trans (trimL_length_le seg) hlen) hf
      rcases List.mem_cons.mp hseg with rfl | hseg2
      · obtain ⟨-, hne2, hh, hl, -⟩ := heOk
        have hts : trimL e.data = e.data := trimL_eq_self _ hh (fun x hx => (hl x hx).1)
        rw [hts] at hlt ⊢
        exact ⟨hne2, (parseFuel_congr f').1 e.data hlt⟩
      · obtain ⟨t, ht, rfl⟩ := List.mem_map.mp hseg2
        obtain ⟨x, hx, rfl⟩ := List.mem_map.mp ht
        obtain ⟨-, hne2, hh, hl, -⟩ := htlOk x hx
        have hts : trimL (' ' :: x.data) = x.data := by
          rw [trimL_cons_space ' ' x.data (by decide)]
          exact trimL_eq_self _ hh (fun y hy => (hl y hy).1)
        rw [hts] at hlt ⊢
        exact ⟨hne2, (parseFuel_congr f').1 x.data hlt⟩
    rw [if_neg (hmemTrim _ (getLastD_mem _ [] hSne)).1,
      dropLast_map_getLastD (fun seg => parseValueF f' (trimL seg)) _ [] hSne]
    have hmapval : (e.data :: (es2.map String.data).map (fun t => ' ' :: t)).map
        (fun seg => parseValueF f' (trimL seg))
        = ((e :: es2).map (fun x => pvL x.data)) := by
      rw [List.map_cons, List.map_map, List.map_cons]
      have h1 : parseValueF f' (trimL e.data) = pvL e.data := by
        have h2 := (hmemTrim e.data (List.mem_cons_self _ _)).2
        obtain ⟨-, -, hh, hl, -⟩ := heOk
        have hts : trimL e.data = e.data := trimL_eq_self _ hh (fun x hx => (hl x hx).1)
        rw [hts] at h2 ⊢
        exact h2
      rw [h1, List.map_map]
      refine congrArg _ (map_congr_mem es2 _ _ ?_)
      intro x hx
      show parseValueF f' (trimL (' ' :: x.data)) = pvL x.data
      have h2 := (hmemTrim (' ' :: x.data) (List.mem_cons.mpr (Or.inr
        (List.mem_map.mpr ⟨x.data, List.mem_map_of_mem String.data hx, rfl⟩)))).2
      obtain ⟨-, -, hh, hl, -⟩ := htlOk x hx
      have hts : trimL (' ' :: x.data) = x.data := by
        rw [trimL_cons_space ' ' x.data (by decide)]
        exact trimL_eq_self _ hh (fun y hy => (hl y hy).1)
      rw [hts] at h2 ⊢
      exact h2
    rw [hmapval]
    exact listGood_items (e :: es2) items hg

/-- Spine concatenation with the empty map. -/
theorem jsPropsApp_nil : ∀ p : JsProps, jsPropsApp p .nil = p
  | .nil => rfl
  | .cons k v r => by
    show JsProps.cons k v (jsPropsApp r .nil) = _
    rw [jsPropsApp_nil r]

/-- Setting an absent key appends at the end. -/
theorem jsPropsSet_absent : ∀ (acc : JsProps) (k : String) (v : JsValue),
    (∀ j ∈ jsPropsKeys acc, ¬ (j = k)) →
    jsPropsSet acc k v = jsPropsApp acc (.cons k v .nil)
  | .nil, _, _, _ => rfl
  | .cons k2 w r, k, v, h => by
    show (if k2 = k then JsProps.cons k2 v r else JsProps.cons k2 w (jsPropsSet r k v)) = _
    rw [if_neg (h k2 (List.mem_cons_self _ _))]
    show JsProps.cons k2 w (jsPropsSet r k v) = JsProps.cons k2 w (jsPropsApp r _)
    rw [jsPropsSet_absent r k v (fun j hj => h j (List.mem_cons_of_mem k2 hj))]

/-- Spine concatenation is associative. -/
theorem jsPropsApp_assoc : ∀ a b c : JsProps,
    jsPropsApp (jsPropsApp a b) c = jsPropsApp a (jsPropsApp b c)
  | .nil, _, _ => rfl
  | .cons k v r, b, c => by
    show JsProps.cons k v (jsPropsApp (jsPropsApp r b) c) = _
    rw [jsPropsApp_assoc r b c]
    rfl

/-- Keys of a spine concatenation. -/
theorem jsPropsKeys_app : ∀ a b : JsProps,
    jsPropsKeys (jsPropsApp a b) = jsPropsKeys a ++ jsPropsKeys b
  | .nil, _ => rfl
  | .cons k v r, b => by
    show k :: jsPropsKeys (jsPropsApp r b) = _
    rw [jsPropsKeys_app r b]
    rfl

/-- The dictionary fold over rendered pairs rebuilds the field spine. -/
theorem dictFold : ∀ (es : List String) (fields : JsProps) (f' : Nat) (acc : JsProps),
    fieldsGood es fields → distinctKeys (jsPropsKeys fields) = true →
    (∀ j ∈ jsPropsKeys acc, ∀ k2 ∈ jsPropsKeys fields, ¬ (j = k2)) →
    (∀ e ∈ es, e.data.length < f' + 1) →
    (es.map String.data).foldl (fun acc2 pair =>
      match idxOfChar ':' pair with
      | none => acc2
      | some ci => jsPropsSet acc2
          (jsToString (parseValueF f' (trimL (pair.take ci))))
          (parseValueF f' (trimL (pair.drop (ci + 1))))) acc
    = jsPropsApp acc fields
  | [], .nil, f', acc, _, _, _, _ => by
    rw [jsPropsApp_nil]
    rfl
  | [], .cons _ _ _, _, _, h, _, _, _ => h.elim
  | _ :: _, .nil, _, _, h, _, _, _ => h.elim
  | e :: es, .cons k v rest, f', acc, hgd, hdk, hdisj, hlen => by
    obtain ⟨⟨hpair, hkParse, hkOk, hkCol, hvParse, hvOk⟩, hrest⟩ := hgd
    rw [List.map_cons, List.foldl_cons]
    have hlenE : e.data.length
        = (serStr k).data.length + ((serializeValue v).data.length + 2) := by
      rw [hpair, List.length_append, List.length_cons, List.length_cons]
    have heq : (match idxOfChar ':' e.data with
        | none => acc
        | some ci => jsPropsSet acc
            (jsToString (parseValueF f' (trimL (e.data.take ci))))
            (parseValueF f' (trimL (e.data.drop (ci + 1)))))
        = jsPropsSet acc k v := by
      have hidx : idxOfChar ':' e.data = some (serStr k).data.length := by
        rw [hpair]
        exact idxOfChar_append ':' (serStr k).data (' ' :: (serializeValue v).data) hkCol
      rw [hidx]
      show jsPropsSet acc
        (jsToString (parseValueF f' (trimL (e.data.take (serStr k).data.length))))
        (parseValueF f' (trimL (e.data.drop ((serStr k).data.length + 1))))
        = jsPropsSet acc k v
      have htake : e.data.take (serStr k).data.length = (serStr k).data := by
        rw [hpair]
        exact List.take_left _ _
      have hdrop : e.data.drop ((serStr k).data.length + 1)
          = ' ' :: (serializeValue v).data := by
        rw [hpair]
        exact drop_append_len (serStr k).data _ 1
      rw [htake, hdrop]
      obtain ⟨-, -, hKh, hKl, -⟩ := hkOk
      have hKts : trimL (serStr k).data = (serStr k).data :=
        trimL_eq_self _ hKh (fun x hx => (hKl x hx).1)
      obtain ⟨-, -, hVh, hVl, -⟩ := hvOk
      have hVts : trimL (' ' :: (serializeValue v).data) = (serializeValue v).data := by
        rw [trimL_cons_space ' ' _ (by decide)]
        exact trimL_eq_self _ hVh (fun x hx => (hVl x hx).1)
      rw [hKts, hVts]
      have hKlen : (serStr k).data.length < f' := by
        have := hlen e (List.mem_cons_self _ _)
        omega
      have hVlen : (serializeValue v).data.length < f' := by
        have := hlen e (List.mem_cons_self _ _)
        omega
      rw [(parseFuel_congr f').1 _ hKlen, (parseFuel_congr f').1 _ hVlen,
        hkParse, hvParse]
      rfl
    rw [heq]
    have hkeys : jsPropsKeys (JsProps.cons k v rest) = k :: jsPropsKeys rest := rfl
    rw [hkeys] at hdisj hdk
    simp only [distinctKeys, Bool.and_eq_true, List.all_eq_true,
      decide_eq_true_eq] at hdk
    have hset : jsPropsSet acc k v = jsPropsApp acc (.cons k v .nil) :=
      jsPropsSet_absent acc k v
        (fun j hj => hdisj j hj k (List.mem_cons_self _ _))
    rw [hset, dictFold es rest f' (jsPropsApp acc (.cons k v .nil)) hrest hdk.2
      (by
        intro j hj k2 hk2
        rw [jsPropsKeys_app] at hj
        rcases List.mem_append.mp hj with hj2 | hj2
        · exact hdisj j hj2 k2 (List.mem_cons_of_mem k hk2)
        · have hjk : j = k := by
            have : j ∈ jsPropsKeys (JsProps.cons k v .nil) := hj2
            rcases List.mem_cons.mp this with rfl | h0
            · rfl
            · exact absurd h0 (List.not_mem_nil j)
          subst hjk
          intro hk
          exact hdk.1 k2 hk2 hk.symm)
      (fun x hx => hlen x (List.mem_cons_of_mem e hx)),
      jsPropsApp_assoc]
    rfl

/-- The dictionary parser inverts the serialized pair interleaving. -/
theorem parseDict_ser (es : List String) (fields : JsProps) (hg : fieldsGood es fields)
    (hdk : distinctKeys (jsPropsKeys fields) = true) (hne : es ≠ []) (f' : Nat)
    (hf : (charInterSp (es.map String.data)).length < f') :
    parseDictF (f' + 1)
      ('{' :: (charInterSp (es.map String.data) ++ ['}'])) = fields := by
  have hmapne : es.map String.data ≠ [] := by
    cases es with
    | nil => exact absurd rfl hne
    | cons e es2 => simp
  obtain ⟨hPos, hIne, hIhead, hIlast, hInl⟩ :=
    interOk (es.map String.data) hmapne (fieldsGood_SegOk es fields hg)
  simp only [parseDictF]
  have htrim : trimL ('{' :: (charInterSp (es.map String.data) ++ ['}']))
      = '{' :: (charInterSp (es.map String.data) ++ ['}']) := by
    refine trimL_eq_self _ (fun x hx => ?_) (fun x hx => ?_)
    · have hxc : some '{' = some x := hx
      rw [← Option.some.inj hxc]
      decide
    · have hlast2 : (('{' :: (charInterSp (es.map String.data) ++ ['}'])) :
          List Char).getLast? = some '}' := by
        show (('{' :: charInterSp (es.map String.data)) ++ ['}']).getLast? = some '}'
        rw [getLastQ_append _ _ (List.cons_ne_nil '}' [])]
        rfl
      rw [hlast2] at hx
      rw [← Option.some.inj hx]
      decide
  simp only [htrim]
  have hsw : startsWithL ('{' :: (charInterSp (es.map String.data) ++ ['}'])) ['{']
      = true := by
    simp [startsWithL]
  have hew : endsWithL ('{' :: (charInterSp (es.map String.data) ++ ['}'])) ['}']
      = true := by
    show startsWithL (('{' :: (charInterSp (es.map String.data) ++ ['}'])) :
      List Char).reverse ['}'].reverse = true
    have hrev : (('{' :: (charInterSp (es.map String.data) ++ ['}'])) :
        List Char).reverse
        = '}' :: ((charInterSp (es.map String.data)).reverse ++ ['{']) := by
      show (('{' :: charInterSp (es.map String.data)) ++ ['}']).reverse = _
      rw [List.reverse_append, List.reverse_cons]
      simp
    rw [hrev]
    simp [startsWithL]
  rw [if_pos ⟨hsw, hew⟩]
  have hinner : trimL ((('{' :: (charInterSp (es.map String.data) ++ ['}'])).drop
      1).dropLast) = charInterSp (es.map String.data) := by
    show trimL ((charInterSp (es.map String.data) ++ ['}']).dropLast) = _
    rw [List.dropLast_concat]
    exact trimL_eq_self _ hIhead (fun x hx => (hIlast x hx).1)
  simp only [hinner]
  rw [if_neg hIne]
  cases es with
  | nil => exact absurd rfl hne
  | cons e es2 =>
    have hokAll := fieldsGood_SegOk (e :: es2) fields hg
    have heOk : SegOk e.data := hokAll e.data (by simp)
    have htlOk : ∀ x ∈ es2, SegOk x.data := fun x hx =>
      hokAll x.data (by
        simp only [List.map_cons, List.mem_cons]
        exact Or.inr (List.mem_map_of_mem String.data hx))
    have hsegs : splitTop (charInterSp ((e :: es2).map String.data))
        = e.data :: (es2.map String.data).map (fun t => ' ' :: t) := by
      rw [List.map_cons]
      exact splitTop_inter e.data (es2.map String.data) heOk.1
        (fun t ht => by
          obtain ⟨x, hx, rfl⟩ := List.mem_map.mp ht
          exact (htlOk x hx).1)
    simp only [hsegs]
    have hSne : (e.data :: (es2.map String.data).map (fun t => ' ' :: t)) ≠ [] :=
      List.cons_ne_nil _ _
    have hlastT : ¬ (trimL ((e.data :: (es2.map String.data).map
        (fun t => ' ' :: t)).getLastD []) = []) := by
      have hmem := getLastD_mem _ ([] : List Char) hSne
      rcases List.mem_cons.mp hmem with hcase | hcase
      · rw [hcase]
        obtain ⟨-, hne2, hh, hl, -⟩ := heOk
        rw [trimL_eq_self _ hh (fun x hx => (hl x hx).1)]
        exact hne2
      · obtain ⟨t, ht, hcase2⟩ := List.mem_map.mp hcase
        obtain ⟨x, hx, rfl⟩ := List.mem_map.mp ht
        rw [← hcase2]
        obtain ⟨-, hne2, hh, hl, -⟩ := htlOk x hx
        rw [trimL_cons_space ' ' x.data (by decide),
          trimL_eq_self _ hh (fun y hy => (hl y hy).1)]
        exact hne2
    rw [if_neg hlastT, dropLast_map_getLastD trimL _ [] hSne]
    have hmapval : (e.data :: (es2.map String.data).map (fun t => ' ' :: t)).map trimL
        = (e :: es2).map String.data := by
      rw [List.map_cons, List.map_map, List.map_cons]
      obtain ⟨-, -, hh, hl, -⟩ := heOk
      rw [trimL_eq_self _ hh (fun x hx => (hl x hx).1), List.map_map]
      refine congrArg _ (map_congr_mem es2 _ _ ?_)
      intro x hx
      show trimL (' ' :: x.data) = x.data
      obtain ⟨-, -, hh2, hl2, -⟩ := htlOk x hx
      rw [trimL_cons_space ' ' x.data (by decide)]
      exact trimL_eq_self _ hh2 (fun y hy => (hl2 y hy).1)
    rw [hmapval, dictFold (e :: es2) fields f' .nil hg hdk
      (fun j hj => absurd hj (List.not_mem_nil j))
      (by
        intro x hx
        rcases List.mem_cons.mp hx with rfl | hx2
        · have hmem : x.data ∈ splitTop (charInterSp ((x :: es2).map String.data)) := by
            rw [hsegs]
            exact List.mem_cons_self _ _
          have := splitTop_len _ _ hmem
          omega
        · have hmem : (' ' :: x.data)
              ∈ splitTop (charInterSp ((e :: es2).map String.data)) := by
            rw [hsegs]
            exact List.mem_cons.mpr (Or.inr (List.mem_map.mpr
              ⟨x.data, List.mem_map_of_mem String.data hx2, rfl⟩))
          have := splitTop_len _ _ hmem
          simp only [List.length_cons] at this
          omega)]
    rfl

/-- `parseValue` on the keyword literals. -/
theorem pvL_null : pvL "null".data = .null := rfl

/-- `parseValue` on `true`. -/
theorem pvL_true : pvL "true".data = .bool true := rfl

/-- `parseValue` on `false`. -/
theorem pvL_false : pvL "false".data = .bool false := rfl

/-- `parseValue` on the empty array literal. -/
theorem pvL_emptyArr : pvL "[]".data = .arr .nil := rfl

/-- `parseValue` on the empty dictionary literal. -/
theorem pvL_emptyDict : pvL "\x7b\x7d".data = .obj .nil := rfl

/-- Bool form of scanner inertness, for deciding concrete texts. -/
theorem plainCh_of_b (c : Char) (h : plainChB c = true) : PlainCh c := by
  simp only [plainChB, Bool.and_eq_true, decide_eq_true_eq] at h
  obtain ⟨⟨⟨⟨⟨⟨⟨⟨h1, h2⟩, h3⟩, h4⟩, h5⟩, h6⟩, h7⟩, h8⟩, h9⟩ := h
  exact ⟨h1, by rintro (h | h | h)
                exacts [h2 h, h3 h, h4 h],
    by rintro (h | h | h)
       exacts [h5 h, h6 h, h7 h], h8, h9⟩

/-- Safe-segment check for concrete literal texts. -/
theorem segOk_concrete (E : List Char) (c0 lc : Char) (hne : E ≠ [])
    (hh : E.head? = some c0) (hl : E.getLast? = some lc)
    (hc0 : isJsSpace c0 = false) (hlc : isJsSpace lc = false ∧ ¬ (lc = '\\'))
    (hall : E.all plainChB = true)
    (hnl : E.all (fun c => decide (¬ (c = '\n'))) = true) : SegOk E := by
  refine ⟨scPlainList E (fun c hc => plainCh_of_b c (List.all_eq_true.mp hall c hc)),
    hne, ?_, ?_, ?_⟩
  · intro x hx
    rw [hh] at hx
    rw [← Option.some.inj hx]
    exact hc0
  · intro x hx
    rw [hl] at hx
    rw [← Option.some.inj hx]
    exact hlc
  · intro x hx
    have := List.all_eq_true.mp hnl x hx
    simpa using this

/-- The keyword literals are safe segments. -/
theorem segOk_null : SegOk "null".data :=
  segOk_concrete _ 'n' 'l' (by decide) rfl rfl (by decide) ⟨by decide, by decide⟩
    (by decide) (by decide)

/-- `true` is a safe segment. -/
theorem segOk_true : SegOk "true".data :=
  segOk_concrete _ 't' 'e' (by decide) rfl rfl (by decide) ⟨by decide, by decide⟩
    (by decide) (by decide)

/-- `false` is a safe segment. -/
theorem segOk_false : SegOk "false".data :=
  segOk_concrete _ 'f' 'e' (by decide) rfl rfl (by decide) ⟨by decide, by decide⟩
    (by decide) (by decide)

/-- `[]` is a safe segment. -/
theorem segOk_emptyArr : SegOk "[]".data := by
  have h := segOk_bracket '[' ']' (Or.inl rfl) (Or.inl rfl) []
    (scPos_of_sc [] scTrans_nil) (by simp)
  exact h

/-- `{}` is a safe segment. -/
theorem segOk_emptyDict : SegOk "\x7b\x7d".data := by
  have h := segOk_bracket '{' '}' (Or.inr (Or.inl rfl)) (Or.inr (Or.inl rfl)) []
    (scPos_of_sc [] scTrans_nil) (by simp)
  exact h

/-- A prefix of an append that fits in the left part. -/
theorem startsWith_of_append : ∀ (b a r : List Char),
    startsWithL (a ++ r) b = true → b.length ≤ a.length → startsWithL a b = true
  | [], a, _, _, _ => by cases a <;> rfl
  | d :: bt, [], r, h, hlen => by simp at hlen
  | d :: bt, c :: at2, r, h, hlen => by
    rw [List.cons_append] at h
    simp only [startsWithL, Bool.and_eq_true, decide_eq_true_eq] at h ⊢
    refine ⟨h.1, startsWith_of_append bt at2 r h.2 ?_⟩
    simp only [List.length_cons] at hlen
    omega

/-- A constructor-literal rendering is a safe segment: inert name, then a
parenthesized transparent argument text. -/
theorem segOk_ctor (pre : List Char) (hpre : ∀ c ∈ pre, PlainCh c)
    (hpreSpace : ∀ c ∈ pre, isJsSpace c = false)
    (hpreNl : ∀ c ∈ pre, ¬ (c = '\n')) (hprene : pre ≠ [])
    (W : List Char) (hW : ScTransPos W) (hWnl : ∀ x ∈ W, ¬ (x = '\n')) :
    SegOk (pre ++ ('(' :: (W ++ [')']))) := by
  refine ⟨?_, ?_, ?_, ?_, ?_⟩
  · refine scAppend pre _ (scPlainList pre hpre) ?_ ?_
    · exact scBracketWrap '(' ')' W (Or.inr (Or.inr rfl)) (Or.inr (Or.inr rfl)) hW
    · intro x hx
      exact (hpre x (getLastQ_mem pre x hx)).2.2.2.2
  · cases pre with
    | nil => exact absurd rfl hprene
    | cons a t => simp
  · cases pre with
    | nil => exact absurd rfl hprene
    | cons a t =>
      intro x hx
      rw [List.cons_append] at hx
      have hxc : some a = some x := hx
      rw [← Option.some.inj hxc]
      exact hpreSpace a (List.mem_cons_self a t)
  · intro x hx
    have hlast : ((pre ++ ('(' :: (W ++ [')']))) : List Char).getLast? = some ')' := by
      rw [getLastQ_append pre _ (List.cons_ne_nil '(' _)]
      show (('(' :: W) ++ [')']).getLast? = some ')'
      rw [getLastQ_append _ _ (List.cons_ne_nil ')' [])]
      rfl
    rw [hlast] at hx
    rw [← Option.some.inj hx]
    exact ⟨by decide, by decide⟩
  · intro x hx
    rcases List.mem_append.mp hx with hx2 | hx2
    · exact hpreNl x hx2
    · rcases List.mem_cons.mp hx2 with rfl | hx3
      · decide
      · rcases List.mem_append.mp hx3 with hx4 | hx4
        · exact hWnl x hx4
        · rw [List.mem_singleton] at hx4
          subst hx4
          decide

/-- All-characters inertness from a decidable check. -/
theorem concrete_all_plain (l : List Char) (h : l.all plainChB = true) :
    ∀ c ∈ l, PlainCh c :=
  fun c hc => plainCh_of_b c (List.all_eq_true.mp h c hc)

/-- All-characters non-whitespace from a decidable check. -/
theorem concrete_all_space (l : List Char)
    (h : l.all (fun c => decide (isJsSpace c = false)) = true) :
    ∀ c ∈ l, isJsSpace c = false := fun c hc => by
  have := List.all_eq_true.mp h c hc
  simpa using this

/-- All-characters newline-free from a decidable check. -/
theorem concrete_all_nl (l : List Char)
    (h : l.all (fun c => decide (¬ (c = '\n'))) = true) :
    ∀ c ∈ l, ¬ (c = '\n') := fun c hc => by
  have := List.all_eq_true.mp h c hc
  simpa using this

/-- The `Vector2(x, y)` rendering parses back and is a safe segment. -/
theorem ctorV2_facts (a b : Dec) (ha : isNormDec a = true) (hb : isNormDec b = true) :
    pvL ("Vector2(" ++ decToString a ++ ", " ++ decToString b ++ ")").data
      = .obj (JsProps.cons "_type" (.str "Vector2")
        (JsProps.cons "x" (.num a) (JsProps.cons "y" (.num b) .nil)))
    ∧ SegOk ("Vector2(" ++ decToString a ++ ", " ++ decToString b ++ ")").data := by
  obtain ⟨hpa, hoka⟩ := serNum_facts a ha
  obtain ⟨hpb, hokb⟩ := serNum_facts b hb
  have hser2 : ("Vector2(" ++ decToString a ++ ", " ++ decToString b ++ ")").data
      = "Vector2(".data ++ ((decToString a).data
        ++ ',' :: ' ' :: ((decToString b).data ++ [')'])) := by
    simp [List.append_assoc]
  have hserPre : ("Vector2(" ++ decToString a ++ ", " ++ decToString b ++ ")").data
      = "Vector2".data ++ ('(' :: (((decToString a).data
        ++ ',' :: ' ' :: (decToString b).data) ++ [')'])) := by
    simp [List.append_assoc]
  obtain ⟨hWpos, -, -, -, hWnl⟩ := interOk [(decToString a).data, (decToString b).data]
    (by simp)
    (by
      intro EE hEE
      rcases List.mem_cons.mp hEE with rfl | hEE2
      · exact hoka
      · rw [List.mem_singleton] at hEE2
        subst hEE2
        exact hokb)
  have hOk : SegOk ("Vector2(" ++ decToString a ++ ", " ++ decToString b ++ ")").data := by
    rw [hserPre]
    exact segOk_ctor "Vector2".data (concrete_all_plain _ (by decide))
      (concrete_all_space _ (by decide)) (concrete_all_nl _ (by decide)) (by decide)
      _ hWpos hWnl
  refine ⟨?_, hOk⟩
  obtain ⟨-, -, hEh, hEl, -⟩ := hOk
  have htrimE : trimL ("Vector2(" ++ decToString a ++ ", " ++ decToString b ++ ")").data
      = ("Vector2(" ++ decToString a ++ ", " ++ decToString b ++ ")").data :=
    trimL_eq_self _ hEh (fun x hx => (hEl x hx).1)
  show parseValueF (("Vector2(" ++ decToString a ++ ", " ++ decToString b
    ++ ")").data.length + 1) ("Vector2(" ++ decToString a ++ ", " ++ decToString b
    ++ ")").data = _
  simp only [parseValueF]
  simp only [htrimE]
  have hE : ("Vector2(" ++ decToString a ++ ", " ++ decToString b ++ ")").data
      = 'V' :: ("ector2(".data ++ ((decToString a).data
        ++ ',' :: ' ' :: ((decToString b).data ++ [')']))) := hser2
  obtain ⟨n1, n2, n3, n4, n5, n6⟩ := nav6 _ 'V' _ hE (by decide) (by decide) (by decide)
    (by decide) (by decide) (by decide) (by decide)
  rw [if_neg n1, if_neg n2, if_neg n3, if_neg n4,
    if_neg (show ¬ (isIntLit ("Vector2(" ++ decToString a ++ ", " ++ decToString b
      ++ ")").data = true) by rw [n5]; exact Bool.false_ne_true),
    if_neg (show ¬ (isDecLit ("Vector2(" ++ decToString a ++ ", " ++ decToString b
      ++ ")").data = true) by rw [n6]; exact Bool.false_ne_true),
    if_pos (show startsWithL ("Vector2(" ++ decToString a ++ ", " ++ decToString b
      ++ ")").data "Vector2(".data = true by
      rw [hser2]; exact startsWith_self_append _ _)]
  have hdrop8 : ("Vector2(" ++ decToString a ++ ", " ++ decToString b ++ ")").data.drop 8
      = (decToString a).data ++ ',' :: ' ' :: ((decToString b).data ++ [')']) := by
    rw [hser2]
    have h8 : (8 : Nat) = "Vector2(".data.length := by decide
    rw [h8]
    exact List.drop_left _ _
  rw [hdrop8]
  have hdl : ((decToString a).data ++ ',' :: ' ' :: ((decToString b).data
      ++ [')'])).dropLast = (decToString a).data ++ ',' :: ' ' :: (decToString b).data := by
    have h0 : (decToString a).data ++ ',' :: ' ' :: ((decToString b).data ++ [')'])
        = ((decToString a).data ++ ',' :: ' ' :: (decToString b).data) ++ [')'] := by
      simp
    rw [h0, List.dropLast_concat]
  rw [hdl]
  have hsplit : splitOnCharL ',' ((decToString a).data
      ++ ',' :: ' ' :: (decToString b).data)
      = [(decToString a).data, ' ' :: (decToString b).data] := by
    rw [splitSepApp ',' _ _
      (fun c hc => (plainCh_numChar c (decToString_chars a c hc)).2.2.2.1)]
    rw [splitNoSep ',' _ (by
      intro c hc
      rcases List.mem_cons.mp hc with rfl | hc2
      · decide
      · exact (plainCh_numChar c (decToString_chars b c hc2)).2.2.2.1)]
  rw [hsplit]
  simp only [List.map_cons, List.map_nil]
  have hA : jsParseFloatL (trimL (decToString a).data) = some a := by
    obtain ⟨-, -, hh, hl, -⟩ := hoka
    rw [trimL_eq_self _ hh (fun x hx => (hl x hx).1)]
    exact jsParseFloatL_decToString a ha
  have hB : jsParseFloatL (trimL (' ' :: (decToString b).data)) = some b := by
    obtain ⟨-, -, hh, hl, -⟩ := hokb
    rw [trimL_cons_space ' ' _ (by decide), trimL_eq_self _ hh (fun x hx => (hl x hx).1)]
    exact jsParseFloatL_decToString b hb
  rw [hA, hB]
  rfl

set_option maxHeartbeats 2000000 in
/-- The `Vector3(x, y, z)` rendering parses back and is a safe segment. -/
theorem ctorV3_facts (a b c : Dec) (ha : isNormDec a = true) (hb : isNormDec b = true)
    (hc : isNormDec c = true) :
    pvL ("Vector3(" ++ decToString a ++ ", " ++ decToString b ++ ", "
        ++ decToString c ++ ")").data
      = .obj (JsProps.cons "_type" (.str "Vector3") (JsProps.cons "x" (.num a)
        (JsProps.cons "y" (.num b) (JsProps.cons "z" (.num c) .nil))))
    ∧ SegOk ("Vector3(" ++ decToString a ++ ", " ++ decToString b ++ ", "
        ++ decToString c ++ ")").data := by
  obtain ⟨hpa, hoka⟩ := serNum_facts a ha
  obtain ⟨hpb, hokb⟩ := serNum_facts b hb
  obtain ⟨hpc, hokc⟩ := serNum_facts c hc
  have hser2 : ("Vector3(" ++ decToString a ++ ", " ++ decToString b ++ ", "
      ++ decToString c ++ ")").data
      = "Vector3(".data ++ ((decToString a).data ++ ',' :: ' ' :: ((decToString b).data
        ++ ',' :: ' ' :: ((decToString c).data ++ [')']))) := by
    simp [List.append_assoc]
  have hserPre : ("Vector3(" ++ decToString a ++ ", " ++ decToString b ++ ", "
      ++ decToString c ++ ")").data
      = "Vector3".data ++ ('(' :: (((decToString a).data
        ++ ',' :: ' ' :: ((decToString b).data ++ ',' :: ' ' :: (decToString c).data))
        ++ [')'])) := by
    simp [List.append_assoc]
  obtain ⟨hWpos, -, -, -, hWnl⟩ := interOk
    [(decToString a).data, (decToString b).data, (decToString c).data] (by simp)
    (by
      intro EE hEE
      rcases List.mem_cons.mp hEE with rfl | hEE2
      · exact hoka
      rcases List.mem_cons.mp hEE2 with rfl | hEE3
      · exact hokb
      rw [List.mem_singleton] at hEE3
      subst hEE3
      exact hokc)
  have hOk : SegOk ("Vector3(" ++ decToString a ++ ", " ++ decToString b ++ ", "
      ++ decToString c ++ ")").data := by
    rw [hserPre]
    exact segOk_ctor "Vector3".data (concrete_all_plain _ (by decide))
      (concrete_all_space _ (by decide)) (concrete_all_nl _ (by decide)) (by decide)
      _ hWpos hWnl
  refine ⟨?_, hOk⟩
  obtain ⟨-, -, hEh, hEl, -⟩ := hOk
  have htrimE : trimL ("Vector3(" ++ decToString a ++ ", " ++ decToString b ++ ", "
      ++ decToString c ++ ")").data
      = ("Vector3(" ++ decToString a ++ ", " ++ decToString b ++ ", "
      ++ decToString c ++ ")").data :=
    trimL_eq_self _ hEh (fun x hx => (hEl x hx).1)
  show parseValueF (("Vector3(" ++ decToString a ++ ", " ++ decToString b ++ ", "
    ++ decToString c ++ ")").data.length + 1) ("Vector3(" ++ decToString a ++ ", "
    ++ decToString b ++ ", " ++ decToString c ++ ")").data = _
  simp only [parseValueF]
  simp only [htrimE]
  have hE : ("Vector3(" ++ decToString a ++ ", " ++ decToString b ++ ", "
      ++ decToString c ++ ")").data
      = 'V' :: ("ector3(".data ++ ((decToString a).data
        ++ ',' :: ' ' :: ((decToString b).data
        ++ ',' :: ' ' :: ((decToString c).data ++ [')'])))) := hser2
  obtain ⟨n1, n2, n3, n4, n5, n6⟩ := nav6 _ 'V' _ hE (by decide) (by decide) (by decide)
    (by decide) (by decide) (by decide) (by decide)
  have hnV2 : ¬ (startsWithL ("Vector3(" ++ decToString a ++ ", " ++ decToString b
      ++ ", " ++ decToString c ++ ")").data "Vector2(".data = true) := by
    rw [hser2]
    intro hcontra
    have := startsWith_of_append "Vector2(".data "Vector3(".data _ hcontra (by decide)
    exact absurd this (by decide)
  rw [if_neg n1, if_neg n2, if_neg n3, if_neg n4,
    if_neg (show ¬ (isIntLit ("Vector3(" ++ decToString a ++ ", " ++ decToString b
      ++ ", " ++ decToString c ++ ")").data = true) by
      rw [n5]; exact Bool.false_ne_true),
    if_neg (show ¬ (isDecLit ("Vector3(" ++ decToString a ++ ", " ++ decToString b
      ++ ", " ++ decToString c ++ ")").data = true) by
      rw [n6]; exact Bool.false_ne_true),
    if_neg hnV2,
    if_pos (show startsWithL ("Vector3(" ++ decToString a ++ ", " ++ decToString b
      ++ ", " ++ decToString c ++ ")").data "Vector3(".data = true by
      rw [hser2]; exact startsWith_self_append _ _)]
  have hdrop8 : ("Vector3(" ++ decToString a ++ ", " ++ decToString b ++ ", "
      ++ decToString c ++ ")").data.drop 8
      = (decToString a).data ++ ',' :: ' ' :: ((decToString b).data
        ++ ',' :: ' ' :: ((decToString c).data ++ [')'])) := by
    rw [hser2]
    have h8 : (8 : Nat) = "Vector3(".data.length := by decide
    rw [h8]
    exact List.drop_left _ _
  rw [hdrop8]
  have hdl : ((decToString a).data ++ ',' :: ' ' :: ((decToString b).data
      ++ ',' :: ' ' :: ((decToString c).data ++ [')']))).dropLast
      = (decToString a).data ++ ',' :: ' ' :: ((decToString b).data
        ++ ',' :: ' ' :: (decToString c).data) := by
    have h0 : (decToString a).data ++ ',' :: ' ' :: ((decToString b).data
        ++ ',' :: ' ' :: ((decToString c).data ++ [')']))
        = ((decToString a).data ++ ',' :: ' ' :: ((decToString b).data
          ++ ',' :: ' ' :: (decToString c).data)) ++ [')'] := by
      simp
    rw [h0, List.dropLast_concat]
  rw [hdl]
  have hsplit : splitOnCharL ',' ((decToString a).data ++ ',' :: ' ' :: ((decToString b).data
      ++ ',' :: ' ' :: (decToString c).data))
      = [(decToString a).data, ' ' :: (decToString b).data, ' ' :: (decToString c).data] := by
    rw [splitSepApp ',' _ _
      (fun x hx => (plainCh_numChar x (decToString_chars a x hx)).2.2.2.1)]
    have hR : (' ' :: ((decToString b).data ++ ',' :: ' ' :: (decToString c).data))
        = (' ' :: (decToString b).data) ++ ',' :: ' ' :: (decToString c).data := by
      simp
    rw [hR, splitSepApp ',' _ _ (by
      intro x hx
      rcases List.mem_cons.mp hx with rfl | hx2
      · decide
      · exact (plainCh_numChar x (decToString_chars b x hx2)).2.2.2.1)]
    rw [splitNoSep ',' _ (by
      intro x hx
      rcases List.mem_cons.mp hx with rfl | hx2
      · decide
      · exact (plainCh_numChar x (decToString_chars c x hx2)).2.2.2.1)]
  rw [hsplit]
  simp only [List.map_cons, List.map_nil]
  have hA : jsParseFloatL (trimL (decToString a).data) = some a := by
    obtain ⟨-, -, hh, hl, -⟩ := hoka
    rw [trimL_eq_self _ hh (fun x hx => (hl x hx).1)]
    exact jsParseFloatL_decToString a ha
  have hB : jsParseFloatL (trimL (' ' :: (decToString b).data)) = some b := by
    obtain ⟨-, -, hh, hl, -⟩ := hokb
    rw [trimL_cons_space ' ' _ (by decide), trimL_eq_self _ hh (fun x hx => (hl x hx).1)]
    exact jsParseFloatL_decToString b hb
  have hC : jsParseFloatL (trimL (' ' :: (decToString c).data)) = some c := by
    obtain ⟨-, -, hh, hl, -⟩ := hokc
    rw [trimL_cons_space ' ' _ (by decide), trimL_eq_self _ hh (fun x hx => (hl x hx).1)]
    exact jsParseFloatL_decToString c hc
  rw [hA, hB, hC]
  rfl

set_option maxHeartbeats 2000000 in
/-- The `Color(r, g, b, a)` rendering parses back and is a safe segment. -/
theorem ctorColor_facts (a b c d : Dec) (ha : isNormDec a = true)
    (hb : isNormDec b = true) (hc : isNormDec c = true) (hd : isNormDec d = true) :
    pvL ("Color(" ++ decToString a ++ ", " ++ decToString b ++ ", "
        ++ decToString c ++ ", " ++ decToString d ++ ")").data
      = .obj (JsProps.cons "_type" (.str "Color") (JsProps.cons "r" (.num a)
        (JsProps.cons "g" (.num b) (JsProps.cons "b" (.num c)
          (JsProps.cons "a" (.num d) .nil)))))
    ∧ SegOk ("Color(" ++ decToString a ++ ", " ++ decToString b ++ ", "
        ++ decToString c ++ ", " ++ decToString d ++ ")").data := by
  obtain ⟨hpa, hoka⟩ := serNum_facts a ha
  obtain ⟨hpb, hokb⟩ := serNum_facts b hb
  obtain ⟨hpc, hokc⟩ := serNum_facts c hc
  obtain ⟨hpd, hokd⟩ := serNum_facts d hd
  have hser2 : ("Color(" ++ decToString a ++ ", " ++ decToString b ++ ", "
      ++ decToString c ++ ", " ++ decToString d ++ ")").data
      = "Color(".data ++ ((decToString a).data ++ ',' :: ' ' :: ((decToString b).data
        ++ ',' :: ' ' :: ((decToString c).data
        ++ ',' :: ' ' :: ((decToString d).data ++ [')'])))) := by
    simp [List.append_assoc]
  have hserPre : ("Color(" ++ decToString a ++ ", " ++ decToString b ++ ", "
      ++ decToString c ++ ", " ++ decToString d ++ ")").data
      = "Color".data ++ ('(' :: (((decToString a).data
        ++ ',' :: ' ' :: ((decToString b).data ++ ',' :: ' ' :: ((decToString c).data
        ++ ',' :: ' ' :: (decToString d).data))) ++ [')'])) := by
    simp [List.append_assoc]
  obtain ⟨hWpos, -, -, -, hWnl⟩ := interOk
    [(decToString a).data, (decToString b).data, (decToString c).data,
      (decToString d).data] (by simp)
    (by
      intro EE hEE
      rcases List.mem_cons.mp hEE with rfl | hEE2
      · exact hoka
      rcases List.mem_cons.mp hEE2 with rfl | hEE3
      · exact hokb
      rcases List.mem_cons.mp hEE3 with rfl | hEE4
      · exact hokc
      rw [List.mem_singleton] at hEE4
      subst hEE4
      exact hokd)
  have hOk : SegOk ("Color(" ++ decToString a ++ ", " ++ decToString b ++ ", "
      ++ decToString c ++ ", " ++ decToString d ++ ")").data := by
    rw [hserPre]
    exact segOk_ctor "Color".data (concrete_all_plain _ (by decide))
      (concrete_all_space _ (by decide)) (concrete_all_nl _ (by decide)) (by decide)
      _ hWpos hWnl
  refine ⟨?_, hOk⟩
  obtain ⟨-, -, hEh, hEl, -⟩ := hOk
  have htrimE : trimL ("Color(" ++ decToString a ++ ", " ++ decToString b ++ ", "
      ++ decToString c ++ ", " ++ decToString d ++ ")").data
      = ("Color(" ++ decToString a ++ ", " ++ decToString b ++ ", "
      ++ decToString c ++ ", " ++ decToString d ++ ")").data :=
    trimL_eq_self _ hEh (fun x hx => (hEl x hx).1)
  show parseValueF (("Color(" ++ decToString a ++ ", " ++ decToString b ++ ", "
    ++ decToString c ++ ", " ++ decToString d ++ ")").data.length + 1)
    ("Color(" ++ decToString a ++ ", " ++ decToString b ++ ", " ++ decToString c
    ++ ", " ++ decToString d ++ ")").data = _
  simp only [parseValueF]
  simp only [htrimE]
  have hE : ("Color(" ++ decToString a ++ ", " ++ decToString b ++ ", "
      ++ decToString c ++ ", " ++ decToString d ++ ")").data
      = 'C' :: ("olor(".data ++ ((decToString a).data
        ++ ',' :: ' ' :: ((decToString b).data ++ ',' :: ' ' :: ((decToString c).data
        ++ ',' :: ' ' :: ((decToString d).data ++ [')']))))) := hser2
  obtain ⟨n1, n2, n3, n4, n5, n6⟩ := nav6 _ 'C' _ hE (by decide) (by decide) (by decide)
    (by decide) (by decide) (by decide) (by decide)
  rw [if_neg n1, if_neg n2, if_neg n3, if_neg n4,
    if_neg (show ¬ (isIntLit ("Color(" ++ decToString a ++ ", " ++ decToString b
      ++ ", " ++ decToString c ++ ", " ++ decToString d ++ ")").data = true) by
      rw [n5]; exact Bool.false_ne_true),
    if_neg (show ¬ (isDecLit ("Color(" ++ decToString a ++ ", " ++ decToString b
      ++ ", " ++ decToString c ++ ", " ++ decToString d ++ ")").data = true) by
      rw [n6]; exact Bool.false_ne_true),
    if_neg (by
      rw [hE]
      exact startsWith_head_ne 'C' _ 'V' "ector2(".data (by decide)),
    if_neg (by
      rw [hE]
      exact startsWith_head_ne 'C' _ 'V' "ector3(".data (by decide)),
    if_pos (show startsWithL ("Color(" ++ decToString a ++ ", " ++ decToString b
      ++ ", " ++ decToString c ++ ", " ++ decToString d ++ ")").data "Color(".data
      = true by
      rw [hser2]; exact startsWith_self_append _ _)]
  have hdrop6 : ("Color(" ++ decToString a ++ ", " ++ decToString b ++ ", "
      ++ decToString c ++ ", " ++ decToString d ++ ")").data.drop 6
      = (decToString a).data ++ ',' :: ' ' :: ((decToString b).data
        ++ ',' :: ' ' :: ((decToString c).data
        ++ ',' :: ' ' :: ((decToString d).data ++ [')']))) := by
    rw [hser2]
    have h6 : (6 : Nat) = "Color(".data.length := by decide
    rw [h6]
    exact List.drop_left _ _
  rw [hdrop6]
  have hdl : ((decToString a).data ++ ',' :: ' ' :: ((decToString b).data
      ++ ',' :: ' ' :: ((decToString c).data
      ++ ',' :: ' ' :: ((decToString d).data ++ [')'])))).dropLast
      = (decToString a).data ++ ',' :: ' ' :: ((decToString b).data
        ++ ',' :: ' ' :: ((decToString c).data ++ ',' :: ' ' :: (decToString d).data)) := by
    have h0 : (decToString a).data ++ ',' :: ' ' :: ((decToString b).data
        ++ ',' :: ' ' :: ((decToString c).data
        ++ ',' :: ' ' :: ((decToString d).data ++ [')'])))
        = ((decToString a).data ++ ',' :: ' ' :: ((decToString b).data
          ++ ',' :: ' ' :: ((decToString c).data
          ++ ',' :: ' ' :: (decToString d).data))) ++ [')'] := by
      simp
    rw [h0, List.dropLast_concat]
  rw [hdl]
  have hsplit : splitOnCharL ',' ((decToString a).data ++ ',' :: ' ' :: ((decToString b).data
      ++ ',' :: ' ' :: ((decToString c).data ++ ',' :: ' ' :: (decToString d).data)))
      = [(decToString a).data, ' ' :: (decToString b).data, ' ' :: (decToString c).data,
        ' ' :: (decToString d).data] := by
    rw [splitSepApp ',' _ _
      (fun x hx => (plainCh_numChar x (decToString_chars a x hx)).2.2.2.1)]
    have hR1 : (' ' :: ((decToString b).data ++ ',' :: ' ' :: ((decToString c).data
        ++ ',' :: ' ' :: (decToString d).data)))
        = (' ' :: (decToString b).data) ++ ',' :: ' ' :: ((decToString c).data
          ++ ',' :: ' ' :: (decToString d).data) := by
      simp
    rw [hR1, splitSepApp ',' _ _ (by
      intro x hx
      rcases List.mem_cons.mp hx with rfl | hx2
      · decide
      · exact (plainCh_numChar x (decToString_chars b x hx2)).2.2.2.1)]
    have hR2 : (' ' :: ((decToString c).data ++ ',' :: ' ' :: (decToString d).data))
        = (' ' :: (decToString c).data) ++ ',' :: ' ' :: (decToString d).data := by
      simp
    rw [hR2, splitSepApp ',' _ _ (by
      intro x hx
      rcases List.mem_cons.mp hx with rfl | hx2
      · decide
      · exact (plainCh_numChar x (decToString_chars c x hx2)).2.2.2.1)]
    rw [splitNoSep ',' _ (by
      intro x hx
      rcases List.mem_cons.mp hx with rfl | hx2
      · decide
      · exact (plainCh_numChar x (decToString_chars d x hx2)).2.2.2.1)]
  rw [hsplit]
  simp only [List.map_cons, List.map_nil]
  have hA : jsParseFloatL (trimL (decToString a).data) = some a := by
    obtain ⟨-, -, hh, hl, -⟩ := hoka
    rw [trimL_eq_self _ hh (fun x hx => (hl x hx).1)]
    exact jsParseFloatL_decToString a ha
  have hB : jsParseFloatL (trimL (' ' :: (decToString b).data)) = some b := by
    obtain ⟨-, -, hh, hl, -⟩ := hokb
    rw [trimL_cons_space ' ' _ (by decide), trimL_eq_self _ hh (fun x hx => (hl x hx).1)]
    exact jsParseFloatL_decToString b hb
  have hC : jsParseFloatL (trimL (' ' :: (decToString c).data)) = some c := by
    obtain ⟨-, -, hh, hl, -⟩ := hokc
    rw [trimL_cons_space ' ' _ (by decide), trimL_eq_self _ hh (fun x hx => (hl x hx).1)]
    exact jsParseFloatL_decToString c hc
  have hD : jsParseFloatL (trimL (' ' :: (decToString d).data)) = some d := by
    obtain ⟨-, -, hh, hl, -⟩ := hokd
    rw [trimL_cons_space ' ' _ (by decide), trimL_eq_self _ hh (fun x hx => (hl x hx).1)]
    exact jsParseFloatL_decToString d hd
  rw [hA, hB, hC, hD]
  rfl

/-- Shared facts for a quoted identifier argument. -/
theorem wfIdB_parts (i : String) (h : wfIdB i = true) :
    (∀ c ∈ i.data, ¬ (c = '"')) ∧ (∀ c ∈ i.data, ¬ (c = '\n'))
      ∧ ¬ (i.data.getLast? = some '\\') := by
  simp only [wfIdB, Bool.and_eq_true] at h
  obtain ⟨⟨hq, hnl⟩, hbs⟩ := h
  simp only [lacks, List.all_eq_true, decide_eq_true_eq] at hq hnl
  simp only [lastNotBS, decide_eq_true_eq] at hbs
  exact ⟨hq, hnl, hbs⟩

/-- The quoted-identifier argument text is transparent and newline-free. -/
theorem idArg_facts (i : String) (h : wfIdB i = true) :
    ScTransPos ('"' :: (i.data ++ ['"']))
      ∧ (∀ x ∈ ('"' :: (i.data ++ ['"'])), ¬ (x = '\n')) := by
  obtain ⟨hq, hnl, hbs⟩ := wfIdB_parts i h
  refine ⟨scPos_of_sc _ (strQuoted_ScTrans i.data
    (fun p => noUnescQuote_of_no_quote i.data p hq) hbs), ?_⟩
  intro x hx
  rcases List.mem_cons.mp hx with rfl | hx2
  · decide
  · rcases List.mem_append.mp hx2 with hx3 | hx3
    · exact hnl x hx3
    · rw [List.mem_singleton] at hx3
      subst hx3
      decide

/-- Stripping the quotes from a quoted quote-free identifier. -/
theorem replQuotes (i : String) (hq : ∀ c ∈ i.data, ¬ (c = '"')) :
    replace1 '"' [] ('"' :: (i.data ++ ['"'])) = i.data := by
  show (if ('"' : Char) = '"' then [] ++ replace1 '"' [] (i.data ++ ['"'])
    else '"' :: replace1 '"' [] (i.data ++ ['"'])) = _
  rw [if_pos rfl, List.nil_append, replace1_append, replace1_absent '"' [] i.data hq]
  show i.data ++ (if ('"' : Char) = '"' then [] ++ replace1 '"' [] []
    else '"' :: replace1 '"' [] []) = _
  rw [if_pos rfl]
  simp [replace1]

set_option maxHeartbeats 2000000 in
/-- The `ExtResource("id")` rendering parses back and is a safe segment. -/
theorem ctorExt_facts (i : String) (h : wfIdB i = true) :
    pvL ("ExtResource(\"" ++ i ++ "\")").data
      = .obj (JsProps.cons "_type" (.str "ExtResource")
        (JsProps.cons "id" (.str i) .nil))
    ∧ SegOk ("ExtResource(\"" ++ i ++ "\")").data := by
  obtain ⟨hq, hnl, hbs⟩ := wfIdB_parts i h
  obtain ⟨hWpos, hWnl⟩ := idArg_facts i h
  have hser2 : ("ExtResource(\"" ++ i ++ "\")").data
      = "ExtResource(".data ++ (('"' :: (i.data ++ ['"'])) ++ [')']) := by
    simp [List.append_assoc]
  have hserPre : ("ExtResource(\"" ++ i ++ "\")").data
      = "ExtResource".data ++ ('(' :: (('"' :: (i.data ++ ['"'])) ++ [')'])) := hser2
  have hOk : SegOk ("ExtResource(\"" ++ i ++ "\")").data := by
    rw [hserPre]
    exact segOk_ctor "ExtResource".data (concrete_all_plain _ (by decide))
      (concrete_all_space _ (by decide)) (concrete_all_nl _ (by decide)) (by decide)
      _ hWpos hWnl
  refine ⟨?_, hOk⟩
  obtain ⟨-, -, hEh, hEl, -⟩ := hOk
  have htrimE : trimL ("ExtResource(\"" ++ i ++ "\")").data
      = ("ExtResource(\"" ++ i ++ "\")").data :=
    trimL_eq_self _ hEh (fun x hx => (hEl x hx).1)
  show parseValueF (("ExtResource(\"" ++ i ++ "\")").data.length + 1)
    ("ExtResource(\"" ++ i ++ "\")").data = _
  simp only [parseValueF]
  simp only [htrimE]
  have hE : ("ExtResource(\"" ++ i ++ "\")").data
      = 'E' :: ("xtResource(".data ++ (('"' :: (i.data ++ ['"'])) ++ [')'])) := hser2
  obtain ⟨n1, n2, n3, n4, n5, n6⟩ := nav6 _ 'E' _ hE (by decide) (by decide) (by decide)
    (by decide) (by decide) (by decide) (by decide)
  rw [if_neg n1, if_neg n2, if_neg n3, if_neg n4,
    if_neg (show ¬ (isIntLit ("ExtResource(\"" ++ i ++ "\")").data = true) by
      rw [n5]; exact Bool.false_ne_true),
    if_neg (show ¬ (isDecLit ("ExtResource(\"" ++ i ++ "\")").data = true) by
      rw [n6]; exact Bool.false_ne_true),
    if_neg (by
      rw [hE]
      exact startsWith_head_ne 'E' _ 'V' "ector2(".data (by decide)),
    if_neg (by
      rw [hE]
      exact startsWith_head_ne 'E' _ 'V' "ector3(".data (by decide)),
    if_neg (by
      rw [hE]
      exact startsWith_head_ne 'E' _ 'C' "olor(".data (by decide)),
    if_pos (show startsWithL ("ExtResource(\"" ++ i ++ "\")").data
      "ExtResource(".data = true by
      rw [hser2]; exact startsWith_self_append _ _)]
  have hdrop12 : ("ExtResource(\"" ++ i ++ "\")").data.drop 12
      = ('"' :: (i.data ++ ['"'])) ++ [')'] := by
    rw [hser2]
    have h12 : (12 : Nat) = "ExtResource(".data.length := by decide
    rw [h12]
    exact List.drop_left _ _
  rw [hdrop12, List.dropLast_concat, replQuotes i hq]
  rfl

set_option maxHeartbeats 2000000 in
/-- The `SubResource("id")` rendering parses back and is a safe segment. -/
theorem ctorSub_facts (i : String) (h : wfIdB i = true) :
    pvL ("SubResource(\"" ++ i ++ "\")").data
      = .obj (JsProps.cons "_type" (.str "SubResource")
        (JsProps.cons "id" (.str i) .nil))
    ∧ SegOk ("SubResource(\"" ++ i ++ "\")").data := by
  obtain ⟨hq, hnl, hbs⟩ := wfIdB_parts i h
  obtain ⟨hWpos, hWnl⟩ := idArg_facts i h
  have hser2 : ("SubResource(\"" ++ i ++ "\")").data
      = "SubResource(".data ++ (('"' :: (i.data ++ ['"'])) ++ [')']) := by
    simp [List.append_assoc]
  have hserPre : ("SubResource(\"" ++ i ++ "\")").data
      = "SubResource".data ++ ('(' :: (('"' :: (i.data ++ ['"'])) ++ [')'])) := hser2
  have hOk : SegOk ("SubResource(\"" ++ i ++ "\")").data := by
    rw [hserPre]
    exact segOk_ctor "SubResource".data (concrete_all_plain _ (by decide))
      (concrete_all_space _ (by decide)) (concrete_all_nl _ (by decide)) (by decide)
      _ hWpos hWnl
  refine ⟨?_, hOk⟩
  obtain ⟨-, -, hEh, hEl, -⟩ := hOk
  have htrimE : trimL ("SubResource(\"" ++ i ++ "\")").data
      = ("SubResource(\"" ++ i ++ "\")").data :=
    trimL_eq_self _ hEh (fun x hx => (hEl x hx).1)
  show parseValueF (("SubResource(\"" ++ i ++ "\")").data.length + 1)
    ("SubResource(\"" ++ i ++ "\")").data = _
  simp only [parseValueF]
  simp only [htrimE]
  have hE : ("SubResource(\"" ++ i ++ "\")").data
      = 'S' :: ("ubResource(".data ++ (('"' :: (i.data ++ ['"'])) ++ [')'])) := hser2
  obtain ⟨n1, n2, n3, n4, n5, n6⟩ := nav6 _ 'S' _ hE (by decide) (by decide) (by decide)
    (by decide) (by decide) (by decide) (by decide)
  rw [if_neg n1, if_neg n2, if_neg n3, if_neg n4,
    if_neg (show ¬ (isIntLit ("SubResource(\"" ++ i ++ "\")").data = true) by
      rw [n5]; exact Bool.false_ne_true),
    if_neg (show ¬ (isDecLit ("SubResource(\"" ++ i ++ "\")").data = true) by
      rw [n6]; exact Bool.false_ne_true),
    if_neg (by
      rw [hE]
      exact startsWith_head_ne 'S' _ 'V' "ector2(".data (by decide)),
    if_neg (by
      rw [hE]
      exact startsWith_head_ne 'S' _ 'V' "ector3(".data (by decide)),
    if_neg (by
      rw [hE]
      exact startsWith_head_ne 'S' _ 'C' "olor(".data (by decide)),
    if_neg (by
      rw [hE]
      exact startsWith_head_ne 'S' _ 'E' "xtResource(".data (by decide)),
    if_pos (show startsWithL ("SubResource(\"" ++ i ++ "\")").data
      "SubResource(".data = true by
      rw [hser2]; exact startsWith_self_append _ _)]
  have hdrop12 : ("SubResource(\"" ++ i ++ "\")").data.drop 12
      = ('"' :: (i.data ++ ['"'])) ++ [')'] := by
    rw [hser2]
    have h12 : (12 : Nat) = "SubResource(".data.length := by decide
    rw [h12]
    exact List.drop_left _ _
  rw [hdrop12, List.dropLast_concat, replQuotes i hq]
  rfl

set_option maxHeartbeats 2000000 in
/-- The `NodePath("path")` rendering parses back and is a safe segment. -/
theorem ctorPath_facts (i : String) (h : wfIdB i = true) :
    pvL ("NodePath(\"" ++ i ++ "\")").data
      = .obj (JsProps.cons "_type" (.str "NodePath")
        (JsProps.cons "path" (.str i) .nil))
    ∧ SegOk ("NodePath(\"" ++ i ++ "\")").data := by
  obtain ⟨hq, hnl, hbs⟩ := wfIdB_parts i h
  obtain ⟨hWpos, hWnl⟩ := idArg_facts i h
  have hser2 : ("NodePath(\"" ++ i ++ "\")").data
      = "NodePath(".data ++ (('"' :: (i.data ++ ['"'])) ++ [')']) := by
    simp [List.append_assoc]
  have hserPre : ("NodePath(\"" ++ i ++ "\")").data
      = "NodePath".data ++ ('(' :: (('"' :: (i.data ++ ['"'])) ++ [')'])) := hser2
  have hOk : SegOk ("NodePath(\"" ++ i ++ "\")").data := by
    rw [hserPre]
    exact segOk_ctor "NodePath".data (concrete_all_plain _ (by decide))
      (concrete_all_space _ (by decide)) (concrete_all_nl _ (by decide)) (by decide)
      _ hWpos hWnl
  refine ⟨?_, hOk⟩
  obtain ⟨-, -, hEh, hEl, -⟩ := hOk
  have htrimE : trimL ("NodePath(\"" ++ i ++ "\")").data
      = ("NodePath(\"" ++ i ++ "\")").data :=
    trimL_eq_self _ hEh (fun x hx => (hEl x hx).1)
  show parseValueF (("NodePath(\"" ++ i ++ "\")").data.length + 1)
    ("NodePath(\"" ++ i ++ "\")").data = _
  simp only [parseValueF]
  simp only [htrimE]
  have hE : ("NodePath(\"" ++ i ++ "\")").data
      = 'N' :: ("odePath(".data ++ (('"' :: (i.data ++ ['"'])) ++ [')'])) := hser2
  obtain ⟨n1, n2, n3, n4, n5, n6⟩ := nav6 _ 'N' _ hE (by decide) (by decide) (by decide)
    (by decide) (by decide) (by decide) (by decide)
  rw [if_neg n1, if_neg n2, if_neg n3, if_neg n4,
    if_neg (show ¬ (isIntLit ("NodePath(\"" ++ i ++ "\")").data = true) by
      rw [n5]; exact Bool.false_ne_true),
    if_neg (show ¬ (isDecLit ("NodePath(\"" ++ i ++ "\")").data = true) by
      rw [n6]; exact Bool.false_ne_true),
    if_neg (by
      rw [hE]
      exact startsWith_head_ne 'N' _ 'V' "ector2(".data (by decide)),
    if_neg (by
      rw [hE]
      exact startsWith_head_ne 'N' _ 'V' "ector3(".data (by decide)),
    if_neg (by
      rw [hE]
      exact startsWith_head_ne 'N' _ 'C' "olor(".data (by decide)),
    if_neg (by
      rw [hE]
      exact startsWith_head_ne 'N' _ 'E' "xtResource(".data (by decide)),
    if_neg (by
      rw [hE]
      exact startsWith_head_ne 'N' _ 'S' "ubResource(".data (by decide)),
    if_pos (show startsWithL ("NodePath(\"" ++ i ++ "\")").data
      "NodePath(".data = true by
      rw [hser2]; exact startsWith_self_append _ _)]
  have hdrop9 : ("NodePath(\"" ++ i ++ "\")").data.drop 9
      = ('"' :: (i.data ++ ['"'])) ++ [')'] := by
    rw [hser2]
    have h9 : (9 : Nat) = "NodePath(".data.length := by decide
    rw [h9]
    exact List.drop_left _ _
  rw [hdrop9, List.dropLast_concat, replQuotes i hq]
  rfl

set_option maxHeartbeats 2000000 in
/-- The array rendering parses back and is a safe segment, given good
elements. -/
theorem arrCase (items : JsItems) (hIt : listGood (serializeItems items) items) :
    pvL (serializeValue (.arr items)).data = .arr items
    ∧ SegOk (serializeValue (.arr items)).data := by
  cases items with
  | nil => exact ⟨pvL_emptyArr, segOk_emptyArr⟩
  | cons v0 rest =>
    have hdata : (serializeValue (.arr (JsItems.cons v0 rest))).data
        = '[' :: (charInterSp ((serializeItems (JsItems.cons v0 rest)).map String.data)
          ++ [']']) := by
      show ("[" ++ joinCommaSp (serializeItems (JsItems.cons v0 rest)) ++ "]").data = _
      simp [String.data_append, joinCommaSp_data, List.append_assoc]
    have hesne : serializeItems (JsItems.cons v0 rest) ≠ [] := by
      show serializeValue v0 :: serializeItems rest ≠ []
      exact List.cons_ne_nil _ _
    have hmapne : (serializeItems (JsItems.cons v0 rest)).map String.data ≠ [] := by
      cases hc : serializeItems (JsItems.cons v0 rest) with
      | nil => exact absurd hc hesne
      | cons a t => simp
    obtain ⟨hPos, hIne, hIh, hIl, hInl⟩ := interOk _ hmapne (listGood_SegOk _ _ hIt)
    have hOk : SegOk (serializeValue (.arr (JsItems.cons v0 rest))).data := by
      rw [hdata]
      exact segOk_bracket '[' ']' (Or.inl rfl) (Or.inl rfl) _ hPos hInl
    refine ⟨?_, hOk⟩
    obtain ⟨-, -, hEh, hEl, -⟩ := hOk
    have htrimE : trimL (serializeValue (.arr (JsItems.cons v0 rest))).data
        = (serializeValue (.arr (JsItems.cons v0 rest))).data :=
      trimL_eq_self _ hEh (fun x hx => (hEl x hx).1)
    show parseValueF ((serializeValue (.arr (JsItems.cons v0 rest))).data.length + 1)
      (serializeValue (.arr (JsItems.cons v0 rest))).data = _
    simp only [parseValueF]
    simp only [htrimE]
    obtain ⟨n1, n2, n3, n4, n5, n6⟩ := nav6 _ '[' _ hdata (by decide) (by decide)
      (by decide) (by decide) (by decide) (by decide) (by decide)
    rw [if_neg n1, if_neg n2, if_neg n3, if_neg n4,
      if_neg (show ¬ (isIntLit (serializeValue (.arr (JsItems.cons v0 rest))).data
        = true) by rw [n5]; exact Bool.false_ne_true),
      if_neg (show ¬ (isDecLit (serializeValue (.arr (JsItems.cons v0 rest))).data
        = true) by rw [n6]; exact Bool.false_ne_true),
      if_neg (by
        rw [hdata]
        exact startsWith_head_ne '[' _ 'V' "ector2(".data (by decide)),
      if_neg (by
        rw [hdata]
        exact startsWith_head_ne '[' _ 'V' "ector3(".data (by decide)),
      if_neg (by
        rw [hdata]
        exact startsWith_head_ne '[' _ 'C' "olor(".data (by decide)),
      if_neg (by
        rw [hdata]
        exact startsWith_head_ne '[' _ 'E' "xtResource(".data (by decide)),
      if_neg (by
        rw [hdata]
        exact startsWith_head_ne '[' _ 'S' "ubResource(".data (by decide)),
      if_neg (by
        rw [hdata]
        exact startsWith_head_ne '[' _ 'N' "odePath(".data (by decide)),
      if_pos (show startsWithL (serializeValue (.arr (JsItems.cons v0 rest))).data
        ['['] = true by rw [hdata]; simp [startsWithL])]
    have hlenE : (serializeValue (.arr (JsItems.cons v0 rest))).data.length
        = ((charInterSp ((serializeItems (JsItems.cons v0 rest)).map
          String.data)).length + 1) + 1 := by
      rw [hdata]
      simp [List.length_cons, List.length_append]
    rw [hlenE, hdata, parseArr_ser (serializeItems (JsItems.cons v0 rest))
      (JsItems.cons v0 rest) hIt hesne _ (Nat.lt_succ_self _)]

set_option maxHeartbeats 2000000 in
/-- The dictionary rendering parses back and is a safe segment, given good
pairs and dictionary shape. -/
theorem dictCase (fields : JsProps) (hSh : wfDictShapeB fields = true)
    (hFg : fieldsGood (serializeFields fields) fields) :
    pvL (serializeValue (.obj fields)).data = .obj fields
    ∧ SegOk (serializeValue (.obj fields)).data := by
  simp only [wfDictShapeB, Bool.and_eq_true] at hSh
  obtain ⟨⟨⟨hdk, hkeys⟩, hTagN⟩, hAutoN⟩ := hSh
  have hTag : objTaggedStr fields = none := Option.isNone_iff_eq_none.mp hTagN
  have hAuto : objAutoStr fields = none := Option.isNone_iff_eq_none.mp hAutoN
  have hser : serializeValue (.obj fields)
      = "\x7b" ++ joinCommaSp (serializeFields fields) ++ "\x7d" := by
    show (match objTaggedStr fields with
      | some out => out
      | none =>
        match objAutoStr fields with
        | some out => out
        | none => "\x7b" ++ joinCommaSp (serializeFields fields) ++ "\x7d") = _
    rw [hTag, hAuto]
  cases fields with
  | nil => exact ⟨pvL_emptyDict, segOk_emptyDict⟩
  | cons k0 v0 rest0 =>
    have hesne : serializeFields (JsProps.cons k0 v0 rest0) ≠ [] := by
      intro h0
      rw [h0] at hFg
      exact hFg
    have hdata : (serializeValue (.obj (JsProps.cons k0 v0 rest0))).data
        = '{' :: (charInterSp ((serializeFields (JsProps.cons k0 v0 rest0)).map
          String.data) ++ ['}']) := by
      rw [hser]
      simp [String.data_append, joinCommaSp_data, List.append_assoc]
    have hmapne : (serializeFields (JsProps.cons k0 v0 rest0)).map String.data ≠ [] := by
      cases hc : serializeFields (JsProps.cons k0 v0 rest0) with
      | nil => exact absurd hc hesne
      | cons a t => simp
    obtain ⟨hPos, hIne, hIh, hIl, hInl⟩ := interOk _ hmapne (fieldsGood_SegOk _ _ hFg)
    have hOk : SegOk (serializeValue (.obj (JsProps.cons k0 v0 rest0))).data := by
      rw [hdata]
      exact segOk_bracket '{' '}' (Or.inr (Or.inl rfl)) (Or.inr (Or.inl rfl)) _ hPos hInl
    refine ⟨?_, hOk⟩
    obtain ⟨-, -, hEh, hEl, -⟩ := hOk
    have htrimE : trimL (serializeValue (.obj (JsProps.cons k0 v0 rest0))).data
        = (serializeValue (.obj (JsProps.cons k0 v0 rest0))).data :=
      trimL_eq_self _ hEh (fun x hx => (hEl x hx).1)
    show parseValueF ((serializeValue (.obj (JsProps.cons k0 v0 rest0))).data.length + 1)
      (serializeValue (.obj (JsProps.cons k0 v0 rest0))).data = _
    simp only [parseValueF]
    simp only [htrimE]
    obtain ⟨n1, n2, n3, n4, n5, n6⟩ := nav6 _ '{' _ hdata (by decide) (by decide)
      (by decide) (by decide) (by decide) (by decide) (by decide)
    rw [if_neg n1, if_neg n2, if_neg n3, if_neg n4,
      if_neg (show ¬ (isIntLit (serializeValue (.obj (JsProps.cons k0 v0 rest0))).data
        = true) by rw [n5]; exact Bool.false_ne_true),
      if_neg (show ¬ (isDecLit (serializeValue (.obj (JsProps.cons k0 v0 rest0))).data
        = true) by rw [n6]; exact Bool.false_ne_true),
      if_neg (by
        rw [hdata]
        exact startsWith_head_ne '{' _ 'V' "ector2(".data (by decide)),
      if_neg (by
        rw [hdata]
        exact startsWith_head_ne '{' _ 'V' "ector3(".data (by decide)),
      if_neg (by
        rw [hdata]
        exact startsWith_head_ne '{' _ 'C' "olor(".data (by decide)),
      if_neg (by
        rw [hdata]
        exact startsWith_head_ne '{' _ 'E' "xtResource(".data (by decide)),
      if_neg (by
        rw [hdata]
        exact startsWith_head_ne '{' _ 'S' "ubResource(".data (by decide)),
      if_neg (by
        rw [hdata]
        exact startsWith_head_ne '{' _ 'N' "odePath(".data (by decide)),
      if_neg (by
        rw [hdata]
        exact startsWith_head_ne '{' _ '[' [] (by decide)),
      if_pos (show startsWithL (serializeValue (.obj (JsProps.cons k0 v0 rest0))).data
        ['{'] = true by rw [hdata]; simp [startsWithL])]
    have hlenE : (serializeValue (.obj (JsProps.cons k0 v0 rest0))).data.length
        = ((charInterSp ((serializeFields (JsProps.cons k0 v0 rest0)).map
          String.data)).length + 1) + 1 := by
      rw [hdata]
      simp [List.length_cons, List.length_append]
    rw [hlenE, hdata, parseDict_ser (serializeFields (JsProps.cons k0 v0 rest0))
      (JsProps.cons k0 v0 rest0) hFg hdk hesne _ (Nat.lt_succ_self _)]

set_option maxHeartbeats 2000000 in
/-- Every tagged record renders to a constructor literal that parses back. -/
theorem taggedCase (fields : JsProps) (hT : wfTaggedB fields = true) :
    pvL (serializeValue (.obj fields)).data = .obj fields
    ∧ SegOk (serializeValue (.obj fields)).data := by
  unfold wfTaggedB at hT
  split at hT
  · rename_i a b
    simp only [Bool.and_eq_true] at hT
    exact ctorV2_facts a b hT.1 hT.2
  · rename_i a b c
    simp only [Bool.and_eq_true] at hT
    exact ctorV3_facts a b c hT.1.1 hT.1.2 hT.2
  · rename_i a b c d
    simp only [Bool.and_eq_true] at hT
    exact ctorColor_facts a b c d hT.1.1.1 hT.1.1.2 hT.1.2 hT.2
  · rename_i i
    exact ctorExt_facts i hT
  · rename_i i
    exact ctorSub_facts i hT
  · rename_i i
    exact ctorPath_facts i hT
  · exact absurd hT Bool.false_ne_true

mutual

/-- Every well-formed value renders to a safe segment that parses back. -/
theorem serValGood : ∀ v : JsValue, wfValB v = true →
    pvL (serializeValue v).data = v ∧ SegOk (serializeValue v).data
  | .null, _ => ⟨pvL_null, segOk_null⟩
  | .undef, h => absurd h (by decide)
  | .bool true, _ => ⟨pvL_true, segOk_true⟩
  | .bool false, _ => ⟨pvL_false, segOk_false⟩
  | .nan, h => absurd h (by decide)
  | .num d, h => serNum_facts d h
  | .str s, h => serStrVal_facts s h
  | .arr items, h => arrCase items (serItemsGood items h)
  | .obj fields, h => by
    have h2 : (wfTaggedB fields || (wfDictShapeB fields && wfFieldsB fields))
        = true := h
    simp only [Bool.or_eq_true] at h2
    rcases h2 with hT | hD
    · exact taggedCase fields hT
    · simp only [Bool.and_eq_true] at hD
      refine dictCase fields hD.1 (serFieldsGood fields hD.2 ?_)
      have h3 := hD.1
      simp only [wfDictShapeB, Bool.and_eq_true] at h3
      exact h3.1.1.2

/-- Every well-formed item list renders to good segments. -/
theorem serItemsGood : ∀ items : JsItems, wfItemsB items = true →
    listGood (serializeItems items) items
  | .nil, _ => trivial
  | .cons v rest, h => by
    have h2 : (wfValB v && wfItemsB rest) = true := h
    simp only [Bool.and_eq_true] at h2
    show (pvL (serializeValue v).data = v ∧ SegOk (serializeValue v).data)
      ∧ listGood (serializeItems rest) rest
    exact ⟨serValGood v h2.1, serItemsGood rest h2.2⟩

/-- Every well-formed field list with safe keys renders to good pairs. -/
theorem serFieldsGood : ∀ fields : JsProps, wfFieldsB fields = true →
    (jsPropsList fields).all (fun kv => wfDictKeyB kv.1) = true →
    fieldsGood (serializeFields fields) fields
  | .nil, _, _ => trivial
  | .cons k v rest, h, hkeys => by
    have h2 : (wfValB v && wfFieldsB rest) = true := h
    simp only [Bool.and_eq_true] at h2
    have hkeys2 : (wfDictKeyB k
        && (jsPropsList rest).all (fun kv => wfDictKeyB kv.1)) = true := hkeys
    simp only [Bool.and_eq_true] at hkeys2
    obtain ⟨hkP, hkOk, hkCol⟩ := serStr_key_facts k hkeys2.1
    obtain ⟨hvP, hvOk⟩ := serValGood v h2.1
    have hnu : ¬ (startsWithL k.data ['_'] = true) := by
      have h3 := hkeys2.1
      simp only [wfDictKeyB, Bool.and_eq_true, decide_eq_true_eq] at h3
      exact h3.1.1.1.1
    have hsf : serializeFields (JsProps.cons k v rest)
        = (serStr k ++ ": " ++ serializeValue v) :: serializeFields rest := by
      show (if startsWithL k.data ['_'] = true then serializeFields rest
        else (serStr k ++ ": " ++ serializeValue v) :: serializeFields rest) = _
      rw [if_neg hnu]
    rw [hsf]
    show ((serStr k ++ ": " ++ serializeValue v).data
        = (serStr k).data ++ ':' :: ' ' :: (serializeValue v).data
      ∧ pvL (serStr k).data = .str k ∧ SegOk (serStr k).data
      ∧ (∀ x ∈ (serStr k).data, ¬ (x = ':'))
      ∧ pvL (serializeValue v).data = v ∧ SegOk (serializeValue v).data)
      ∧ fieldsGood (serializeFields rest) rest
    refine ⟨⟨?_, hkP, hkOk, hkCol, hvP, hvOk⟩, serFieldsGood rest h2.2 hkeys2.2⟩
    simp [String.data_append]

end

/-! ## The attribute regex -/

/-- A successful bare-token capture is a prefix removal. -/
theorem bareAttrVal_shrink (rest run r : List Char)
    (h : bareAttrVal rest = some (run, r)) : r.length ≤ rest.length := by
  simp only [bareAttrVal] at h
  split at h
  · exact absurd h (by simp)
  · simp only [Option.some.injEq, Prod.mk.injEq] at h
    obtain ⟨h1, h2⟩ := h
    rw [← h2]
    simp only [List.length_drop]
    omega

/-- A successful attribute match strictly shrinks the line. -/
theorem matchAttr_shrink (l : List Char) (k v : String) (r : List Char)
    (h : matchAttr l = some (k, v, r)) : r.length < l.length := by
  simp only [matchAttr] at h
  split at h
  · exact absurd h (by simp)
  · split at h
    · rename_i x0 rest hdrop
      have hrl : rest.length < l.length := by
        have hlen := congrArg List.length hdrop
        simp only [List.length_drop, List.length_cons] at hlen
        omega
      split at h
      · rename_i r2
        simp only [List.length_cons] at hrl
        split at h
        · simp only [Option.some.injEq, Prod.mk.injEq] at h
          obtain ⟨h1, h2, h4⟩ := h
          rw [← h4]
          simp only [List.length_drop]
          omega
        · split at h
          · rename_i run r' hbare
            simp only [Option.some.injEq, Prod.mk.injEq] at h
            obtain ⟨h1, h2, h4⟩ := h
            rw [← h4]
            have := bareAttrVal_shrink _ run r' hbare
            simp only [List.length_cons] at this
            omega
          · exact absurd h (by simp)
      · rename_i r2
        simp only [List.length_cons] at hrl
        split at h
        · simp only [Option.some.injEq, Prod.mk.injEq] at h
          obtain ⟨h1, h2, h4⟩ := h
          rw [← h4]
          simp only [List.length_drop]
          omega
        · split at h
          · rename_i run r' hbare
            simp only [Option.some.injEq, Prod.mk.injEq] at h
            obtain ⟨h1, h2, h4⟩ := h
            rw [← h4]
            have := bareAttrVal_shrink _ run r' hbare
            simp only [List.length_cons] at this
            omega
          · exact absurd h (by simp)
      · split at h
        · rename_i run r' hbare
          simp only [Option.some.injEq, Prod.mk.injEq] at h
          obtain ⟨h1, h2, h4⟩ := h
          rw [← h4]
          exact Nat.lt_of_le_of_lt (bareAttrVal_shrink rest run r' hbare) hrl
        · exact absurd h (by simp)
    · exact absurd h (by simp)

/-- Any fuel beyond the line length is interchangeable in the regex scan. -/
theorem attrsGoF_congr : ∀ (f : Nat) (l : List Char), l.length < f →
    attrsGoF f l = attrsL l := by
  intro f
  induction f using Nat.strong_induction_on with
  | _ f ih =>
    intro l hlt
    match f, l with
    | f + 1, [] => simp [attrsGoF, attrsL]
    | f + 1, c :: l =>
      have hls : l.length < f := by simpa using Nat.lt_of_succ_lt_succ hlt
      have hf : f < f + 1 := Nat.lt_succ_self f
      show attrsGoF (f + 1) (c :: l) = attrsGoF (l.length + 1 + 1) (c :: l)
      simp only [attrsGoF]
      split
      · rename_i k v r hm
        have hr : r.length < (c :: l).length := matchAttr_shrink _ _ _ _ hm
        have hr2 : r.length ≤ l.length := by
          simpa [Nat.lt_succ_iff] using hr
        rw [ih f hf r (Nat.lt_of_le_of_lt hr2 hls),
          ih (l.length + 1) (Nat.succ_lt_succ hls) r (Nat.lt_succ_of_le hr2)]
      · rw [ih f hf l hls, ih (l.length + 1) (Nat.succ_lt_succ hls) l (Nat.lt_succ_self _)]

/-- A failed match advances the scan one character. -/
theorem attrsL_cons_none (c : Char) (l : List Char)
    (h : matchAttr (c :: l) = none) : attrsL (c :: l) = attrsL l := by
  show attrsGoF (l.length + 1 + 1) (c :: l) = _
  simp only [attrsGoF, h]
  exact attrsGoF_congr _ l (Nat.lt_succ_self _)

/-- A successful match records its pair and resumes after the value. -/
theorem attrsL_match (l : List Char) (k v : String) (r : List Char)
    (h : matchAttr l = some (k, v, r)) : attrsL l = (k, v) :: attrsL r := by
  match l with
  | [] => exact absurd h (by simp [matchAttr])
  | c :: l =>
    show attrsGoF (l.length + 1 + 1) (c :: l) = _
    simp only [attrsGoF, h]
    have hr : r.length ≤ l.length := by
      simpa [Nat.lt_succ_iff] using matchAttr_shrink _ _ _ _ h
    rw [attrsGoF_congr (l.length + 1) r (Nat.lt_succ_of_le hr)]

/-- The scan of the empty line is empty. -/
theorem attrsL_nil : attrsL [] = [] := rfl

/-- The regex matches a quoted attribute value exactly. -/
theorem matchAttr_quoted (k s rest : List Char)
    (hk : ¬ (k = [])) (hkw : ∀ c ∈ k, wordChar c = true)
    (hs : ∀ c ∈ s, ¬ (c = '"')) :
    matchAttr (k ++ '=' :: '"' :: (s ++ '"' :: rest)) = some (⟨k⟩, ⟨s⟩, rest) := by
  have hw : (k ++ '=' :: '"' :: (s ++ '"' :: rest)).takeWhile wordChar = k :=
    takeWhile_append_stop wordChar k '=' _ hkw (by decide)
  simp only [matchAttr, hw]
  rw [if_neg hk]
  have hdrop : (k ++ '=' :: '"' :: (s ++ '"' :: rest)).drop k.length
      = '=' :: '"' :: (s ++ '"' :: rest) := by
    simpa using drop_append_len k ('=' :: '"' :: (s ++ '"' :: rest)) 0
  rw [hdrop]
  show (match idxOfChar '"' (s ++ '"' :: rest) with
    | some j => some ((⟨k⟩ : String), (⟨(s ++ '"' :: rest).take j⟩ : String),
        (s ++ '"' :: rest).drop (j + 1))
    | none =>
      match bareAttrVal ('"' :: (s ++ '"' :: rest)) with
      | some (run, r) => some ((⟨k⟩ : String), (⟨run⟩ : String), r)
      | none => none) = some (⟨k⟩, ⟨s⟩, rest)
  rw [idxOfChar_append '"' s rest hs]
  show some ((⟨k⟩ : String), (⟨(s ++ '"' :: rest).take s.length⟩ : String),
      (s ++ '"' :: rest).drop (s.length + 1)) = _
  rw [List.take_left, drop_append_len s ('"' :: rest) 1]
  rfl

/-- The regex matches a bracketed attribute value up to the first `]`. -/
theorem matchAttr_bracket (k inner rest : List Char)
    (hk : ¬ (k = [])) (hkw : ∀ c ∈ k, wordChar c = true)
    (hi : ∀ c ∈ inner, ¬ (c = ']')) :
    matchAttr (k ++ '=' :: '[' :: (inner ++ ']' :: rest))
      = some (⟨k⟩, ⟨'[' :: (inner ++ [']'])⟩, rest) := by
  have hw : (k ++ '=' :: '[' :: (inner ++ ']' :: rest)).takeWhile wordChar = k :=
    takeWhile_append_stop wordChar k '=' _ hkw (by decide)
  simp only [matchAttr, hw]
  rw [if_neg hk]
  have hdrop : (k ++ '=' :: '[' :: (inner ++ ']' :: rest)).drop k.length
      = '=' :: '[' :: (inner ++ ']' :: rest) := by
    simpa using drop_append_len k ('=' :: '[' :: (inner ++ ']' :: rest)) 0
  rw [hdrop]
  show (match idxOfChar ']' (inner ++ ']' :: rest) with
    | some j => some ((⟨k⟩ : String),
        (⟨'[' :: ((inner ++ ']' :: rest).take j ++ [']'])⟩ : String),
        (inner ++ ']' :: rest).drop (j + 1))
    | none =>
      match bareAttrVal ('[' :: (inner ++ ']' :: rest)) with
      | some (run, r) => some ((⟨k⟩ : String), (⟨run⟩ : String), r)
      | none => none) = some (⟨k⟩, ⟨'[' :: (inner ++ [']'])⟩, rest)
  rw [idxOfChar_append ']' inner rest hi]
  show some ((⟨k⟩ : String),
      (⟨'[' :: ((inner ++ ']' :: rest).take inner.length ++ [']'])⟩ : String),
      (inner ++ ']' :: rest).drop (inner.length + 1)) = _
  rw [List.take_left, drop_append_len inner (']' :: rest) 1]
  rfl

/-- The regex matches a bare attribute token up to the first space or `]`. -/
theorem matchAttr_bare (k tok rest : List Char)
    (hk : ¬ (k = [])) (hkw : ∀ c ∈ k, wordChar c = true)
    (htne : tok ≠ []) (htok : ∀ c ∈ tok, isJsSpace c = false ∧ ¬ (c = ']'))
    (hhead : ∀ c, tok.head? = some c → ¬ (c = '"') ∧ ¬ (c = '['))
    (hstop : ∀ c, rest.head? = some c → isJsSpace c = true ∨ c = ']') :
    matchAttr (k ++ '=' :: (tok ++ rest)) = some (⟨k⟩, ⟨tok⟩, rest) := by
  have hw : (k ++ '=' :: (tok ++ rest)).takeWhile wordChar = k :=
    takeWhile_append_stop wordChar k '=' _ hkw (by decide)
  have hrun : (tok ++ rest).takeWhile (fun c => ¬ isJsSpace c ∧ ¬ (c = ']')) = tok := by
    cases rest with
    | nil =>
      rw [List.append_nil]
      exact takeWhile_of_all _ tok (fun c hc => by
        obtain ⟨h1, h2⟩ := htok c hc
        simp [h1, h2])
    | cons y ys =>
      refine takeWhile_append_stop _ tok y ys (fun c hc => by
        obtain ⟨h1, h2⟩ := htok c hc
        simp [h1, h2]) ?_
      rcases hstop y rfl with hy | hy
      · simp [hy]
      · simp [hy]
  have hbare : bareAttrVal (tok ++ rest) = some (tok, rest) := by
    simp only [bareAttrVal, hrun]
    rw [if_neg htne]
    have : (tok ++ rest).drop tok.length = rest := by
      simpa using drop_append_len tok rest 0
    rw [this]
  simp only [matchAttr, hw]
  rw [if_neg hk]
  have hdrop : (k ++ '=' :: (tok ++ rest)).drop k.length = '=' :: (tok ++ rest) := by
    simpa using drop_append_len k ('=' :: (tok ++ rest)) 0
  rw [hdrop]
  cases tok with
  | nil => exact absurd rfl htne
  | cons c tl =>
    obtain ⟨hc1, hc2⟩ := hhead c rfl
    rw [List.cons_append] at hbare ⊢
    split
    · rename_i rest1 heq
      injection heq with h1 h2
      subst h2
      split
      · rename_i r2 heq2
        injection heq2 with h3 h4
        exact absurd h3 hc1
      · rename_i r2 heq2
        injection heq2 with h3 h4
        exact absurd h3 hc2
      · rw [hbare]
    · rename_i x heq
      exact (heq _ rfl).elim

/-- No match starts inside a word that is not followed by `=`. -/
theorem matchAttr_word_none (w rest : List Char)
    (hw : ∀ c ∈ w, wordChar c = true)
    (hr : ∀ c, rest.head? = some c → wordChar c = false ∧ ¬ (c = '=')) :
    matchAttr (w ++ rest) = none := by
  have hwt : (w ++ rest).takeWhile wordChar = w := by
    cases rest with
    | nil => rw [List.append_nil]; exact takeWhile_of_all _ w hw
    | cons y ys => exact takeWhile_append_stop _ w y ys hw (hr y rfl).1
  simp only [matchAttr, hwt]
  split
  · rfl
  · have hdrop : (w ++ rest).drop w.length = rest := by
      simpa using drop_append_len w rest 0
    rw [hdrop]
    cases rest with
    | nil => rfl
    | cons y ys =>
      split
      · rename_i rest1 heq
        injection heq with h1 h2
        exact absurd h1 (hr y rfl).2
      · rfl

/-- The scan steps over a non-word character. -/
theorem attrsL_cons_skip (c : Char) (rest : List Char) (hc : wordChar c = false) :
    attrsL (c :: rest) = attrsL rest := by
  apply attrsL_cons_none
  simp only [matchAttr]
  rw [List.takeWhile_cons_of_neg (by simp [hc])]
  rfl

/-- The scan steps over a word not followed by `=`. -/
theorem attrsL_word_skip : ∀ (w rest : List Char), (∀ c ∈ w, wordChar c = true) →
    (∀ c, rest.head? = some c → wordChar c = false ∧ ¬ (c = '=')) →
    attrsL (w ++ rest) = attrsL rest
  | [], rest, _, _ => by rw [List.nil_append]
  | c :: w, rest, hw, hr => by
    have hnone : matchAttr (c :: (w ++ rest)) = none := by
      rw [← List.cons_append]
      exact matchAttr_word_none (c :: w) rest hw hr
    rw [List.cons_append, attrsL_cons_none c (w ++ rest) hnone]
    exact attrsL_word_skip w rest (fun x hx => hw x (List.mem_cons_of_mem c hx)) hr

/-- The global scan of a rendered chunk list captures exactly the chunk
pairs, then continues after them. -/
theorem attrs_chunks : ∀ (cs : List (String × AttrVal)) (rest : List Char),
    (∀ kv ∈ cs, ChunkWf kv) → rest.head? = some ']' →
    attrsL (chunksRender cs ++ rest) = chunkPairs cs ++ attrsL rest
  | [], rest, _, _ => by
    show attrsL ([] ++ rest) = [] ++ attrsL rest
    rw [List.nil_append, List.nil_append]
  | (k, v) :: cs, rest, hwf, hrest => by
    obtain ⟨hk1, hk2, hv, -, -⟩ := hwf (k, v) (List.mem_cons_self _ _)
    have hwf2 : ∀ kv ∈ cs, ChunkWf kv := fun kv hkv => hwf kv (List.mem_cons_of_mem _ hkv)
    have ih := attrs_chunks cs rest hwf2 hrest
    have hsp : attrsL (chunksRender ((k, v) :: cs) ++ rest)
        = attrsL (k.data ++ '=' :: (aValRender v ++ (chunksRender cs ++ rest))) := by
      show attrsL ((' ' :: (k.data ++ '=' :: (aValRender v ++ chunksRender cs))) ++ rest) = _
      rw [List.cons_append, attrsL_cons_skip ' ' _ (by decide)]
      simp [List.append_assoc]
    rw [hsp]
    show _ = (k, aValCap v) :: (chunkPairs cs ++ attrsL rest)
    cases v with
    | quoted s =>
      have hsh : k.data ++ '=' :: (aValRender (.quoted s) ++ (chunksRender cs ++ rest))
          = k.data ++ '=' :: '"' :: (s.data ++ '"' :: (chunksRender cs ++ rest)) := by
        simp [aValRender, List.append_assoc]
    
      rw [hsh, attrsL_match _ _ _ _
        (matchAttr_quoted k.data s.data (chunksRender cs ++ rest) hk1 hk2 hv), ih]
      rfl
    | bare s =>
      obtain ⟨hs1, hs2, hs3⟩ := hv
      have hstop : ∀ c', (chunksRender cs ++ rest).head? = some c' →
          isJsSpace c' = true ∨ c' = ']' := by
        cases cs with
        | nil =>
          intro c' hc'
          rw [chunksRender, List.nil_append, hrest] at hc'
          injection hc' with h
          exact Or.inr h.symm
        | cons kv cs2 =>
          obtain ⟨k2, v2⟩ := kv
          intro c' hc'
          rw [chunksRender, List.cons_append] at hc'
          simp only [List.head?_cons, Option.some.injEq] at hc'
          rw [← hc']
          exact Or.inl (by decide)
      have hsh : k.data ++ '=' :: (aValRender (.bare s) ++ (chunksRender cs ++ rest))
          = k.data ++ '=' :: (s.data ++ (chunksRender cs ++ rest)) := rfl
      rw [hsh, attrsL_match _ _ _ _
        (matchAttr_bare k.data s.data (chunksRender cs ++ rest) hk1 hk2 hs1 hs2 hs3 hstop), ih]
      rfl
    | bracket s =>
      obtain ⟨inner, hsd, hin⟩ := hv
      have hsh : k.data ++ '=' :: (aValRender (.bracket s) ++ (chunksRender cs ++ rest))
          = k.data ++ '=' :: '[' :: (inner ++ ']' :: (chunksRender cs ++ rest)) := by
      
        simp [aValRender, hsd, List.append_assoc]
      rw [hsh, attrsL_match _ _ _ _
        (matchAttr_bracket k.data inner (chunksRender cs ++ rest) hk1 hk2 hin), ih]
      have hcap : (⟨'[' :: (inner ++ [']'])⟩ : String) = s := by
        cases s with
        | mk d => rw [show (String.mk d).data = d from rfl] at hsd; rw [hsd]
      rw [hcap]
      rfl

/-- The scan of a whole bracketed line: tag skipped, chunks captured. -/
theorem attrsL_line (tag : List Char) (cs : List (String × AttrVal))
    (htag : ∀ c ∈ tag, wordChar c = true)
    (hwf : ∀ kv ∈ cs, ChunkWf kv) :
    attrsL ('[' :: (tag ++ (chunksRender cs ++ [']']))) = chunkPairs cs := by
  rw [attrsL_cons_skip '[' _ (by decide)]
  rw [attrsL_word_skip tag (chunksRender cs ++ [']']) htag ?hh]
  case hh =>
    intro c hc
    cases cs with
    | nil =>
      rw [chunksRender, List.nil_append] at hc
      simp only [List.head?_cons, Option.some.injEq] at hc
      rw [← hc]
      exact ⟨by decide, by decide⟩
    | cons kv cs2 =>
      obtain ⟨k2, v2⟩ := kv
      rw [chunksRender, List.cons_append] at hc
      simp only [List.head?_cons, Option.some.injEq] at hc
      rw [← hc]
      exact ⟨by decide, by decide⟩
  rw [attrs_chunks cs [']'] hwf rfl]
  rw [attrsL_cons_skip ']' _ (by decide), attrsL_nil, List.append_nil]

/-- Assigning an absent key appends. -/
theorem setEntryS_absent : ∀ (l : List (String × String)) (k v : String),
    (∀ kv ∈ l, ¬ (kv.1 = k)) → setEntryS l k v = l ++ [(k, v)]
  | [], _, _, _ => rfl
  | (k1, v1) :: l, k, v, h => by
    simp only [setEntryS]
    rw [if_neg (h (k1, v1) (List.mem_cons_self _ _)),
      setEntryS_absent l k v (fun kv hkv => h kv (List.mem_cons_of_mem _ hkv))]
    rfl

/-- The collapse fold only appends while keys stay distinct. -/
theorem collapse_go : ∀ (l acc : List (String × String)),
    distinctKeys (l.map (fun kv => kv.1)) = true →
    (∀ kv ∈ l, ∀ kv2 ∈ acc, ¬ (kv2.1 = kv.1)) →
    l.foldl (fun a kv => setEntryS a kv.1 kv.2) acc = acc ++ l
  | [], acc, _, _ => by simp
  | (k, v) :: l, acc, hd, hdisj => by
    simp only [distinctKeys, List.map_cons, Bool.and_eq_true, List.all_eq_true,
      decide_eq_true_eq] at hd
    obtain ⟨hall, hd2⟩ := hd
    simp only [List.foldl_cons]
    rw [setEntryS_absent acc k v (fun kv hkv => hdisj (k, v) (List.mem_cons_self _ _) kv hkv)]
    rw [collapse_go l (acc ++ [(k, v)]) hd2 ?hdisj2]
    · rw [List.append_assoc]
      rfl
    case hdisj2 =>
      intro kv hkv kv2 hkv2
      rcases List.mem_append.mp hkv2 with h2 | h2
      · exact hdisj kv (List.mem_cons_of_mem _ hkv) kv2 h2
      · have : kv2 = (k, v) := by simpa using h2
        rw [this]
        intro hbad
        exact (hall kv.1 (List.mem_map.mpr ⟨kv, hkv, rfl⟩)) hbad.symm

/-- Collapsing a duplicate-free match list changes nothing. -/
theorem attrsCollapse_id (l : List (String × String))
    (hd : distinctKeys (l.map (fun kv => kv.1)) = true) : attrsCollapse l = l := by
  show l.foldl (fun a kv => setEntryS a kv.1 kv.2) [] = l
  rw [collapse_go l [] hd (by intro kv hkv kv2 hkv2; exact absurd hkv2 (List.not_mem_nil _))]
  rfl

/-- Reads on the attribute object. -/
theorem attrGet_nil (k : String) : attrGet [] k = none := rfl

/-- A read finds the first pair with its key. -/
theorem attrGet_cons_self (k v : String) (l : List (String × String)) :
    attrGet ((k, v) :: l) k = some v := by
  simp [attrGet, List.find?_cons_of_pos]

/-- A read skips a pair with a different key. -/
theorem attrGet_cons_ne (k1 v1 k : String) (l : List (String × String))
    (h : ¬ (k1 = k)) : attrGet ((k1, v1) :: l) k = attrGet l k := by
  simp [attrGet, List.find?_cons_of_neg, h]

/-- A read misses when no key matches. -/
theorem attrGet_not_mem : ∀ (l : List (String × String)) (k : String),
    (∀ kv ∈ l, ¬ (kv.1 = k)) → attrGet l k = none
  | [], _, _ => rfl
  | (k1, v1) :: l, k, h => by
    rw [attrGet_cons_ne k1 v1 k l (h (k1, v1) (List.mem_cons_self _ _))]
    exact attrGet_not_mem l k (fun kv hkv => h kv (List.mem_cons_of_mem _ hkv))

/-- A read searches left to right across a concatenation. -/
theorem attrGet_append (a b : List (String × String)) (k : String) :
    attrGet (a ++ b) k = match attrGet a k with
      | some v => some v
      | none => attrGet b k := by
  induction a with
  | nil => rw [List.nil_append]; rfl
  | cons kv a ih =>
    obtain ⟨k1, v1⟩ := kv
    by_cases h : k1 = k
    · subst h
      rw [List.cons_append, attrGet_cons_self, attrGet_cons_self]
    · rw [List.cons_append, attrGet_cons_ne k1 v1 k _ h, attrGet_cons_ne k1 v1 k _ h, ih]

/-- Chunk rendering distributes over concatenation. -/
theorem chunksRender_append : ∀ a b : List (String × AttrVal),
    chunksRender (a ++ b) = chunksRender a ++ chunksRender b
  | [], b => rfl
  | (k, v) :: a, b => by
    rw [List.cons_append]
    show ' ' :: (k.data ++ '=' :: (aValRender v ++ chunksRender (a ++ b))) = _
    rw [chunksRender_append a b]
    simp [chunksRender, List.append_assoc]

/-- Rendering of an optional quoted chunk matches the serializer segment. -/
theorem renderOptQuoted (key P : String) (o : Option String)
    (hP : P.data = ' ' :: (key.data ++ ['=', '"'])) :
    chunksRender (optQuoted key o)
      = (match o with
         | some s => if s = "" then "" else P ++ s ++ "\""
         | none => "").data := by
  cases o with
  | none => rfl
  | some s =>
    by_cases h : s = ""
    · simp [optQuoted, h, chunksRender]
    · simp only [optQuoted, if_neg h, chunksRender, aValRender, String.data_append, hP]
      simp [List.append_assoc]

/-- Rendering of an optional bare chunk matches the serializer segment. -/
theorem renderOptBare (key P : String) (o : Option String)
    (hP : P.data = ' ' :: (key.data ++ ['='])) :
    chunksRender (optBare key o)
      = (match o with
         | some s => if s = "" then "" else P ++ s
         | none => "").data := by
  cases o with
  | none => rfl
  | some s =>
    by_cases h : s = ""
    · simp [optBare, h, chunksRender]
    · simp only [optBare, if_neg h, chunksRender, aValRender, String.data_append, hP]
      simp [List.append_assoc]

/-- Rendering of the `parent` chunk matches the serializer segment. -/
theorem renderParent (o : Option String) :
    chunksRender (parentChunk o)
      = (match o with
         | some p => " parent=\"" ++ p ++ "\""
         | none => "").data := by
  cases o with
  | none => rfl
  | some p =>
    simp only [parentChunk, chunksRender, aValRender, String.data_append]
    simp [List.append_assoc]

/-- Rendering of a numeric chunk matches the serializer segment. -/
theorem renderNum (key P : String) (i : JsIntF)
    (hP : P.data = ' ' :: (key.data ++ ['='])) :
    chunksRender (numChunk key i)
      = (match i with
         | .undef => ""
         | i => P ++ i.toStr).data := by
  cases i with
  | undef => rfl
  | val n =>
    simp only [numChunk, chunksRender, aValRender, String.data_append, hP]
    simp [List.append_assoc]
  | nan =>
    simp only [numChunk, chunksRender, aValRender, String.data_append, hP]
    simp [List.append_assoc]

/-- Rendering of the `load_steps` chunk matches the serializer segment. -/
theorem renderLoad (i : JsIntF) :
    chunksRender (loadChunk i)
      = (if i.truthy then " load_steps=" ++ i.toStr else "").data := by
  by_cases h : i.truthy
  · simp only [loadChunk, if_pos h, chunksRender, aValRender, String.data_append]
    simp [List.append_assoc]
  · simp [loadChunk, h, chunksRender]

/-- Rendering of an array chunk matches the serializer segment. -/
theorem renderArr (key P : String) (o : Option JsItems)
    (hP : P.data = ' ' :: (key.data ++ ['='])) :
    chunksRender (arrChunk key o)
      = (match o with
         | some g => if 0 < jsItemsLen g then P ++ serializeValue (.arr g) else ""
         | none => "").data := by
  cases o with
  | none => rfl
  | some g =>
    by_cases h : 0 < jsItemsLen g
    · simp only [arrChunk, if_pos h, chunksRender, aValRender, String.data_append, hP]
      simp [List.append_assoc]
    · simp [arrChunk, h, chunksRender]

/-- The serialized node header line, as tag plus chunks. -/
theorem nodeLine_shape (n : SceneNode) :
    serializeNode n
      = (⟨'[' :: ("node".data ++ (chunksRender (nodeChunks n) ++ [']']))⟩ : String)
        :: propsLines n.properties := by
  refine List.cons_eq_cons.mpr ⟨String.ext ?_, rfl⟩
  rw [show nodeChunks n
      = [("name", .quoted n.name)] ++ (optQuoted "type" n.type ++ (parentChunk n.parent
        ++ (optBare "instance" n.instanceRef
        ++ (optQuoted "instance_placeholder" n.instancePlaceholder
        ++ (optQuoted "owner" n.owner ++ (numChunk "index" n.index
        ++ arrChunk "groups" n.groups))))))
    from by simp [nodeChunks, List.append_assoc]]
  rw [chunksRender_append, chunksRender_append, chunksRender_append, chunksRender_append,
    chunksRender_append, chunksRender_append, chunksRender_append]
  rw [renderOptQuoted "type" " type=\"" n.type rfl,
    renderParent n.parent,
    renderOptBare "instance" " instance=" n.instanceRef rfl,
    renderOptQuoted "instance_placeholder" " instance_placeholder=\""
      n.instancePlaceholder rfl,
    renderOptQuoted "owner" " owner=\"" n.owner rfl,
    renderNum "index" " index=" n.index rfl,
    renderArr "groups" " groups=" n.groups rfl]
  simp only [serializeNode, chunksRender, aValRender, String.data_append,
    List.append_assoc, List.cons_append, List.nil_append, List.append_nil]

/-- The serialized scene header line, as tag plus chunks. -/
theorem headerLine_shape (h : Header) :
    (serializeHeader h).data
      = '[' :: (h.type.data ++ (chunksRender (headerChunks h) ++ [']'])) := by
  rw [show headerChunks h
      = loadChunk h.loadSteps ++ ([("format", .bare h.format.toStr)]
          ++ optQuoted "uid" h.uid)
    from by simp [headerChunks, List.append_assoc]]
  rw [chunksRender_append, chunksRender_append]
  rw [renderLoad h.loadSteps, renderOptQuoted "uid" " uid=\"" h.uid rfl]
  simp only [serializeHeader, chunksRender, aValRender, String.data_append,
    List.append_assoc, List.cons_append, List.nil_append, List.append_nil]

/-- The serialized external-resource line, as tag plus chunks. -/
theorem extLine_shape (r : ExtResource) :
    (serializeExtResource r).data
      = '[' :: ("ext_resource".data ++ (chunksRender (extChunks r) ++ [']'])) := by
  rw [show extChunks r
      = [("type", .quoted r.type)] ++ ([("path", .quoted r.path)]
          ++ (optQuoted "uid" r.uid ++ [("id", .quoted r.id)]))
    from by simp [extChunks, List.append_assoc]]
  rw [chunksRender_append, chunksRender_append, chunksRender_append]
  rw [renderOptQuoted "uid" " uid=\"" r.uid rfl]
  simp only [serializeExtResource, chunksRender, aValRender, String.data_append,
    List.append_assoc, List.cons_append, List.nil_append, List.append_nil]

/-- The serialized sub-resource header line, as tag plus chunks. -/
theorem subLine_shape (r : SubResource) :
    serializeSubResource r
      = (⟨'[' :: ("sub_resource".data ++ (chunksRender (subChunks r) ++ [']']))⟩ : String)
        :: propsLines r.properties := by
  refine List.cons_eq_cons.mpr ⟨String.ext ?_, rfl⟩
  simp only [subChunks, chunksRender, aValRender, String.data_append,
    List.append_assoc, List.cons_append, List.nil_append, List.append_nil]

/-- The serialized connection line, as tag plus chunks. -/
theorem connLine_shape (c : Connection) :
    (serializeConnection c).data
      = '[' :: ("connection".data ++ (chunksRender (connChunks c) ++ [']'])) := by
  rw [show connChunks c
      = [("signal", .quoted c.signal)] ++ ([("from", .quoted c.fromPath)]
          ++ ([("to", .quoted c.toPath)] ++ ([("method", .quoted c.method)]
          ++ (numChunk "flags" c.flags ++ arrChunk "binds" c.binds))))
    from by simp [connChunks, List.append_assoc]]
  rw [chunksRender_append, chunksRender_append, chunksRender_append, chunksRender_append,
    chunksRender_append]
  rw [renderNum "flags" " flags=" c.flags rfl, renderArr "binds" " binds=" c.binds rfl]
  simp only [serializeConnection, chunksRender, aValRender, String.data_append,
    List.append_assoc, List.cons_append, List.nil_append, List.append_nil]

/-- The array parser inverts the array serializer. -/
theorem paL_ser (items : JsItems) (hIt : listGood (serializeItems items) items) :
    paL (serializeValue (.arr items)).data = items := by
  cases items with
  | nil => rfl
  | cons v0 rest =>
    have hdata : (serializeValue (.arr (JsItems.cons v0 rest))).data
        = '[' :: (charInterSp ((serializeItems (JsItems.cons v0 rest)).map String.data)
          ++ [']']) := by
      show ("[" ++ joinCommaSp (serializeItems (JsItems.cons v0 rest)) ++ "]").data = _
      simp [String.data_append, joinCommaSp_data, List.append_assoc]
    have hesne : serializeItems (JsItems.cons v0 rest) ≠ [] := by
      show serializeValue v0 :: serializeItems rest ≠ []
      exact List.cons_ne_nil _ _
    show parseArrayF ((serializeValue (.arr (JsItems.cons v0 rest))).data.length + 1) _ = _
    have hlenE : (serializeValue (.arr (JsItems.cons v0 rest))).data.length
        = ((charInterSp ((serializeItems (JsItems.cons v0 rest)).map
          String.data)).length + 1) + 1 := by
      rw [hdata]
      simp [List.length_cons, List.length_append]
    rw [hlenE, hdata,
      parseArr_ser (serializeItems (JsItems.cons v0 rest)) (JsItems.cons v0 rest) hIt
        hesne _ (by omega)]

/-- Characters of an interleaving come from separators or the pieces. -/
theorem mem_charInterSp : ∀ (L : List (List Char)) (c : Char), c ∈ charInterSp L →
    c = ',' ∨ c = ' ' ∨ ∃ l ∈ L, c ∈ l
  | [], c, hc => by simp [charInterSp] at hc
  | [s], c, hc => Or.inr (Or.inr ⟨s, by simp, hc⟩)
  | s :: s2 :: rest, c, hc => by
    rw [charInterSp] at hc
    rcases List.mem_append.mp hc with h | h
    · exact Or.inr (Or.inr ⟨s, by simp, h⟩)
    · rcases List.mem_cons.mp h with rfl | h2
      · exact Or.inl rfl
      · rcases List.mem_cons.mp h2 with rfl | h3
        · exact Or.inr (Or.inl rfl)
        · rcases mem_charInterSp (s2 :: rest) c h3 with h4 | h4 | ⟨l, hl, hcl⟩
          · exact Or.inl h4
          · exact Or.inr (Or.inl h4)
          · exact Or.inr (Or.inr ⟨l, List.mem_cons_of_mem _ hl, hcl⟩)

/-- Attribute-array elements render without `]`. -/
theorem attrItem_chars : ∀ (g : JsItems), wfAttrItemsB g = true →
    ∀ e ∈ serializeItems g, ∀ c ∈ e.data, ¬ (c = ']')
  | .nil, _, e, he => by simp [serializeItems] at he
  | .cons (.num d) rest, h, e, he => by
    have h2 : (isNormDec d && wfAttrItemsB rest) = true := h
    simp only [Bool.and_eq_true] at h2
    rcases List.mem_cons.mp he with rfl | he2
    · intro c hc
      rcases decToString_chars d c hc with rfl | rfl | hdig
      · decide
      · decide
      · exact isDig_ne c hdig ']' (by decide)
    · exact attrItem_chars rest h2.2 e he2
  | .cons (.str s) rest, h, e, he => by
    have h2 : ((wfStrB s && lacks ']' s) && wfAttrItemsB rest) = true := h
    simp only [Bool.and_eq_true] at h2
    obtain ⟨⟨hstr, hlk⟩, hrest⟩ := h2
    rcases List.mem_cons.mp he with rfl | he2
    · intro c hc
      have hg : isGodotValueString s = false := by
        simp only [wfStrB, Bool.and_eq_true] at hstr
        cases hgb : isGodotValueString s
        · rfl
        · exact absurd hgb (by simpa [hgb] using hstr.2)
      rw [show serializeValue (.str s) = serStr s from rfl, serStr_quoted s hg] at hc
      rcases List.mem_cons.mp hc with rfl | hc2
      · decide
      · rcases List.mem_append.mp hc2 with hc3 | hc3
        · rcases mem_escapeL s.data c hc3 with rfl | hc4
          · decide
          · simp only [lacks, List.all_eq_true, decide_eq_true_eq] at hlk
            exact hlk c hc4
        · rcases List.mem_singleton.mp hc3 with rfl
          decide
    · exact attrItem_chars rest hrest e he2
  | .cons .null _, h, _, _ => by simp [wfAttrItemsB] at h
  | .cons .undef _, h, _, _ => by simp [wfAttrItemsB] at h
  | .cons (.bool b) _, h, _, _ => by simp [wfAttrItemsB] at h
  | .cons .nan _, h, _, _ => by simp [wfAttrItemsB] at h
  | .cons (.arr a) _, h, _, _ => by simp [wfAttrItemsB] at h
  | .cons (.obj o) _, h, _, _ => by simp [wfAttrItemsB] at h

/-- Attribute-array well-formedness implies value well-formedness. -/
theorem wfAttrItems_wf : ∀ (g : JsItems), wfAttrItemsB g = true → wfItemsB g = true
  | .nil, _ => rfl
  | .cons (.num d) rest, h => by
    have h2 : (isNormDec d && wfAttrItemsB rest) = true := h
    simp only [Bool.and_eq_true] at h2
    show (wfValB (.num d) && wfItemsB rest) = true
    simp only [Bool.and_eq_true]
    exact ⟨h2.1, wfAttrItems_wf rest h2.2⟩
  | .cons (.str s) rest, h => by
    have h2 : ((wfStrB s && lacks ']' s) && wfAttrItemsB rest) = true := h
    simp only [Bool.and_eq_true] at h2
    show (wfValB (.str s) && wfItemsB rest) = true
    simp only [Bool.and_eq_true]
    exact ⟨h2.1.1, wfAttrItems_wf rest h2.2⟩
  | .cons .null _, h => by simp [wfAttrItemsB] at h
  | .cons .undef _, h => by simp [wfAttrItemsB] at h
  | .cons (.bool b) _, h => by simp [wfAttrItemsB] at h
  | .cons .nan _, h => by simp [wfAttrItemsB] at h
  | .cons (.arr a) _, h => by simp [wfAttrItemsB] at h
  | .cons (.obj o) _, h => by simp [wfAttrItemsB] at h

/-- `parseArray` recovers a serialized attribute array. -/
theorem parseArray_attr (g : JsItems) (hwf : wfAttrItemsB g = true) :
    parseArray (serializeValue (.arr g)) = g :=
  paL_ser g (serItemsGood g (wfAttrItems_wf g hwf))

/-- A serialized nonempty attribute array is a well-formed bracket value. -/
theorem arrAttr_aval (g : JsItems) (hwf : wfAttrItemsB g = true)
    (hne : 0 < jsItemsLen g) : AValWf (.bracket (serializeValue (.arr g))) := by
  cases g with
  | nil => simp [jsItemsLen] at hne
  | cons v0 rest =>
    have hdata : (serializeValue (.arr (JsItems.cons v0 rest))).data
        = '[' :: (charInterSp ((serializeItems (JsItems.cons v0 rest)).map String.data)
          ++ [']']) := by
      show ("[" ++ joinCommaSp (serializeItems (JsItems.cons v0 rest)) ++ "]").data = _
      simp [String.data_append, joinCommaSp_data, List.append_assoc]
    refine ⟨charInterSp ((serializeItems (JsItems.cons v0 rest)).map String.data),
      hdata, ?_⟩
    intro c hc
    rcases mem_charInterSp _ c hc with rfl | rfl | ⟨l, hl, hcl⟩
    · decide
    · decide
    · obtain ⟨e, hee, hed⟩ := List.mem_map.mp hl
      exact attrItem_chars _ hwf e hee c (hed ▸ hcl)

/-- A serialized nonempty array is a nonempty string. -/
theorem serArr_ne_empty (g : JsItems) (hne : 0 < jsItemsLen g) :
    ¬ (serializeValue (.arr g) = "") := by
  cases g with
  | nil => simp [jsItemsLen] at hne
  | cons v0 rest =>
    intro hbad
    have hdata : (serializeValue (.arr (JsItems.cons v0 rest))).data
        = '[' :: (charInterSp ((serializeItems (JsItems.cons v0 rest)).map String.data)
          ++ [']']) := by
      show ("[" ++ joinCommaSp (serializeItems (JsItems.cons v0 rest)) ++ "]").data = _
      simp [String.data_append, joinCommaSp_data, List.append_assoc]
    rw [hbad] at hdata
    exact absurd hdata.symm (List.cons_ne_nil _ _)

/-- A rendered integer is a well-formed bare attribute value. -/
theorem intToStr_bare (n : Int) : AValWf (.bare (intToStr n)) := by
  obtain ⟨c, tl, hl, hc, hall, lc, hlast, hlc⟩ := intToStr_shape n
  refine ⟨by rw [hl]; exact List.cons_ne_nil _ _, ?_, ?_⟩
  · intro x hx
    rcases hall x hx with rfl | hdig
    · exact ⟨by decide, by decide⟩
    · exact ⟨isDig_not_space x hdig, isDig_ne x hdig ']' (by decide)⟩
  · intro x hx
    rw [hl] at hx
    simp only [List.head?_cons, Option.some.injEq] at hx
    subst hx
    rcases hc with rfl | hdig
    · exact ⟨by decide, by decide⟩
    · exact ⟨isDig_ne c hdig '"' (by decide), isDig_ne c hdig '[' (by decide)⟩

/-- A rendered integer is nonempty. -/
theorem intToStr_ne_empty (n : Int) : ¬ (intToStr n = "") := by
  obtain ⟨c, tl, hl, -⟩ := intToStr_shape n
  intro hbad
  rw [hbad] at hl
  exact absurd hl.symm (List.cons_ne_nil _ _)

/-- `parseInt` inverts integer rendering. -/
theorem jsParseInt_self (n : Int) : jsParseInt (intToStr n) = .val n :=
  jsParseInt_intToStr n

/-- Captured pairs keep the chunk keys. -/
theorem chunkPairs_keys (cs : List (String × AttrVal)) :
    (chunkPairs cs).map (fun kv => kv.1) = cs.map (fun kv => kv.1) := by
  simp [chunkPairs]

/-- Key distinctness restricts to sublists. -/
theorem distinctKeys_sublist {a b : List String} (hs : a.Sublist b)
    (hd : distinctKeys b = true) : distinctKeys a = true := by
  induction hs with
  | slnil => rfl
  | cons x hs ih =>
    simp only [distinctKeys, Bool.and_eq_true] at hd
    exact ih hd.2
  | cons₂ x hs ih =>
    simp only [distinctKeys, Bool.and_eq_true, List.all_eq_true, decide_eq_true_eq] at hd ⊢
    exact ⟨fun j hj => hd.1 j (hs.subset hj), ih hd.2⟩

/-- Keys contributed by each chunk builder. -/
theorem keys_optQuoted (key : String) (o : Option String) :
    ((optQuoted key o).map (fun kv => kv.1)).Sublist [key] := by
  cases o with
  | none => exact List.nil_sublist _
  | some s =>
    by_cases h : s = "" <;> simp [optQuoted, h]

theorem keys_optBare (key : String) (o : Option String) :
    ((optBare key o).map (fun kv => kv.1)).Sublist [key] := by
  cases o with
  | none => exact List.nil_sublist _
  | some s =>
    by_cases h : s = "" <;> simp [optBare, h]

theorem keys_parentChunk (o : Option String) :
    ((parentChunk o).map (fun kv => kv.1)).Sublist ["parent"] := by
  cases o with
  | none => exact List.nil_sublist _
  | some s => simp [parentChunk]

theorem keys_numChunk (key : String) (i : JsIntF) :
    ((numChunk key i).map (fun kv => kv.1)).Sublist [key] := by
  cases i <;> simp [numChunk]

theorem keys_loadChunk (i : JsIntF) :
    ((loadChunk i).map (fun kv => kv.1)).Sublist ["load_steps"] := by
  by_cases h : i.truthy <;> simp [loadChunk, h]

theorem keys_arrChunk (key : String) (o : Option JsItems) :
    ((arrChunk key o).map (fun kv => kv.1)).Sublist [key] := by
  cases o with
  | none => exact List.nil_sublist _
  | some g =>
    by_cases h : 0 < jsItemsLen g <;> simp [arrChunk, h]

/-- A well-formed attribute string is quote-free. -/
theorem wfAttrStrB_quoted (s : String) (h : wfAttrStrB s = true) :
    ∀ c ∈ s.data, ¬ (c = '"') := by
  simp only [wfAttrStrB, Bool.and_eq_true, lacks, List.all_eq_true, decide_eq_true_eq] at h
  exact h.1

/-- A well-formed attribute string is newline-free. -/
theorem wfAttrStrB_nl (s : String) (h : wfAttrStrB s = true) :
    ∀ c ∈ s.data, ¬ (c = '\n') := by
  simp only [wfAttrStrB, Bool.and_eq_true, lacks, List.all_eq_true,
    decide_eq_true_eq] at h
  exact h.2

/-- Non-whitespace characters are not newlines. -/
theorem not_space_ne_nl (c : Char) (h : isJsSpace c = false) : ¬ (c = '\n') := by
  intro hbad
  rw [hbad] at h
  exact absurd h (by decide)

/-- Rendered integers are newline-free. -/
theorem intToStr_nl (n : Int) : ∀ c ∈ (intToStr n).data, ¬ (c = '\n') := by
  obtain ⟨c0, tl, hl, hc, hall, -⟩ := intToStr_shape n
  intro c hc2
  rcases hall c hc2 with rfl | hdig
  · decide
  · exact isDig_ne c hdig '\n' (by decide)

/-- Chunk well-formedness constructors. -/
theorem chunkWf_quoted (key s : String) (hk1 : key.data ≠ [])
    (hk2 : ∀ c ∈ key.data, wordChar c = true) (hs : ∀ c ∈ s.data, ¬ (c = '"'))
    (hknl : ∀ c ∈ key.data, ¬ (c = '\n')) (hsnl : ∀ c ∈ s.data, ¬ (c = '\n')) :
    ChunkWf (key, .quoted s) := by
  refine ⟨hk1, hk2, hs, hknl, ?_⟩
  intro c hc
  rcases List.mem_cons.mp hc with rfl | hc2
  · decide
  · rcases List.mem_append.mp hc2 with hc3 | hc3
    · exact hsnl c hc3
    · rcases List.mem_singleton.mp hc3 with rfl
      decide

theorem chunkWf_val (key : String) (v : AttrVal) (hk1 : key.data ≠ [])
    (hk2 : ∀ c ∈ key.data, wordChar c = true) (hs : AValWf v)
    (hknl : ∀ c ∈ key.data, ¬ (c = '\n'))
    (hvnl : ∀ c ∈ aValRender v, ¬ (c = '\n')) :
    ChunkWf (key, v) := ⟨hk1, hk2, hs, hknl, hvnl⟩

/-- Each chunk a builder emits is well-formed. -/
theorem wf_optQuoted_mem (key : String) (hk1 : key.data ≠ [])
    (hk2 : ∀ c ∈ key.data, wordChar c = true)
    (hk3 : ∀ c ∈ key.data, ¬ (c = '\n')) (o : Option String)
    (ho : wfOptAttrB o = true) : ∀ kv ∈ optQuoted key o, ChunkWf kv := by
  cases o with
  | none => intro kv hkv; exact absurd hkv (List.not_mem_nil _)
  | some s =>
    simp only [wfOptAttrB, Bool.and_eq_true, decide_eq_true_eq] at ho
    intro kv hkv
    rw [optQuoted, if_neg ho.1] at hkv
    rcases List.mem_singleton.mp hkv with rfl
    exact chunkWf_quoted key s hk1 hk2 (wfAttrStrB_quoted _ ho.2) hk3
      (wfAttrStrB_nl _ ho.2)

theorem wf_parent_mem (o : Option String)
    (ho : ∀ p, o = some p → wfAttrStrB p = true) :
    ∀ kv ∈ parentChunk o, ChunkWf kv := by
  cases o with
  | none => intro kv hkv; exact absurd hkv (List.not_mem_nil _)
  | some p =>
    intro kv hkv
    rcases List.mem_singleton.mp hkv with rfl
    exact chunkWf_quoted "parent" p (by decide) (by decide)
      (wfAttrStrB_quoted _ (ho p rfl)) (by decide) (wfAttrStrB_nl _ (ho p rfl))

theorem wf_optBare_mem (key : String) (hk1 : key.data ≠ [])
    (hk2 : ∀ c ∈ key.data, wordChar c = true)
    (hk3 : ∀ c ∈ key.data, ¬ (c = '\n')) (o : Option String)
    (ho : wfBareB o = true) : ∀ kv ∈ optBare key o, ChunkWf kv := by
  cases o with
  | none => intro kv hkv; exact absurd hkv (List.not_mem_nil _)
  | some s =>
    simp only [wfBareB, Bool.and_eq_true, decide_eq_true_eq, List.all_eq_true] at ho
    intro kv hkv
    rw [optBare, if_neg ho.1] at hkv
    rcases List.mem_singleton.mp hkv with rfl
    refine chunkWf_val key (.bare s) hk1 hk2 ⟨?_, ?_, ?_⟩ hk3 ?_
    · intro hbad
      exact ho.1 (String.ext hbad)
    · intro c hc
      obtain ⟨h1, h2, h3, h4⟩ := ho.2 c hc
      exact ⟨by cases hsp : isJsSpace c; rfl; exact absurd hsp (by simpa using h1), h2⟩
    · intro c hc
      obtain ⟨h1, h2, h3, h4⟩ := ho.2 c (by
        cases hd : s.data with
        | nil => rw [hd] at hc; simp at hc
        | cons a t =>
          rw [hd] at hc
          simp only [List.head?_cons, Option.some.injEq] at hc
          rw [← hc]
          exact List.mem_cons_self _ _)
      exact ⟨h3, h4⟩
    · intro c hc
      obtain ⟨h1, h2, h3, h4⟩ := ho.2 c hc
      refine not_space_ne_nl c ?_
      cases hsp : isJsSpace c
      · rfl
      · exact absurd hsp (by simpa using h1)

theorem wf_numChunk_mem (key : String) (hk1 : key.data ≠ [])
    (hk2 : ∀ c ∈ key.data, wordChar c = true)
    (hk3 : ∀ c ∈ key.data, ¬ (c = '\n')) (i : JsIntF) :
    ∀ kv ∈ numChunk key i, ChunkWf kv := by
  cases i with
  | undef => intro kv hkv; exact absurd hkv (List.not_mem_nil _)
  | val n =>
    intro kv hkv
    rcases List.mem_singleton.mp hkv with rfl
    exact chunkWf_val key _ hk1 hk2 (intToStr_bare n) hk3 (intToStr_nl n)
  | nan =>
    intro kv hkv
    rcases List.mem_singleton.mp hkv with rfl
    refine chunkWf_val key _ hk1 hk2 ⟨by decide, ?_, by decide⟩ hk3 ?_
    · intro c hc
      fin_cases hc <;> exact ⟨by decide, by decide⟩
    · intro c hc
      fin_cases hc <;> decide

theorem wf_loadChunk_mem (i : JsIntF) : ∀ kv ∈ loadChunk i, ChunkWf kv := by
  cases i with
  | undef => intro kv hkv; exact absurd hkv (List.not_mem_nil _)
  | val n =>
    by_cases h : (JsIntF.val n).truthy
    · intro kv hkv
      rw [loadChunk, if_pos h] at hkv
      rcases List.mem_singleton.mp hkv with rfl
      exact chunkWf_val "load_steps" _ (by decide) (by decide) (intToStr_bare n)
        (by decide) (intToStr_nl n)
    · intro kv hkv
      rw [loadChunk, if_neg h] at hkv
      exact absurd hkv (List.not_mem_nil _)
  | nan => intro kv hkv; exact absurd hkv (List.not_mem_nil _)

theorem wf_arrChunk_mem (key : String) (hk1 : key.data ≠ [])
    (hk2 : ∀ c ∈ key.data, wordChar c = true)
    (hk3 : ∀ c ∈ key.data, ¬ (c = '\n')) (o : Option JsItems)
    (ho : ∀ g, o = some g → wfAttrItemsB g = true) :
    ∀ kv ∈ arrChunk key o, ChunkWf kv := by
  cases o with
  | none => intro kv hkv; exact absurd hkv (List.not_mem_nil _)
  | some g =>
    by_cases h : 0 < jsItemsLen g
    · intro kv hkv
      rw [arrChunk, if_pos h] at hkv
      rcases List.mem_singleton.mp hkv with rfl
      refine chunkWf_val key _ hk1 hk2 (arrAttr_aval g (ho g rfl) h) hk3 ?_
      have hval : wfValB (.arr g) = true := wfAttrItems_wf g (ho g rfl)
      obtain ⟨-, -, -, -, hnl⟩ := (serValGood (.arr g) hval).2
      exact hnl
    · intro kv hkv
      rw [arrChunk, if_neg h] at hkv
      exact absurd hkv (List.not_mem_nil _)

/-- Reads continue past a missing block. -/
theorem attrGet_skip_append (A B : List (String × String)) (k : String)
    (hA : attrGet A k = none) : attrGet (A ++ B) k = attrGet B k := by
  rw [attrGet_append, hA]

/-- Reads stop at a found block. -/
theorem attrGet_found_append (A B : List (String × String)) (k v : String)
    (hA : attrGet A k = some v) : attrGet (A ++ B) k = some v := by
  rw [attrGet_append, hA]

/-- A one-key builder never answers for another key. -/
theorem attrGet_pairs_ne (cs : List (String × AttrVal)) (j : String)
    (hsub : ((cs.map (fun kv => kv.1))).Sublist [j]) (k : String)
    (hne : ¬ (j = k)) : attrGet (chunkPairs cs) k = none := by
  refine attrGet_not_mem _ _ ?_
  intro kv hkv
  obtain ⟨kv0, hkv0, hkv0e⟩ := List.mem_map.mp hkv
  have : kv0.1 ∈ [j] := hsub.subset (List.mem_map.mpr ⟨kv0, hkv0, rfl⟩)
  rw [← hkv0e]
  show ¬ (kv0.1 = k)
  rw [List.mem_singleton.mp this]
  exact hne

/-- Reading a singleton object. -/
theorem attrGet_one (k v : String) : attrGet [(k, v)] k = some v := by
  simp [attrGet, List.find?]

/-- What each builder answers for its own key. -/
theorem attrGet_optQuoted_self (key : String) (o : Option String) :
    attrGet (chunkPairs (optQuoted key o)) key
      = (match o with
         | some s => if s = "" then none else some s
         | none => none) := by
  cases o with
  | none => rfl
  | some s =>
    by_cases h : s = ""
    · simp only [optQuoted, if_pos h, chunkPairs, List.map_nil, if_pos h]
      rfl
    · simp only [optQuoted, if_neg h, chunkPairs, List.map_cons, List.map_nil, aValCap, if_neg h]
      exact attrGet_one key s

theorem attrGet_optBare_self (key : String) (o : Option String) :
    attrGet (chunkPairs (optBare key o)) key
      = (match o with
         | some s => if s = "" then none else some s
         | none => none) := by
  cases o with
  | none => rfl
  | some s =>
    by_cases h : s = ""
    · simp only [optBare, if_pos h, chunkPairs, List.map_nil, if_pos h]
      rfl
    · simp only [optBare, if_neg h, chunkPairs, List.map_cons, List.map_nil, aValCap, if_neg h]
      exact attrGet_one key s

theorem attrGet_parent_self (o : Option String) :
    attrGet (chunkPairs (parentChunk o)) "parent"
      = (match o with
         | some p => some p
         | none => none) := by
  cases o with
  | none => rfl
  | some p => exact attrGet_one "parent" p

theorem attrGet_numChunk_self (key : String) (i : JsIntF) :
    attrGet (chunkPairs (numChunk key i)) key
      = (match i with
         | .undef => none
         | i => some i.toStr) := by
  cases i with
  | undef => rfl
  | val n => exact attrGet_one key _
  | nan => exact attrGet_one key _

theorem attrGet_loadChunk_self (i : JsIntF) :
    attrGet (chunkPairs (loadChunk i)) "load_steps"
      = (if i.truthy then some i.toStr else none) := by
  by_cases h : i.truthy
  · rw [loadChunk, if_pos h, if_pos h]
    exact attrGet_one "load_steps" _
  · rw [loadChunk, if_neg h, if_neg h]
    rfl

theorem attrGet_arrChunk_self (key : String) (o : Option JsItems) :
    attrGet (chunkPairs (arrChunk key o)) key
      = (match o with
         | some g => if 0 < jsItemsLen g then some (serializeValue (.arr g)) else none
         | none => none) := by
  cases o with
  | none => rfl
  | some g =>
    by_cases h : 0 < jsItemsLen g
    · rw [arrChunk, if_pos h]
      simp only [if_pos h]
      exact attrGet_one key _
    · rw [arrChunk, if_neg h]
      simp only [if_neg h]
      rfl

/-- The external-resource record round-trips through its serialized line. -/
theorem parseExtResource_ser (r : ExtResource) (h : wfExtB r = true) :
    parseExtResource (serializeExtResource r) = r := by
  have hline := extLine_shape r
  simp only [wfExtB, Bool.and_eq_true] at h
  obtain ⟨⟨⟨ht, hp⟩, hi⟩, hu⟩ := h
  obtain ⟨t, p, i, u⟩ := r
  simp only at ht hp hi hu
  cases u with
  | none =>
    have hch : extChunks ⟨t, p, i, none⟩
        = [("type", .quoted t), ("path", .quoted p), ("id", .quoted i)] := by
      simp [extChunks, optQuoted]
    have hwf : ∀ kv ∈ extChunks ⟨t, p, i, none⟩, ChunkWf kv := by
      rw [hch]
      intro kv hkv
      rcases List.mem_cons.mp hkv with rfl | hkv
      · exact chunkWf_quoted "type" t (by decide) (by decide) (wfAttrStrB_quoted _ ht) (by decide) (wfAttrStrB_nl _ ht)
      rcases List.mem_cons.mp hkv with rfl | hkv
      · exact chunkWf_quoted "path" p (by decide) (by decide) (wfAttrStrB_quoted _ hp) (by decide) (wfAttrStrB_nl _ hp)
      rcases List.mem_cons.mp hkv with rfl | hkv
      · exact chunkWf_quoted "id" i (by decide) (by decide) (wfAttrStrB_quoted _ hi) (by decide) (wfAttrStrB_nl _ hi)
      · exact absurd hkv (List.not_mem_nil _)
    have hdk : distinctKeys ((chunkPairs (extChunks ⟨t, p, i, none⟩)).map
        (fun kv => kv.1)) = true := by
      rw [chunkPairs_keys, hch]
      simp only [List.map_cons, List.map_nil]
      decide
    have hpa : parseAttributes (serializeExtResource ⟨t, p, i, none⟩)
        = chunkPairs (extChunks ⟨t, p, i, none⟩) := by
      show attrsCollapse (attrsL (serializeExtResource ⟨t, p, i, none⟩).data) = _
      rw [hline, attrsL_line "ext_resource".data _ (by decide) hwf,
        attrsCollapse_id _ hdk]
    simp only [parseExtResource, hpa, hch, chunkPairs, List.map_cons, List.map_nil, aValCap]
    simp [attrGet, List.find?]
  | some s =>
    simp only [wfOptAttrB, Bool.and_eq_true, decide_eq_true_eq] at hu
    have hch : extChunks ⟨t, p, i, some s⟩
        = [("type", .quoted t), ("path", .quoted p), ("uid", .quoted s),
           ("id", .quoted i)] := by
      simp [extChunks, optQuoted, hu.1]
    have hwf : ∀ kv ∈ extChunks ⟨t, p, i, some s⟩, ChunkWf kv := by
      rw [hch]
      intro kv hkv
      rcases List.mem_cons.mp hkv with rfl | hkv
      · exact chunkWf_quoted "type" t (by decide) (by decide) (wfAttrStrB_quoted _ ht) (by decide) (wfAttrStrB_nl _ ht)
      rcases List.mem_cons.mp hkv with rfl | hkv
      · exact chunkWf_quoted "path" p (by decide) (by decide) (wfAttrStrB_quoted _ hp) (by decide) (wfAttrStrB_nl _ hp)
      rcases List.mem_cons.mp hkv with rfl | hkv
      · exact chunkWf_quoted "uid" s (by decide) (by decide) (wfAttrStrB_quoted _ hu.2) (by decide) (wfAttrStrB_nl _ hu.2)
      rcases List.mem_cons.mp hkv with rfl | hkv
      · exact chunkWf_quoted "id" i (by decide) (by decide) (wfAttrStrB_quoted _ hi) (by decide) (wfAttrStrB_nl _ hi)
      · exact absurd hkv (List.not_mem_nil _)
    have hdk : distinctKeys ((chunkPairs (extChunks ⟨t, p, i, some s⟩)).map
        (fun kv => kv.1)) = true := by
      rw [chunkPairs_keys, hch]
      simp only [List.map_cons, List.map_nil]
      decide
    have hpa : parseAttributes (serializeExtResource ⟨t, p, i, some s⟩)
        = chunkPairs (extChunks ⟨t, p, i, some s⟩) := by
      show attrsCollapse (attrsL (serializeExtResource ⟨t, p, i, some s⟩).data) = _
      rw [hline, attrsL_line "ext_resource".data _ (by decide) hwf,
        attrsCollapse_id _ hdk]
    simp only [parseExtResource, hpa, hch, chunkPairs, List.map_cons, List.map_nil, aValCap]
    simp [attrGet, List.find?]

/-- `parseAttributes` on a rendered line returns exactly the chunk pairs. -/
theorem parseAttributes_chunks (line : String) (tag : List Char)
    (cs : List (String × AttrVal))
    (hdata : line.data = '[' :: (tag ++ (chunksRender cs ++ [']'])))
    (htag : ∀ c ∈ tag, wordChar c = true)
    (hwf : ∀ kv ∈ cs, ChunkWf kv)
    (hdk : distinctKeys ((chunkPairs cs).map (fun kv => kv.1)) = true) :
    parseAttributes line = chunkPairs cs := by
  show attrsCollapse (attrsL line.data) = _
  rw [hdata, attrsL_line tag cs htag hwf, attrsCollapse_id _ hdk]

/-- Captured pairs distribute over concatenation. -/
theorem chunkPairs_append (a b : List (String × AttrVal)) :
    chunkPairs (a ++ b) = chunkPairs a ++ chunkPairs b := by
  simp [chunkPairs]

/-- A stored rendered integer passes the truthiness filter and parses back. -/
theorem truthyOpt_jsParseInt_int (n : Int) :
    (match truthyOpt (some (intToStr n)) with
     | some s => jsParseInt s
     | none => JsIntF.undef) = .val n := by
  rw [show truthyOpt (some (intToStr n)) = some (intToStr n) from by
    simp [truthyOpt, intToStr_ne_empty n]]
  exact jsParseInt_self n

/-- The header record round-trips through its serialized line. -/
theorem parseHeader_ser (h : Header) (hwf : wfHeaderB h = true) :
    parseHeader (serializeHeader h) = h := by
  have hline := headerLine_shape h
  simp only [wfHeaderB, Bool.and_eq_true, decide_eq_true_eq] at hwf
  obtain ⟨⟨⟨htyp, hls⟩, hfm⟩, huid⟩ := hwf
  have hchre : headerChunks h
      = loadChunk h.loadSteps ++ ([("format", .bare h.format.toStr)]
          ++ optQuoted "uid" h.uid) := by
    simp [headerChunks, List.append_assoc]
  have htag : ∀ c ∈ h.type.data, wordChar c = true := by
    rcases htyp with ht | ht <;> rw [ht] <;> decide
  have hfwf : ChunkWf ("format", AttrVal.bare h.format.toStr) := by
    cases hf2 : h.format with
    | undef => rw [hf2] at hfm; exact absurd hfm (by decide)
    | nan => rw [hf2] at hfm; exact absurd hfm (by decide)
    | val m =>
      exact chunkWf_val "format" _ (by decide) (by decide) (intToStr_bare m)
        (by decide) (intToStr_nl m)
  have hcwf : ∀ kv ∈ headerChunks h, ChunkWf kv := by
    rw [hchre]
    intro kv hkv
    rcases List.mem_append.mp hkv with hkv | hkv
    · exact wf_loadChunk_mem h.loadSteps kv hkv
    rcases List.mem_append.mp hkv with hkv | hkv
    · rcases List.mem_singleton.mp hkv with rfl
      exact hfwf
    · exact wf_optQuoted_mem "uid" (by decide) (by decide) (by decide) h.uid huid kv hkv
  have hdk : distinctKeys ((chunkPairs (headerChunks h)).map (fun kv => kv.1))
      = true := by
    rw [chunkPairs_keys, hchre]
    have hsub : ((loadChunk h.loadSteps ++ ([("format", AttrVal.bare h.format.toStr)]
        ++ optQuoted "uid" h.uid)).map (fun kv => kv.1)).Sublist
        (["load_steps"] ++ (["format"] ++ ["uid"])) := by
      simp only [List.map_append, List.map_cons, List.map_nil]
      exact (keys_loadChunk h.loadSteps).append
        ((List.Sublist.refl _).append (keys_optQuoted "uid" h.uid))
    exact distinctKeys_sublist hsub (by decide)
  have hpa : parseAttributes (serializeHeader h) = chunkPairs (headerChunks h) :=
    parseAttributes_chunks _ h.type.data _ hline htag hcwf hdk
  have hpairs : chunkPairs (headerChunks h)
      = chunkPairs (loadChunk h.loadSteps)
        ++ ([("format", h.format.toStr)] ++ chunkPairs (optQuoted "uid" h.uid)) := by
    rw [hchre, chunkPairs_append, chunkPairs_append]
    rfl
  have hgls : (match truthyOpt (attrGet (chunkPairs (headerChunks h)) "load_steps") with
      | some s => jsParseInt s
      | none => JsIntF.undef) = h.loadSteps := by
    rw [hpairs]
    cases hls2 : h.loadSteps with
    | undef =>
      rw [attrGet_skip_append _ _ _ (by rw [attrGet_loadChunk_self]; rfl)]
      rw [attrGet_skip_append _ _ _ (by rw [attrGet_cons_ne _ _ _ _ (by decide)]; rfl)]
      rw [attrGet_pairs_ne _ "uid" (keys_optQuoted _ _) _ (by decide)]
      rfl
    | val n =>
      rw [hls2] at hls
      have htr : (JsIntF.val n).truthy = true := by
        simp only [JsIntF.truthy]
        exact hls
      have hfound : attrGet (chunkPairs (loadChunk (JsIntF.val n))) "load_steps"
          = some (intToStr n) := by
        rw [attrGet_loadChunk_self, if_pos htr]
        rfl
      rw [attrGet_found_append _ _ _ _ hfound]
      exact truthyOpt_jsParseInt_int n
    | nan => rw [hls2] at hls; exact absurd hls (by decide)
  have hgfm : (match truthyOpt (attrGet (chunkPairs (headerChunks h)) "format") with
      | some s => jsParseInt s
      | none => JsIntF.val 3) = h.format := by
    rw [hpairs]
    rw [attrGet_skip_append _ _ _
      (attrGet_pairs_ne _ "load_steps" (keys_loadChunk _) _ (by decide))]
    rw [attrGet_found_append _ _ _ _ (attrGet_one _ _)]
    cases hf2 : h.format with
    | undef => rw [hf2] at hfm; exact absurd hfm (by decide)
    | nan => rw [hf2] at hfm; exact absurd hfm (by decide)
    | val m =>
      show (match truthyOpt (some ((JsIntF.val m).toStr)) with
        | some s => jsParseInt s
        | none => JsIntF.val 3) = JsIntF.val m
      rw [show (JsIntF.val m).toStr = intToStr m from rfl,
        show truthyOpt (some (intToStr m)) = some (intToStr m) from by
          simp [truthyOpt, intToStr_ne_empty m]]
      exact jsParseInt_self m
  have hguid : attrGet (chunkPairs (headerChunks h)) "uid" = h.uid := by
    rw [hpairs]
    rw [attrGet_skip_append _ _ _
      (attrGet_pairs_ne _ "load_steps" (keys_loadChunk _) _ (by decide))]
    rw [attrGet_skip_append _ _ _ (by rw [attrGet_cons_ne _ _ _ _ (by decide)]; rfl)]
    rw [attrGet_optQuoted_self]
    cases hu2 : h.uid with
    | none => rfl
    | some u =>
      rw [hu2] at huid
      simp only [wfOptAttrB, Bool.and_eq_true, decide_eq_true_eq] at huid
      show (if u = "" then none else some u) = some u
      rw [if_neg huid.1]
  have hty : (if jsStartsWith (serializeHeader h) "[gd_scene" then "gd_scene"
      else "gd_resource") = h.type := by
    rcases htyp with ht | ht
    · rw [if_pos ?hpos]
      · exact ht.symm
      case hpos =>
        show startsWithL (serializeHeader h).data "[gd_scene".data = true
        rw [hline, ht]
        exact startsWith_self_append "[gd_scene".data _
    · rw [if_neg ?hneg]
      · exact ht.symm
      case hneg =>
        show ¬ (startsWithL (serializeHeader h).data "[gd_scene".data = true)
        rw [hline, ht]
        intro hbad
        have h2 := startsWith_of_append "[gd_scene".data "[gd_resource".data _
          hbad (by decide)
        exact absurd h2 (by decide)
  show Header.mk _ _ _ _ = h
  rw [show parseAttributes (serializeHeader h) = chunkPairs (headerChunks h) from hpa]
  refine Eq.trans ?_ (show Header.mk h.type h.loadSteps h.format h.uid = h from rfl)
  simp only [Header.mk.injEq]
  exact ⟨hty, hgls, hgfm, hguid⟩

/-- A rendered nonempty array passes the truthiness filter. -/
theorem truthyOpt_arr (g : JsItems) (hlen : 0 < jsItemsLen g) :
    truthyOpt (some (serializeValue (.arr g))) = some (serializeValue (.arr g)) := by
  simp [truthyOpt, serArr_ne_empty g hlen]

/-- The sub-resource record round-trips through its serialized header line. -/
theorem mkSub_ser (line : String) (t i : String) (props : JsProps)
    (hdata : line.data
      = '[' :: ("sub_resource".data
          ++ (chunksRender (subChunks ⟨t, i, props⟩) ++ [']'])))
    (ht : wfAttrStrB t = true) (hi : wfAttrStrB i = true) :
    mkSubFromAttrs line props = ⟨t, i, props⟩ := by
  have hch : subChunks ⟨t, i, props⟩
      = [("type", .quoted t), ("id", .quoted i)] := rfl
  have hcwf : ∀ kv ∈ subChunks ⟨t, i, props⟩, ChunkWf kv := by
    rw [hch]
    intro kv hkv
    rcases List.mem_cons.mp hkv with rfl | hkv
    · exact chunkWf_quoted "type" t (by decide) (by decide) (wfAttrStrB_quoted _ ht) (by decide) (wfAttrStrB_nl _ ht)
    rcases List.mem_cons.mp hkv with rfl | hkv
    · exact chunkWf_quoted "id" i (by decide) (by decide) (wfAttrStrB_quoted _ hi) (by decide) (wfAttrStrB_nl _ hi)
    · exact absurd hkv (List.not_mem_nil _)
  have hpa : parseAttributes line = chunkPairs (subChunks ⟨t, i, props⟩) := by
    refine parseAttributes_chunks line "sub_resource".data _ hdata (by decide) hcwf ?_
    rw [chunkPairs_keys, hch]
    simp only [List.map_cons, List.map_nil]
    decide
  show SubResource.mk _ _ _ = _
  rw [hpa, hch]
  show SubResource.mk ((attrGet [("type", t), ("id", i)] "type").getD "")
    ((attrGet [("type", t), ("id", i)] "id").getD "") props = _
  rw [attrGet_cons_self]
  rw [attrGet_cons_ne _ _ _ _ (by decide), attrGet_cons_self]
  rfl

/-- The connection record round-trips through its serialized line. -/
theorem parseConnection_ser (c : Connection) (hwf : wfConnB c = true) :
    parseConnection (serializeConnection c) = c := by
  have hline := connLine_shape c
  simp only [wfConnB, Bool.and_eq_true] at hwf
  obtain ⟨⟨⟨⟨⟨hs, hf⟩, ht⟩, hm⟩, hfl⟩, hb⟩ := hwf
  have hchre : connChunks c
      = [("signal", .quoted c.signal)] ++ ([("from", .quoted c.fromPath)]
          ++ ([("to", .quoted c.toPath)] ++ ([("method", .quoted c.method)]
          ++ (numChunk "flags" c.flags ++ arrChunk "binds" c.binds)))) := by
    simp [connChunks, List.append_assoc]
  have hcwf : ∀ kv ∈ connChunks c, ChunkWf kv := by
    rw [hchre]
    intro kv hkv
    rcases List.mem_append.mp hkv with hkv | hkv
    · rcases List.mem_singleton.mp hkv with rfl
      exact chunkWf_quoted "signal" _ (by decide) (by decide) (wfAttrStrB_quoted _ hs) (by decide) (wfAttrStrB_nl _ hs)
    rcases List.mem_append.mp hkv with hkv | hkv
    · rcases List.mem_singleton.mp hkv with rfl
      exact chunkWf_quoted "from" _ (by decide) (by decide) (wfAttrStrB_quoted _ hf) (by decide) (wfAttrStrB_nl _ hf)
    rcases List.mem_append.mp hkv with hkv | hkv
    · rcases List.mem_singleton.mp hkv with rfl
      exact chunkWf_quoted "to" _ (by decide) (by decide) (wfAttrStrB_quoted _ ht) (by decide) (wfAttrStrB_nl _ ht)
    rcases List.mem_append.mp hkv with hkv | hkv
    · rcases List.mem_singleton.mp hkv with rfl
      exact chunkWf_quoted "method" _ (by decide) (by decide) (wfAttrStrB_quoted _ hm) (by decide) (wfAttrStrB_nl _ hm)
    rcases List.mem_append.mp hkv with hkv | hkv
    · exact wf_numChunk_mem "flags" (by decide) (by decide) (by decide) c.flags kv hkv
    · refine wf_arrChunk_mem "binds" (by decide) (by decide) (by decide) c.binds ?_ kv hkv
      intro g hg
      rw [hg] at hb
      simp only [Bool.and_eq_true] at hb
      exact hb.2
  have hdk : distinctKeys ((chunkPairs (connChunks c)).map (fun kv => kv.1))
      = true := by
    rw [chunkPairs_keys, hchre]
    have hsub : ((([("signal", AttrVal.quoted c.signal)]
        ++ ([("from", AttrVal.quoted c.fromPath)]
          ++ ([("to", AttrVal.quoted c.toPath)]
            ++ ([("method", AttrVal.quoted c.method)]
              ++ (numChunk "flags" c.flags ++ arrChunk "binds" c.binds))))) ).map
          (fun kv => kv.1)).Sublist
        (["signal"] ++ (["from"] ++ (["to"] ++ (["method"]
          ++ (["flags"] ++ ["binds"]))))) := by
      simp only [List.map_append, List.map_cons, List.map_nil]
      exact (List.Sublist.refl _).append ((List.Sublist.refl _).append
        ((List.Sublist.refl _).append ((List.Sublist.refl _).append
          ((keys_numChunk _ _).append (keys_arrChunk _ _)))))
    exact distinctKeys_sublist hsub (by decide)
  have hpa : parseAttributes (serializeConnection c) = chunkPairs (connChunks c) :=
    parseAttributes_chunks _ "connection".data _ hline (by decide) hcwf hdk
  have hpairs : chunkPairs (connChunks c)
      = ("signal", c.signal) :: ("from", c.fromPath) :: ("to", c.toPath)
        :: ("method", c.method)
        :: (chunkPairs (numChunk "flags" c.flags)
            ++ chunkPairs (arrChunk "binds" c.binds)) := by
    rw [hchre]
    simp [chunkPairs, aValCap]
  have hgfl : (match truthyOpt (attrGet (chunkPairs (connChunks c)) "flags") with
      | some s => jsParseInt s
      | none => JsIntF.undef) = c.flags := by
    rw [hpairs, attrGet_cons_ne _ _ _ _ (by decide), attrGet_cons_ne _ _ _ _ (by decide),
      attrGet_cons_ne _ _ _ _ (by decide), attrGet_cons_ne _ _ _ _ (by decide)]
    cases hfl2 : c.flags with
    | undef =>
      rw [attrGet_skip_append _ _ _ (by rw [attrGet_numChunk_self])]
      rw [attrGet_pairs_ne _ "binds" (keys_arrChunk _ _) _ (by decide)]
      rfl
    | val n =>
      have hfound : attrGet (chunkPairs (numChunk "flags" (JsIntF.val n))) "flags"
          = some (intToStr n) := by
        rw [attrGet_numChunk_self]
        rfl
      rw [attrGet_found_append _ _ _ _ hfound]
      exact truthyOpt_jsParseInt_int n
    | nan => rw [hfl2] at hfl; exact absurd hfl (by decide)
  have hgb : (match truthyOpt (attrGet (chunkPairs (connChunks c)) "binds") with
      | some s => some (parseArray s)
      | none => none) = c.binds := by
    rw [hpairs, attrGet_cons_ne _ _ _ _ (by decide), attrGet_cons_ne _ _ _ _ (by decide),
      attrGet_cons_ne _ _ _ _ (by decide), attrGet_cons_ne _ _ _ _ (by decide)]
    rw [attrGet_skip_append _ _ _
      (attrGet_pairs_ne _ "flags" (keys_numChunk _ _) _ (by decide))]
    rw [attrGet_arrChunk_self]
    cases hb2 : c.binds with
    | none => rfl
    | some g =>
      rw [hb2] at hb
      simp only [Bool.and_eq_true] at hb
      have hpos : 0 < jsItemsLen g := by
        have h3 := hb.1
        simp only [decide_eq_true_eq] at h3
        exact h3
      show (match truthyOpt (if 0 < jsItemsLen g
          then some (serializeValue (.arr g)) else none) with
        | some s => some (parseArray s)
        | none => none) = some g
      rw [if_pos hpos, truthyOpt_arr g hpos]
      show some (parseArray (serializeValue (.arr g))) = some g
      rw [parseArray_attr g hb.2]
  show Connection.mk _ _ _ _ _ _ = c
  rw [show parseAttributes (serializeConnection c) = chunkPairs (connChunks c) from hpa]
  refine Eq.trans ?_ (show Connection.mk c.signal c.fromPath c.toPath c.method
    c.flags c.binds = c from rfl)
  simp only [Connection.mk.injEq]
  refine ⟨?_, ?_, ?_, ?_, hgfl, hgb⟩
  · rw [hpairs, attrGet_cons_self]
    rfl
  · rw [hpairs, attrGet_cons_ne _ _ _ _ (by decide), attrGet_cons_self]
    rfl
  · rw [hpairs, attrGet_cons_ne _ _ _ _ (by decide),
      attrGet_cons_ne _ _ _ _ (by decide), attrGet_cons_self]
    rfl
  · rw [hpairs, attrGet_cons_ne _ _ _ _ (by decide), attrGet_cons_ne _ _ _ _ (by decide),
      attrGet_cons_ne _ _ _ _ (by decide), attrGet_cons_self]
    rfl

/-- The node record round-trips through its serialized header line. -/
theorem mkNode_ser (line : String) (n : SceneNode)
    (hdata : line.data
      = '[' :: ("node".data ++ (chunksRender (nodeChunks n) ++ [']'])))
    (hwf : wfNodeB n = true) (props : JsProps) :
    mkNodeFromAttrs line props
      = ⟨n.name, n.type, n.parent, n.instanceRef, n.instancePlaceholder,
         n.owner, n.index, n.groups, props⟩ := by
  simp only [wfNodeB, Bool.and_eq_true] at hwf
  obtain ⟨⟨⟨⟨⟨⟨⟨⟨hnm, hty⟩, hpr⟩, hir⟩, hip⟩, how⟩, hix⟩, hgr⟩, hprp⟩ := hwf
  have hchre : nodeChunks n
      = [("name", .quoted n.name)] ++ (optQuoted "type" n.type ++ (parentChunk n.parent
        ++ (optBare "instance" n.instanceRef
        ++ (optQuoted "instance_placeholder" n.instancePlaceholder
        ++ (optQuoted "owner" n.owner ++ (numChunk "index" n.index
        ++ arrChunk "groups" n.groups)))))) := by
    simp [nodeChunks, List.append_assoc]
  have hcwf : ∀ kv ∈ nodeChunks n, ChunkWf kv := by
    rw [hchre]
    intro kv hkv
    rcases List.mem_append.mp hkv with hkv | hkv
    · rcases List.mem_singleton.mp hkv with rfl
      exact chunkWf_quoted "name" _ (by decide) (by decide) (wfAttrStrB_quoted _ hnm) (by decide) (wfAttrStrB_nl _ hnm)
    rcases List.mem_append.mp hkv with hkv | hkv
    · exact wf_optQuoted_mem "type" (by decide) (by decide) (by decide) n.type hty kv hkv
    rcases List.mem_append.mp hkv with hkv | hkv
    · refine wf_parent_mem n.parent ?_ kv hkv
      intro p hp
      rw [hp] at hpr
      exact hpr
    rcases List.mem_append.mp hkv with hkv | hkv
    · exact wf_optBare_mem "instance" (by decide) (by decide) (by decide) n.instanceRef hir kv hkv
    rcases List.mem_append.mp hkv with hkv | hkv
    · exact wf_optQuoted_mem "instance_placeholder" (by decide) (by decide) (by decide)
        n.instancePlaceholder hip kv hkv
    rcases List.mem_append.mp hkv with hkv | hkv
    · exact wf_optQuoted_mem "owner" (by decide) (by decide) (by decide) n.owner how kv hkv
    rcases List.mem_append.mp hkv with hkv | hkv
    · exact wf_numChunk_mem "index" (by decide) (by decide) (by decide) n.index kv hkv
    · refine wf_arrChunk_mem "groups" (by decide) (by decide) (by decide) n.groups ?_ kv hkv
      intro g hg
      rw [hg] at hgr
      simp only [Bool.and_eq_true] at hgr
      exact hgr.2
  have hdk : distinctKeys ((chunkPairs (nodeChunks n)).map (fun kv => kv.1))
      = true := by
    rw [chunkPairs_keys, hchre]
    have hsub : ((([("name", AttrVal.quoted n.name)]
        ++ (optQuoted "type" n.type ++ (parentChunk n.parent
        ++ (optBare "instance" n.instanceRef
        ++ (optQuoted "instance_placeholder" n.instancePlaceholder
        ++ (optQuoted "owner" n.owner ++ (numChunk "index" n.index
        ++ arrChunk "groups" n.groups)))))))).map (fun kv => kv.1)).Sublist
        (["name"] ++ (["type"] ++ (["parent"] ++ (["instance"]
          ++ (["instance_placeholder"] ++ (["owner"] ++ (["index"]
          ++ ["groups"]))))))) := by
      simp only [List.map_append, List.map_cons, List.map_nil]
      exact (List.Sublist.refl _).append ((keys_optQuoted _ _).append
        ((keys_parentChunk _).append ((keys_optBare _ _).append
          ((keys_optQuoted _ _).append ((keys_optQuoted _ _).append
            ((keys_numChunk _ _).append (keys_arrChunk _ _)))))))
    exact distinctKeys_sublist hsub (by decide)
  have hpa : parseAttributes line = chunkPairs (nodeChunks n) :=
    parseAttributes_chunks line "node".data _ hdata (by decide) hcwf hdk
  have hpairs : chunkPairs (nodeChunks n)
      = ("name", n.name) :: (chunkPairs (optQuoted "type" n.type)
        ++ (chunkPairs (parentChunk n.parent)
        ++ (chunkPairs (optBare "instance" n.instanceRef)
        ++ (chunkPairs (optQuoted "instance_placeholder" n.instancePlaceholder)
        ++ (chunkPairs (optQuoted "owner" n.owner)
        ++ (chunkPairs (numChunk "index" n.index)
        ++ chunkPairs (arrChunk "groups" n.groups))))))) := by
    rw [hchre]
    simp [chunkPairs, aValCap]
  have hgname : attrGet (chunkPairs (nodeChunks n)) "name" = some n.name := by
    rw [hpairs, attrGet_cons_self]
  have hgtype : attrGet (chunkPairs (nodeChunks n)) "type" = n.type := by
    rw [hpairs, attrGet_cons_ne _ _ _ _ (by decide)]
    cases hty2 : n.type with
    | some t =>
      rw [hty2] at hty
      simp only [wfOptAttrB, Bool.and_eq_true, decide_eq_true_eq] at hty
      have hfound : attrGet (chunkPairs (optQuoted "type" (some t))) "type"
          = some t := by
        rw [attrGet_optQuoted_self]
        show (if t = "" then none else some t) = some t
        rw [if_neg hty.1]
      rw [attrGet_found_append _ _ _ _ hfound]
    | none =>
      rw [attrGet_skip_append _ _ _ (by rw [attrGet_optQuoted_self])]
      rw [attrGet_skip_append _ _ _
        (attrGet_pairs_ne _ "parent" (keys_parentChunk _) _ (by decide))]
      rw [attrGet_skip_append _ _ _
        (attrGet_pairs_ne _ "instance" (keys_optBare _ _) _ (by decide))]
      rw [attrGet_skip_append _ _ _
        (attrGet_pairs_ne _ "instance_placeholder" (keys_optQuoted _ _) _ (by decide))]
      rw [attrGet_skip_append _ _ _
        (attrGet_pairs_ne _ "owner" (keys_optQuoted _ _) _ (by decide))]
      rw [attrGet_skip_append _ _ _
        (attrGet_pairs_ne _ "index" (keys_numChunk _ _) _ (by decide))]
      exact attrGet_pairs_ne _ "groups" (keys_arrChunk _ _) _ (by decide)
  have hgparent : attrGet (chunkPairs (nodeChunks n)) "parent" = n.parent := by
    rw [hpairs, attrGet_cons_ne _ _ _ _ (by decide)]
    rw [attrGet_skip_append _ _ _
      (attrGet_pairs_ne _ "type" (keys_optQuoted _ _) _ (by decide))]
    cases hpr2 : n.parent with
    | some p =>
      rw [attrGet_found_append _ _ _ _ (by rw [attrGet_parent_self])]
    | none =>
      rw [attrGet_skip_append _ _ _ (by rw [attrGet_parent_self])]
      rw [attrGet_skip_append _ _ _
        (attrGet_pairs_ne _ "instance" (keys_optBare _ _) _ (by decide))]
      rw [attrGet_skip_append _ _ _
        (attrGet_pairs_ne _ "instance_placeholder" (keys_optQuoted _ _) _ (by decide))]
      rw [attrGet_skip_append _ _ _
        (attrGet_pairs_ne _ "owner" (keys_optQuoted _ _) _ (by decide))]
      rw [attrGet_skip_append _ _ _
        (attrGet_pairs_ne _ "index" (keys_numChunk _ _) _ (by decide))]
      exact attrGet_pairs_ne _ "groups" (keys_arrChunk _ _) _ (by decide)
  have hginst : attrGet (chunkPairs (nodeChunks n)) "instance" = n.instanceRef := by
    rw [hpairs, attrGet_cons_ne _ _ _ _ (by decide)]
    rw [attrGet_skip_append _ _ _
      (attrGet_pairs_ne _ "type" (keys_optQuoted _ _) _ (by decide))]
    rw [attrGet_skip_append _ _ _
      (attrGet_pairs_ne _ "parent" (keys_parentChunk _) _ (by decide))]
    cases hir2 : n.instanceRef with
    | some s =>
      rw [hir2] at hir
      simp only [wfBareB, Bool.and_eq_true, decide_eq_true_eq] at hir
      have hfound : attrGet (chunkPairs (optBare "instance" (some s))) "instance"
          = some s := by
        rw [attrGet_optBare_self]
        show (if s = "" then none else some s) = some s
        rw [if_neg hir.1]
      rw [attrGet_found_append _ _ _ _ hfound]
    | none =>
      rw [attrGet_skip_append _ _ _ (by rw [attrGet_optBare_self])]
      rw [attrGet_skip_append _ _ _
        (attrGet_pairs_ne _ "instance_placeholder" (keys_optQuoted _ _) _ (by decide))]
      rw [attrGet_skip_append _ _ _
        (attrGet_pairs_ne _ "owner" (keys_optQuoted _ _) _ (by decide))]
      rw [attrGet_skip_append _ _ _
        (attrGet_pairs_ne _ "index" (keys_numChunk _ _) _ (by decide))]
      exact attrGet_pairs_ne _ "groups" (keys_arrChunk _ _) _ (by decide)
  have hgip : attrGet (chunkPairs (nodeChunks n)) "instance_placeholder"
      = n.instancePlaceholder := by
    rw [hpairs, attrGet_cons_ne _ _ _ _ (by decide)]
    rw [attrGet_skip_append _ _ _
      (attrGet_pairs_ne _ "type" (keys_optQuoted _ _) _ (by decide))]
    rw [attrGet_skip_append _ _ _
      (attrGet_pairs_ne _ "parent" (keys_parentChunk _) _ (by decide))]
    rw [attrGet_skip_append _ _ _
      (attrGet_pairs_ne _ "instance" (keys_optBare _ _) _ (by decide))]
    cases hip2 : n.instancePlaceholder with
    | some s =>
      rw [hip2] at hip
      simp only [wfOptAttrB, Bool.and_eq_true, decide_eq_true_eq] at hip
      have hfound : attrGet (chunkPairs (optQuoted "instance_placeholder" (some s)))
          "instance_placeholder" = some s := by
        rw [attrGet_optQuoted_self]
        show (if s = "" then none else some s) = some s
        rw [if_neg hip.1]
      rw [attrGet_found_append _ _ _ _ hfound]
    | none =>
      rw [attrGet_skip_append _ _ _ (by rw [attrGet_optQuoted_self])]
      rw [attrGet_skip_append _ _ _
        (attrGet_pairs_ne _ "owner" (keys_optQuoted _ _) _ (by decide))]
      rw [attrGet_skip_append _ _ _
        (attrGet_pairs_ne _ "index" (keys_numChunk _ _) _ (by decide))]
      exact attrGet_pairs_ne _ "groups" (keys_arrChunk _ _) _ (by decide)
  have hgowner : attrGet (chunkPairs (nodeChunks n)) "owner" = n.owner := by
    rw [hpairs, attrGet_cons_ne _ _ _ _ (by decide)]
    rw [attrGet_skip_append _ _ _
      (attrGet_pairs_ne _ "type" (keys_optQuoted _ _) _ (by decide))]
    rw [attrGet_skip_append _ _ _
      (attrGet_pairs_ne _ "parent" (keys_parentChunk _) _ (by decide))]
    rw [attrGet_skip_append _ _ _
      (attrGet_pairs_ne _ "instance" (keys_optBare _ _) _ (by decide))]
    rw [attrGet_skip_append _ _ _
      (attrGet_pairs_ne _ "instance_placeholder" (keys_optQuoted _ _) _ (by decide))]
    cases how2 : n.owner with
    | some s =>
      rw [how2] at how
      simp only [wfOptAttrB, Bool.and_eq_true, decide_eq_true_eq] at how
      have hfound : attrGet (chunkPairs (optQuoted "owner" (some s))) "owner"
          = some s := by
        rw [attrGet_optQuoted_self]
        show (if s = "" then none else some s) = some s
        rw [if_neg how.1]
      rw [attrGet_found_append _ _ _ _ hfound]
    | none =>
      rw [attrGet_skip_append _ _ _ (by rw [attrGet_optQuoted_self])]
      rw [attrGet_skip_append _ _ _
        (attrGet_pairs_ne _ "index" (keys_numChunk _ _) _ (by decide))]
      exact attrGet_pairs_ne _ "groups" (keys_arrChunk _ _) _ (by decide)
  have hgidx : (match truthyOpt (attrGet (chunkPairs (nodeChunks n)) "index") with
      | some s => jsParseInt s
      | none => JsIntF.undef) = n.index := by
    rw [hpairs, attrGet_cons_ne _ _ _ _ (by decide)]
    rw [attrGet_skip_append _ _ _
      (attrGet_pairs_ne _ "type" (keys_optQuoted _ _) _ (by decide))]
    rw [attrGet_skip_append _ _ _
      (attrGet_pairs_ne _ "parent" (keys_parentChunk _) _ (by decide))]
    rw [attrGet_skip_append _ _ _
      (attrGet_pairs_ne _ "instance" (keys_optBare _ _) _ (by decide))]
    rw [attrGet_skip_append _ _ _
      (attrGet_pairs_ne _ "instance_placeholder" (keys_optQuoted _ _) _ (by decide))]
    rw [attrGet_skip_append _ _ _
      (attrGet_pairs_ne _ "owner" (keys_optQuoted _ _) _ (by decide))]
    cases hix2 : n.index with
    | undef =>
      rw [attrGet_skip_append _ _ _ (by rw [attrGet_numChunk_self])]
      rw [attrGet_pairs_ne _ "groups" (keys_arrChunk _ _) _ (by decide)]
      rfl
    | val m =>
      have hfound : attrGet (chunkPairs (numChunk "index" (JsIntF.val m))) "index"
          = some (intToStr m) := by
        rw [attrGet_numChunk_self]
        rfl
      rw [attrGet_found_append _ _ _ _ hfound]
      exact truthyOpt_jsParseInt_int m
    | nan => rw [hix2] at hix; exact absurd hix (by decide)
  have hggr : (match truthyOpt (attrGet (chunkPairs (nodeChunks n)) "groups") with
      | some s => some (parseArray s)
      | none => none) = n.groups := by
    rw [hpairs, attrGet_cons_ne _ _ _ _ (by decide)]
    rw [attrGet_skip_append _ _ _
      (attrGet_pairs_ne _ "type" (keys_optQuoted _ _) _ (by decide))]
    rw [attrGet_skip_append _ _ _
      (attrGet_pairs_ne _ "parent" (keys_parentChunk _) _ (by decide))]
    rw [attrGet_skip_append _ _ _
      (attrGet_pairs_ne _ "instance" (keys_optBare _ _) _ (by decide))]
    rw [attrGet_skip_append _ _ _
      (attrGet_pairs_ne _ "instance_placeholder" (keys_optQuoted _ _) _ (by decide))]
    rw [attrGet_skip_append _ _ _
      (attrGet_pairs_ne _ "owner" (keys_optQuoted _ _) _ (by decide))]
    rw [attrGet_skip_append _ _ _
      (attrGet_pairs_ne _ "index" (keys_numChunk _ _) _ (by decide))]
    rw [attrGet_arrChunk_self]
    cases hgr2 : n.groups with
    | none => rfl
    | some g =>
      rw [hgr2] at hgr
      simp only [Bool.and_eq_true] at hgr
      have hpos : 0 < jsItemsLen g := by
        have h3 := hgr.1
        simp only [decide_eq_true_eq] at h3
        exact h3
      show (match truthyOpt (if 0 < jsItemsLen g
          then some (serializeValue (.arr g)) else none) with
        | some s => some (parseArray s)
        | none => none) = some g
      rw [if_pos hpos, truthyOpt_arr g hpos]
      show some (parseArray (serializeValue (.arr g))) = some g
      rw [parseArray_attr g hgr.2]
  show SceneNode.mk _ _ _ _ _ _ _ _ _ = _
  rw [show parseAttributes line = chunkPairs (nodeChunks n) from hpa]
  simp only [SceneNode.mk.injEq]
  refine ⟨?_, hgtype, hgparent, hginst, hgip, hgowner, hgidx, hggr, trivial⟩
  rw [hgname]
  rfl


/-! ## Full document round trip -/

/-- Trimming removes exactly one trailing space character from a clean-ended list. -/
theorem trimL_concat_space (l : List Char) (c : Char) (hc : isJsSpace c = true)
    (h1 : ∀ x, l.head? = some x → isJsSpace x = false)
    (h2 : ∀ x, l.getLast? = some x → isJsSpace x = false) :
    trimL (l ++ [c]) = l := by
  cases l with
  | nil =>
    show trimL [c] = []
    rw [trimL_cons_space c [] hc]
    rfl
  | cons a t =>
    have h3 : (a :: t ++ [c]).dropWhile isJsSpace = a :: t ++ [c] :=
      dropWhile_eq_self_of_head _ (fun x hx => by
        simp only [List.cons_append, List.head?_cons, Option.some.injEq] at hx
        exact h1 x (by rw [List.head?_cons, hx]))
    show (((a :: t ++ [c]).dropWhile isJsSpace).reverse.dropWhile isJsSpace).reverse
      = a :: t
    rw [h3]
    have h4 : (a :: t ++ [c]).reverse = c :: (a :: t).reverse := by
      rw [show a :: t ++ [c] = (a :: t) ++ [c] from rfl, List.reverse_append]
      simp
    rw [h4, List.dropWhile_cons_of_pos (by simp [hc]),
      dropWhile_eq_self_of_head _ (fun x hx => by
        rw [List.head?_reverse] at hx
        exact h2 x hx),
      List.reverse_reverse]

/-- Unpacking of the well-formed-key predicate. -/
theorem wfKeyB_parts (k : String) (h : wfKeyB k = true) :
    (∀ c ∈ k.data, ¬ (c = '=')) ∧ k.data ≠ []
    ∧ (∀ x, k.data.head? = some x → isJsSpace x = false ∧ ¬ (x = '['))
    ∧ (∀ x, k.data.getLast? = some x → isJsSpace x = false) := by
  simp only [wfKeyB, Bool.and_eq_true, lacks, List.all_eq_true, decide_eq_true_eq] at h
  obtain ⟨⟨⟨heq, hnl⟩, hhead⟩, hlast⟩ := h
  refine ⟨heq, ?_, ?_, ?_⟩
  · intro hbad
    rw [hbad] at hhead
    exact absurd hhead (by decide)
  · intro x hx
    rw [hx] at hhead
    have h2 : (decide (¬ isJsSpace x = true ∧ ¬ (x = '['))) = true := hhead
    simp only [decide_eq_true_eq] at h2
    refine ⟨?_, h2.2⟩
    cases hsp : isJsSpace x
    · rfl
    · exact absurd hsp (by simpa using h2.1)
  · intro x hx
    rw [hx] at hlast
    have h2 : (decide (¬ isJsSpace x = true)) = true := hlast
    simp only [decide_eq_true_eq] at h2
    cases hsp : isJsSpace x
    · rfl
    · exact absurd hsp (by simpa using h2)

/-- A serialized `key = value` line parses back to the same pair. -/
theorem propsLine_parse (k : String) (v : JsValue) (hk : wfKeyB k = true)
    (hv : wfValB v = true) :
    parseProperty (k ++ " = " ++ serializeValue v) = (k, v) := by
  obtain ⟨hpv, hsv⟩ := serValGood v hv
  obtain ⟨hsc, hne, hhd, hlast, hnl⟩ := hsv
  obtain ⟨heq, hkne, hkhead, hklast⟩ := wfKeyB_parts k hk
  have hdata : (k ++ " = " ++ serializeValue v).data
      = (k.data ++ [' ']) ++ '=' :: (' ' :: (serializeValue v).data) := by
    simp [String.data_append, List.append_assoc]
  have hidx : idxOfChar '=' (k ++ " = " ++ serializeValue v).data
      = some (k.data ++ [' ']).length := by
    rw [hdata]
    refine idxOfChar_append '=' _ _ ?_
    intro x hx
    rcases List.mem_append.mp hx with hx | hx
    · exact heq x hx
    · rcases List.mem_singleton.mp hx with rfl
      decide
  show (match idxOfChar '=' (k ++ " = " ++ serializeValue v).data with
    | none => ("", JsValue.null)
    | some i => (String.mk (trimL ((k ++ " = " ++ serializeValue v).data.take i)),
        pvL (trimL ((k ++ " = " ++ serializeValue v).data.drop (i + 1))))) = (k, v)
  rw [hidx]
  show (String.mk (trimL ((k ++ " = " ++ serializeValue v).data.take
      (k.data ++ [' ']).length)),
    pvL (trimL ((k ++ " = " ++ serializeValue v).data.drop
      ((k.data ++ [' ']).length + 1)))) = (k, v)
  rw [hdata, List.take_left, drop_append_len _ _ 1]
  show (String.mk (trimL (k.data ++ [' '])),
    pvL (trimL (' ' :: (serializeValue v).data))) = (k, v)
  rw [trimL_concat_space k.data ' ' (by decide)
      (fun x hx => (hkhead x hx).1) hklast]
  rw [trimL_cons_space ' ' _ (by decide)]
  rw [trimL_eq_self _ hhd (fun x hx => (hlast x hx).1)]
  rw [hpv]

/-- `head?` of an append with nonempty left part. -/
theorem headQ_append_left {α : Type} (A B : List α) (h : A ≠ []) :
    (A ++ B).head? = A.head? := by
  cases A with
  | nil => exact absurd rfl h
  | cons a t => rfl

/-- A serialized property line is trim-stable. -/
theorem propsLine_trim (k : String) (v : JsValue) (hk : wfKeyB k = true)
    (hv : wfValB v = true) :
    jsTrim (k ++ " = " ++ serializeValue v) = k ++ " = " ++ serializeValue v := by
  obtain ⟨hpv, hsv⟩ := serValGood v hv
  obtain ⟨hsc, hne, hhd, hlast, hnl⟩ := hsv
  obtain ⟨heq, hkne, hkhead, hklast⟩ := wfKeyB_parts k hk
  have hdata : (k ++ " = " ++ serializeValue v).data
      = (k.data ++ " = ".data) ++ (serializeValue v).data := by
    simp [String.data_append]
  refine String.ext ?_
  show trimL (k ++ " = " ++ serializeValue v).data = (k ++ " = " ++ serializeValue v).data
  refine trimL_eq_self _ ?_ ?_
  · intro x hx
    have hkspne : k.data ++ " = ".data ≠ [] := by
      cases hd : k.data with
      | nil => simp
      | cons a t => simp
    rw [hdata, headQ_append_left _ _ hkspne, headQ_append_left _ _ hkne] at hx
    exact (hkhead x hx).1
  · intro x hx
    rw [hdata, getLastQ_append _ _ hne] at hx
    exact (hlast x hx).1

/-- The property-block loop reads back exactly the serialized property lines, stopping at the following empty line. -/
theorem takeProps_ser : ∀ (ps : JsProps) (tail : List String) (acc : JsProps),
    wfFieldsB ps = true →
    (jsPropsList ps).all (fun kv => wfKeyB kv.1) = true →
    distinctKeys (jsPropsKeys ps) = true →
    (∀ j ∈ jsPropsKeys acc, ∀ k2 ∈ jsPropsKeys ps, ¬ (j = k2)) →
    takeProps (propsLines ps ++ ("" :: tail)) acc = (jsPropsApp acc ps, "" :: tail)
  | .nil, tail, acc, _, _, _, _ => by
    show takeProps ("" :: tail) acc = (jsPropsApp acc .nil, "" :: tail)
    rw [jsPropsApp_nil]
    show (if jsTrim "" = "" ∨ jsStartsWith (jsTrim "") "[" = true
      then (acc, "" :: tail)
      else takeProps tail (if (parseProperty (jsTrim "")).1 = "" then acc
        else jsPropsSet acc (parseProperty (jsTrim "")).1 (parseProperty (jsTrim "")).2))
      = (acc, "" :: tail)
    rw [if_pos (Or.inl (show jsTrim "" = "" from rfl))]
  | .cons k v rest, tail, acc, hf, hkeys, hdk, hdisj => by
    have hf2 : (wfValB v && wfFieldsB rest) = true := hf
    simp only [Bool.and_eq_true] at hf2
    have hkeys2 : (wfKeyB k
        && (jsPropsList rest).all (fun kv => wfKeyB kv.1)) = true := hkeys
    simp only [Bool.and_eq_true] at hkeys2
    have hdk2 : ((jsPropsKeys rest).all (fun j => ¬ (j = k))
        && distinctKeys (jsPropsKeys rest)) = true := hdk
    simp only [Bool.and_eq_true, List.all_eq_true, decide_eq_true_eq] at hdk2
    obtain ⟨hkwf, hkeysr⟩ := hkeys2
    obtain ⟨heq, hkne, hkhead, hklast⟩ := wfKeyB_parts k hkwf
    have htr := propsLine_trim k v hkwf hf2.1
    have hkneS : ¬ (k = "") := by
      intro hbad
      rw [hbad] at hkne
      exact hkne rfl
    show takeProps ((k ++ " = " ++ serializeValue v) :: (propsLines rest ++ ("" :: tail)))
      acc = _
    show (if jsTrim (k ++ " = " ++ serializeValue v) = ""
        ∨ jsStartsWith (jsTrim (k ++ " = " ++ serializeValue v)) "[" = true
      then (acc, (k ++ " = " ++ serializeValue v) :: (propsLines rest ++ ("" :: tail)))
      else takeProps (propsLines rest ++ ("" :: tail))
        (if (parseProperty (jsTrim (k ++ " = " ++ serializeValue v))).1 = "" then acc
         else jsPropsSet acc (parseProperty (jsTrim (k ++ " = " ++ serializeValue v))).1
           (parseProperty (jsTrim (k ++ " = " ++ serializeValue v))).2)) = _
    rw [htr, propsLine_parse k v hkwf hf2.1]
    rw [if_neg ?hguard]
    case hguard =>
      rintro (hbad | hbad)
      · have : (k ++ " = " ++ serializeValue v).data = [] := by
          rw [show ("" : String) = String.mk [] from rfl] at hbad
          exact congrArg String.data hbad
        rw [show (k ++ " = " ++ serializeValue v).data
            = (k.data ++ " = ".data) ++ (serializeValue v).data from by
          simp [String.data_append]] at this
        cases hd : k.data with
        | nil => exact hkne hd
        | cons a t => rw [hd] at this; exact absurd this (by simp)
      · have hsw : startsWithL (k ++ " = " ++ serializeValue v).data ['['] = true := hbad
        rw [show (k ++ " = " ++ serializeValue v).data
            = (k.data ++ " = ".data) ++ (serializeValue v).data from by
          simp [String.data_append]] at hsw
        cases hd : k.data with
        | nil => exact hkne hd
        | cons a t =>
          rw [hd] at hsw
          have hane : ¬ (a = '[') := by
            have := hkhead a (by rw [hd]; rfl)
            exact this.2
          exact startsWith_head_ne a _ '[' [] hane hsw
    show takeProps (propsLines rest ++ ("" :: tail))
      (if k = "" then acc else jsPropsSet acc k v) = _
    rw [if_neg hkneS]
    rw [jsPropsSet_absent acc k v (fun j hj => hdisj j hj k (List.mem_cons_self _ _))]
    rw [takeProps_ser rest tail (jsPropsApp acc (.cons k v .nil)) hf2.2 hkeysr hdk2.2
      (by
        intro j hj k2 hk2
        rw [jsPropsKeys_app] at hj
        rcases List.mem_append.mp hj with hj | hj
        · exact hdisj j hj k2 (List.mem_cons_of_mem _ hk2)
        · rcases List.mem_singleton.mp hj with rfl
          intro hbad
          exact (hdk2.1 k2 hk2) hbad.symm)]
    rw [jsPropsApp_assoc]
    rfl

/-- Prefix tests fail on a mismatch at the second character. -/
theorem startsWith_second_ne (c x : Char) (tl : List Char) (d : Char) (pt : List Char)
    (h : ¬ (x = d)) : startsWithL (c :: x :: tl) (c :: d :: pt) = false := by
  show (decide (c = c) && startsWithL (x :: tl) (d :: pt)) = false
  simp only [decide_eq_true_eq, startsWithL]
  simp [h]

/-- A bracketed record line is trim-stable. -/
theorem lineTrim_of_shape (l : String) (tag X : List Char)
    (hdata : l.data = '[' :: (tag ++ (X ++ [']']))) : jsTrim l = l := by
  refine String.ext ?_
  show trimL l.data = l.data
  refine trimL_eq_self _ ?_ ?_
  · intro x hx
    rw [hdata] at hx
    simp only [List.head?_cons, Option.some.injEq] at hx
    rw [← hx]
    rfl
  · intro x hx
    rw [hdata] at hx
    have hg : ('[' :: (tag ++ (X ++ [']']))).getLast? = some ']' := by
      show (('[' :: tag) ++ (X ++ [']'])).getLast? = _
      rw [getLastQ_append _ _ (by simp), getLastQ_append _ _ (by simp)]
      rfl
    rw [hg] at hx
    injection hx with hx2
    rw [← hx2]
    rfl

/-- The line loop on no lines returns the accumulator. -/
theorem parseLines_nil (acc : TscnDocument) : parseLines [] acc = acc := rfl

/-- One dispatch step on a header line. -/
theorem parseLines_header_step (l : String) (ls : List String) (acc : TscnDocument)
    (h1 : jsTrim l = l)
    (h2 : jsStartsWith l "[gd_scene" = true ∨ jsStartsWith l "[gd_resource" = true) :
    parseLines (l :: ls) acc = parseLines ls (withHeader acc (parseHeader l)) := by
  show parseLinesGoF (ls.length + 1 + 1) (l :: ls) acc = _
  simp only [parseLinesGoF, h1]
  rw [if_pos h2]
  exact parseLinesGoF_congr _ ls _ (Nat.lt_succ_self _)

/-- One dispatch step on an `[ext_resource …]` line. -/
theorem parseLines_ext_step (l : String) (ls : List String) (acc : TscnDocument)
    (h1 : jsTrim l = l)
    (hgs : jsStartsWith l "[gd_scene" = false)
    (hgr : jsStartsWith l "[gd_resource" = false)
    (hex : jsStartsWith l "[ext_resource" = true) :
    parseLines (l :: ls) acc = parseLines ls (pushExt acc (parseExtResource l)) := by
  show parseLinesGoF (ls.length + 1 + 1) (l :: ls) acc = _
  simp only [parseLinesGoF, h1, hgs, hgr, hex, Bool.false_eq_true, or_self, if_false,
    if_true]
  exact parseLinesGoF_congr _ ls _ (Nat.lt_succ_self _)

/-- One dispatch step on a `[sub_resource …]` line. -/
theorem parseLines_sub_step (l : String) (ls : List String) (acc : TscnDocument)
    (h1 : jsTrim l = l)
    (hgs : jsStartsWith l "[gd_scene" = false)
    (hgr : jsStartsWith l "[gd_resource" = false)
    (hex : jsStartsWith l "[ext_resource" = false)
    (hsub : jsStartsWith l "[sub_resource" = true) :
    parseLines (l :: ls) acc
      = parseLines (takeProps ls .nil).2
          (pushSub acc (mkSubFromAttrs l (takeProps ls .nil).1)) := by
  show parseLinesGoF (ls.length + 1 + 1) (l :: ls) acc = _
  simp only [parseLinesGoF, h1, hgs, hgr, hex, hsub, Bool.false_eq_true, or_self,
    if_false, if_true]
  refine parseLinesGoF_congr _ _ _ ?_
  have := (takeProps_suffix ls .nil).length_le
  omega

/-- One dispatch step on a `[node …]` line. -/
theorem parseLines_node_step (l : String) (ls : List String) (acc : TscnDocument)
    (h1 : jsTrim l = l)
    (hgs : jsStartsWith l "[gd_scene" = false)
    (hgr : jsStartsWith l "[gd_resource" = false)
    (hex : jsStartsWith l "[ext_resource" = false)
    (hsub : jsStartsWith l "[sub_resource" = false)
    (hnode : jsStartsWith l "[node" = true) :
    parseLines (l :: ls) acc
      = parseLines (takeProps ls .nil).2
          (pushNode acc (mkNodeFromAttrs l (takeProps ls .nil).1)) := by
  show parseLinesGoF (ls.length + 1 + 1) (l :: ls) acc = _
  simp only [parseLinesGoF, h1, hgs, hgr, hex, hsub, hnode, Bool.false_eq_true, or_self,
    if_false, if_true]
  refine parseLinesGoF_congr _ _ _ ?_
  have := (takeProps_suffix ls .nil).length_le
  omega

/-- One dispatch step on a `[connection …]` line. -/
theorem parseLines_conn_step (l : String) (ls : List String) (acc : TscnDocument)
    (h1 : jsTrim l = l)
    (hgs : jsStartsWith l "[gd_scene" = false)
    (hgr : jsStartsWith l "[gd_resource" = false)
    (hex : jsStartsWith l "[ext_resource" = false)
    (hsub : jsStartsWith l "[sub_resource" = false)
    (hnode : jsStartsWith l "[node" = false)
    (hconn : jsStartsWith l "[connection" = true) :
    parseLines (l :: ls) acc = parseLines ls (pushConn acc (parseConnection l)) := by
  show parseLinesGoF (ls.length + 1 + 1) (l :: ls) acc = _
  simp only [parseLinesGoF, h1, hgs, hgr, hex, hsub, hnode, hconn, Bool.false_eq_true,
    or_self, if_false, if_true]
  exact parseLinesGoF_congr _ ls _ (Nat.lt_succ_self _)

/-- Branch tests of the dispatch on a serialized external-resource line. -/
theorem extLine_tests (r : ExtResource) :
    jsStartsWith (serializeExtResource r) "[gd_scene" = false
    ∧ jsStartsWith (serializeExtResource r) "[gd_resource" = false
    ∧ jsStartsWith (serializeExtResource r) "[ext_resource" = true := by
  have hdata := extLine_shape r
  have h2 : (serializeExtResource r).data
      = '[' :: 'e' :: ("xt_resource".data ++ (chunksRender (extChunks r) ++ [']'])) := by
    rw [hdata]
    rfl
  have h3 : (serializeExtResource r).data
      = "[ext_resource".data ++ (chunksRender (extChunks r) ++ [']']) := by
    rw [hdata]
    rfl
  refine ⟨?_, ?_, ?_⟩
  · show startsWithL (serializeExtResource r).data "[gd_scene".data = false
    rw [h2]
    exact startsWith_second_ne '[' 'e' _ 'g' _ (by decide)
  · show startsWithL (serializeExtResource r).data "[gd_resource".data = false
    rw [h2]
    exact startsWith_second_ne '[' 'e' _ 'g' _ (by decide)
  · show startsWithL (serializeExtResource r).data "[ext_resource".data = true
    rw [h3]
    exact startsWith_self_append _ _

/-- Branch tests of the dispatch on a serialized connection line. -/
theorem connLine_tests (c : Connection) :
    jsStartsWith (serializeConnection c) "[gd_scene" = false
    ∧ jsStartsWith (serializeConnection c) "[gd_resource" = false
    ∧ jsStartsWith (serializeConnection c) "[ext_resource" = false
    ∧ jsStartsWith (serializeConnection c) "[sub_resource" = false
    ∧ jsStartsWith (serializeConnection c) "[node" = false
    ∧ jsStartsWith (serializeConnection c) "[connection" = true := by
  have hdata := connLine_shape c
  have h2 : (serializeConnection c).data
      = '[' :: 'c' :: ("onnection".data ++ (chunksRender (connChunks c) ++ [']'])) := by
    rw [hdata]
    rfl
  have h3 : (serializeConnection c).data
      = "[connection".data ++ (chunksRender (connChunks c) ++ [']']) := by
    rw [hdata]
    rfl
  refine ⟨?_, ?_, ?_, ?_, ?_, ?_⟩
  · show startsWithL (serializeConnection c).data "[gd_scene".data = false
    rw [h2]
    exact startsWith_second_ne '[' 'c' _ 'g' _ (by decide)
  · show startsWithL (serializeConnection c).data "[gd_resource".data = false
    rw [h2]
    exact startsWith_second_ne '[' 'c' _ 'g' _ (by decide)
  · show startsWithL (serializeConnection c).data "[ext_resource".data = false
    rw [h2]
    exact startsWith_second_ne '[' 'c' _ 'e' _ (by decide)
  · show startsWithL (serializeConnection c).data "[sub_resource".data = false
    rw [h2]
    exact startsWith_second_ne '[' 'c' _ 's' _ (by decide)
  · show startsWithL (serializeConnection c).data "[node".data = false
    rw [h2]
    exact startsWith_second_ne '[' 'c' _ 'n' _ (by decide)
  · show startsWithL (serializeConnection c).data "[connection".data = true
    rw [h3]
    exact startsWith_self_append _ _

/-- Branch tests of the dispatch on a serialized sub-resource header line. -/
theorem subHeadLine_tests (r : SubResource) :
    jsStartsWith (⟨'[' :: ("sub_resource".data
        ++ (chunksRender (subChunks r) ++ [']']))⟩ : String) "[gd_scene" = false
    ∧ jsStartsWith (⟨'[' :: ("sub_resource".data
        ++ (chunksRender (subChunks r) ++ [']']))⟩ : String) "[gd_resource" = false
    ∧ jsStartsWith (⟨'[' :: ("sub_resource".data
        ++ (chunksRender (subChunks r) ++ [']']))⟩ : String) "[ext_resource" = false
    ∧ jsStartsWith (⟨'[' :: ("sub_resource".data
        ++ (chunksRender (subChunks r) ++ [']']))⟩ : String) "[sub_resource" = true := by
  refine ⟨?_, ?_, ?_, ?_⟩
  · exact startsWith_second_ne '[' 's' _ 'g' _ (by decide)
  · exact startsWith_second_ne '[' 's' _ 'g' _ (by decide)
  · exact startsWith_second_ne '[' 's' _ 'e' _ (by decide)
  · show startsWithL ('[' :: ("sub_resource".data
      ++ (chunksRender (subChunks r) ++ [']']))) "[sub_resource".data = true
    exact startsWith_self_append "[sub_resource".data _

/-- Branch tests of the dispatch on a serialized node header line. -/
theorem nodeHeadLine_tests (n : SceneNode) :
    jsStartsWith (⟨'[' :: ("node".data
        ++ (chunksRender (nodeChunks n) ++ [']']))⟩ : String) "[gd_scene" = false
    ∧ jsStartsWith (⟨'[' :: ("node".data
        ++ (chunksRender (nodeChunks n) ++ [']']))⟩ : String) "[gd_resource" = false
    ∧ jsStartsWith (⟨'[' :: ("node".data
        ++ (chunksRender (nodeChunks n) ++ [']']))⟩ : String) "[ext_resource" = false
    ∧ jsStartsWith (⟨'[' :: ("node".data
        ++ (chunksRender (nodeChunks n) ++ [']']))⟩ : String) "[sub_resource" = false
    ∧ jsStartsWith (⟨'[' :: ("node".data
        ++ (chunksRender (nodeChunks n) ++ [']']))⟩ : String) "[node" = true := by
  refine ⟨?_, ?_, ?_, ?_, ?_⟩
  · exact startsWith_second_ne '[' 'n' _ 'g' _ (by decide)
  · exact startsWith_second_ne '[' 'n' _ 'g' _ (by decide)
  · exact startsWith_second_ne '[' 'n' _ 'e' _ (by decide)
  · exact startsWith_second_ne '[' 'n' _ 's' _ (by decide)
  · show startsWithL ('[' :: ("node".data
      ++ (chunksRender (nodeChunks n) ++ [']']))) "[node".data = true
    exact startsWith_self_append "[node".data _

/-- A serialized header line passes the header dispatch test. -/
theorem headerLine_test (h : Header)
    (htyp : h.type = "gd_scene" ∨ h.type = "gd_resource") :
    jsStartsWith (serializeHeader h) "[gd_scene" = true
    ∨ jsStartsWith (serializeHeader h) "[gd_resource" = true := by
  have hdata := headerLine_shape h
  rcases htyp with ht | ht
  · left
    show startsWithL (serializeHeader h).data "[gd_scene".data = true
    have h3 : (serializeHeader h).data
        = "[gd_scene".data ++ (chunksRender (headerChunks h) ++ [']']) := by
      rw [hdata, ht]
      rfl
    rw [h3]
    exact startsWith_self_append _ _
  · right
    show startsWithL (serializeHeader h).data "[gd_resource".data = true
    have h3 : (serializeHeader h).data
        = "[gd_resource".data ++ (chunksRender (headerChunks h) ++ [']']) := by
      rw [hdata, ht]
      rfl
    rw [h3]
    exact startsWith_self_append _ _

/-- The dispatch skips an empty line. -/
theorem skip_empty_line (ls : List String) (acc : TscnDocument) :
    parseLines ("" :: ls) acc = parseLines ls acc :=
  parseLines_skip "" ls acc (by decide)

/-- The line loop consumes a run of serialized external resources. -/
theorem procExts : ∀ (rs : List ExtResource) (tail : List String) (acc : TscnDocument),
    rs.all wfExtB = true →
    parseLines (rs.map serializeExtResource ++ tail) acc
      = parseLines tail
          ⟨acc.header, acc.externalResources ++ rs, acc.subResources, acc.nodes,
           acc.connections⟩
  | [], tail, acc, _ => by
    rw [List.map_nil, List.nil_append, List.append_nil]
  | r :: rs, tail, acc, hwf => by
    simp only [List.all_cons, Bool.and_eq_true] at hwf
    rw [List.map_cons, List.cons_append]
    obtain ⟨t1, t2, t3⟩ := extLine_tests r
    rw [parseLines_ext_step _ _ _
      (lineTrim_of_shape _ "ext_resource".data (chunksRender (extChunks r))
        (extLine_shape r)) t1 t2 t3]
    rw [procExts rs tail _ hwf.2]
    rw [parseExtResource_ser r hwf.1]
    show parseLines tail
      ⟨acc.header, (acc.externalResources ++ [r]) ++ rs, acc.subResources, acc.nodes,
       acc.connections⟩ = _
    rw [List.append_assoc]
    rfl

/-- The line loop consumes a run of serialized connections. -/
theorem procConns : ∀ (cs : List Connection) (tail : List String) (acc : TscnDocument),
    cs.all wfConnB = true →
    parseLines (cs.map serializeConnection ++ tail) acc
      = parseLines tail
          ⟨acc.header, acc.externalResources, acc.subResources, acc.nodes,
           acc.connections ++ cs⟩
  | [], tail, acc, _ => by
    rw [List.map_nil, List.nil_append, List.append_nil]
  | c :: cs, tail, acc, hwf => by
    simp only [List.all_cons, Bool.and_eq_true] at hwf
    rw [List.map_cons, List.cons_append]
    obtain ⟨t1, t2, t3, t4, t5, t6⟩ := connLine_tests c
    rw [parseLines_conn_step _ _ _
      (lineTrim_of_shape _ "connection".data (chunksRender (connChunks c))
        (connLine_shape c)) t1 t2 t3 t4 t5 t6]
    rw [procConns cs tail _ hwf.2]
    rw [parseConnection_ser c hwf.1]
    show parseLines tail
      ⟨acc.header, acc.externalResources, acc.subResources, acc.nodes,
       (acc.connections ++ [c]) ++ cs⟩ = _
    rw [List.append_assoc]
    rfl

/-- The line loop consumes a run of serialized sub-resource blocks. -/
theorem procSubs : ∀ (rs : List SubResource) (tail : List String) (acc : TscnDocument),
    rs.all wfSubB = true →
    parseLines (rs.foldr (fun r a => serializeSubResource r ++ [""] ++ a) tail) acc
      = parseLines tail
          ⟨acc.header, acc.externalResources, acc.subResources ++ rs, acc.nodes,
           acc.connections⟩
  | [], tail, acc, _ => by
    rw [List.foldr_nil, List.append_nil]
  | r :: rs, tail, acc, hwf => by
    simp only [List.all_cons, Bool.and_eq_true] at hwf
    obtain ⟨hr, hrs⟩ := hwf
    obtain ⟨rt, ri, rp⟩ := r
    simp only [wfSubB, Bool.and_eq_true] at hr
    obtain ⟨⟨hrt, hri⟩, hrp⟩ := hr
    simp only [wfPropsB, Bool.and_eq_true] at hrp
    obtain ⟨⟨hdk, hkeys⟩, hflds⟩ := hrp
    rw [List.foldr_cons, subLine_shape ⟨rt, ri, rp⟩]
    have hre : ((⟨'[' :: ("sub_resource".data
          ++ (chunksRender (subChunks ⟨rt, ri, rp⟩) ++ [']']))⟩ : String)
            :: propsLines rp) ++ [""]
          ++ rs.foldr (fun r a => serializeSubResource r ++ [""] ++ a) tail
        = (⟨'[' :: ("sub_resource".data
            ++ (chunksRender (subChunks ⟨rt, ri, rp⟩) ++ [']']))⟩ : String)
          :: (propsLines rp ++ ("" ::
            rs.foldr (fun r a => serializeSubResource r ++ [""] ++ a) tail)) := by
      simp
    rw [hre]
    obtain ⟨t1, t2, t3, t4⟩ := subHeadLine_tests ⟨rt, ri, rp⟩
    rw [parseLines_sub_step _ _ _
      (lineTrim_of_shape _ "sub_resource".data (chunksRender (subChunks ⟨rt, ri, rp⟩)) rfl)
      t1 t2 t3 t4]
    rw [takeProps_ser rp _ .nil hflds hkeys hdk
      (by intro j hj; exact absurd hj (List.not_mem_nil _))]
    show parseLines ("" :: rs.foldr (fun r a => serializeSubResource r ++ [""] ++ a) tail)
      (pushSub acc (mkSubFromAttrs
        (⟨'[' :: ("sub_resource".data ++ (chunksRender (subChunks ⟨rt, ri, rp⟩)
          ++ [']']))⟩ : String) rp)) = _
    rw [mkSub_ser _ rt ri rp rfl hrt hri]
    rw [skip_empty_line]
    rw [procSubs rs tail _ hrs]
    show parseLines tail
      ⟨acc.header, acc.externalResources,
       (acc.subResources ++ [⟨rt, ri, rp⟩]) ++ rs, acc.nodes, acc.connections⟩ = _
    rw [List.append_assoc]
    rfl

/-- The line loop consumes a run of serialized node blocks. -/
theorem procNodes : ∀ (ns : List SceneNode) (tail : List String) (acc : TscnDocument),
    ns.all wfNodeB = true →
    parseLines (ns.foldr (fun n a => serializeNode n ++ [""] ++ a) tail) acc
      = parseLines tail
          ⟨acc.header, acc.externalResources, acc.subResources, acc.nodes ++ ns,
           acc.connections⟩
  | [], tail, acc, _ => by
    rw [List.foldr_nil, List.append_nil]
  | n :: ns, tail, acc, hwf => by
    simp only [List.all_cons, Bool.and_eq_true] at hwf
    obtain ⟨hn, hns⟩ := hwf
    have hprops : wfPropsB n.properties = true := by
      simp only [wfNodeB, Bool.and_eq_true] at hn
      exact hn.2
    simp only [wfPropsB, Bool.and_eq_true] at hprops
    obtain ⟨⟨hdk, hkeys⟩, hflds⟩ := hprops
    rw [List.foldr_cons, nodeLine_shape n]
    have hre : ((⟨'[' :: ("node".data
          ++ (chunksRender (nodeChunks n) ++ [']']))⟩ : String)
            :: propsLines n.properties) ++ [""]
          ++ ns.foldr (fun n a => serializeNode n ++ [""] ++ a) tail
        = (⟨'[' :: ("node".data
            ++ (chunksRender (nodeChunks n) ++ [']']))⟩ : String)
          :: (propsLines n.properties ++ ("" ::
            ns.foldr (fun n a => serializeNode n ++ [""] ++ a) tail)) := by
      simp
    rw [hre]
    obtain ⟨t1, t2, t3, t4, t5⟩ := nodeHeadLine_tests n
    rw [parseLines_node_step _ _ _
      (lineTrim_of_shape _ "node".data (chunksRender (nodeChunks n)) rfl)
      t1 t2 t3 t4 t5]
    rw [takeProps_ser n.properties _ .nil hflds hkeys hdk
      (by intro j hj; exact absurd hj (List.not_mem_nil _))]
    show parseLines ("" :: ns.foldr (fun n a => serializeNode n ++ [""] ++ a) tail)
      (pushNode acc (mkNodeFromAttrs
        (⟨'[' :: ("node".data ++ (chunksRender (nodeChunks n) ++ [']']))⟩ : String)
        n.properties)) = _
    rw [mkNode_ser _ n rfl hn n.properties]
    rw [skip_empty_line]
    rw [procNodes ns tail _ hns]
    show parseLines tail
      ⟨acc.header, acc.externalResources, acc.subResources,
       (acc.nodes ++ [⟨n.name, n.type, n.parent, n.instanceRef, n.instancePlaceholder,
         n.owner, n.index, n.groups, n.properties⟩]) ++ ns,
       acc.connections⟩ = _
    rw [List.append_assoc]
    show parseLines tail
      ⟨acc.header, acc.externalResources, acc.subResources,
       acc.nodes ++ (⟨n.name, n.type, n.parent, n.instanceRef, n.instancePlaceholder,
         n.owner, n.index, n.groups, n.properties⟩ :: ns),
       acc.connections⟩ = _
    rfl

/-- Rendered attribute chunks contain no newline. -/
theorem chunksRender_nl : ∀ (cs : List (String × AttrVal)),
    (∀ kv ∈ cs, ChunkWf kv) → ∀ c ∈ chunksRender cs, ¬ (c = '\n')
  | [], _, c, hc => by simp [chunksRender] at hc
  | (k, v) :: cs, hwf, c, hc => by
    obtain ⟨-, -, -, hknl, hvnl⟩ := hwf (k, v) (List.mem_cons_self _ _)
    rw [chunksRender] at hc
    rcases List.mem_cons.mp hc with rfl | hc2
    · decide
    · rcases List.mem_append.mp hc2 with hc3 | hc3
      · exact hknl c hc3
      · rcases List.mem_cons.mp hc3 with rfl | hc4
        · decide
        · rcases List.mem_append.mp hc4 with hc5 | hc5
          · exact hvnl c hc5
          · exact chunksRender_nl cs
              (fun kv hkv => hwf kv (List.mem_cons_of_mem _ hkv)) c hc5

/-- A bracketed line made of newline-free parts is newline-free. -/
theorem lineShape_nl (tag X : List Char)
    (htag : ∀ c ∈ tag, ¬ (c = '\n')) (hX : ∀ c ∈ X, ¬ (c = '\n')) :
    ∀ c ∈ '[' :: (tag ++ (X ++ [']'])), ¬ (c = '\n') := by
  intro c hc
  rcases List.mem_cons.mp hc with rfl | hc2
  · decide
  · rcases List.mem_append.mp hc2 with hc3 | hc3
    · exact htag c hc3
    · rcases List.mem_append.mp hc3 with hc4 | hc4
      · exact hX c hc4
      · rcases List.mem_singleton.mp hc4 with rfl
        decide

/-- Splitting on newlines inverts joining of newline-free pieces. -/
theorem splitJoin : ∀ (Ls : List (List Char)), Ls ≠ [] →
    (∀ l ∈ Ls, ∀ c ∈ l, ¬ (c = '\n')) → splitOnCharL '\n' (joinNLL Ls) = Ls
  | [], h, _ => absurd rfl h
  | [x], _, hnl => by
    rw [show joinNLL [x] = x from rfl]
    exact splitNoSep '\n' x (hnl x (by simp))
  | x :: y :: rest, _, hnl => by
    rw [show joinNLL (x :: y :: rest) = x ++ '\n' :: joinNLL (y :: rest) from rfl]
    rw [splitSepApp '\n' x _ (hnl x (by simp))]
    rw [splitJoin (y :: rest) (by simp) (fun l hl => hnl l (List.mem_cons_of_mem _ hl))]

/-- Joining with a final extra piece. -/
theorem joinNLL_snoc : ∀ (Ls : List (List Char)) (x : List Char), Ls ≠ [] →
    joinNLL (Ls ++ [x]) = joinNLL Ls ++ '\n' :: x
  | [], _, h => absurd rfl h
  | [a], x, _ => rfl
  | a :: b :: rest, x, _ => by
    show a ++ '\n' :: joinNLL ((b :: rest) ++ [x])
      = (a ++ '\n' :: joinNLL (b :: rest)) ++ '\n' :: x
    rw [joinNLL_snoc (b :: rest) x (by simp)]
    simp [List.append_assoc]

/-- The first character of a join is that of its first piece. -/
theorem joinNLL_headQ : ∀ (x : List Char) (rest : List (List Char)), x ≠ [] →
    (joinNLL (x :: rest)).head? = x.head?
  | x, [], _ => rfl
  | x, y :: rest, hx => by
    show (x ++ '\n' :: joinNLL (y :: rest)).head? = x.head?
    exact headQ_append_left x _ hx

/-- The last character of a join is that of its last piece. -/
theorem joinNLL_lastQ : ∀ (Ls : List (List Char)) (x : List Char), x ≠ [] →
    (joinNLL (Ls ++ [x])).getLast? = x.getLast?
  | [], x, _ => rfl
  | a :: rest, x, hx => by
    rw [joinNLL_snoc (a :: rest) x (by simp)]
    rw [getLastQ_append _ _ (List.cons_ne_nil '\n' x)]
    exact getLastQ_append ['\n'] x hx

/-- Rebuilding strings from their character lists is the identity. -/
theorem map_mk_data : ∀ L : List String, (L.map String.data).map String.mk = L
  | [] => rfl
  | s :: L => by
    rw [List.map_cons, List.map_cons, map_mk_data L]

/-- Splitting `trim(join(M ++ [""])) + newline` recovers the lines when the real last line is clean-ended. -/
theorem split_ser_trailing (M : List String) (hMne : M ≠ [])
    (hnl : ∀ l ∈ M, ∀ c ∈ l.data, ¬ (c = '\n'))
    (hh : ∀ x, (joinNLL (M.map String.data)).head? = some x → isJsSpace x = false)
    (hl : ∀ x, (joinNLL (M.map String.data)).getLast? = some x → isJsSpace x = false) :
    splitOnCharL '\n'
        (trimL (joinNLL ((M ++ [""]).map String.data)) ++ ['\n'])
      = (M ++ [""]).map String.data := by
  have hmapne : M.map String.data ≠ [] := by
    cases M with
    | nil => exact absurd rfl hMne
    | cons a t => simp
  rw [List.map_append]
  show splitOnCharL '\n'
      (trimL (joinNLL (M.map String.data ++ [[]])) ++ ['\n'])
    = M.map String.data ++ [[]]
  rw [joinNLL_snoc _ _ hmapne]
  show splitOnCharL '\n'
      (trimL (joinNLL (M.map String.data) ++ ['\n']) ++ ['\n']) = _
  rw [trimL_concat_space _ '\n' (by decide) hh hl]
  rw [← joinNLL_snoc _ _ hmapne]
  refine splitJoin _ (by simp) ?_
  intro l hlm c hc
  rcases List.mem_append.mp hlm with hlm2 | hlm2
  · obtain ⟨s, hs, hsd⟩ := List.mem_map.mp hlm2
    exact hnl s hs c (hsd ▸ hc)
  · rcases List.mem_singleton.mp hlm2 with rfl
    exact absurd hc (List.not_mem_nil _)

/-- Splitting `trim(join(L)) + newline` yields the lines plus one empty line when the last line is clean-ended. -/
theorem split_ser_clean (L : List String) (hne : L ≠ [])
    (hnl : ∀ l ∈ L, ∀ c ∈ l.data, ¬ (c = '\n'))
    (hh : ∀ x, (joinNLL (L.map String.data)).head? = some x → isJsSpace x = false)
    (hl : ∀ x, (joinNLL (L.map String.data)).getLast? = some x → isJsSpace x = false) :
    splitOnCharL '\n' (trimL (joinNLL (L.map String.data)) ++ ['\n'])
      = L.map String.data ++ [[]] := by
  have hmapne : L.map String.data ≠ [] := by
    cases L with
    | nil => exact absurd rfl hne
    | cons a t => simp
  rw [trimL_eq_self _ hh hl]
  have h2 : joinNLL (L.map String.data) ++ ['\n']
      = joinNLL (L.map String.data ++ [[]]) := by
    rw [joinNLL_snoc _ _ hmapne]
  rw [h2]
  refine splitJoin _ (by simp) ?_
  intro l hlm c hc
  rcases List.mem_append.mp hlm with hlm2 | hlm2
  · obtain ⟨s, hs, hsd⟩ := List.mem_map.mp hlm2
    exact hnl s hs c (hsd ▸ hc)
  · rcases List.mem_singleton.mp hlm2 with rfl
    exact absurd hc (List.not_mem_nil _)

/-- Well-formed property keys contain no newline. -/
theorem wfKeyB_nl (k : String) (h : wfKeyB k = true) :
    ∀ c ∈ k.data, ¬ (c = '\n') := by
  simp only [wfKeyB, Bool.and_eq_true, lacks, List.all_eq_true, decide_eq_true_eq] at h
  exact h.1.1.2

/-- The header chunks of a well-formed header are well-formed. -/
theorem headerChunks_wf (h : Header) (hwf : wfHeaderB h = true) :
    ∀ kv ∈ headerChunks h, ChunkWf kv := by
  simp only [wfHeaderB, Bool.and_eq_true] at hwf
  obtain ⟨⟨⟨htyp, hls⟩, hfmt⟩, huid⟩ := hwf
  intro kv hkv
  rw [headerChunks] at hkv
  rcases List.mem_append.mp hkv with h1 | h1
  · rcases List.mem_append.mp h1 with h2 | h2
    · exact wf_loadChunk_mem _ kv h2
    · rcases List.mem_singleton.mp h2 with rfl
      cases hf : h.format with
      | undef => rw [hf] at hfmt; exact absurd hfmt (by decide)
      | nan => rw [hf] at hfmt; exact absurd hfmt (by decide)
      | val n =>
        exact chunkWf_val "format" _ (by decide) (by decide) (intToStr_bare n)
          (by decide) (intToStr_nl n)
  · exact wf_optQuoted_mem "uid" (by decide) (by decide) (by decide) h.uid huid kv h1

/-- The chunks of a well-formed external resource are well-formed. -/
theorem extChunks_wf (r : ExtResource) (hwf : wfExtB r = true) :
    ∀ kv ∈ extChunks r, ChunkWf kv := by
  simp only [wfExtB, Bool.and_eq_true] at hwf
  obtain ⟨⟨⟨ht, hp⟩, hi⟩, hu⟩ := hwf
  intro kv hkv
  rw [extChunks] at hkv
  rcases List.mem_append.mp hkv with h1 | h1
  · rcases List.mem_append.mp h1 with h2 | h2
    · rcases List.mem_cons.mp h2 with rfl | h3
      · exact chunkWf_quoted "type" r.type (by decide) (by decide)
          (wfAttrStrB_quoted _ ht) (by decide) (wfAttrStrB_nl _ ht)
      · rcases List.mem_singleton.mp h3 with rfl
        exact chunkWf_quoted "path" r.path (by decide) (by decide)
          (wfAttrStrB_quoted _ hp) (by decide) (wfAttrStrB_nl _ hp)
    · exact wf_optQuoted_mem "uid" (by decide) (by decide) (by decide) r.uid hu kv h2
  · rcases List.mem_singleton.mp h1 with rfl
    exact chunkWf_quoted "id" r.id (by decide) (by decide)
      (wfAttrStrB_quoted _ hi) (by decide) (wfAttrStrB_nl _ hi)

/-- The chunks of a well-formed sub-resource header are well-formed. -/
theorem subChunks_wf (r : SubResource) (ht : wfAttrStrB r.type = true)
    (hi : wfAttrStrB r.id = true) : ∀ kv ∈ subChunks r, ChunkWf kv := by
  intro kv hkv
  rcases List.mem_cons.mp hkv with rfl | h1
  · exact chunkWf_quoted "type" r.type (by decide) (by decide)
      (wfAttrStrB_quoted _ ht) (by decide) (wfAttrStrB_nl _ ht)
  · rcases List.mem_singleton.mp h1 with rfl
    exact chunkWf_quoted "id" r.id (by decide) (by decide)
      (wfAttrStrB_quoted _ hi) (by decide) (wfAttrStrB_nl _ hi)

/-- The chunks of a well-formed node header are well-formed. -/
theorem nodeChunks_wf (n : SceneNode) (hwf : wfNodeB n = true) :
    ∀ kv ∈ nodeChunks n, ChunkWf kv := by
  simp only [wfNodeB, Bool.and_eq_true] at hwf
  obtain ⟨⟨⟨⟨⟨⟨⟨⟨hname, htype⟩, hpar⟩, hinst⟩, hip⟩, howner⟩, hidx⟩, hgr⟩, hprops⟩ := hwf
  intro kv hkv
  simp only [nodeChunks, List.mem_append] at hkv
  rcases hkv with (((((((h1 | h2) | h3) | h4) | h5) | h6) | h7) | h8)
  · rcases List.mem_singleton.mp h1 with rfl
    exact chunkWf_quoted "name" n.name (by decide) (by decide)
      (wfAttrStrB_quoted _ hname) (by decide) (wfAttrStrB_nl _ hname)
  · exact wf_optQuoted_mem "type" (by decide) (by decide) (by decide) n.type htype kv h2
  · refine wf_parent_mem n.parent ?_ kv h3
    intro p hp
    rw [hp] at hpar
    exact hpar
  · exact wf_optBare_mem "instance" (by decide) (by decide) (by decide)
      n.instanceRef hinst kv h4
  · exact wf_optQuoted_mem "instance_placeholder" (by decide) (by decide) (by decide)
      n.instancePlaceholder hip kv h5
  · exact wf_optQuoted_mem "owner" (by decide) (by decide) (by decide) n.owner howner kv h6
  · exact wf_numChunk_mem "index" (by decide) (by decide) (by decide) n.index kv h7
  · refine wf_arrChunk_mem "groups" (by decide) (by decide) (by decide) n.groups ?_ kv h8
    intro g hg
    rw [hg] at hgr
    simp only [Bool.and_eq_true] at hgr
    exact hgr.2

/-- The chunks of a well-formed connection are well-formed. -/
theorem connChunks_wf (c : Connection) (hwf : wfConnB c = true) :
    ∀ kv ∈ connChunks c, ChunkWf kv := by
  simp only [wfConnB, Bool.and_eq_true] at hwf
  obtain ⟨⟨⟨⟨⟨hs, hf⟩, ht⟩, hm⟩, hfl⟩, hb⟩ := hwf
  intro kv hkv
  simp only [connChunks, List.mem_append] at hkv
  rcases hkv with (h1 | h2) | h3
  · simp only [List.mem_cons, List.mem_singleton] at h1
    rcases h1 with rfl | rfl | rfl | rfl | h5
    · exact chunkWf_quoted "signal" c.signal (by decide) (by decide)
        (wfAttrStrB_quoted _ hs) (by decide) (wfAttrStrB_nl _ hs)
    · exact chunkWf_quoted "from" c.fromPath (by decide) (by decide)
        (wfAttrStrB_quoted _ hf) (by decide) (wfAttrStrB_nl _ hf)
    · exact chunkWf_quoted "to" c.toPath (by decide) (by decide)
        (wfAttrStrB_quoted _ ht) (by decide) (wfAttrStrB_nl _ ht)
    · exact chunkWf_quoted "method" c.method (by decide) (by decide)
        (wfAttrStrB_quoted _ hm) (by decide) (wfAttrStrB_nl _ hm)
    · exact absurd h5 (List.not_mem_nil _)
  · exact wf_numChunk_mem "flags" (by decide) (by decide) (by decide) c.flags kv h2
  · refine wf_arrChunk_mem "binds" (by decide) (by decide) (by decide) c.binds ?_ kv h3
    intro g hg
    rw [hg] at hb
    simp only [Bool.and_eq_true] at hb
    exact hb.2

/-- Character-level shape of a serialized property line. -/
theorem propsLine_data (k : String) (v : JsValue) :
    (k ++ " = " ++ serializeValue v).data
      = k.data ++ (' ' :: '=' :: ' ' :: (serializeValue v).data) := by
  simp only [String.data_append, List.append_assoc]
  rfl

/-- Serialized property lines of a well-formed map contain no newline. -/
theorem propsLines_nl : ∀ (ps : JsProps),
    (jsPropsList ps).all (fun kv => wfKeyB kv.1) = true →
    wfFieldsB ps = true →
    ∀ l ∈ propsLines ps, ∀ c ∈ l.data, ¬ (c = '\n')
  | .nil, _, _ => fun l hl => absurd hl (List.not_mem_nil _)
  | .cons k v rest, hkeys, hflds => by
    simp only [jsPropsList, List.all_cons, Bool.and_eq_true] at hkeys
    simp only [wfFieldsB, Bool.and_eq_true] at hflds
    intro l hl c hc
    rcases List.mem_cons.mp hl with rfl | h2
    · rw [propsLine_data k v] at hc
      rcases List.mem_append.mp hc with h3 | h3
      · exact wfKeyB_nl k hkeys.1 c h3
      · rcases List.mem_cons.mp h3 with rfl | h4
        · decide
        · rcases List.mem_cons.mp h4 with rfl | h5
          · decide
          · rcases List.mem_cons.mp h5 with rfl | h6
            · decide
            · obtain ⟨-, -, -, -, hnl⟩ := (serValGood v hflds.1).2
              exact hnl c h6
    · exact propsLines_nl rest hkeys.2 hflds.2 l h2 c hc

/-- Serialized property lines are nonempty and clean-ended. -/
theorem propsLines_clean : ∀ (ps : JsProps),
    wfFieldsB ps = true →
    ∀ l ∈ propsLines ps, l.data ≠ []
      ∧ (∀ x, l.data.getLast? = some x → isJsSpace x = false)
  | .nil, _ => fun l hl => absurd hl (List.not_mem_nil _)
  | .cons k v rest, hflds => by
    simp only [wfFieldsB, Bool.and_eq_true] at hflds
    intro l hl
    rcases List.mem_cons.mp hl with rfl | h2
    · obtain ⟨-, hne, -, hlast, -⟩ := (serValGood v hflds.1).2
      constructor
      · rw [propsLine_data k v]
        simp
      · intro x hx
        rw [propsLine_data k v] at hx
        rw [getLastQ_append _ _ (by simp)] at hx
        have h3 : (' ' :: '=' :: ' ' :: (serializeValue v).data)
            = ([' ', '=', ' '] : List Char) ++ (serializeValue v).data := rfl
        rw [h3, getLastQ_append _ _ hne] at hx
        exact (hlast x hx).1
    · exact propsLines_clean rest hflds.2 l h2

/-- A bracketed record line is nonempty and ends in the non-space `]`. -/
theorem shape_last (l : String) (tag X : List Char)
    (hdata : l.data = '[' :: (tag ++ (X ++ [']']))) :
    l.data ≠ [] ∧ (∀ x, l.data.getLast? = some x → isJsSpace x = false) := by
  constructor
  · rw [hdata]
    exact List.cons_ne_nil _ _
  · intro x hx
    rw [hdata] at hx
    have hg : ('[' :: (tag ++ (X ++ [']']))).getLast? = some ']' := by
      show (('[' :: tag) ++ (X ++ [']'])).getLast? = _
      rw [getLastQ_append _ _ (by simp), getLastQ_append _ _ (by simp)]
      rfl
    rw [hg] at hx
    injection hx with hx2
    rw [← hx2]
    rfl

/-- A serialized header line contains no newline. -/
theorem headerLine_nl (h : Header) (hwf : wfHeaderB h = true) :
    ∀ c ∈ (serializeHeader h).data, ¬ (c = '\n') := by
  rw [headerLine_shape h]
  have htyp : h.type = "gd_scene" ∨ h.type = "gd_resource" := by
    simp only [wfHeaderB, Bool.and_eq_true, decide_eq_true_eq] at hwf
    exact hwf.1.1.1
  refine lineShape_nl h.type.data _ ?_ ?_
  · rcases htyp with ht | ht <;> rw [ht] <;> decide
  · exact chunksRender_nl _ (headerChunks_wf h hwf)

/-- A serialized external-resource line contains no newline. -/
theorem extLine_nl (r : ExtResource) (hwf : wfExtB r = true) :
    ∀ c ∈ (serializeExtResource r).data, ¬ (c = '\n') := by
  rw [extLine_shape r]
  exact lineShape_nl "ext_resource".data _ (by decide)
    (chunksRender_nl _ (extChunks_wf r hwf))

/-- A serialized connection line contains no newline. -/
theorem connLine_nl (c : Connection) (hwf : wfConnB c = true) :
    ∀ x ∈ (serializeConnection c).data, ¬ (x = '\n') := by
  rw [connLine_shape c]
  exact lineShape_nl "connection".data _ (by decide)
    (chunksRender_nl _ (connChunks_wf c hwf))

/-- Every line of a serialized sub-resource block is newline-free. -/
theorem subLines_nl (r : SubResource) (hwf : wfSubB r = true) :
    ∀ l ∈ serializeSubResource r, ∀ c ∈ l.data, ¬ (c = '\n') := by
  simp only [wfSubB, wfPropsB, Bool.and_eq_true] at hwf
  obtain ⟨⟨ht, hi⟩, ⟨hdk, hkeys⟩, hflds⟩ := hwf
  rw [subLine_shape r]
  intro l hl
  rcases List.mem_cons.mp hl with rfl | h2
  · exact lineShape_nl "sub_resource".data _ (by decide)
      (chunksRender_nl _ (subChunks_wf r ht hi))
  · exact propsLines_nl r.properties hkeys hflds l h2

/-- Every line of a serialized node block is newline-free. -/
theorem nodeLines_nl (n : SceneNode) (hwf : wfNodeB n = true) :
    ∀ l ∈ serializeNode n, ∀ c ∈ l.data, ¬ (c = '\n') := by
  have hprops : wfPropsB n.properties = true := by
    simp only [wfNodeB, Bool.and_eq_true] at hwf
    exact hwf.2
  simp only [wfPropsB, Bool.and_eq_true] at hprops
  obtain ⟨⟨hdk, hkeys⟩, hflds⟩ := hprops
  rw [nodeLine_shape n]
  intro l hl
  rcases List.mem_cons.mp hl with rfl | h2
  · exact lineShape_nl "node".data _ (by decide)
      (chunksRender_nl _ (nodeChunks_wf n hwf))
  · exact propsLines_nl n.properties hkeys hflds l h2

/-- Appending after a block fold equals folding onto the appendix. -/
theorem foldr_app_base {α β : Type} (g : α → List β) (sep : List β) :
    ∀ (l : List α) (X : List β),
    l.foldr (fun n a => g n ++ sep ++ a) [] ++ X
      = l.foldr (fun n a => g n ++ sep ++ a) X
  | [], X => by simp
  | n :: l, X => by
    show ((g n ++ sep) ++ l.foldr (fun n a => g n ++ sep ++ a) []) ++ X
      = (g n ++ sep) ++ l.foldr (fun n a => g n ++ sep ++ a) X
    rw [List.append_assoc, foldr_app_base g sep l X]

/-- The dispatch loop reconstructs a well-formed document from its serialized line list, tolerating one trailing empty line. -/
theorem parseLines_serLines (doc : TscnDocument) (hwf : wfDocB doc = true)
    (T : List String) (hT : T = [] ∨ T = [""]) :
    parseLines (serializeLines doc ++ T) emptyDoc = doc := by
  obtain ⟨dh, de, ds, dn, dc⟩ := doc
  simp only [wfDocB, Bool.and_eq_true] at hwf
  obtain ⟨⟨⟨⟨hh, hext⟩, hsub⟩, hnode⟩, hconn⟩ := hwf
  have htyp : dh.type = "gd_scene" ∨ dh.type = "gd_resource" := by
    have hh2 := hh
    simp only [wfHeaderB, Bool.and_eq_true, decide_eq_true_eq] at hh2
    exact hh2.1.1.1
  have hshape : serializeLines ⟨dh, de, ds, dn, dc⟩ ++ T
      = serializeHeader dh :: ("" ::
          (de.map serializeExtResource
            ++ ((if 0 < de.length then [""] else [])
              ++ ds.foldr (fun r a => serializeSubResource r ++ [""] ++ a)
                  (dn.foldr (fun n a => serializeNode n ++ [""] ++ a)
                    (dc.map serializeConnection ++ T))))) := by
    rw [← foldr_app_base serializeNode [""] dn (dc.map serializeConnection ++ T)]
    rw [← foldr_app_base serializeSubResource [""] ds
          (dn.foldr (fun n a => serializeNode n ++ [""] ++ a) []
            ++ (dc.map serializeConnection ++ T))]
    simp only [serializeLines, List.append_assoc, List.cons_append, List.nil_append]
  rw [hshape]
  rw [parseLines_header_step _ _ _
    (lineTrim_of_shape _ dh.type.data _ (headerLine_shape dh))
    (headerLine_test dh htyp)]
  rw [parseHeader_ser dh hh]
  rw [skip_empty_line]
  rw [procExts de _ _ hext]
  have hTnil : ∀ acc : TscnDocument, parseLines T acc = acc := by
    intro acc
    rcases hT with rfl | rfl
    · rfl
    · rw [skip_empty_line]
      rfl
  have hrest : ∀ (acc : TscnDocument),
      parseLines (ds.foldr (fun r a => serializeSubResource r ++ [""] ++ a)
        (dn.foldr (fun n a => serializeNode n ++ [""] ++ a)
          (dc.map serializeConnection ++ T))) acc
      = parseLines T ⟨acc.header, acc.externalResources, acc.subResources ++ ds,
          acc.nodes ++ dn, acc.connections ++ dc⟩ := by
    intro acc
    rw [procSubs ds _ _ hsub]
    rw [procNodes dn _ _ hnode]
    rw [procConns dc _ _ hconn]
  by_cases hel : 0 < de.length
  · rw [if_pos hel]
    rw [List.singleton_append]
    rw [skip_empty_line]
    rw [hrest, hTnil]
    rfl
  · rw [if_neg hel]
    rw [List.nil_append]
    rw [hrest, hTnil]
    rfl

/-- Membership in a block fold comes from a block, a separator, or the tail. -/
theorem mem_foldr_blocks {α : Type} (g : α → List String) :
    ∀ (l : List α) (tail : List String) (s : String),
    s ∈ l.foldr (fun n a => g n ++ [""] ++ a) tail →
    (∃ n ∈ l, s ∈ g n) ∨ s = "" ∨ s ∈ tail
  | [], tail, s, hs => Or.inr (Or.inr hs)
  | n :: l, tail, s, hs => by
    rw [List.foldr_cons] at hs
    rcases List.mem_append.mp hs with h1 | h1
    · rcases List.mem_append.mp h1 with h2 | h2
      · exact Or.inl ⟨n, List.mem_cons_self _ _, h2⟩
      · rcases List.mem_singleton.mp h2 with rfl
        exact Or.inr (Or.inl rfl)
    · rcases mem_foldr_blocks g l tail s h1 with ⟨m, hm1, hm2⟩ | h2 | h2
      · exact Or.inl ⟨m, List.mem_cons_of_mem _ hm1, hm2⟩
      · exact Or.inr (Or.inl h2)
      · exact Or.inr (Or.inr h2)

/-- Every serialized line of a well-formed document is newline-free. -/
theorem serLines_nl (doc : TscnDocument) (hwf : wfDocB doc = true) :
    ∀ l ∈ serializeLines doc, ∀ c ∈ l.data, ¬ (c = '\n') := by
  obtain ⟨dh, de, ds, dn, dc⟩ := doc
  simp only [wfDocB, Bool.and_eq_true] at hwf
  obtain ⟨⟨⟨⟨hh, hext⟩, hsub⟩, hnode⟩, hconn⟩ := hwf
  rw [List.all_eq_true] at hext hsub hnode hconn
  intro l hl
  simp only [serializeLines, List.mem_append] at hl
  rcases hl with ((((h1 | h2) | h3) | h4) | h5) | h6
  · rcases List.mem_cons.mp h1 with rfl | h7
    · exact headerLine_nl dh hh
    · rcases List.mem_singleton.mp h7 with rfl
      intro c hc
      exact absurd hc (List.not_mem_nil _)
  · obtain ⟨r, hr, rfl⟩ := List.mem_map.mp h2
    exact extLine_nl r (hext r hr)
  · by_cases hel : 0 < de.length
    · rw [if_pos hel] at h3
      rcases List.mem_singleton.mp h3 with rfl
      intro c hc
      exact absurd hc (List.not_mem_nil _)
    · rw [if_neg hel] at h3
      exact absurd h3 (List.not_mem_nil _)
  · rcases mem_foldr_blocks serializeSubResource ds [] l h4 with ⟨r, hr, hlr⟩ | h7 | h7
    · exact subLines_nl r (hsub r hr) l hlr
    · subst h7
      intro c hc
      exact absurd hc (List.not_mem_nil _)
    · exact absurd h7 (List.not_mem_nil _)
  · rcases mem_foldr_blocks serializeNode dn [] l h5 with ⟨n, hn, hln⟩ | h7 | h7
    · exact nodeLines_nl n (hnode n hn) l hln
    · subst h7
      intro c hc
      exact absurd hc (List.not_mem_nil _)
    · exact absurd h7 (List.not_mem_nil _)
  · obtain ⟨c, hc, rfl⟩ := List.mem_map.mp h6
    exact connLine_nl c (hconn c hc)

/-- A nonempty list whose members all satisfy a property has such a last element. -/
theorem getLastQ_of_all {α : Type} (P : α → Prop) : ∀ (l : List α), l ≠ [] →
    (∀ a ∈ l, P a) → ∃ a, l.getLast? = some a ∧ P a
  | [], h, _ => absurd rfl h
  | [a], _, hall => ⟨a, rfl, hall a (by simp)⟩
  | a :: b :: t, _, hall => by
    obtain ⟨x, hx1, hx2⟩ := getLastQ_of_all P (b :: t) (by simp)
      (fun y hy => hall y (List.mem_cons_of_mem _ hy))
    exact ⟨x, by rw [List.getLast?_cons_cons]; exact hx1, hx2⟩

/-- A list decomposes around its last element. -/
theorem exists_init_of_getLastQ {α : Type} : ∀ (l : List α) (a : α),
    l.getLast? = some a → ∃ init, l = init ++ [a]
  | [], a, h => by simp at h
  | [b], a, h => by
    have h2 : b = a := by
      have h3 : ([b] : List α).getLast? = some b := rfl
      rw [h3] at h
      injection h
    exact ⟨[], by rw [h2]; rfl⟩
  | b :: c :: t, a, h => by
    rw [List.getLast?_cons_cons] at h
    obtain ⟨init, hinit⟩ := exists_init_of_getLastQ (c :: t) a h
    exact ⟨b :: init, by rw [List.cons_append, ← hinit]⟩

/-- A block fold over a list with one appended element. -/
theorem foldr_concat_blocks {α : Type} (g : α → List String) (l : List α) (a : α) :
    (l ++ [a]).foldr (fun n acc => g n ++ [""] ++ acc) []
      = l.foldr (fun n acc => g n ++ [""] ++ acc) [] ++ (g a ++ [""]) := by
  rw [List.foldr_append]
  rw [← foldr_app_base g [""] l (List.foldr (fun n acc => g n ++ [""] ++ acc) [] [a])]
  congr 1
  show (g a ++ [""]) ++ [] = g a ++ [""]
  exact List.append_nil _

/-- Every line of a serialized sub-resource block is nonempty and clean-ended. -/
theorem subLines_clean (r : SubResource) (hwf : wfSubB r = true) :
    ∀ l ∈ serializeSubResource r, l.data ≠ []
      ∧ (∀ x, l.data.getLast? = some x → isJsSpace x = false) := by
  simp only [wfSubB, wfPropsB, Bool.and_eq_true] at hwf
  obtain ⟨⟨ht, hi⟩, ⟨hdk, hkeys⟩, hflds⟩ := hwf
  rw [subLine_shape r]
  intro l hl
  rcases List.mem_cons.mp hl with rfl | h2
  · exact shape_last _ "sub_resource".data _ rfl
  · exact propsLines_clean r.properties hflds l h2

/-- Every line of a serialized node block is nonempty and clean-ended. -/
theorem nodeLines_clean (n : SceneNode) (hwf : wfNodeB n = true) :
    ∀ l ∈ serializeNode n, l.data ≠ []
      ∧ (∀ x, l.data.getLast? = some x → isJsSpace x = false) := by
  have hprops : wfPropsB n.properties = true := by
    simp only [wfNodeB, Bool.and_eq_true] at hwf
    exact hwf.2
  simp only [wfPropsB, Bool.and_eq_true] at hprops
  obtain ⟨⟨hdk, hkeys⟩, hflds⟩ := hprops
  rw [nodeLine_shape n]
  intro l hl
  rcases List.mem_cons.mp hl with rfl | h2
  · exact shape_last _ "node".data _ rfl
  · exact propsLines_clean n.properties hflds l h2

/-- A list decomposes around its first element. -/
theorem exists_tail_of_headQ {α : Type} : ∀ (l : List α) (b : α),
    l.head? = some b → ∃ t, l = b :: t
  | [], b, h => by simp at h
  | a :: t, b, h => by
    rw [List.head?_cons] at h
    injection h with h2
    exact ⟨t, by rw [h2]⟩

/-- Split of the trimmed join, framed by head and last line facts (clean last line). -/
theorem split_frame_clean2 (L : List String)
    (hhead : ∃ b, L.head? = some b ∧ b.data ≠ []
      ∧ ∀ x, b.data.head? = some x → isJsSpace x = false)
    (hnl : ∀ l ∈ L, ∀ c ∈ l.data, ¬ (c = '\n'))
    (hlast : ∃ m, L.getLast? = some m ∧ m.data ≠ []
      ∧ ∀ x, m.data.getLast? = some x → isJsSpace x = false) :
    splitOnCharL '\n' (trimL (joinNLL (L.map String.data)) ++ ['\n'])
      = L.map String.data ++ [[]] := by
  obtain ⟨b, hb1, hb2, hb3⟩ := hhead
  obtain ⟨B, hB⟩ := exists_tail_of_headQ L b hb1
  obtain ⟨m, hm1, hm2, hm3⟩ := hlast
  obtain ⟨init, hinit⟩ := exists_init_of_getLastQ L m hm1
  refine split_ser_clean L (by rw [hB]; simp) hnl ?_ ?_
  · rw [hB, List.map_cons, joinNLL_headQ _ _ hb2]
    exact hb3
  · rw [hinit, List.map_append, List.map_cons, List.map_nil, joinNLL_lastQ _ _ hm2]
    exact hm3

/-- Split of the trimmed join, framed by head and last line facts (trailing empty line). -/
theorem split_frame_trailing2 (M : List String)
    (hhead : ∃ b, M.head? = some b ∧ b.data ≠ []
      ∧ ∀ x, b.data.head? = some x → isJsSpace x = false)
    (hnl : ∀ l ∈ M ++ [""], ∀ c ∈ l.data, ¬ (c = '\n'))
    (hlast : ∃ m, M.getLast? = some m ∧ m.data ≠ []
      ∧ ∀ x, m.data.getLast? = some x → isJsSpace x = false) :
    splitOnCharL '\n' (trimL (joinNLL ((M ++ [""]).map String.data)) ++ ['\n'])
      = (M ++ [""]).map String.data := by
  obtain ⟨b, hb1, hb2, hb3⟩ := hhead
  obtain ⟨B, hB⟩ := exists_tail_of_headQ M b hb1
  obtain ⟨m, hm1, hm2, hm3⟩ := hlast
  obtain ⟨init, hinit⟩ := exists_init_of_getLastQ M m hm1
  refine split_ser_trailing M (by rw [hB]; simp)
    (fun l hl c hc => hnl l (List.mem_append_left _ hl) c hc) ?_ ?_
  · rw [hB, List.map_cons, joinNLL_headQ _ _ hb2]
    exact hb3
  · rw [hinit, List.map_append, List.map_cons, List.map_nil, joinNLL_lastQ _ _ hm2]
    exact hm3

/-- A serialized header line is nonempty and starts with the non-space `[`. -/
theorem headerLine_headfact (h : Header) :
    (serializeHeader h).data ≠ []
      ∧ ∀ x, (serializeHeader h).data.head? = some x → isJsSpace x = false := by
  rw [headerLine_shape h]
  refine ⟨List.cons_ne_nil _ _, ?_⟩
  intro x hx
  rw [List.head?_cons] at hx
  injection hx with hx2
  rw [← hx2]
  rfl

/-- Argument-reordered form of the clean-split frame. -/
theorem split_frame_clean3 (L : List String)
    (hlast : ∃ m, L.getLast? = some m ∧ m.data ≠ []
      ∧ ∀ x, m.data.getLast? = some x → isJsSpace x = false)
    (hnl : ∀ l ∈ L, ∀ c ∈ l.data, ¬ (c = '\n'))
    (hhead : ∃ b, L.head? = some b ∧ b.data ≠ []
      ∧ ∀ x, b.data.head? = some x → isJsSpace x = false) :
    splitOnCharL '\n' (trimL (joinNLL (L.map String.data)) ++ ['\n'])
      = L.map String.data ++ [[]] :=
  split_frame_clean2 L hhead hnl hlast

/-- Argument-reordered form of the trailing-split frame. -/
theorem split_frame_trailing3 (M : List String)
    (hlast : ∃ m, M.getLast? = some m ∧ m.data ≠ []
      ∧ ∀ x, m.data.getLast? = some x → isJsSpace x = false)
    (hnl : ∀ l ∈ M ++ [""], ∀ c ∈ l.data, ¬ (c = '\n'))
    (hhead : ∃ b, M.head? = some b ∧ b.data ≠ []
      ∧ ∀ x, b.data.head? = some x → isJsSpace x = false) :
    splitOnCharL '\n' (trimL (joinNLL ((M ++ [""]).map String.data)) ++ ['\n'])
      = (M ++ [""]).map String.data :=
  split_frame_trailing2 M hhead hnl hlast

/-- `serialize` splits back into exactly the assembled line list, plus one empty line when the document ends in a connection line. -/
theorem split_serialize (doc : TscnDocument) (hwf : wfDocB doc = true) :
    jsSplitChar '\n' (serialize doc)
      = serializeLines doc
          ++ (if doc.connections.length = 0 then [] else [""]) := by
  obtain ⟨dh, de, ds, dn, dc⟩ := doc
  have hwf2 := hwf
  simp only [wfDocB, Bool.and_eq_true] at hwf2
  obtain ⟨⟨⟨⟨hh, hext⟩, hsub⟩, hnode⟩, hconn⟩ := hwf2
  rw [List.all_eq_true] at hext hsub hnode hconn
  have hnlL := serLines_nl ⟨dh, de, ds, dn, dc⟩ hwf
  have hdata : (serialize ⟨dh, de, ds, dn, dc⟩).data
      = trimL (joinNLL ((serializeLines ⟨dh, de, ds, dn, dc⟩).map String.data))
          ++ ['\n'] := by
    show (String.mk _ ++ "\n").data = _
    rw [String.data_append]
  show (splitOnCharL '\n' (serialize ⟨dh, de, ds, dn, dc⟩).data).map String.mk = _
  rw [hdata]
  rw [show (⟨dh, de, ds, dn, dc⟩ : TscnDocument).connections = dc from rfl]
  rcases List.eq_nil_or_concat dc with rfl | ⟨dc', clast, rfl⟩
  · rw [if_pos (show ([] : List Connection).length = 0 from rfl)]
    rcases List.eq_nil_or_concat dn with rfl | ⟨dn', nlast, rfl⟩
    · rcases List.eq_nil_or_concat ds with rfl | ⟨ds', slast, rfl⟩
      · rcases List.eq_nil_or_concat de with rfl | ⟨de', elast, rfl⟩
        · -- everything empty: lines = [header, ""]
          have hM : serializeLines ⟨dh, [], [], [], []⟩
              = [serializeHeader dh] ++ [""] := by
            show [serializeHeader dh, ""]
                ++ ([] : List ExtResource).map serializeExtResource
                ++ (if 0 < ([] : List ExtResource).length then [""] else [])
                ++ ([] : List SubResource).foldr
                    (fun r a => serializeSubResource r ++ [""] ++ a) []
                ++ ([] : List SceneNode).foldr
                    (fun n a => serializeNode n ++ [""] ++ a) []
                ++ ([] : List Connection).map serializeConnection = _
            rw [if_neg (by simp)]
            simp
          have hlast : ∃ m, ([serializeHeader dh] : List String).getLast? = some m
              ∧ m.data ≠ [] ∧ ∀ x, m.data.getLast? = some x → isJsSpace x = false :=
            ⟨serializeHeader dh, rfl,
             (shape_last _ dh.type.data _ (headerLine_shape dh)).1,
             (shape_last _ dh.type.data _ (headerLine_shape dh)).2⟩
          rw [hM]
          rw [split_frame_trailing3 _ hlast
            (fun l hl => hnlL l (by rw [hM]; exact hl))
            ⟨serializeHeader dh, rfl, (headerLine_headfact dh).1,
             (headerLine_headfact dh).2⟩]
          rw [map_mk_data, List.append_nil]
        · -- only external resources
          have hM : serializeLines ⟨dh, de'.concat elast, [], [], []⟩
              = ([serializeHeader dh, ""]
                  ++ (de'.concat elast).map serializeExtResource) ++ [""] := by
            show [serializeHeader dh, ""]
                ++ (de'.concat elast).map serializeExtResource
                ++ (if 0 < (de'.concat elast).length then [""] else [])
                ++ ([] : List SubResource).foldr
                    (fun r a => serializeSubResource r ++ [""] ++ a) []
                ++ ([] : List SceneNode).foldr
                    (fun n a => serializeNode n ++ [""] ++ a) []
                ++ ([] : List Connection).map serializeConnection = _
            rw [if_pos (by simp)]
            simp only [List.foldr_nil, List.map_nil, List.append_nil,
              List.append_assoc]
          have hwfe : wfExtB elast = true := hext elast (by simp)
          have hlast : ∃ m, ([serializeHeader dh, ""]
                ++ (de'.concat elast).map serializeExtResource).getLast? = some m
              ∧ m.data ≠ [] ∧ ∀ x, m.data.getLast? = some x → isJsSpace x = false := by
            refine ⟨serializeExtResource elast, ?_,
              (shape_last _ "ext_resource".data _ (extLine_shape elast)).1,
              (shape_last _ "ext_resource".data _ (extLine_shape elast)).2⟩
            rw [getLastQ_append _ _ (by simp), List.concat_eq_append, List.map_append,
              getLastQ_append _ _ (by simp)]
            rfl
          rw [hM]
          rw [split_frame_trailing3 _ hlast
            (fun l hl => hnlL l (by rw [hM]; exact hl))
            ⟨serializeHeader dh, rfl, (headerLine_headfact dh).1,
             (headerLine_headfact dh).2⟩]
          rw [map_mk_data, List.append_nil]
      · -- last block is a sub-resource
        have hM : serializeLines ⟨dh, de, ds'.concat slast, [], []⟩
            = (([serializeHeader dh, ""] ++ de.map serializeExtResource
                ++ (if 0 < de.length then [""] else [])
                ++ ds'.foldr (fun r a => serializeSubResource r ++ [""] ++ a) [])
                ++ serializeSubResource slast) ++ [""] := by
          show [serializeHeader dh, ""] ++ de.map serializeExtResource
              ++ (if 0 < de.length then [""] else [])
              ++ (ds'.concat slast).foldr
                  (fun r a => serializeSubResource r ++ [""] ++ a) []
              ++ ([] : List SceneNode).foldr
                  (fun n a => serializeNode n ++ [""] ++ a) []
              ++ ([] : List Connection).map serializeConnection = _
          rw [List.concat_eq_append, foldr_concat_blocks]
          simp only [List.foldr_nil, List.map_nil, List.append_nil, List.append_assoc]
        have hwfs : wfSubB slast = true := hsub slast (by simp)
        have hSne : serializeSubResource slast ≠ [] := by
          rw [subLine_shape]
          simp
        obtain ⟨m, hm1, hm2⟩ := getLastQ_of_all
          (fun s => s.data ≠ [] ∧ ∀ x, s.data.getLast? = some x → isJsSpace x = false)
          (serializeSubResource slast) hSne (subLines_clean slast hwfs)
        have hlast : ∃ m', (([serializeHeader dh, ""] ++ de.map serializeExtResource
              ++ (if 0 < de.length then [""] else [])
              ++ ds'.foldr (fun r a => serializeSubResource r ++ [""] ++ a) [])
              ++ serializeSubResource slast).getLast? = some m'
            ∧ m'.data ≠ [] ∧ ∀ x, m'.data.getLast? = some x → isJsSpace x = false :=
          ⟨m, by rw [getLastQ_append _ _ hSne]; exact hm1, hm2.1, hm2.2⟩
        rw [hM]
        rw [split_frame_trailing3 _ hlast
          (fun l hl => hnlL l (by rw [hM]; exact hl))
          ⟨serializeHeader dh, rfl, (headerLine_headfact dh).1,
           (headerLine_headfact dh).2⟩]
        rw [map_mk_data, List.append_nil]
    · -- last block is a node
      have hM : serializeLines ⟨dh, de, ds, dn'.concat nlast, []⟩
          = (([serializeHeader dh, ""] ++ de.map serializeExtResource
              ++ (if 0 < de.length then [""] else [])
              ++ ds.foldr (fun r a => serializeSubResource r ++ [""] ++ a) []
              ++ dn'.foldr (fun n a => serializeNode n ++ [""] ++ a) [])
              ++ serializeNode nlast) ++ [""] := by
        show [serializeHeader dh, ""] ++ de.map serializeExtResource
            ++ (if 0 < de.length then [""] else [])
            ++ ds.foldr (fun r a => serializeSubResource r ++ [""] ++ a) []
            ++ (dn'.concat nlast).foldr (fun n a => serializeNode n ++ [""] ++ a) []
            ++ ([] : List Connection).map serializeConnection = _
        rw [List.concat_eq_append, foldr_concat_blocks]
        simp only [List.map_nil, List.append_nil, List.append_assoc]
      have hwfn : wfNodeB nlast = true := hnode nlast (by simp)
      have hSne : serializeNode nlast ≠ [] := by
        rw [nodeLine_shape]
        simp
      obtain ⟨m, hm1, hm2⟩ := getLastQ_of_all
        (fun s => s.data ≠ [] ∧ ∀ x, s.data.getLast? = some x → isJsSpace x = false)
        (serializeNode nlast) hSne (nodeLines_clean nlast hwfn)
      have hlast : ∃ m', (([serializeHeader dh, ""] ++ de.map serializeExtResource
            ++ (if 0 < de.length then [""] else [])
            ++ ds.foldr (fun r a => serializeSubResource r ++ [""] ++ a) []
            ++ dn'.foldr (fun n a => serializeNode n ++ [""] ++ a) [])
            ++ serializeNode nlast).getLast? = some m'
          ∧ m'.data ≠ [] ∧ ∀ x, m'.data.getLast? = some x → isJsSpace x = false :=
        ⟨m, by rw [getLastQ_append _ _ hSne]; exact hm1, hm2.1, hm2.2⟩
      rw [hM]
      rw [split_frame_trailing3 _ hlast
        (fun l hl => hnlL l (by rw [hM]; exact hl))
        ⟨serializeHeader dh, rfl, (headerLine_headfact dh).1,
         (headerLine_headfact dh).2⟩]
      rw [map_mk_data, List.append_nil]
  · -- connections nonempty: clean last line
    rw [if_neg (by simp)]
    have hlast : ∃ m,
        (serializeLines ⟨dh, de, ds, dn, dc'.concat clast⟩).getLast? = some m
        ∧ m.data ≠ [] ∧ ∀ x, m.data.getLast? = some x → isJsSpace x = false := by
      refine ⟨serializeConnection clast, ?_,
        (shape_last _ "connection".data _ (connLine_shape clast)).1,
        (shape_last _ "connection".data _ (connLine_shape clast)).2⟩
      show (([serializeHeader dh, ""] ++ de.map serializeExtResource
          ++ (if 0 < de.length then [""] else [])
          ++ ds.foldr (fun r a => serializeSubResource r ++ [""] ++ a) []
          ++ dn.foldr (fun n a => serializeNode n ++ [""] ++ a) [])
          ++ (dc'.concat clast).map serializeConnection).getLast? = _
      rw [getLastQ_append _ _ (by simp), List.concat_eq_append, List.map_append,
        getLastQ_append _ _ (by simp)]
      rfl
    rw [split_frame_clean3 _ hlast hnlL
      ⟨serializeHeader dh, rfl, (headerLine_headfact dh).1,
       (headerLine_headfact dh).2⟩]
    rw [List.map_append, map_mk_data]
    rfl

/-- Round trip: parsing the serialization of a well-formed document recovers it exactly. -/
theorem roundTrip (doc : TscnDocument) (hwf : wfDocB doc = true) :
    parse (serialize doc) = doc := by
  show parseLines (jsSplitChar '\n' (serialize doc)) emptyDoc = doc
  rw [split_serialize doc hwf]
  refine parseLines_serLines doc hwf _ ?_
  by_cases h : doc.connections.length = 0
  · rw [if_pos h]
    exact Or.inl rfl
  · rw [if_neg h]
    exact Or.inr rfl


/-! ## C1, C5 — round-trip and idempotence claims -/

/-- C1 counterexample — for the well-formed document text consisting of a
`[gd_scene]` header and one node with the plain dictionary property
`d = {"x": 1, "y": 2}`, re-parsing the serialized parse does not reproduce
the parse: the x/y-shaped dictionary is auto-detected by the serializer and
comes back as a `_type`-tagged Vector2 record, so the nested property
values differ structurally. -/
theorem c1_roundtrip_counterexample :
    nodePropKeys (parse (serialize (parse
        "[gd_scene format=3]\n\n[node name=\"R\"]\nd = \x7b\"x\": 1, \"y\": 2\x7d"))) "d"
      = ["_type", "x", "y"]
    ∧ nodePropKeys (parse
        "[gd_scene format=3]\n\n[node name=\"R\"]\nd = \x7b\"x\": 1, \"y\": 2\x7d") "d"
      = ["x", "y"]
    ∧ ¬ (parse (serialize (parse
        "[gd_scene format=3]\n\n[node name=\"R\"]\nd = \x7b\"x\": 1, \"y\": 2\x7d"))
      = parse "[gd_scene format=3]\n\n[node name=\"R\"]\nd = \x7b\"x\": 1, \"y\": 2\x7d") := by
  have hA : nodePropKeys (parse (serialize (parse
      "[gd_scene format=3]\n\n[node name=\"R\"]\nd = \x7b\"x\": 1, \"y\": 2\x7d"))) "d"
      = ["_type", "x", "y"] := by decide
  have hB : nodePropKeys (parse
      "[gd_scene format=3]\n\n[node name=\"R\"]\nd = \x7b\"x\": 1, \"y\": 2\x7d") "d"
      = ["x", "y"] := by decide
  refine ⟨hA, hB, fun h => ?_⟩
  have h2 : nodePropKeys (parse (serialize (parse
      "[gd_scene format=3]\n\n[node name=\"R\"]\nd = \x7b\"x\": 1, \"y\": 2\x7d"))) "d"
      = nodePropKeys (parse
      "[gd_scene format=3]\n\n[node name=\"R\"]\nd = \x7b\"x\": 1, \"y\": 2\x7d") "d" := by
    rw [h]
  rw [hA, hB] at h2
  exact absurd h2 (by decide)

/-- C1 amended — for every document text whose parse is well-formed in the
`wfDocB` sense (safe attribute strings, distinct safe keys, values in the
serializable fragment, dictionaries neither `_`-marked nor shaped like the
auto-detected records), parsing the serialization of the parse yields
exactly the parse. -/
theorem c1_roundtrip_amended (D : String)
    (hwf : wfDocB (parse D) = true) :
    parse (serialize (parse D)) = parse D :=
  roundTrip (parse D) hwf

/-- Witness for the amended C1 on a concrete document text. -/
theorem c1_roundtrip_amended_witness :
    wfDocB (parse "[gd_scene format=3]\n\n[node name=\"R\"]\nx = 1") = true
    ∧ parse (serialize (parse "[gd_scene format=3]\n\n[node name=\"R\"]\nx = 1"))
        = parse "[gd_scene format=3]\n\n[node name=\"R\"]\nx = 1" :=
  ⟨by decide, c1_roundtrip_amended "[gd_scene format=3]\n\n[node name=\"R\"]\nx = 1" (by decide)⟩

/-- C5 counterexample — the document whose one node carries the property
`s` holding the plain typed string value with an embedded newline (no raw
opaque constructor literal anywhere) serializes to a text whose reparse
loses that property, so serialize-parse-serialize differs textually from
serialize. -/
theorem c5_idempotent_counterexample :
    ¬ (serialize (parse (serialize
        (⟨⟨"gd_scene", .undef, .val 3, none⟩, [], [],
          [⟨"N", none, none, none, none, none, .undef, none,
            propsOf [("s", .str "a\nb")]⟩], []⟩ : TscnDocument)))
      = serialize
        (⟨⟨"gd_scene", .undef, .val 3, none⟩, [], [],
          [⟨"N", none, none, none, none, none, .undef, none,
            propsOf [("s", .str "a\nb")]⟩], []⟩ : TscnDocument)) := by
  decide

/-- C5 amended — for every well-formed document (`wfDocB`; in particular
string values must be newline-free with no trailing backslash as `wfStrB` demands, and
tagged records must be exactly the parser-produced shapes), serializing,
parsing back, and serializing again reproduces the first serialization
character for character. -/
theorem c5_idempotent_amended (doc : TscnDocument) (hwf : wfDocB doc = true) :
    serialize (parse (serialize doc)) = serialize doc :=
  congrArg serialize (roundTrip doc hwf)

/-- Witness for the amended C5 on a concrete document. -/
theorem c5_idempotent_amended_witness :
    wfDocB (⟨⟨"gd_scene", .undef, .val 3, none⟩, [], [],
        [⟨"N", none, none, none, none, none, .undef, none,
          propsOf [("s", .str "hi")]⟩], []⟩ : TscnDocument) = true
    ∧ serialize (parse (serialize
        (⟨⟨"gd_scene", .undef, .val 3, none⟩, [], [],
          [⟨"N", none, none, none, none, none, .undef, none,
            propsOf [("s", .str "hi")]⟩], []⟩ : TscnDocument)))
      = serialize
        (⟨⟨"gd_scene", .undef, .val 3, none⟩, [], [],
          [⟨"N", none, none, none, none, none, .undef, none,
            propsOf [("s", .str "hi")]⟩], []⟩ : TscnDocument) :=
  ⟨by decide,
   c5_idempotent_amended
     (⟨⟨"gd_scene", .undef, .val 3, none⟩, [], [],
       [⟨"N", none, none, none, none, none, .undef, none,
         propsOf [("s", .str "hi")]⟩], []⟩ : TscnDocument) (by decide)⟩

end Tscn
